import Mathlib

/-!
# libsbmlsim-v2, `src/util/MathUtil.cpp`: symbolic differentiation, simplification,
rational reduction and structural equality on expression trees

Shallow embedding of `MathUtil.cpp`.

Modelling conventions.

* An expression node is its kind (the libSBML type tag together with the literal payload
  that tag carries) and its ordered list of children.  `deepCopy` is the identity.
* A pointer that may be null is an `Option ASTNode`.  Dereferencing a null pointer,
  dereferencing the value read from `children[i]` past the end of the vector, dividing an
  integer by zero and `exit(1)` are outcomes of their own (`Err`), never a tree.  A read
  past the end of the vector whose value the source never uses is no outcome of its own.
* A `double` is a rational number, and every operation of the source that produces a
  `double` (a conversion from `long`, a sum, difference, product or quotient) is the exact
  operation followed by `toDouble`, the rounding of IEEE 754 binary64 to the nearest value,
  ties to even; so is `pow` of the C library where the power is a rational number.
  Infinities and not-a-number values are not modelled: a magnitude of `2 ^ 1024` or more
  stands where the source holds an infinity, and the value of a Rational literal with
  denominator zero is taken to be zero.
* `long` values are modelled by `Int`, without the wrap-around of products that overflow
  64 bits.  A conversion of a `double` to an integer type truncates; outside the range of
  the integer type, where the conversion is undefined in C, it gives the lowest value of
  the type, as the conversion instruction of x86-64 does.
* Recursion that is not structural in the source (it recurses into freshly built trees)
  carries a fuel argument; running out of fuel is the outcome `Err.outOfFuel`, which no
  execution of the source produces.
* `ASTNodeUtil::reduceToBinary` and `ASTNodeUtil::isEqual` live in `ASTNodeUtil.cpp`, which
  is not part of the sources at hand; they are modelled from the specification.
-/

/-- Node kind: the libSBML `ASTNodeType_t` tag together with the payload of the literal and
name kinds (`getInteger`, `getReal`, `getNumerator`/`getDenominator`, `getName`). -/
inductive Kind where
  | AST_PLUS
  | AST_MINUS
  | AST_TIMES
  | AST_DIVIDE
  | AST_POWER
  | AST_INTEGER (value : Int)
  | AST_REAL (value : ℚ)
  | AST_REAL_E (mantissa : ℚ) (exponent : Int)
  | AST_RATIONAL (numerator : Int) (denominator : Int)
  | AST_NAME (name : String)
  | AST_NAME_AVOGADRO
  | AST_NAME_TIME
  | AST_CONSTANT_E
  | AST_CONSTANT_FALSE
  | AST_CONSTANT_PI
  | AST_CONSTANT_TRUE
  | AST_LAMBDA
  | AST_FUNCTION (name : String)
  | AST_FUNCTION_ABS
  | AST_FUNCTION_ARCCOS
  | AST_FUNCTION_ARCCOSH
  | AST_FUNCTION_ARCCOT
  | AST_FUNCTION_ARCCOTH
  | AST_FUNCTION_ARCCSC
  | AST_FUNCTION_ARCCSCH
  | AST_FUNCTION_ARCSEC
  | AST_FUNCTION_ARCSECH
  | AST_FUNCTION_ARCSIN
  | AST_FUNCTION_ARCSINH
  | AST_FUNCTION_ARCTAN
  | AST_FUNCTION_ARCTANH
  | AST_FUNCTION_CEILING
  | AST_FUNCTION_COS
  | AST_FUNCTION_COSH
  | AST_FUNCTION_COT
  | AST_FUNCTION_COTH
  | AST_FUNCTION_CSC
  | AST_FUNCTION_CSCH
  | AST_FUNCTION_DELAY
  | AST_FUNCTION_EXP
  | AST_FUNCTION_FACTORIAL
  | AST_FUNCTION_FLOOR
  | AST_FUNCTION_LN
  | AST_FUNCTION_LOG
  | AST_FUNCTION_PIECEWISE
  | AST_FUNCTION_POWER
  | AST_FUNCTION_ROOT
  | AST_FUNCTION_SEC
  | AST_FUNCTION_SECH
  | AST_FUNCTION_SIN
  | AST_FUNCTION_SINH
  | AST_FUNCTION_TAN
  | AST_FUNCTION_TANH
  | AST_LOGICAL_AND
  | AST_LOGICAL_NOT
  | AST_LOGICAL_OR
  | AST_LOGICAL_XOR
  | AST_RELATIONAL_EQ
  | AST_RELATIONAL_GEQ
  | AST_RELATIONAL_GT
  | AST_RELATIONAL_LEQ
  | AST_RELATIONAL_LT
  | AST_RELATIONAL_NEQ
  | AST_UNKNOWN
  deriving Repr

/-- Encoding of a kind as its tag number and payload fields; used to decide equality. -/
def Kind.toCode : Kind → Nat × Int × Int × ℚ × String
  | .AST_PLUS => (0, 0, 0, 0, "")
  | .AST_MINUS => (1, 0, 0, 0, "")
  | .AST_TIMES => (2, 0, 0, 0, "")
  | .AST_DIVIDE => (3, 0, 0, 0, "")
  | .AST_POWER => (4, 0, 0, 0, "")
  | .AST_INTEGER v => (5, v, 0, 0, "")
  | .AST_REAL v => (6, 0, 0, v, "")
  | .AST_REAL_E m e => (7, e, 0, m, "")
  | .AST_RATIONAL p q => (8, p, q, 0, "")
  | .AST_NAME s => (9, 0, 0, 0, s)
  | .AST_NAME_AVOGADRO => (10, 0, 0, 0, "")
  | .AST_NAME_TIME => (11, 0, 0, 0, "")
  | .AST_CONSTANT_E => (12, 0, 0, 0, "")
  | .AST_CONSTANT_FALSE => (13, 0, 0, 0, "")
  | .AST_CONSTANT_PI => (14, 0, 0, 0, "")
  | .AST_CONSTANT_TRUE => (15, 0, 0, 0, "")
  | .AST_LAMBDA => (16, 0, 0, 0, "")
  | .AST_FUNCTION s => (17, 0, 0, 0, s)
  | .AST_FUNCTION_ABS => (18, 0, 0, 0, "")
  | .AST_FUNCTION_ARCCOS => (19, 0, 0, 0, "")
  | .AST_FUNCTION_ARCCOSH => (20, 0, 0, 0, "")
  | .AST_FUNCTION_ARCCOT => (21, 0, 0, 0, "")
  | .AST_FUNCTION_ARCCOTH => (22, 0, 0, 0, "")
  | .AST_FUNCTION_ARCCSC => (23, 0, 0, 0, "")
  | .AST_FUNCTION_ARCCSCH => (24, 0, 0, 0, "")
  | .AST_FUNCTION_ARCSEC => (25, 0, 0, 0, "")
  | .AST_FUNCTION_ARCSECH => (26, 0, 0, 0, "")
  | .AST_FUNCTION_ARCSIN => (27, 0, 0, 0, "")
  | .AST_FUNCTION_ARCSINH => (28, 0, 0, 0, "")
  | .AST_FUNCTION_ARCTAN => (29, 0, 0, 0, "")
  | .AST_FUNCTION_ARCTANH => (30, 0, 0, 0, "")
  | .AST_FUNCTION_CEILING => (31, 0, 0, 0, "")
  | .AST_FUNCTION_COS => (32, 0, 0, 0, "")
  | .AST_FUNCTION_COSH => (33, 0, 0, 0, "")
  | .AST_FUNCTION_COT => (34, 0, 0, 0, "")
  | .AST_FUNCTION_COTH => (35, 0, 0, 0, "")
  | .AST_FUNCTION_CSC => (36, 0, 0, 0, "")
  | .AST_FUNCTION_CSCH => (37, 0, 0, 0, "")
  | .AST_FUNCTION_DELAY => (38, 0, 0, 0, "")
  | .AST_FUNCTION_EXP => (39, 0, 0, 0, "")
  | .AST_FUNCTION_FACTORIAL => (40, 0, 0, 0, "")
  | .AST_FUNCTION_FLOOR => (41, 0, 0, 0, "")
  | .AST_FUNCTION_LN => (42, 0, 0, 0, "")
  | .AST_FUNCTION_LOG => (43, 0, 0, 0, "")
  | .AST_FUNCTION_PIECEWISE => (44, 0, 0, 0, "")
  | .AST_FUNCTION_POWER => (45, 0, 0, 0, "")
  | .AST_FUNCTION_ROOT => (46, 0, 0, 0, "")
  | .AST_FUNCTION_SEC => (47, 0, 0, 0, "")
  | .AST_FUNCTION_SECH => (48, 0, 0, 0, "")
  | .AST_FUNCTION_SIN => (49, 0, 0, 0, "")
  | .AST_FUNCTION_SINH => (50, 0, 0, 0, "")
  | .AST_FUNCTION_TAN => (51, 0, 0, 0, "")
  | .AST_FUNCTION_TANH => (52, 0, 0, 0, "")
  | .AST_LOGICAL_AND => (53, 0, 0, 0, "")
  | .AST_LOGICAL_NOT => (54, 0, 0, 0, "")
  | .AST_LOGICAL_OR => (55, 0, 0, 0, "")
  | .AST_LOGICAL_XOR => (56, 0, 0, 0, "")
  | .AST_RELATIONAL_EQ => (57, 0, 0, 0, "")
  | .AST_RELATIONAL_GEQ => (58, 0, 0, 0, "")
  | .AST_RELATIONAL_GT => (59, 0, 0, 0, "")
  | .AST_RELATIONAL_LEQ => (60, 0, 0, 0, "")
  | .AST_RELATIONAL_LT => (61, 0, 0, 0, "")
  | .AST_RELATIONAL_NEQ => (62, 0, 0, 0, "")
  | .AST_UNKNOWN => (63, 0, 0, 0, "")

/-- Decoding of a tag number and payload fields, inverse to `Kind.toCode`. -/
def Kind.ofCode : Nat × Int × Int × ℚ × String → Kind
  | (0, _, _, _, _) => .AST_PLUS
  | (1, _, _, _, _) => .AST_MINUS
  | (2, _, _, _, _) => .AST_TIMES
  | (3, _, _, _, _) => .AST_DIVIDE
  | (4, _, _, _, _) => .AST_POWER
  | (5, a, _, _, _) => .AST_INTEGER a
  | (6, _, _, r, _) => .AST_REAL r
  | (7, a, _, r, _) => .AST_REAL_E r a
  | (8, a, b, _, _) => .AST_RATIONAL a b
  | (9, _, _, _, s) => .AST_NAME s
  | (10, _, _, _, _) => .AST_NAME_AVOGADRO
  | (11, _, _, _, _) => .AST_NAME_TIME
  | (12, _, _, _, _) => .AST_CONSTANT_E
  | (13, _, _, _, _) => .AST_CONSTANT_FALSE
  | (14, _, _, _, _) => .AST_CONSTANT_PI
  | (15, _, _, _, _) => .AST_CONSTANT_TRUE
  | (16, _, _, _, _) => .AST_LAMBDA
  | (17, _, _, _, s) => .AST_FUNCTION s
  | (18, _, _, _, _) => .AST_FUNCTION_ABS
  | (19, _, _, _, _) => .AST_FUNCTION_ARCCOS
  | (20, _, _, _, _) => .AST_FUNCTION_ARCCOSH
  | (21, _, _, _, _) => .AST_FUNCTION_ARCCOT
  | (22, _, _, _, _) => .AST_FUNCTION_ARCCOTH
  | (23, _, _, _, _) => .AST_FUNCTION_ARCCSC
  | (24, _, _, _, _) => .AST_FUNCTION_ARCCSCH
  | (25, _, _, _, _) => .AST_FUNCTION_ARCSEC
  | (26, _, _, _, _) => .AST_FUNCTION_ARCSECH
  | (27, _, _, _, _) => .AST_FUNCTION_ARCSIN
  | (28, _, _, _, _) => .AST_FUNCTION_ARCSINH
  | (29, _, _, _, _) => .AST_FUNCTION_ARCTAN
  | (30, _, _, _, _) => .AST_FUNCTION_ARCTANH
  | (31, _, _, _, _) => .AST_FUNCTION_CEILING
  | (32, _, _, _, _) => .AST_FUNCTION_COS
  | (33, _, _, _, _) => .AST_FUNCTION_COSH
  | (34, _, _, _, _) => .AST_FUNCTION_COT
  | (35, _, _, _, _) => .AST_FUNCTION_COTH
  | (36, _, _, _, _) => .AST_FUNCTION_CSC
  | (37, _, _, _, _) => .AST_FUNCTION_CSCH
  | (38, _, _, _, _) => .AST_FUNCTION_DELAY
  | (39, _, _, _, _) => .AST_FUNCTION_EXP
  | (40, _, _, _, _) => .AST_FUNCTION_FACTORIAL
  | (41, _, _, _, _) => .AST_FUNCTION_FLOOR
  | (42, _, _, _, _) => .AST_FUNCTION_LN
  | (43, _, _, _, _) => .AST_FUNCTION_LOG
  | (44, _, _, _, _) => .AST_FUNCTION_PIECEWISE
  | (45, _, _, _, _) => .AST_FUNCTION_POWER
  | (46, _, _, _, _) => .AST_FUNCTION_ROOT
  | (47, _, _, _, _) => .AST_FUNCTION_SEC
  | (48, _, _, _, _) => .AST_FUNCTION_SECH
  | (49, _, _, _, _) => .AST_FUNCTION_SIN
  | (50, _, _, _, _) => .AST_FUNCTION_SINH
  | (51, _, _, _, _) => .AST_FUNCTION_TAN
  | (52, _, _, _, _) => .AST_FUNCTION_TANH
  | (53, _, _, _, _) => .AST_LOGICAL_AND
  | (54, _, _, _, _) => .AST_LOGICAL_NOT
  | (55, _, _, _, _) => .AST_LOGICAL_OR
  | (56, _, _, _, _) => .AST_LOGICAL_XOR
  | (57, _, _, _, _) => .AST_RELATIONAL_EQ
  | (58, _, _, _, _) => .AST_RELATIONAL_GEQ
  | (59, _, _, _, _) => .AST_RELATIONAL_GT
  | (60, _, _, _, _) => .AST_RELATIONAL_LEQ
  | (61, _, _, _, _) => .AST_RELATIONAL_LT
  | (62, _, _, _, _) => .AST_RELATIONAL_NEQ
  | _ => .AST_UNKNOWN

instance : DecidableEq Kind := fun a b =>
  have h : ∀ k : Kind, Kind.ofCode (Kind.toCode k) = k := fun k => by cases k <;> rfl
  decidable_of_iff (a.toCode = b.toCode)
    ⟨fun e => by rw [← h a, e, h b], fun e => by rw [e]⟩

/-- Expression tree node: a kind and the ordered sequence of owned children. -/
inductive ASTNode where
  | mk (kind : Kind) (children : List ASTNode)
  deriving Repr

/-- Outcomes of the source that are not a tree or a value. -/
inductive Err where
  /-- The source prints the type and calls `exit(1)`. -/
  | unknownType (kind : Kind)
  /-- A null child pointer is dereferenced. -/
  | nullPointer
  /-- A `std::vector` is indexed past its end and the value read is dereferenced. -/
  | outOfRange
  /-- An integer division by zero, or the remainder of the lowest `int` by `-1`, which
  raises the same trap. -/
  | divideByZero
  /-- A `double` result that is not a rational number; outside the model. -/
  | notExact
  /-- The fuel of the model ran out; no execution of the source ends this way. -/
  | outOfFuel
  deriving DecidableEq, Repr

/-- Rounding of a rational number to the nearest integer, ties to the even one. -/
def roundHalfEven (q : ℚ) : Int :=
  if q - (⌊q⌋ : ℚ) < 1 / 2 then ⌊q⌋
  else if 1 / 2 < q - (⌊q⌋ : ℚ) then ⌊q⌋ + 1
  else if ⌊q⌋ % 2 = 0 then ⌊q⌋ else ⌊q⌋ + 1

/-- Rounding of a positive rational number to binary64: with `e` the binary exponent of
`q`, not below the smallest normal exponent `-1022`, the value is rounded to a multiple of
`2 ^ (e - 52)`, the spacing of the 53-bit significands at that exponent. -/
def roundBinary64 (q : ℚ) : ℚ :=
  (roundHalfEven (q / (2 : ℚ) ^ (max (Int.log 2 q) (-1022) - 52)) : ℚ)
    * (2 : ℚ) ^ (max (Int.log 2 q) (-1022) - 52)

/-- The `double` nearest to a rational number (round to nearest, ties to even): the result
of every arithmetic operation and conversion of the source that yields a `double`. -/
def toDouble (q : ℚ) : ℚ :=
  if q = 0 then 0 else if 0 < q then roundBinary64 q else -roundBinary64 (-q)

namespace ASTNode

/-- Type tag and payload of the node (`getType`, `getValue`, `getName`). -/
@[simp]
def kind : ASTNode → Kind
  | mk k _ => k

/-- Ordered children of the node. -/
@[simp]
def children : ASTNode → List ASTNode
  | mk _ cs => cs

/-- Number of children, as `getNumChildren`. -/
@[simp]
def getNumChildren (n : ASTNode) : Nat :=
  n.children.length

/-- Child at position `i`, null when there is none, as `getChild`. -/
@[simp]
def getChild (n : ASTNode) (i : Nat) : Option ASTNode :=
  n.children.get? i

/-- First child or null, as `getLeftChild`. -/
@[simp]
def getLeftChild (n : ASTNode) : Option ASTNode :=
  n.children.head?

/-- Last child when there are at least two children, else null, as `getRightChild`. -/
@[simp]
def getRightChild (n : ASTNode) : Option ASTNode :=
  if 1 < n.children.length then n.children.getLast? else none

/-- Integer literal test, as `isInteger`. -/
@[simp]
def isInteger (n : ASTNode) : Bool :=
  match n.kind with
  | .AST_INTEGER _ => true
  | _ => false

/-- Rational literal test, as `isRational`. -/
@[simp]
def isRational (n : ASTNode) : Bool :=
  match n.kind with
  | .AST_RATIONAL _ _ => true
  | _ => false

/-- Numeric literal test, as `isNumber`: integer, real, real with exponent or rational. -/
@[simp]
def isNumber (n : ASTNode) : Bool :=
  match n.kind with
  | .AST_INTEGER _ => true
  | .AST_REAL _ => true
  | .AST_REAL_E _ _ => true
  | .AST_RATIONAL _ _ => true
  | _ => false

/-- Test `getType() == AST_REAL`. -/
@[simp]
def isRealType (n : ASTNode) : Bool :=
  match n.kind with
  | .AST_REAL _ => true
  | _ => false

/-- Operator test, as `isOperator`: plus, minus, times, divide or the power operator. -/
@[simp]
def isOperator (n : ASTNode) : Bool :=
  match n.kind with
  | .AST_PLUS => true
  | .AST_MINUS => true
  | .AST_TIMES => true
  | .AST_DIVIDE => true
  | .AST_POWER => true
  | _ => false

/-- Numerical value of a literal as a `double`, as `getValue`: the conversion
`(double) getInteger()` of an integer literal, the stored `double` of a real literal (a
payload that is no binary64 value stands for the `double` nearest to it),
`mantissa * pow(10, exponent)` and `(double) numerator / denominator`.  Zero stands for
the not-a-number value of the other kinds, which the source never inspects, and for the
value of a rational literal whose denominator is zero. -/
@[simp]
def getValue (n : ASTNode) : ℚ :=
  match n.kind with
  | .AST_INTEGER v => toDouble (v : ℚ)
  | .AST_REAL v => toDouble v
  | .AST_REAL_E m e => toDouble (toDouble m * toDouble ((10 : ℚ) ^ e))
  | .AST_RATIONAL p q =>
    if q = 0 then 0 else toDouble (toDouble (p : ℚ) / toDouble (q : ℚ))
  | _ => 0

/-- Integer payload, as `getNumerator`: the value of an integer literal, the numerator of
a rational literal. -/
@[simp]
def getNumerator (n : ASTNode) : Int :=
  match n.kind with
  | .AST_INTEGER v => v
  | .AST_RATIONAL p _ => p
  | _ => 0

/-- Denominator payload, as `getDenominator`: 1 unless the node is a rational literal. -/
@[simp]
def getDenominator (n : ASTNode) : Int :=
  match n.kind with
  | .AST_RATIONAL _ q => q
  | _ => 1

/-- A fresh childless node holding an integer, as `setValue(long)` on a new node. -/
@[simp]
def integerNode (v : Int) : ASTNode :=
  mk (.AST_INTEGER v) []

/-- A fresh childless node holding a `double`, as `setValue(double)` on a new node. -/
@[simp]
def realNode (v : ℚ) : ASTNode :=
  mk (.AST_REAL v) []

/-- A fresh childless rational literal, as `setValue(long, long)` on a new node. -/
@[simp]
def rationalNode (p q : Int) : ASTNode :=
  mk (.AST_RATIONAL p q) []

/-- A fresh variable reference, as `setName` on a new `AST_NAME` node. -/
@[simp]
def nameNode (s : String) : ASTNode :=
  mk (.AST_NAME s) []

end ASTNode

open ASTNode

/-- Dereference of a child pointer: a null pointer is the outcome `Err.nullPointer`. -/
@[simp]
def deref : Option ASTNode → Except Err ASTNode
  | some n => .ok n
  | none => .error .nullPointer

/-- Read of `children[i]` on a `std::vector` whose value is dereferenced: past the end it
is `Err.outOfRange`. -/
@[simp]
def vectorAt (children : List ASTNode) (i : Nat) : Except Err ASTNode :=
  match children.get? i with
  | some n => .ok n
  | none => .error .outOfRange

/-- The loop shared by the piecewise cases: the function is applied to the children at even
positions, the children at odd positions are copied. -/
def mapEven (f : ASTNode → Except Err ASTNode) : List ASTNode → Except Err (List ASTNode)
  | [] => .ok []
  | [e] => do
    let e1 ← f e
    .ok [e1]
  | e :: c :: rest => do
    let e1 ← f e
    let rest1 ← mapEven f rest
    .ok (e1 :: c :: rest1)

/-- The loop `for i: children.push_back(f(ast->getChild(i)))`. -/
def mapAll (f : ASTNode → Except Err ASTNode) : List ASTNode → Except Err (List ASTNode)
  | [] => .ok []
  | c :: rest => do
    let c1 ← f c
    let rest1 ← mapAll f rest
    .ok (c1 :: rest1)

namespace ASTNodeUtil

/-- Modelled from the spec: the fold of `reduceToBinary` (section 4.1), the
right-associated chain `op(c0, op(c1, ... op(cn-1, cn)))` over a child sequence. -/
def chain (k : Kind) : List ASTNode → ASTNode
  | [] => ASTNode.mk k []
  | [a] => ASTNode.mk k [a]
  | [a, b] => ASTNode.mk k [a, b]
  | a :: b :: c :: rest => ASTNode.mk k [a, chain k (b :: c :: rest)]

mutual
/-- Modelled from the spec: `ASTNodeUtil::reduceToBinary` (section 4.1), whose source file
is missing.  Every child is normalised; a Plus or Times node with more than two children
is folded into a right-associated chain; all other nodes keep their shape. -/
def reduceToBinary : ASTNode → ASTNode
  | ASTNode.mk k cs =>
    match k with
    | .AST_PLUS => chain .AST_PLUS (reduceToBinaryList cs)
    | .AST_TIMES => chain .AST_TIMES (reduceToBinaryList cs)
    | _ => ASTNode.mk k (reduceToBinaryList cs)
/-- Modelled from the spec: the children of a node, each normalised. -/
def reduceToBinaryList : List ASTNode → List ASTNode
  | [] => []
  | c :: cs => reduceToBinary c :: reduceToBinaryList cs
end

/-- Modelled from the spec: `ASTNodeUtil::isEqual` (section 4.3), whose source file is
missing.  The own attributes of the two nodes match: kind, literal value and name.
Children are not compared. -/
def isEqual (a b : ASTNode) : Bool :=
  decide (a.kind = b.kind)

mutual
/-- Length of the longest path from the node down to a leaf. -/
def height : ASTNode → Nat
  | ASTNode.mk _ cs => 1 + heightList cs
/-- Largest height in a sequence of trees. -/
def heightList : List ASTNode → Nat
  | [] => 0
  | c :: cs => max (height c) (heightList cs)
end

end ASTNodeUtil

namespace MathUtil

open ASTNodeUtil

/-- Truncation of a `double` toward zero, the integral part that `std::modf` stores. -/
def truncate (f : ℚ) : Int :=
  if 0 ≤ f then ⌊f⌋ else ⌈f⌉

/-- The fractional part that `std::modf` returns. -/
def modf (f : ℚ) : ℚ :=
  f - (truncate f : ℚ)

/-- Conversion of a `double` to a 64-bit signed integer (`long`, `long long`): truncation
toward zero; outside the range of the type the lowest value, `-2 ^ 63`. -/
def toLong (f : ℚ) : Int :=
  if -2 ^ 63 ≤ truncate f ∧ truncate f < 2 ^ 63 then truncate f else -2 ^ 63

/-- Conversion of a `double` to `int`: truncation toward zero; outside the range of the
type the lowest value, `-2 ^ 31`. -/
def toInt (f : ℚ) : Int :=
  if -2 ^ 31 ≤ truncate f ∧ truncate f < 2 ^ 31 then truncate f else -2 ^ 31

/-- The `MathUtil::floor` of the source: `::floor(f)` converted to `long long`. -/
def floor (f : ℚ) : Int :=
  toLong (⌊f⌋ : ℚ)

/-- The `MathUtil::isLong` of the source: `floor(f) == f`, a comparison of a `long long`,
converted to `double`, with a `double`. -/
def isLong (f : ℚ) : Bool :=
  decide (toDouble ((floor f : Int) : ℚ) = f)

/-- The root of order `q` of the natural number `n`, for `q` a power of two, where the
root is a natural number again: square roots taken `log2 q` times.  The first argument
bounds the number of steps. -/
def exactRoot : Nat → Nat → Nat → Option Nat
  | 0, _, _ => none
  | fuel + 1, q, n =>
    if q = 1 then some n
    else if q % 2 = 0 ∧ Nat.sqrt n * Nat.sqrt n = n then exactRoot fuel (q / 2) (Nat.sqrt n)
    else none

/-- The `MathUtil::pow` of the source, the `pow` of the C library: the power rounded to
`double`.  The library returns the power itself where a `double` holds it; where none
does, it returns a `double` next to the power, which the model takes to be the nearest one
(the two differ only when the power lies within the error of the library of the midpoint of
two doubles).  For an exponent that is no integer, a fraction `p / q` in lowest terms with
`q` a power of two as every `double` is, the model has the power when the root of order `q`
of the positive base is a rational number, and the power `0` of the base `0` for a
positive exponent.  Outside the model are the powers that are no rational numbers, a
negative base with an exponent that is no integer (not a number), and a zero base with a
negative exponent (an infinity). -/
def pow (x y : ℚ) : Except Err ℚ :=
  if y.den = 1 then
    if x = 0 ∧ y < 0 then .error .notExact else .ok (toDouble (x ^ y.num))
  else if x = 0 ∧ 0 < y then .ok 0
  else if 0 < x then
    match exactRoot y.den y.den x.num.toNat, exactRoot y.den y.den x.den with
    | some a, some b => .ok (toDouble (((a : ℚ) / (b : ℚ)) ^ y.num))
    | _, _ => .error .notExact
  else .error .notExact

/-- The power case of `isRationalForm`: integer base and negative integer exponent. -/
def isRationalFormPower (ast : ASTNode) : Except Err Bool := do
  let l ← deref ast.getLeftChild
  if l.isInteger then
    let r ← deref ast.getRightChild
    if r.isInteger then
      if r.getValue < 0 then .ok true else .ok false
    else .ok false
  else .ok false

/-- The `isRationalForm` of the source.  The recursive call on the right child of a Times
node is made only when that child is a power node, so it runs the power case. -/
def isRationalForm (ast : ASTNode) : Except Err Bool :=
  match ast.kind with
  | .AST_RATIONAL _ _ => .ok true
  | .AST_DIVIDE => do
    let l ← deref ast.getLeftChild
    if l.isInteger then
      let r ← deref ast.getRightChild
      if r.isInteger then .ok true else .ok false
    else .ok false
  | .AST_TIMES =>
    if ast.getNumChildren = 2 then do
      let l ← deref ast.getLeftChild
      if l.isInteger then
        let right ← deref ast.getRightChild
        match right.kind with
        | .AST_POWER => isRationalFormPower right
        | .AST_FUNCTION_POWER => isRationalFormPower right
        | .AST_RATIONAL _ _ => .ok true
        | _ => .ok false
      else .ok false
    else .ok false
  | .AST_POWER => isRationalFormPower ast
  | .AST_FUNCTION_POWER => isRationalFormPower ast
  | _ => .ok false

/-- The tail of `reduceFraction`: both numbers are divided by their greatest common
divisor (`boost::math::gcd`, never negative); an Integer node when the denominator
becomes 1, a Rational node otherwise. -/
def reduceByGcd (numerator denominator : Int) : Except Err ASTNode :=
  let gcd : Int := (Int.gcd numerator denominator : Int)
  if gcd = 0 then .error .divideByZero
  else
    let numerator1 := Int.tdiv numerator gcd
    let denominator1 := Int.tdiv denominator gcd
    if denominator1 = 1 then .ok (integerNode numerator1)
    else .ok (rationalNode numerator1 denominator1)

/-- The run of `reduceFraction` on a power node: `b^(-c)` becomes `1 / b^c`. -/
def reduceFractionPower (ast : ASTNode) : Except Err ASTNode := do
  let recognised ← isRationalFormPower ast
  if recognised = false then .ok ast
  else
    let r ← deref ast.getRightChild
    let order := r.getValue * (-1)
    let l ← deref ast.getLeftChild
    let p ← pow l.getValue order
    reduceByGcd 1 (toLong p)

/-- The `reduceFraction` of the source.  The recursive call on the right child of a Times
node is made only when that child is a power node, so it is the run of `reduceFraction` on
a power node.  A Times node in rational form has a power node or a Rational literal as its
right child, so the last alternative of the Times case is never taken. -/
def reduceFraction (ast : ASTNode) : Except Err ASTNode := do
  let recognised ← isRationalForm ast
  if recognised = false then .ok ast
  else
    match ast.kind with
    | .AST_RATIONAL p q => reduceByGcd p q
    | .AST_DIVIDE => do
      let l ← deref ast.getLeftChild
      let r ← deref ast.getRightChild
      reduceByGcd (toLong l.getValue) (toLong r.getValue)
    | .AST_TIMES => do
      let right ← deref ast.getRightChild
      let l ← deref ast.getLeftChild
      match right.kind with
      | .AST_POWER => do
        let rational ← reduceFractionPower right
        reduceByGcd (toLong l.getValue) rational.getDenominator
      | .AST_FUNCTION_POWER => do
        let rational ← reduceFractionPower right
        reduceByGcd (toLong l.getValue) rational.getDenominator
      | .AST_RATIONAL _ _ =>
        reduceByGcd (toLong (toDouble (l.getValue * toDouble (right.getNumerator : ℚ))))
          right.getDenominator
      | _ => .ok ast
    | .AST_POWER => reduceFractionPower ast
    | .AST_FUNCTION_POWER => reduceFractionPower ast
    | _ => .ok ast

mutual
/-- The `containsTarget` of the source: the search descends into the left child and into
the right child only (the first child and, when there are at least two, the last one),
and answers true at an `AST_NAME` node with the target name. -/
def containsTarget : ASTNode → String → Bool
  | ASTNode.mk k cs, target =>
    match k with
    | .AST_NAME name => if name = target then true else containsTargetEnds cs target
    | _ => containsTargetEnds cs target
/-- Search in the left child, then in the right child, of a child sequence. -/
def containsTargetEnds : List ASTNode → String → Bool
  | [], _ => false
  | l :: rest, target => containsTarget l target || containsTargetLast rest target
/-- Search in the last node of a sequence; false on the empty sequence. -/
def containsTargetLast : List ASTNode → String → Bool
  | [], _ => false
  | [r], target => containsTarget r target
  | _ :: c :: rest, target => containsTargetLast (c :: rest) target
end

/-- The `differentiate` of the source with a bound on the recursion depth. -/
def differentiateFuel : Nat → ASTNode → String → Except Err ASTNode
  | 0, _, _ => .error .outOfFuel
  | fuel + 1, ast, target =>
    let binaryTree := reduceToBinary ast
    if containsTarget binaryTree target = false then
      .ok (integerNode 0)
    else
      let d : Option ASTNode → Except Err ASTNode := fun c =>
        match c with
        | some n => differentiateFuel fuel n target
        | none => .error .nullPointer
      let left := binaryTree.getLeftChild
      let right := binaryTree.getRightChild
      let two := integerNode 2
      let one := integerNode 1
      let minusone := integerNode (-1)
      let differentiatedRoot : Except Err ASTNode :=
        match binaryTree.kind with
        | .AST_PLUS => do
          let dl ← d left
          let dr ← d right
          .ok (ASTNode.mk .AST_PLUS [dl, dr])
        | .AST_MINUS => do
          let dl ← d left
          let dr ← d right
          .ok (ASTNode.mk .AST_MINUS [dl, dr])
        | .AST_TIMES => do
          let dl ← d left
          let r ← deref right
          let l ← deref left
          let dr ← d right
          .ok (ASTNode.mk .AST_PLUS [ASTNode.mk .AST_TIMES [dl, r], ASTNode.mk .AST_TIMES [l, dr]])
        | .AST_DIVIDE => do
          let r ← deref right
          if containsTarget r target = false then
            let dl ← d left
            .ok (ASTNode.mk .AST_DIVIDE [dl, r])
          else
            let dl ← d left
            let l ← deref left
            let dr ← d right
            .ok (ASTNode.mk .AST_DIVIDE
              [ASTNode.mk .AST_MINUS [ASTNode.mk .AST_TIMES [dl, r], ASTNode.mk .AST_TIMES [l, dr]],
               ASTNode.mk .AST_FUNCTION_POWER [r, two]])
        | .AST_FUNCTION_POWER | .AST_POWER => do
          let r ← deref right
          let l ← deref left
          let dudx ← d left
          let dvdx ← d right
          .ok (ASTNode.mk .AST_PLUS
            [ASTNode.mk .AST_TIMES
               [r, ASTNode.mk .AST_POWER [l, ASTNode.mk .AST_MINUS [r, one]], dudx],
             ASTNode.mk .AST_TIMES
               [ASTNode.mk .AST_POWER [l, r], ASTNode.mk .AST_FUNCTION_LN [l], dvdx]])
        | .AST_FUNCTION_ROOT => do
          let r ← deref right
          let l ← deref left
          differentiateFuel fuel
            (ASTNode.mk .AST_POWER [r, ASTNode.mk .AST_DIVIDE [one, l]]) target
        | .AST_FUNCTION_SIN => do
          let dl ← d left
          let l ← deref left
          .ok (ASTNode.mk .AST_TIMES [dl, ASTNode.mk .AST_FUNCTION_COS [l]])
        | .AST_FUNCTION_COS => do
          let dl ← d left
          let l ← deref left
          .ok (ASTNode.mk .AST_TIMES
            [ASTNode.mk .AST_TIMES [minusone, dl], ASTNode.mk .AST_FUNCTION_SIN [l]])
        | .AST_FUNCTION_TAN => do
          let dl ← d left
          let l ← deref left
          .ok (ASTNode.mk .AST_TIMES
            [dl, ASTNode.mk .AST_POWER [ASTNode.mk .AST_FUNCTION_SEC [l], two]])
        | .AST_FUNCTION_SEC => do
          let dl ← d left
          let l ← deref left
          .ok (ASTNode.mk .AST_TIMES
            [dl, ASTNode.mk .AST_TIMES
              [ASTNode.mk .AST_FUNCTION_SEC [l], ASTNode.mk .AST_FUNCTION_TAN [l]]])
        | .AST_FUNCTION_COT => do
          let dl ← d left
          let l ← deref left
          .ok (ASTNode.mk .AST_TIMES
            [dl, ASTNode.mk .AST_DIVIDE
              [minusone, ASTNode.mk .AST_POWER [ASTNode.mk .AST_FUNCTION_SIN [l], two]]])
        | .AST_FUNCTION_SINH => do
          let dl ← d left
          let l ← deref left
          .ok (ASTNode.mk .AST_TIMES [dl, ASTNode.mk .AST_FUNCTION_COSH [l]])
        | .AST_FUNCTION_COSH => do
          let dl ← d left
          let l ← deref left
          .ok (ASTNode.mk .AST_TIMES [dl, ASTNode.mk .AST_FUNCTION_SINH [l]])
        | .AST_FUNCTION_TANH => do
          let dl ← d left
          let l ← deref left
          .ok (ASTNode.mk .AST_TIMES
            [dl, ASTNode.mk .AST_POWER [ASTNode.mk .AST_FUNCTION_SECH [l], two]])
        | .AST_FUNCTION_SECH => do
          let dudx ← d left
          let l ← deref left
          .ok (ASTNode.mk .AST_TIMES
            [minusone, dudx, ASTNode.mk .AST_FUNCTION_SECH [l], ASTNode.mk .AST_FUNCTION_TANH [l]])
        | .AST_FUNCTION_COTH => do
          let dl ← d left
          let l ← deref left
          .ok (ASTNode.mk .AST_TIMES
            [dl, ASTNode.mk .AST_DIVIDE
              [minusone, ASTNode.mk .AST_POWER [ASTNode.mk .AST_FUNCTION_SINH [l], two]]])
        | .AST_FUNCTION_ARCSIN => do
          let dl ← d left
          let l ← deref left
          .ok (ASTNode.mk .AST_DIVIDE
            [dl, ASTNode.mk .AST_FUNCTION_ROOT
              [two, ASTNode.mk .AST_MINUS [one, ASTNode.mk .AST_POWER [l, two]]]])
        | .AST_FUNCTION_ARCCOS => do
          let dudx ← d left
          let l ← deref left
          .ok (ASTNode.mk .AST_DIVIDE
            [ASTNode.mk .AST_TIMES [minusone, dudx],
             ASTNode.mk .AST_FUNCTION_ROOT
              [two, ASTNode.mk .AST_MINUS [one, ASTNode.mk .AST_POWER [l, two]]]])
        | .AST_FUNCTION_ARCTAN => do
          let dl ← d left
          let l ← deref left
          .ok (ASTNode.mk .AST_DIVIDE
            [dl, ASTNode.mk .AST_PLUS [one, ASTNode.mk .AST_POWER [l, two]]])
        | .AST_FUNCTION_ARCSEC => do
          let dl ← d left
          let l ← deref left
          .ok (ASTNode.mk .AST_DIVIDE
            [dl, ASTNode.mk .AST_TIMES
              [ASTNode.mk .AST_FUNCTION_ABS [l],
               ASTNode.mk .AST_FUNCTION_ROOT
                [two, ASTNode.mk .AST_MINUS [ASTNode.mk .AST_POWER [l, two], one]]]])
        | .AST_FUNCTION_ARCCSC => do
          let dudx ← d left
          let l ← deref left
          .ok (ASTNode.mk .AST_TIMES
            [minusone, ASTNode.mk .AST_DIVIDE
              [dudx, ASTNode.mk .AST_TIMES
                [ASTNode.mk .AST_FUNCTION_ABS [l],
                 ASTNode.mk .AST_FUNCTION_ROOT
                  [two, ASTNode.mk .AST_MINUS [ASTNode.mk .AST_POWER [l, two], one]]]]])
        | .AST_FUNCTION_ARCCOT => do
          let dudx ← d left
          let l ← deref left
          .ok (ASTNode.mk .AST_TIMES
            [minusone, ASTNode.mk .AST_DIVIDE
              [dudx, ASTNode.mk .AST_PLUS [one, ASTNode.mk .AST_POWER [l, two]]]])
        | .AST_FUNCTION_ARCSINH => do
          let dl ← d left
          let l ← deref left
          .ok (ASTNode.mk .AST_DIVIDE
            [dl, ASTNode.mk .AST_FUNCTION_ROOT
              [two, ASTNode.mk .AST_PLUS [one, ASTNode.mk .AST_POWER [l, two]]]])
        | .AST_FUNCTION_ARCCOSH => do
          let dl ← d left
          let l ← deref left
          .ok (ASTNode.mk .AST_DIVIDE
            [dl, ASTNode.mk .AST_FUNCTION_ROOT
              [two, ASTNode.mk .AST_MINUS [ASTNode.mk .AST_POWER [l, two], one]]])
        | .AST_FUNCTION_ARCTANH => do
          let dl ← d left
          let l ← deref left
          .ok (ASTNode.mk .AST_DIVIDE
            [dl, ASTNode.mk .AST_MINUS [one, ASTNode.mk .AST_POWER [l, two]]])
        | .AST_FUNCTION_ARCSECH => do
          let dudx ← d left
          let l ← deref left
          .ok (ASTNode.mk .AST_TIMES
            [minusone, ASTNode.mk .AST_DIVIDE
              [dudx, ASTNode.mk .AST_TIMES
                [l, ASTNode.mk .AST_FUNCTION_ROOT
                  [two, ASTNode.mk .AST_MINUS [one, ASTNode.mk .AST_POWER [l, two]]]]]])
        | .AST_FUNCTION_ARCCSCH => do
          let dudx ← d left
          let l ← deref left
          .ok (ASTNode.mk .AST_TIMES
            [minusone, ASTNode.mk .AST_DIVIDE
              [dudx, ASTNode.mk .AST_TIMES
                [l, ASTNode.mk .AST_FUNCTION_ROOT
                  [two, ASTNode.mk .AST_PLUS [ASTNode.mk .AST_POWER [l, two], one]]]]])
        | .AST_FUNCTION_ARCCOTH => do
          let dudx ← d left
          let l ← deref left
          .ok (ASTNode.mk .AST_TIMES
            [one, ASTNode.mk .AST_DIVIDE
              [dudx, ASTNode.mk .AST_MINUS [one, ASTNode.mk .AST_POWER [l, two]]]])
        | .AST_FUNCTION_EXP => do
          let dudx ← d left
          .ok (ASTNode.mk .AST_TIMES [dudx, binaryTree])
        | .AST_FUNCTION_LN => do
          let dudx ← d left
          let u ← deref left
          .ok (ASTNode.mk .AST_DIVIDE [dudx, u])
        | .AST_FUNCTION_LOG => do
          let base ← deref left
          let dudx ← d right
          let u ← deref right
          .ok (ASTNode.mk .AST_DIVIDE
            [dudx, ASTNode.mk .AST_TIMES [u, ASTNode.mk .AST_FUNCTION_LN [base]]])
        | .AST_FUNCTION_PIECEWISE => do
          let cs ← mapEven (fun c => differentiateFuel fuel c target) binaryTree.children
          .ok (ASTNode.mk .AST_FUNCTION_PIECEWISE cs)
        | .AST_FUNCTION_ABS => do
          let dudx ← d left
          let u ← deref left
          .ok (ASTNode.mk .AST_TIMES
            [dudx, ASTNode.mk .AST_DIVIDE [u, ASTNode.mk .AST_FUNCTION_ABS [u]]])
        | .AST_FUNCTION_CEILING | .AST_FUNCTION_FLOOR =>
          .ok (integerNode 0)
        | .AST_FUNCTION_FACTORIAL => do
          let n ← deref left
          differentiateFuel fuel
            (ASTNode.mk .AST_TIMES
              [ASTNode.mk .AST_FUNCTION_ROOT
                 [two, ASTNode.mk .AST_TIMES [two, ASTNode.mk .AST_CONSTANT_PI [], n]],
               ASTNode.mk .AST_POWER
                 [ASTNode.mk .AST_DIVIDE [n, ASTNode.mk .AST_CONSTANT_E []], n]]) target
        | .AST_REAL _ | .AST_INTEGER _ | .AST_NAME_TIME =>
          .ok (integerNode 0)
        | .AST_NAME name =>
          if name = target then .ok (integerNode 1) else .ok (integerNode 0)
        | k => .error (.unknownType k)
      do
        let root ← differentiatedRoot
        .ok (reduceToBinary root)

mutual
/-- Number of nodes of a tree. -/
def nodeCount : ASTNode → Nat
  | ASTNode.mk _ cs => 1 + nodeCountList cs
/-- Number of nodes of a sequence of trees. -/
def nodeCountList : List ASTNode → Nat
  | [] => 0
  | c :: cs => nodeCount c + nodeCountList cs
end

/-- The `differentiate` of the source.  The recursion depth of the source on a tree is
bounded by a multiple of its number of nodes, which is the fuel given here. -/
def differentiate (ast : ASTNode) (target : String) : Except Err ASTNode :=
  differentiateFuel (8 * nodeCount ast + 8) ast target

/-- The `isEqualTree` of the source with a bound on the recursion depth.  The two
pointers are equal as pointers exactly when both are null: every other call of the source
compares nodes of two distinct trees. -/
def isEqualTreeFuel : Nat → Option ASTNode → Option ASTNode → Except Err Bool
  | _, none, none => .ok true
  | _, none, some _ => .ok false
  | _, some _, none => .ok false
  | 0, some _, some _ => .error .outOfFuel
  | fuel + 1, some ast1, some ast2 =>
    let root1 := reduceToBinary ast1
    let root2 := reduceToBinary ast2
    if isEqual ast1 ast2 = false then .ok false
    else
      let swapped : Except Err Bool := do
        let lr ← isEqualTreeFuel fuel root1.getLeftChild root2.getRightChild
        if lr then isEqualTreeFuel fuel root1.getRightChild root2.getLeftChild
        else .ok false
      do
        let ll ← isEqualTreeFuel fuel root1.getLeftChild root2.getLeftChild
        if ll then
          let rr ← isEqualTreeFuel fuel root1.getRightChild root2.getRightChild
          if rr then .ok true else swapped
        else swapped

/-- The `isEqualTree` of the source.  The recursion follows the first tree in binary
form, whose height bounds its depth. -/
def isEqualTree (ast1 ast2 : Option ASTNode) : Except Err Bool :=
  match ast1 with
  | none => isEqualTreeFuel 0 ast1 ast2
  | some a => isEqualTreeFuel (height (reduceToBinary a) + 1) ast1 ast2

/-- The legacy `simplify` of the source with a bound on the recursion depth. -/
def simplifyFuel : Nat → ASTNode → Except Err ASTNode
  | 0, _ => .error .outOfFuel
  | fuel + 1, ast =>
    let binaryTree := reduceToBinary ast
    let type := binaryTree.kind
    let s : Option ASTNode → Except Err ASTNode := fun c =>
      match c with
      | some n => simplifyFuel fuel n
      | none => .error .nullPointer
    if binaryTree.isOperator = false
        ∧ type ≠ .AST_FUNCTION_POWER
        ∧ type ≠ .AST_POWER
        ∧ type ≠ .AST_FUNCTION_LN
        ∧ type ≠ .AST_FUNCTION_PIECEWISE
        ∧ type ≠ .AST_FUNCTION_SIN
        ∧ type ≠ .AST_FUNCTION_COS
        ∧ type ≠ .AST_FUNCTION_TAN then
      .ok binaryTree
    else if type = .AST_FUNCTION_PIECEWISE then do
      let cs ← mapEven (simplifyFuel fuel) binaryTree.children
      .ok (ASTNode.mk .AST_FUNCTION_PIECEWISE cs)
    else do
      let left ← s binaryTree.getLeftChild
      let arg ← deref binaryTree.getLeftChild
      if type = .AST_FUNCTION_LN then
        if arg.kind = .AST_CONSTANT_E then .ok (integerNode 1) else .ok binaryTree
      else if type = .AST_FUNCTION_SIN then
        if arg.isNumber ∧ arg.getValue = 0 then .ok (integerNode 0) else .ok binaryTree
      else if type = .AST_FUNCTION_COS then
        if arg.isNumber ∧ arg.getValue = 0 then .ok (integerNode 1) else .ok binaryTree
      else if type = .AST_FUNCTION_TAN then
        if arg.isNumber ∧ arg.getValue = 0 then .ok (integerNode 0) else .ok binaryTree
      else do
        let right ← s binaryTree.getRightChild
        let left_val := left.getValue
        let right_val := right.getValue
        let rebuilt : Except Err ASTNode := .ok (ASTNode.mk type [left, right])
        match type with
        | .AST_PLUS =>
          let mergeRight : Except Err ASTNode :=
            if right.kind = .AST_PLUS then do
              let rr ← deref right.getRightChild
              if rr.isNumber ∧ left.isNumber then
                let tmpl ← deref right.getLeftChild
                let merged ← simplifyFuel fuel (ASTNode.mk .AST_PLUS [left, rr])
                .ok (ASTNode.mk .AST_PLUS [tmpl, merged])
              else rebuilt
            else rebuilt
          let mergeLeft : Except Err ASTNode :=
            if left.kind = .AST_PLUS then do
              let lr ← deref left.getRightChild
              if lr.isNumber ∧ right.isNumber then
                let tmpl ← deref left.getLeftChild
                let merged ← simplifyFuel fuel (ASTNode.mk .AST_PLUS [right, lr])
                .ok (ASTNode.mk .AST_PLUS [tmpl, merged])
              else mergeRight
            else mergeRight
          let rightZero : Except Err ASTNode :=
            if right.isNumber ∧ right_val = 0 then .ok left else mergeLeft
          if left.isNumber then
            if left_val = 0 then .ok right
            else if right.isNumber then .ok (realNode (toDouble (left_val + right_val)))
            else if right.kind ≠ .AST_PLUS then .ok (ASTNode.mk .AST_PLUS [right, left])
            else rightZero
          else rightZero
        | .AST_MINUS =>
          if right.isNumber then
            if right_val = 0 then .ok left
            else if left.isNumber then .ok (realNode (toDouble (left_val - right_val)))
            else rebuilt
          else rebuilt
        | .AST_TIMES =>
          let mergeRight : Except Err ASTNode :=
            if right.kind = .AST_TIMES then do
              let rl ← deref right.getLeftChild
              if rl.isNumber ∧ left.isNumber then
                let tmpr ← deref right.getRightChild
                let merged ← simplifyFuel fuel (ASTNode.mk .AST_TIMES [rl, left])
                .ok (ASTNode.mk .AST_TIMES [merged, tmpr])
              else rebuilt
            else rebuilt
          let mergeLeft : Except Err ASTNode :=
            if left.kind = .AST_TIMES then do
              let ll ← deref left.getLeftChild
              if ll.isNumber ∧ right.isNumber then
                let tmpr ← deref left.getRightChild
                let merged ← simplifyFuel fuel (ASTNode.mk .AST_TIMES [ll, right])
                .ok (ASTNode.mk .AST_TIMES [merged, tmpr])
              else mergeRight
            else mergeRight
          let rightNumber : Except Err ASTNode :=
            if right.isNumber then
              if right_val = 0 then .ok (integerNode 0)
              else if right_val = 1 then .ok left
              else if left.kind ≠ .AST_TIMES then .ok (ASTNode.mk .AST_TIMES [right, left])
              else mergeLeft
            else mergeLeft
          if left.isNumber then
            if left_val = 0 then .ok (integerNode 0)
            else if left_val = 1 then .ok right
            else if right.isNumber then .ok (realNode (toDouble (left_val * right_val)))
            else rightNumber
          else rightNumber
        | .AST_DIVIDE =>
          let rightOne : Except Err ASTNode :=
            if right.isNumber ∧ right_val = 1 then .ok left else rebuilt
          if left.isNumber then
            if left_val = 0 then .ok (integerNode 0)
            else if right.isNumber then
              if right_val ≤ left_val ∧ right_val ≠ 0
                  ∧ modf left_val = 0 ∧ modf right_val = 0 then
                if toInt left_val = -2 ^ 31 ∧ toInt right_val = -1 then
                  .error .divideByZero
                else if Int.tmod (toInt left_val) (toInt right_val) = 0 then
                  .ok (realNode (toDouble (left_val / right_val)))
                else rightOne
              else rightOne
            else rightOne
          else rightOne
        | .AST_POWER | .AST_FUNCTION_POWER =>
          let convert : Except Err ASTNode :=
            if type = .AST_FUNCTION_POWER then .ok (ASTNode.mk .AST_POWER [left, right])
            else rebuilt
          let nested : Except Err ASTNode :=
            if left.kind = .AST_FUNCTION_POWER ∨ left.kind = .AST_POWER then do
              let base ← deref left.getLeftChild
              let inner ← deref left.getRightChild
              simplifyFuel fuel
                (ASTNode.mk .AST_POWER [base, ASTNode.mk .AST_TIMES [inner, right]])
            else convert
          let rightNumber : Except Err ASTNode :=
            if right.isNumber then
              if right_val = 0 then .ok (integerNode 1)
              else if right_val = 1 then .ok left
              else nested
            else nested
          if left.isNumber then
            if left_val = 0 then .ok (integerNode 0)
            else if left_val = 1 then .ok (integerNode 1)
            else rightNumber
          else rightNumber
        | _ => rebuilt

/-- The legacy `simplify` of the source. -/
def simplify (ast : ASTNode) : Except Err ASTNode :=
  simplifyFuel (8 * nodeCount ast + 8) ast

/-- The flattening loop of Rule One: a child of the given kind is replaced by its own
children, any other child is kept. -/
def flattenChildren (k : Kind) : List ASTNode → List ASTNode
  | [] => []
  | child :: rest =>
    if child.kind = k then child.children ++ flattenChildren k rest
    else child :: flattenChildren k rest

/-- The `simplifyRuleOne` of the source with a bound on the recursion depth.  The reads
`left = children[0]` and `right = children[1]` of the source stand where the value read is
first dereferenced: past the end of the vector the read yields an indeterminate pointer,
which the Plus and Times cases never use. -/
def simplifyRuleOneFuel : Nat → ASTNode → Except Err ASTNode
  | 0, _ => .error .outOfFuel
  | fuel + 1, ast =>
    let type := ast.kind
    if ast.isOperator = false ∧ type ≠ .AST_FUNCTION_PIECEWISE then
      .ok ast
    else if type = .AST_FUNCTION_PIECEWISE then do
      let cs ← mapEven (simplifyRuleOneFuel fuel) ast.children
      .ok (ASTNode.mk .AST_FUNCTION_PIECEWISE cs)
    else do
      let children ← mapAll (simplifyRuleOneFuel fuel) ast.children
      match type with
      | .AST_PLUS => .ok (ASTNode.mk .AST_PLUS (flattenChildren .AST_PLUS children))
      | .AST_TIMES => .ok (ASTNode.mk .AST_TIMES (flattenChildren .AST_TIMES children))
      | .AST_MINUS => do
        let right ← vectorAt children 1
        if right.isNumber then do
          let left ← vectorAt children 0
          simplifyRuleOneFuel fuel
            (ASTNode.mk .AST_PLUS [left, realNode (right.getValue * (-1))])
        else do
          let r ← deref ast.getRightChild
          let l ← deref ast.getLeftChild
          simplifyRuleOneFuel fuel
            (ASTNode.mk .AST_PLUS [l, ASTNode.mk .AST_TIMES [integerNode (-1), r]])
      | .AST_DIVIDE => do
        let left ← vectorAt children 0
        let right ← vectorAt children 1
        if right.kind = .AST_POWER ∨ right.kind = .AST_FUNCTION_POWER then do
          let degreeNode ← deref right.getRightChild
          if degreeNode.isNumber then
            let base ← deref right.getLeftChild
            .ok (ASTNode.mk .AST_TIMES
              [left, ASTNode.mk .AST_POWER [base, realNode (degreeNode.getValue * (-1))]])
          else
            .ok (ASTNode.mk .AST_TIMES [left, ASTNode.mk .AST_POWER []])
        else
          .ok (ASTNode.mk .AST_TIMES [left, ASTNode.mk .AST_POWER [right, integerNode (-1)]])
      | _ => do
        let left ← vectorAt children 0
        let right ← vectorAt children 1
        .ok (ASTNode.mk type [left, right])

/-- The `simplifyRuleOne` of the source. -/
def simplifyRuleOne (ast : ASTNode) : Except Err ASTNode :=
  simplifyRuleOneFuel (8 * nodeCount ast + 8) ast

/-- The counting loop of the Plus case of Rule Two, started at `(0, 0, 0.0)`: the number
of literal children, the number of children that are a Times node with a literal left
child, and the sum of the literal values, accumulated from left to right. -/
def plusScan : List ASTNode → Nat × Nat × ℚ → Except Err (Nat × Nat × ℚ)
  | [], acc => .ok acc
  | child :: rest, (count, countTimes, sum) =>
    if child.isNumber then
      plusScan rest (count + 1, countTimes, toDouble (sum + child.getValue))
    else if child.kind = .AST_TIMES then do
      let l ← deref child.getLeftChild
      if l.isNumber then plusScan rest (count, countTimes + 1, sum)
      else plusScan rest (count, countTimes, sum)
    else plusScan rest (count, countTimes, sum)

/-- The loop `for i = 1 ..: if (!isEqualTree(compTree, children[i]->getRightChild()))`. -/
def allSameTree (eq : Option ASTNode → Option ASTNode → Except Err Bool)
    (compTree : Option ASTNode) : List ASTNode → Except Err Bool
  | [] => .ok true
  | child :: rest => do
    let same ← eq compTree child.getRightChild
    let others ← allSameTree eq compTree rest
    .ok (same && others)

/-- The loop `leftSum += children[i]->getLeftChild()->getValue()`, started at `0.0`. -/
def sumLeftValues : List ASTNode → ℚ → Except Err ℚ
  | [], leftSum => .ok leftSum
  | child :: rest, leftSum => do
    let l ← deref child.getLeftChild
    sumLeftValues rest (toDouble (leftSum + l.getValue))

/-- The children that are not numeric literals, in order. -/
def nonNumbers (children : List ASTNode) : List ASTNode :=
  children.filter (fun child => !child.isNumber)

/-- State of the scanning loop of the Times case of Rule Two. -/
structure TimesScan where
  /-- Number of integer and rational literal children. -/
  countRational : Nat
  /-- Number of real literal children. -/
  countDouble : Nat
  /-- Product of the real literals. -/
  productDouble : ℚ
  /-- Product of the numerators. -/
  productNumerator : Int
  /-- Product of the denominators. -/
  productDenominator : Int
  deriving Repr

/-- The scanning loop of the Times case of Rule Two; `none` is the early return taken at
the first literal child with value zero. -/
def timesScan : List ASTNode → TimesScan → Option TimesScan
  | [], st => some st
  | child :: rest, st =>
    if child.isNumber then
      if child.isRational ∨ child.isInteger then
        let nval := child.getNumerator
        if nval = 0 then none
        else
          let dval : Int := if child.isRational then child.getDenominator else 1
          timesScan rest
            (TimesScan.mk (st.countRational + 1) st.countDouble st.productDouble
              (st.productNumerator * nval) (st.productDenominator * dval))
      else
        let val := child.getValue
        if val = 0 then none
        else
          timesScan rest
            (TimesScan.mk st.countRational (st.countDouble + 1)
              (toDouble (st.productDouble * val)) st.productNumerator st.productDenominator)
    else timesScan rest st

/-- The part of the Times case of Rule Two after the scanning loop, up to the call of
`reduceToBinary`. -/
def timesRebuild (children : List ASTNode) (st : TimesScan) : Except Err ASTNode := do
  let rationalNode0 : Option ASTNode ←
    (if 0 < st.countRational then do
       let reduced ← reduceFraction (rationalNode st.productNumerator st.productDenominator)
       if reduced.isInteger ∧ reduced.getValue = 1 then .ok none else .ok (some reduced)
     else (.ok none : Except Err (Option ASTNode)))
  let fold : Bool := decide (0 < st.countDouble ∧ st.productDouble ≠ 1)
  let absorbed : Option ASTNode :=
    match rationalNode0 with
    | some r => if fold ∧ r.isInteger then some r else none
    | none => none
  let productDouble : ℚ :=
    match absorbed with
    | some r => toDouble (st.productDouble * r.getValue)
    | none => st.productDouble
  let rationalNode1 : Option ASTNode :=
    match absorbed with
    | some _ => none
    | none => rationalNode0
  let doubleNode : Option ASTNode := if fold then some (realNode productDouble) else none
  if st.countRational = children.length then
    match rationalNode1 with
    | some r => .ok r
    | none => .ok (integerNode 1)
  else if st.countDouble = children.length then
    match doubleNode with
    | some r => .ok r
    | none => .ok (integerNode 1)
  else
    let cs := rationalNode1.toList ++ doubleNode.toList ++ nonNumbers children
    if cs.length = 0 then .ok (integerNode 1)
    else .ok (ASTNode.mk .AST_TIMES cs)

/-- The `simplifyRuleTwo` of the source with a bound on the recursion depth.  As in Rule
One, the reads `left = children[0]` and `right = children[1]` stand where the value read is
first dereferenced: the Plus and Times cases work on the vector and never use them. -/
def simplifyRuleTwoFuel : Nat → ASTNode → Except Err ASTNode
  | 0, _ => .error .outOfFuel
  | fuel + 1, ast =>
    let type := ast.kind
    if ast.isOperator = false
        ∧ ast.isRational = false
        ∧ ast.isRealType = false
        ∧ type ≠ .AST_FUNCTION_POWER
        ∧ type ≠ .AST_POWER
        ∧ type ≠ .AST_FUNCTION_LN
        ∧ type ≠ .AST_FUNCTION_PIECEWISE
        ∧ type ≠ .AST_FUNCTION_SIN
        ∧ type ≠ .AST_FUNCTION_COS
        ∧ type ≠ .AST_FUNCTION_TAN then
      .ok ast
    else if ast.isRealType = true ∧ isLong ast.getValue = true then
      .ok (integerNode (toLong ast.getValue))
    else if ast.isRational then
      reduceFraction ast
    else if type = .AST_FUNCTION_PIECEWISE then do
      let cs ← mapEven (simplifyRuleTwoFuel fuel) ast.children
      .ok (ASTNode.mk .AST_FUNCTION_PIECEWISE cs)
    else do
      let children ← mapAll (simplifyRuleTwoFuel fuel) ast.children
      match type with
      | .AST_PLUS => do
        let (count, countTimes, sum) ← plusScan children (0, 0, 0)
        let collapsed : Option ASTNode ←
          (if countTimes = children.length then do
             let first ← vectorAt children 0
             let compTree := first.getRightChild
             let isAllSameTree ← allSameTree isEqualTree compTree (children.drop 1)
             if isAllSameTree then
               let leftSum ← sumLeftValues children 0
               let comp ← deref compTree
               let r ← simplifyRuleTwoFuel fuel (ASTNode.mk .AST_TIMES [realNode leftSum, comp])
               .ok (some r)
             else .ok none
           else (.ok none : Except Err (Option ASTNode)))
        match collapsed with
        | some r => .ok r
        | none =>
          if count = children.length then .ok (realNode sum)
          else if sum ≠ 0 then .ok (ASTNode.mk .AST_PLUS (nonNumbers children ++ [realNode sum]))
          else .ok (ASTNode.mk .AST_PLUS (nonNumbers children))
      | .AST_TIMES =>
        match timesScan children (TimesScan.mk 0 0 1 1 1) with
        | none => .ok (realNode 0)
        | some st => do
          let simplifiedRoot ← timesRebuild children st
          .ok (reduceToBinary simplifiedRoot)
      | .AST_POWER | .AST_FUNCTION_POWER => do
        let left ← vectorAt children 0
        let readsRight : Except Err ASTNode := do
          let right ← vectorAt children 1
          let convert : Except Err ASTNode :=
            if type = .AST_FUNCTION_POWER then .ok (ASTNode.mk .AST_POWER [left, right])
            else .ok (ASTNode.mk type [left, right])
          let nested : Except Err ASTNode :=
            if left.kind = .AST_FUNCTION_POWER ∨ left.kind = .AST_POWER then do
              let base ← deref left.getLeftChild
              if base.isNumber ∧ right.isNumber then
                let val ← pow base.getValue right.getValue
                let inner ← deref left.getRightChild
                simplifyRuleTwoFuel fuel (ASTNode.mk .AST_POWER [realNode val, inner])
              else
                let inner ← deref left.getRightChild
                simplifyRuleTwoFuel fuel
                  (ASTNode.mk .AST_POWER [base, ASTNode.mk .AST_TIMES [inner, right]])
            else convert
          let rightNumber : Except Err ASTNode :=
            if right.isNumber then
              if right.getValue = 0 then .ok (integerNode 1)
              else if right.getValue = 1 then .ok left
              else nested
            else nested
          if left.isNumber ∧ right.isNumber then
            if 0 < right.getValue then do
              let val ← pow left.getValue right.getValue
              .ok (realNode val)
            else if right.getValue = -1 ∧ isLong left.getValue = true then
              .ok (rationalNode 1 (toLong left.getValue))
            else rightNumber
          else rightNumber
        if left.isNumber then
          if left.getValue = 0 then .ok (integerNode 0)
          else if left.getValue = 1 then .ok (integerNode 1)
          else readsRight
        else readsRight
      | _ => do
        let left ← vectorAt children 0
        let right ← vectorAt children 1
        .ok (ASTNode.mk type [left, right])

/-- The `simplifyRuleTwo` of the source. -/
def simplifyRuleTwo (ast : ASTNode) : Except Err ASTNode :=
  simplifyRuleTwoFuel (8 * nodeCount ast + 8) ast

/-- The `simplifyTwoPath` of the source: Rule One, then Rule Two. -/
def simplifyTwoPath (ast : ASTNode) : Except Err ASTNode := do
  let postRuleOne ← simplifyRuleOne ast
  simplifyRuleTwo postRuleOne

/-- The `simplifyNew` of the source, with a bound on the number of passes of its
`do ... while` loop: the source returns a tree exactly when some bound gives `.ok`. -/
def simplifyNewFuel : Nat → ASTNode → Except Err ASTNode
  | 0, _ => .error .outOfFuel
  | passes + 1, inputAST => do
    let outputAST ← simplifyTwoPath inputAST
    let unchanged ← isEqualTree (some inputAST) (some outputAST)
    if unchanged then .ok outputAST else simplifyNewFuel passes outputAST

/-- The `FACTORIAL_TABLE` of the source: twenty entries. -/
def FACTORIAL_TABLE : List Nat :=
  [1, 1, 2, 6, 24, 120, 720, 5040, 40320, 362880, 3628800, 39916800, 479001600, 6227020800,
   87178291200, 1307674368000, 20922789888000, 355687428096000, 6402373705728000,
   121645100408832000]

/-- The `factorial` of the source: the table entry for `n ≤ 19`, and above it the product
`FACTORIAL_TABLE[19] * 20 * ... * n` accumulated in a `double`. -/
def factorial (n : Nat) : ℚ :=
  if n ≤ 19 then toDouble ((FACTORIAL_TABLE.getD n 0 : Nat) : ℚ)
  else (List.range' 20 (n - 19)).foldl
    (fun (ret : ℚ) (i : Nat) => toDouble (ret * toDouble (i : ℚ)))
    (toDouble ((FACTORIAL_TABLE.getD 19 0 : Nat) : ℚ))

mutual
/-- The libSBML `ASTNode::replaceArgument(bvar, arg)`, a library call of `taylorSeries`,
by its documented behaviour, which is also how the specification words the substitution
(section 4.7): every occurrence of the name `bvar` in the tree is replaced by a copy of
`arg`. -/
def replaceArgument (bvar : String) (arg : ASTNode) : ASTNode → ASTNode
  | ASTNode.mk k cs =>
    match k with
    | .AST_NAME name =>
      if name = bvar then arg else ASTNode.mk k (replaceArgumentList bvar arg cs)
    | _ => ASTNode.mk k (replaceArgumentList bvar arg cs)
/-- The replacement in every tree of a sequence. -/
def replaceArgumentList (bvar : String) (arg : ASTNode) : List ASTNode → List ASTNode
  | [] => []
  | c :: cs => replaceArgument bvar arg c :: replaceArgumentList bvar arg cs
end

/-- The loop `for (n = 1; n < order + 1; n++)` of `taylorSeries`: the terms appended to
the sum, given the number of iterations left, the loop variable and the running
derivative `term`. -/
def taylorSeriesLoop (target : String) (point : ℚ) :
    Nat → Nat → ASTNode → Except Err (List ASTNode)
  | 0, _, _ => .ok []
  | iterations + 1, n, term => do
    let derivative ← differentiate term target
    let dfdx ← simplify derivative
    let substitute := replaceArgument target (realNode point) dfdx
    let factorialNode := realNode (factorial n)
    let divide := ASTNode.mk .AST_DIVIDE [substitute, factorialNode]
    let minus := ASTNode.mk .AST_MINUS [nameNode target, realNode point]
    let power := ASTNode.mk .AST_POWER [minus, integerNode (n : Int)]
    let times := ASTNode.mk .AST_TIMES [divide, power]
    let rest ← taylorSeriesLoop target point iterations (n + 1) dfdx
    .ok (times :: rest)

/-- The `taylorSeries` of the source: a Plus node holding the substituted expression and
one term for each `n` from 1 to `order`. -/
def taylorSeries (ast : ASTNode) (target : String) (point : ℚ) (order : Int) :
    Except Err ASTNode := do
  let substitute := replaceArgument target (realNode point) ast
  let terms ← taylorSeriesLoop target point order.toNat 1 ast
  .ok (ASTNode.mk .AST_PLUS (substitute :: terms))

end MathUtil

/-! ## Notions used to state the properties -/

mutual
/-- Exhaustive occurrence test: some node of the tree, at any child position, is an
`AST_NAME` node with name `x`. -/
def occurs (x : String) : ASTNode → Bool
  | ASTNode.mk k cs =>
    match k with
    | .AST_NAME s => decide (s = x) || occursList x cs
    | _ => occursList x cs
/-- Exhaustive occurrence test on a sequence of trees. -/
def occursList (x : String) : List ASTNode → Bool
  | [] => false
  | c :: cs => occurs x c || occursList x cs
end

/-- Trees built only from integer literals, variables and binary Plus, Minus and Times
nodes. -/
inductive PolyTree : ASTNode → Prop where
  | integer (v : Int) : PolyTree (integerNode v)
  | var (s : String) : PolyTree (nameNode s)
  | plus {a b : ASTNode} : PolyTree a → PolyTree b → PolyTree (ASTNode.mk .AST_PLUS [a, b])
  | minus {a b : ASTNode} : PolyTree a → PolyTree b → PolyTree (ASTNode.mk .AST_MINUS [a, b])
  | times {a b : ASTNode} : PolyTree a → PolyTree b → PolyTree (ASTNode.mk .AST_TIMES [a, b])

mutual
/-- Value of a tree in a commutative ring containing the rationals, given the values of
the variables: literals denote themselves, Plus and Times are the sum and the product of
their children, a binary Minus is the difference.  Other kinds have no polynomial meaning
and are given the value zero. -/
def evalAST {R : Type} [CommRing R] [Algebra ℚ R] (σ : String → R) : ASTNode → R
  | ASTNode.mk k cs =>
    match k with
    | .AST_INTEGER v => (v : R)
    | .AST_REAL v => algebraMap ℚ R v
    | .AST_NAME s => σ s
    | .AST_PLUS => evalSum σ cs
    | .AST_TIMES => evalProduct σ cs
    | .AST_MINUS => evalDifference σ cs
    | _ => 0
/-- Sum of the values of a sequence of trees. -/
def evalSum {R : Type} [CommRing R] [Algebra ℚ R] (σ : String → R) : List ASTNode → R
  | [] => 0
  | c :: cs => evalAST σ c + evalSum σ cs
/-- Product of the values of a sequence of trees. -/
def evalProduct {R : Type} [CommRing R] [Algebra ℚ R] (σ : String → R) : List ASTNode → R
  | [] => 1
  | c :: cs => evalAST σ c * evalProduct σ cs
/-- Difference of the values of the two children of a binary Minus. -/
def evalDifference {R : Type} [CommRing R] [Algebra ℚ R] (σ : String → R) :
    List ASTNode → R
  | [a, b] => evalAST σ a - evalAST σ b
  | _ => 0
end

/-- The reduced form of `n / d` in the words of the specification: with `g = gcd(n, d)`,
the Integer node `n / g` when `d / g = 1`, the Rational node `(n / g, d / g)` otherwise. -/
def reducedForm (n d : Int) : ASTNode :=
  let g : Int := (Int.gcd n d : Int)
  if d / g = 1 then integerNode (n / g) else rationalNode (n / g) (d / g)

/-- The value of an Integer literal, when the node is one. -/
def integerValue (t : ASTNode) : Option Int :=
  match t.kind with
  | .AST_INTEGER v => some v
  | _ => none

/-- The left child exists and is an Integer literal. -/
def leftIsInteger (t : ASTNode) : Bool :=
  match t.getLeftChild with
  | some l => l.isInteger
  | none => false

/-- The right child exists and is an Integer literal. -/
def rightIsInteger (t : ASTNode) : Bool :=
  match t.getRightChild with
  | some r => r.isInteger
  | none => false

/-- The right child exists and is a negative Integer literal. -/
def rightIsNegativeInteger (t : ASTNode) : Bool :=
  match t.getRightChild with
  | some r => r.isInteger && decide (r.getNumerator < 0)
  | none => false

/-- The right child exists and is a rational literal. -/
def rightIsRational (t : ASTNode) : Bool :=
  match t.getRightChild with
  | some r => r.isRational
  | none => false

/-- Shape (a) of the specification: an explicit rational literal. -/
def isRationalLiteral (t : ASTNode) : Bool :=
  t.isRational

/-- Shape (b) of the specification: a Divide node whose left and right child are Integer
literals. -/
def isDivideOfIntegers (t : ASTNode) : Bool :=
  decide (t.kind = .AST_DIVIDE) && leftIsInteger t && rightIsInteger t

/-- A power node (operator or function form) whose left child is an Integer literal and
whose right child is a negative Integer literal. -/
def isNegativeIntegerPower (t : ASTNode) : Bool :=
  (decide (t.kind = .AST_POWER) || decide (t.kind = .AST_FUNCTION_POWER))
    && leftIsInteger t && rightIsNegativeInteger t

/-- Shape (c) of the specification: a binary Times node whose left child is an Integer
literal and whose right child is a power of an Integer to a negative Integer. -/
def isTimesIntegerPower (t : ASTNode) : Bool :=
  decide (t.kind = .AST_TIMES) && decide (t.getNumChildren = 2) && leftIsInteger t
    && (match t.getRightChild with
        | some r => isNegativeIntegerPower r
        | none => false)

/-- Shape (d) of the specification: a binary Times node whose left child is an Integer
literal and whose right child is a rational literal. -/
def isTimesIntegerRational (t : ASTNode) : Bool :=
  decide (t.kind = .AST_TIMES) && decide (t.getNumChildren = 2) && leftIsInteger t
    && rightIsRational t

/-- The four syntactic shapes of the specification (section 4.2). -/
def fourShapes (t : ASTNode) : Bool :=
  isRationalLiteral t || isDivideOfIntegers t || isTimesIntegerPower t
    || isTimesIntegerRational t

/-- Numerator and denominator denoted by a power node in rational form:
`b ^ (-c)` is `1 / b ^ c`. -/
def powerFraction (t : ASTNode) : Option (Int × Int) :=
  match t.getLeftChild, t.getRightChild with
  | some l, some r =>
    match integerValue l, integerValue r with
    | some b, some e => if e < 0 then some (1, b ^ (-e).toNat) else none
    | _, _ => none
  | _, _ => none

/-- Numerator and denominator denoted by a tree in rational form, in the words of the
specification (section 4.2): a rational literal `n / d`, `Divide(n, d)`,
`Times(a, Power(b, -c))` read as `a / b ^ c`, `Times(a, Rational(p, q))` read as
`(a * p) / q`, and a bare power `b ^ (-c)` read as `1 / b ^ c`. -/
def fractionOf (t : ASTNode) : Option (Int × Int) :=
  match t.kind with
  | .AST_RATIONAL p q => some (p, q)
  | .AST_DIVIDE =>
    match t.getLeftChild, t.getRightChild with
    | some l, some r =>
      match integerValue l, integerValue r with
      | some n, some d => some (n, d)
      | _, _ => none
    | _, _ => none
  | .AST_TIMES =>
    if t.getNumChildren = 2 then
      match t.getLeftChild, t.getRightChild with
      | some l, some r =>
        match integerValue l with
        | some a =>
          match r.kind with
          | .AST_RATIONAL p q => some (a * p, q)
          | .AST_POWER => (powerFraction r).map (fun f => (a, f.2))
          | .AST_FUNCTION_POWER => (powerFraction r).map (fun f => (a, f.2))
          | _ => none
        | none => none
      | _, _ => none
    else none
  | .AST_POWER => powerFraction t
  | .AST_FUNCTION_POWER => powerFraction t
  | _ => none

/-- The integers that `reduceFraction` takes through `double` on a tree in rational form:
the two Integer literals of a Divide node; the Integer factor, the numerator of the
Rational operand and their product for `Times(a, Rational(p, q))`; the Integer factor, the
base, the exponent and the power `b ^ c` for `Times(a, Power(b, -c))`, and the last three
for a bare power.  A rational literal is read as two `long` values and has none. -/
def doubleOperands (t : ASTNode) : List Int :=
  match t.kind with
  | .AST_DIVIDE =>
    match t.getLeftChild, t.getRightChild with
    | some l, some r => [l.getNumerator, r.getNumerator]
    | _, _ => []
  | .AST_TIMES =>
    match t.getLeftChild, t.getRightChild with
    | some l, some r =>
      match r.kind with
      | .AST_RATIONAL p _ => [l.getNumerator, p, l.getNumerator * p]
      | _ =>
        match r.getLeftChild, r.getRightChild with
        | some b, some e =>
          [l.getNumerator, b.getNumerator, e.getNumerator,
            b.getNumerator ^ (-e.getNumerator).toNat]
        | _, _ => []
    | _, _ => []
  | .AST_POWER | .AST_FUNCTION_POWER =>
    match t.getLeftChild, t.getRightChild with
    | some b, some e =>
      [b.getNumerator, e.getNumerator, b.getNumerator ^ (-e.getNumerator).toNat]
    | _, _ => []
  | _ => []

mutual
/-- No Rational node with denominator zero occurs anywhere in the tree. -/
def noZeroDenominator : ASTNode → Bool
  | ASTNode.mk k cs =>
    match k with
    | .AST_RATIONAL _ q => decide (q ≠ 0) && noZeroDenominatorList cs
    | _ => noZeroDenominatorList cs
/-- No Rational node with denominator zero occurs in a sequence of trees. -/
def noZeroDenominatorList : List ASTNode → Bool
  | [] => true
  | c :: cs => noZeroDenominator c && noZeroDenominatorList cs
end

/-- The running derivative of the specification (section 4.7): `D_0 = f` and
`D_k = simplify (differentiate D_(k-1) x)`, defined as long as every step returns. -/
def derivativeSeq (f : ASTNode) (x : String) : Nat → Except Err ASTNode
  | 0 => .ok f
  | k + 1 => do
    let previous ← derivativeSeq f x k
    let derivative ← MathUtil.differentiate previous x
    MathUtil.simplify derivative

/-- The `k`-th term of the Taylor series in the words of the specification (section 4.7):
`Times(Divide(d[x := a], k!), Power(Minus(x, a), k))`, with `d` the `k`-th derivative,
the point and the factorial as Real literals and the exponent as an Integer literal. -/
def taylorTerm (x : String) (a : ℚ) (k : Nat) (d : ASTNode) : ASTNode :=
  ASTNode.mk .AST_TIMES
    [ASTNode.mk .AST_DIVIDE
      [MathUtil.replaceArgument x (realNode a) d, realNode (k.factorial : ℚ)],
     ASTNode.mk .AST_POWER
      [ASTNode.mk .AST_MINUS [nameNode x, realNode a], integerNode (k : Int)]]

/-- A natural number that a `double` holds exactly: `m * 2 ^ e` with a significand `m` of
at most 53 bits (the exponents met here are far below the largest one of the format). -/
def exactInDouble (v : Nat) : Prop :=
  ∃ m e : Nat, m < 2 ^ 53 ∧ v = m * 2 ^ e

/-- A value within the finite range of `double`: rounding it gives a finite `double`, of
magnitude below `2 ^ 1024`, and not an infinity. -/
def finiteDouble (q : ℚ) : Prop :=
  |toDouble q| < 2 ^ 1024

/-- A value that, when it is an integer, lies within the range of `int`. -/
def intRange (q : ℚ) : Prop :=
  ∀ m : Int, q = (m : ℚ) → -2 ^ 31 < m ∧ m < 2 ^ 31

/-- The second outcome continues the first: when the first one is a result, the second is
the same result.  It compares two runs of one function under different bounds on the
recursion depth. -/
def AgreesWhenOk {α : Type} (a b : Except Err α) : Prop :=
  ∀ r, a = .ok r → b = .ok r

/-- A binary operation applied to the values of exactly two children, zero otherwise. -/
def binaryValue (f : ℚ → ℚ → ℚ) : List ℚ → ℚ
  | [a, b] => f a b
  | _ => 0

/-- The Integer literal in exponent position of a power node, when there is one. -/
def integerExponent : List ASTNode → Option Int
  | [_, e] => integerValue e
  | _ => none

/-- The children are those of a square root: `Root(2, a)`. -/
def isSquareRoot : List ASTNode → Bool
  | [d, _] => decide (d.kind = .AST_INTEGER 2)
  | _ => false

mutual
/-- Value of a tree over the rationals, given the values of the variables and the two
functions that stand for the square root and the absolute value: literals denote
themselves, Plus and Times are the sum and the product of their children, a binary Minus
and Divide are difference and quotient, a Power with an Integer literal exponent is that
power, `Root(2, a)` is the square root and `Abs(a)` the absolute value.  Other trees are
given the value zero. -/
def evalNumeric (sqrt abs : ℚ → ℚ) (σ : String → ℚ) : ASTNode → ℚ
  | ASTNode.mk k cs =>
    match k with
    | .AST_INTEGER v => (v : ℚ)
    | .AST_REAL v => v
    | .AST_NAME s => σ s
    | .AST_PLUS => (evalNumericList sqrt abs σ cs).sum
    | .AST_TIMES => (evalNumericList sqrt abs σ cs).prod
    | .AST_MINUS => binaryValue (fun a b => a - b) (evalNumericList sqrt abs σ cs)
    | .AST_DIVIDE => binaryValue (fun a b => a / b) (evalNumericList sqrt abs σ cs)
    | .AST_POWER =>
      match integerExponent cs with
      | some n => binaryValue (fun a _ => a ^ n) (evalNumericList sqrt abs σ cs)
      | none => 0
    | .AST_FUNCTION_ROOT =>
      if isSquareRoot cs then
        binaryValue (fun _ a => sqrt a) (evalNumericList sqrt abs σ cs)
      else 0
    | .AST_FUNCTION_ABS =>
      match evalNumericList sqrt abs σ cs with
      | [a] => abs a
      | _ => 0
    | _ => 0
/-- Values of a sequence of trees. -/
def evalNumericList (sqrt abs : ℚ → ℚ) (σ : String → ℚ) : List ASTNode → List ℚ
  | [] => []
  | c :: cs => evalNumeric sqrt abs σ c :: evalNumericList sqrt abs σ cs
end

/-- Stirling's rewrite of `n!` in the words of the specification (section 4.4):
`Times(Root(2, Times(2, Pi, n)), Power(Divide(n, E), n))`. -/
def stirlingRewrite (n : ASTNode) : ASTNode :=
  ASTNode.mk .AST_TIMES
    [ASTNode.mk .AST_FUNCTION_ROOT
      [integerNode 2,
       ASTNode.mk .AST_TIMES [integerNode 2, ASTNode.mk .AST_CONSTANT_PI [], n]],
     ASTNode.mk .AST_POWER [ASTNode.mk .AST_DIVIDE [n, ASTNode.mk .AST_CONSTANT_E []], n]]

mutual
/-- No node other than a Plus or Times node has more than two children: the trees whose
binary form (`reduceToBinary`) has at most two children at every node. -/
def binaryArity : ASTNode → Bool
  | ASTNode.mk k cs =>
    (decide (cs.length ≤ 2) || decide (k = .AST_PLUS) || decide (k = .AST_TIMES))
      && binaryArityList cs
/-- Every tree of the sequence satisfies `binaryArity`. -/
def binaryArityList : List ASTNode → Bool
  | [] => true
  | c :: cs => binaryArity c && binaryArityList cs
end

/-- The derivative of Stirling's rewrite of `m!` spelled out, with `dm` standing for the
derivative of `m`: the tree that the product, root, power and quotient rules of
`differentiate` build on `Times(Root(2, Times(2, Times(Pi, m))), Power(Divide(m, E), m))`
when the variable occurs in `m`. -/
def stirlingDerivative (m dm : ASTNode) : ASTNode :=
  ASTNode.mk .AST_PLUS
    [ASTNode.mk .AST_TIMES
      [ASTNode.mk .AST_PLUS
        [ASTNode.mk .AST_TIMES
          [ASTNode.mk .AST_DIVIDE [integerNode 1, integerNode 2],
           ASTNode.mk .AST_TIMES
            [ASTNode.mk .AST_POWER
              [ASTNode.mk .AST_TIMES
                [integerNode 2, ASTNode.mk .AST_TIMES [ASTNode.mk .AST_CONSTANT_PI [], m]],
               ASTNode.mk .AST_MINUS
                [ASTNode.mk .AST_DIVIDE [integerNode 1, integerNode 2], integerNode 1]],
             ASTNode.mk .AST_PLUS
              [ASTNode.mk .AST_TIMES
                [integerNode 0, ASTNode.mk .AST_TIMES [ASTNode.mk .AST_CONSTANT_PI [], m]],
               ASTNode.mk .AST_TIMES
                [integerNode 2,
                 ASTNode.mk .AST_PLUS
                  [ASTNode.mk .AST_TIMES [integerNode 0, m],
                   ASTNode.mk .AST_TIMES [ASTNode.mk .AST_CONSTANT_PI [], dm]]]]]],
         ASTNode.mk .AST_TIMES
          [ASTNode.mk .AST_POWER
            [ASTNode.mk .AST_TIMES
              [integerNode 2, ASTNode.mk .AST_TIMES [ASTNode.mk .AST_CONSTANT_PI [], m]],
             ASTNode.mk .AST_DIVIDE [integerNode 1, integerNode 2]],
           ASTNode.mk .AST_TIMES
            [ASTNode.mk .AST_FUNCTION_LN
              [ASTNode.mk .AST_TIMES
                [integerNode 2, ASTNode.mk .AST_TIMES [ASTNode.mk .AST_CONSTANT_PI [], m]]],
             integerNode 0]]],
       ASTNode.mk .AST_POWER [ASTNode.mk .AST_DIVIDE [m, ASTNode.mk .AST_CONSTANT_E []], m]],
     ASTNode.mk .AST_TIMES
      [ASTNode.mk .AST_FUNCTION_ROOT
        [integerNode 2,
         ASTNode.mk .AST_TIMES
          [integerNode 2, ASTNode.mk .AST_TIMES [ASTNode.mk .AST_CONSTANT_PI [], m]]],
       ASTNode.mk .AST_PLUS
        [ASTNode.mk .AST_TIMES
          [m,
           ASTNode.mk .AST_TIMES
            [ASTNode.mk .AST_POWER
              [ASTNode.mk .AST_DIVIDE [m, ASTNode.mk .AST_CONSTANT_E []],
               ASTNode.mk .AST_MINUS [m, integerNode 1]],
             ASTNode.mk .AST_DIVIDE [dm, ASTNode.mk .AST_CONSTANT_E []]]],
         ASTNode.mk .AST_TIMES
          [ASTNode.mk .AST_POWER [ASTNode.mk .AST_DIVIDE [m, ASTNode.mk .AST_CONSTANT_E []], m],
           ASTNode.mk .AST_TIMES
            [ASTNode.mk .AST_FUNCTION_LN
              [ASTNode.mk .AST_DIVIDE [m, ASTNode.mk .AST_CONSTANT_E []]],
             dm]]]]]

mutual
/-- The leaf nodes of a tree, from left to right: the kinds (with their literal value or
name) of the nodes without children. -/
def leaves : ASTNode → List Kind
  | ASTNode.mk k cs => if cs.isEmpty then [k] else leavesList cs
/-- The leaf nodes of a sequence of trees. -/
def leavesList : List ASTNode → List Kind
  | [] => []
  | c :: cs => leaves c ++ leavesList cs
end

/-- No tree of the sequence has the kind `k`. -/
def noChildOfKind (k : Kind) (cs : List ASTNode) : Bool :=
  cs.all (fun c => decide (c.kind ≠ k))

mutual
/-- Flat trees: nowhere in the tree has a Plus node a Plus node as a direct child or a
Times node a Times node as a direct child. -/
def flat : ASTNode → Bool
  | ASTNode.mk k cs =>
    match k with
    | .AST_PLUS => noChildOfKind .AST_PLUS cs && flatList cs
    | .AST_TIMES => noChildOfKind .AST_TIMES cs && flatList cs
    | _ => flatList cs
/-- Every tree of the sequence is flat. -/
def flatList : List ASTNode → Bool
  | [] => true
  | c :: cs => flat c && flatList cs
end

mutual
/-- Trees built from Plus, Times, Minus and Power operator nodes over subtrees that are
neither operator nor piecewise nodes and are flat already (literals and names, for
instance).  A Divide node is not among them. -/
def flattenScope : ASTNode → Bool
  | ASTNode.mk k cs =>
    match k with
    | .AST_PLUS => flattenScopeList cs
    | .AST_TIMES => flattenScopeList cs
    | .AST_MINUS => flattenScopeList cs
    | .AST_POWER => flattenScopeList cs
    | .AST_DIVIDE => false
    | .AST_FUNCTION_PIECEWISE => false
    | _ => flatList cs
/-- Every tree of the sequence is in the scope. -/
def flattenScopeList : List ASTNode → Bool
  | [] => true
  | c :: cs => flattenScope c && flattenScopeList cs
end

/-- Trees built only from Integer literals, Real literals that hold an integer, variables
and binary Plus, Minus and Times nodes: the results of the legacy simplifier on the trees
of `PolyTree` are of this form. -/
inductive PolyForm : ASTNode → Prop where
  | integer (v : Int) : PolyForm (integerNode v)
  | real (v : Int) : PolyForm (realNode (v : ℚ))
  | var (s : String) : PolyForm (nameNode s)
  | plus {a b : ASTNode} : PolyForm a → PolyForm b → PolyForm (ASTNode.mk .AST_PLUS [a, b])
  | minus {a b : ASTNode} : PolyForm a → PolyForm b → PolyForm (ASTNode.mk .AST_MINUS [a, b])
  | times {a b : ASTNode} : PolyForm a → PolyForm b → PolyForm (ASTNode.mk .AST_TIMES [a, b])

mutual
/-- The magnitude of a tree: the number obtained from it when every literal stands for its
absolute value, but at least `1`, every variable stands for `1`, Plus and Minus stand for
the sum and Times stands for the product.  No sum, difference or product of literals of the
tree exceeds it in absolute value. -/
def magnitude : ASTNode → Nat
  | ASTNode.mk k cs =>
    match k with
    | .AST_INTEGER v => max v.natAbs 1
    | .AST_REAL v => max (⌈|v|⌉).natAbs 1
    | .AST_PLUS => magnitudeSum cs
    | .AST_MINUS => magnitudeSum cs
    | .AST_TIMES => magnitudeProduct cs
    | _ => 1
/-- The sum of the magnitudes of a sequence of trees. -/
def magnitudeSum : List ASTNode → Nat
  | [] => 0
  | c :: cs => magnitude c + magnitudeSum cs
/-- The product of the magnitudes of a sequence of trees. -/
def magnitudeProduct : List ASTNode → Nat
  | [] => 1
  | c :: cs => magnitude c * magnitudeProduct cs
end

/-! ## Theorems -/

namespace MathUtil

open ASTNodeUtil


theorem roundHalfEven_intCast (z : Int) : roundHalfEven (z : ℚ) = z := by
  unfold roundHalfEven
  rw [Int.floor_intCast]
  simp

theorem floor_le_roundHalfEven (q : ℚ) : ⌊q⌋ ≤ roundHalfEven q := by
  unfold roundHalfEven
  split_ifs <;> omega

theorem roundHalfEven_le_of_le_intCast (q : ℚ) (N : Int) (h : q ≤ (N : ℚ)) :
    roundHalfEven q ≤ N := by
  have hf : ⌊q⌋ ≤ N := Int.floor_le_floor h |>.trans_eq (Int.floor_intCast N)
  have hlt : q - (⌊q⌋ : ℚ) ≠ 0 → ⌊q⌋ + 1 ≤ N := by
    intro hne
    have h1 : (⌊q⌋ : ℚ) < q := lt_of_le_of_ne (Int.floor_le q) (fun e => hne (by rw [e]; ring))
    have h2 : (⌊q⌋ : ℚ) < (N : ℚ) := lt_of_lt_of_le h1 h
    have h3 : ⌊q⌋ < N := by exact_mod_cast h2
    omega
  unfold roundHalfEven
  split_ifs with h1 h2 h3
  · exact hf
  · exact hlt (by intro e; rw [e] at h2; norm_num at h2)
  · exact hf
  · exact hlt (by intro e; rw [e] at h1; norm_num at h1)

theorem log_two_eq (q : ℚ) (e : Int) (h0 : (2 : ℚ) ^ e ≤ q) (h1 : q < (2 : ℚ) ^ (e + 1)) :
    Int.log 2 q = e := by
  have hq : 0 < q := lt_of_lt_of_le (by positivity) h0
  have a : e ≤ Int.log 2 q := (Int.zpow_le_iff_le_log (by norm_num) hq).mp (by exact_mod_cast h0)
  have b : Int.log 2 q < e + 1 :=
    (Int.lt_zpow_iff_log_lt (by norm_num) hq).mp (by exact_mod_cast h1)
  omega

theorem log_two_bounds (q : ℚ) (hq : 0 < q) :
    (2 : ℚ) ^ (Int.log 2 q) ≤ q ∧ q < (2 : ℚ) ^ (Int.log 2 q + 1) := by
  constructor
  · have := Int.zpow_log_le_self (b := 2) (r := q) (by norm_num) hq
    exact_mod_cast this
  · have := Int.lt_zpow_succ_log_self (b := 2) (by norm_num) q
    exact_mod_cast this

theorem roundBinary64_eq (q : ℚ) (e : Int) (h0 : (2 : ℚ) ^ e ≤ q) (h1 : q < (2 : ℚ) ^ (e + 1))
    (he : -1022 ≤ e) :
    roundBinary64 q = (roundHalfEven (q / (2 : ℚ) ^ (e - 52)) : ℚ) * (2 : ℚ) ^ (e - 52) := by
  unfold roundBinary64
  rw [log_two_eq q e h0 h1, max_eq_left he]

/-- A positive multiple `N * 2 ^ j` of a power of two with `N ≤ 2 ^ 53` and `j ≥ -1074` is
a binary64 value: rounding leaves it as it is. -/
theorem roundBinary64_fixed (N : Nat) (j : Int) (hN : 0 < N) (hN2 : N ≤ 2 ^ 53)
    (hj : -1074 ≤ j) : roundBinary64 ((N : ℚ) * (2 : ℚ) ^ j) = (N : ℚ) * (2 : ℚ) ^ j := by
  have h2 : (0 : ℚ) < 2 := by norm_num
  have hq : (0 : ℚ) < (N : ℚ) * (2 : ℚ) ^ j := by positivity
  obtain ⟨hl0, hl1⟩ := log_two_bounds _ hq
  set L := Int.log 2 ((N : ℚ) * (2 : ℚ) ^ j) with hL
  unfold roundBinary64
  rw [← hL]
  set e := max L (-1022) with he
  have key : ∃ M : Int, (N : ℚ) * (2 : ℚ) ^ j / (2 : ℚ) ^ (e - 52) = (M : ℚ) := by
    by_cases hc : e - 52 ≤ j
    · obtain ⟨k, hk⟩ : ∃ k : Nat, j - (e - 52) = (k : Int) := ⟨(j - (e - 52)).toNat, by omega⟩
      refine ⟨(N : Int) * 2 ^ k, ?_⟩
      have : (2 : ℚ) ^ j = (2 : ℚ) ^ (e - 52) * (2 : ℚ) ^ (k : Int) := by
        rw [← zpow_add₀ (by norm_num : (2 : ℚ) ≠ 0), ← hk]
        congr 1
        omega
      rw [this]
      field_simp
      ring
    · have hc1 : j + 52 < e := by omega
      have heL : e = L := by
        rw [he]
        apply max_eq_left
        by_contra hh
        rw [he, max_eq_right (by omega)] at hc1
        omega
      have hpow : (2 : ℚ) ^ (j + 53) ≤ (N : ℚ) * (2 : ℚ) ^ j := by
        refine le_trans ?_ hl0
        apply zpow_le_zpow_right₀ (by norm_num)
        omega
      have hN3 : ((2 : ℚ) ^ (53 : Nat)) ≤ (N : ℚ) := by
        have h3 : (2 : ℚ) ^ (j + 53) = (2 : ℚ) ^ (53 : Nat) * (2 : ℚ) ^ j := by
          rw [zpow_add₀ (by norm_num : (2 : ℚ) ≠ 0), mul_comm]
          norm_cast
        rw [h3] at hpow
        exact le_of_mul_le_mul_right hpow (by positivity)
      have hN4 : N = 2 ^ 53 := by
        have : (2 ^ 53 : Nat) ≤ N := by exact_mod_cast hN3
        omega
      have hq2 : (N : ℚ) * (2 : ℚ) ^ j = (2 : ℚ) ^ (j + 53) := by
        rw [hN4, zpow_add₀ (by norm_num : (2 : ℚ) ≠ 0), mul_comm]
        norm_cast
      have hL2 : L = j + 53 := by
        rw [hL, hq2]
        apply log_two_eq
        · exact le_refl _
        · apply zpow_lt_zpow_right₀ (by norm_num)
          omega
      refine ⟨2 ^ 52, ?_⟩
      rw [hq2, heL, hL2, ← zpow_sub₀ (by norm_num : (2 : ℚ) ≠ 0)]
      have : j + 53 - (j + 53 - 52) = (52 : Nat) := by omega
      rw [this]
      norm_cast
  obtain ⟨M, hM⟩ := key
  rw [hM, roundHalfEven_intCast, ← hM]
  field_simp

/-- Rounding a positive rational does not go below a power of two that lies below it. -/
theorem roundBinary64_ge_zpow (q : ℚ) (k : Int) (hk : -1022 ≤ k) (h : (2 : ℚ) ^ k ≤ q) :
    (2 : ℚ) ^ k ≤ roundBinary64 q := by
  have hq : 0 < q := lt_of_lt_of_le (by positivity) h
  obtain ⟨hl0, hl1⟩ := log_two_bounds _ hq
  have hkL : k ≤ Int.log 2 q :=
    (Int.zpow_le_iff_le_log (by norm_num) hq).mp (by exact_mod_cast h)
  unfold roundBinary64
  rw [max_eq_left (by omega)]
  set L := Int.log 2 q
  have hm : ((2 : ℚ) ^ (52 : Nat)) ≤ q / (2 : ℚ) ^ (L - 52) := by
    rw [le_div_iff₀ (by positivity)]
    calc (2 : ℚ) ^ (52 : Nat) * (2 : ℚ) ^ (L - 52) = (2 : ℚ) ^ L := by
          rw [← zpow_natCast, ← zpow_add₀ (by norm_num : (2 : ℚ) ≠ 0)]
          congr 1
          push_cast
          ring
      _ ≤ q := hl0
  have hfl : (2 ^ 52 : Int) ≤ ⌊q / (2 : ℚ) ^ (L - 52)⌋ := by
    apply Int.le_floor.mpr
    push_cast
    exact_mod_cast hm
  have hr := floor_le_roundHalfEven (q / (2 : ℚ) ^ (L - 52))
  have hr2 : ((2 : ℚ) ^ (52 : Nat)) ≤ (roundHalfEven (q / (2 : ℚ) ^ (L - 52)) : ℚ) := by
    have : (2 ^ 52 : Int) ≤ roundHalfEven (q / (2 : ℚ) ^ (L - 52)) := le_trans hfl hr
    exact_mod_cast this
  calc (2 : ℚ) ^ k ≤ (2 : ℚ) ^ L := zpow_le_zpow_right₀ (by norm_num) hkL
    _ = (2 : ℚ) ^ (52 : Nat) * (2 : ℚ) ^ (L - 52) := by
          rw [← zpow_natCast, ← zpow_add₀ (by norm_num : (2 : ℚ) ≠ 0)]
          congr 1
          push_cast
          ring
    _ ≤ _ := mul_le_mul_of_nonneg_right hr2 (by positivity)

theorem toDouble_zero : toDouble 0 = 0 := by
  simp [toDouble]

theorem toDouble_neg (x : ℚ) : toDouble (-x) = -toDouble x := by
  unfold toDouble
  rcases lt_trichotomy x 0 with h | h | h
  · have h1 : ¬ (-x = 0) := by intro e; linarith
    have h2 : 0 < -x := by linarith
    have h3 : ¬ (x = 0) := ne_of_lt h
    have h4 : ¬ (0 < x) := not_lt.mpr h.le
    simp only [h1, h2, h3, h4, if_true, if_false, neg_neg]
  · subst h
    simp
  · have h1 : ¬ (-x = 0) := by intro e; linarith
    have h2 : ¬ (0 < -x) := by intro e; linarith
    have h3 : ¬ (x = 0) := ne_of_gt h
    simp only [h1, h2, h3, h, if_true, if_false, neg_neg]

theorem toDouble_of_pos (q : ℚ) (h : 0 < q) : toDouble q = roundBinary64 q := by
  unfold toDouble
  rw [if_neg (ne_of_gt h), if_pos h]

/-- The values `z * 2 ^ j` with `|z| ≤ 2 ^ 53` and `j ≥ -1074` are binary64 values. -/
theorem toDouble_dyadic (z : Int) (j : Int) (hz : z.natAbs ≤ 2 ^ 53) (hj : -1074 ≤ j) :
    toDouble ((z : ℚ) * (2 : ℚ) ^ j) = (z : ℚ) * (2 : ℚ) ^ j := by
  rcases lt_trichotomy z 0 with h | h | h
  · have hp : (0 : ℚ) < ((z.natAbs : Nat) : ℚ) * (2 : ℚ) ^ j := by
      have : 0 < z.natAbs := Int.natAbs_pos.mpr (ne_of_lt h)
      positivity
    have e : (z : ℚ) = -((z.natAbs : Nat) : ℚ) := by
      have : (z : Int) = -((z.natAbs : Nat) : Int) := by omega
      exact_mod_cast this
    rw [e, neg_mul, toDouble_neg, toDouble_of_pos _ hp,
      roundBinary64_fixed _ j (Int.natAbs_pos.mpr (ne_of_lt h)) hz hj]
  · subst h
    simp [toDouble_zero]
  · have hp : (0 : ℚ) < ((z.natAbs : Nat) : ℚ) * (2 : ℚ) ^ j := by
      have : 0 < z.natAbs := Int.natAbs_pos.mpr (ne_of_gt h)
      positivity
    have e : (z : ℚ) = ((z.natAbs : Nat) : ℚ) := by
      rw [← Int.cast_natCast, Int.natAbs_of_nonneg h.le]
    rw [e, toDouble_of_pos _ hp,
      roundBinary64_fixed _ j (Int.natAbs_pos.mpr (ne_of_gt h)) hz hj]

/-- Integers of magnitude at most `2 ^ 53` are binary64 values. -/
theorem toDouble_intCast (z : Int) (hz : z.natAbs ≤ 2 ^ 53) : toDouble (z : ℚ) = z := by
  have := toDouble_dyadic z 0 hz (by norm_num)
  simpa using this

theorem roundBinary64_shape (q : ℚ) (hq : 0 < q) :
    ∃ (N : Nat) (j : Int), N ≤ 2 ^ 53 ∧ -1074 ≤ j ∧ roundBinary64 q = (N : ℚ) * (2 : ℚ) ^ j := by
  obtain ⟨hl0, hl1⟩ := log_two_bounds _ hq
  set L := Int.log 2 q with hL
  set e := max L (-1022) with he
  have hm0 : 0 ≤ q / (2 : ℚ) ^ (e - 52) := by positivity
  have hm1 : q / (2 : ℚ) ^ (e - 52) ≤ ((2 ^ 53 : Int) : ℚ) := by
    rw [div_le_iff₀ (by positivity)]
    have : q < (2 : ℚ) ^ (e + 1) :=
      lt_of_lt_of_le hl1 (zpow_le_zpow_right₀ (by norm_num) (by omega))
    have e2 : (((2 : Int) ^ 53 : Int) : ℚ) * (2 : ℚ) ^ (e - 52) = (2 : ℚ) ^ (e + 1) := by
      push_cast
      have e3 : (9007199254740992 : ℚ) = (2 : ℚ) ^ (53 : Int) := by norm_num
      rw [e3, ← zpow_add₀ (by norm_num : (2 : ℚ) ≠ 0)]
      congr 1
      ring
    rw [e2]
    exact this.le
  have hr1 := roundHalfEven_le_of_le_intCast _ _ hm1
  have hr0 : 0 ≤ roundHalfEven (q / (2 : ℚ) ^ (e - 52)) :=
    le_trans (Int.floor_nonneg.mpr hm0) (floor_le_roundHalfEven _)
  refine ⟨(roundHalfEven (q / (2 : ℚ) ^ (e - 52))).toNat, e - 52, ?_, by omega, ?_⟩
  · omega
  · unfold roundBinary64
    rw [← hL, ← he]
    congr 1
    have : ((roundHalfEven (q / (2 : ℚ) ^ (e - 52))).toNat : Int)
        = roundHalfEven (q / (2 : ℚ) ^ (e - 52)) := Int.toNat_of_nonneg hr0
    exact_mod_cast this.symm

theorem roundBinary64_nonneg (q : ℚ) (hq : 0 < q) : 0 ≤ roundBinary64 q := by
  obtain ⟨N, j, -, -, h⟩ := roundBinary64_shape q hq
  rw [h]
  positivity

theorem toDouble_roundBinary64 (q : ℚ) (hq : 0 < q) :
    toDouble (roundBinary64 q) = roundBinary64 q := by
  obtain ⟨N, j, hN, hj, h⟩ := roundBinary64_shape q hq
  rw [h]
  have := toDouble_dyadic (N : Int) j (by simpa using hN) hj
  simpa using this

/-- Rounding is idempotent: the result of a rounding is a binary64 value. -/
theorem toDouble_idem (x : ℚ) : toDouble (toDouble x) = toDouble x := by
  rcases lt_trichotomy x 0 with h | h | h
  · have hx : toDouble x = -roundBinary64 (-x) := by
      have := toDouble_neg (-x)
      rw [neg_neg] at this
      rw [this, toDouble_of_pos _ (by linarith)]
    rw [hx, toDouble_neg, toDouble_roundBinary64 _ (by linarith)]
  · subst h
    simp [toDouble_zero]
  · rw [toDouble_of_pos _ h, toDouble_roundBinary64 _ h]

theorem toDouble_nonneg (x : ℚ) (h : 0 ≤ x) : 0 ≤ toDouble x := by
  rcases eq_or_lt_of_le h with e | e
  · rw [← e, toDouble_zero]
  · rw [toDouble_of_pos _ e]
    exact roundBinary64_nonneg _ e

theorem toDouble_nonpos (x : ℚ) (h : x ≤ 0) : toDouble x ≤ 0 := by
  have := toDouble_nonneg (-x) (by linarith)
  rw [toDouble_neg] at this
  linarith

/-- Rounding does not cross a power of two from above. -/
theorem toDouble_ge_zpow (q : ℚ) (k : Int) (hk : -1022 ≤ k) (h : (2 : ℚ) ^ k ≤ q) :
    (2 : ℚ) ^ k ≤ toDouble q := by
  have hq : 0 < q := lt_of_lt_of_le (by positivity) h
  rw [toDouble_of_pos _ hq]
  exact roundBinary64_ge_zpow q k hk h

theorem toDouble_ge_one (q : ℚ) (h : 1 ≤ q) : 1 ≤ toDouble q := by
  have := toDouble_ge_zpow q 0 (by norm_num) (by simpa using h)
  simpa using this

theorem toDouble_le_neg_one (q : ℚ) (h : q ≤ -1) : toDouble q ≤ -1 := by
  have := toDouble_ge_one (-q) (by linarith)
  rw [toDouble_neg] at this
  linarith

theorem toDouble_intCast_eq_zero (z : Int) : toDouble (z : ℚ) = 0 ↔ z = 0 := by
  constructor
  · intro h
    by_contra hz
    rcases lt_or_gt_of_ne hz with h1 | h1
    · have : (z : ℚ) ≤ -1 := by exact_mod_cast (by omega : z ≤ -1)
      have := toDouble_le_neg_one _ this
      linarith
    · have : (1 : ℚ) ≤ (z : ℚ) := by exact_mod_cast (by omega : 1 ≤ z)
      have := toDouble_ge_one _ this
      linarith
  · rintro rfl
    simp [toDouble_zero]

theorem toDouble_intCast_pos (z : Int) : 0 < toDouble (z : ℚ) ↔ 0 < z := by
  constructor
  · intro h
    by_contra hz
    have : (z : ℚ) ≤ 0 := by exact_mod_cast (by omega : z ≤ 0)
    have := toDouble_nonpos _ this
    linarith
  · intro h
    have : (1 : ℚ) ≤ (z : ℚ) := by exact_mod_cast (by omega : 1 ≤ z)
    have := toDouble_ge_one _ this
    linarith

theorem toDouble_intCast_neg (z : Int) : toDouble (z : ℚ) < 0 ↔ z < 0 := by
  constructor
  · intro h
    by_contra hz
    have : (0 : ℚ) ≤ (z : ℚ) := by exact_mod_cast (by omega : 0 ≤ z)
    have := toDouble_nonneg _ this
    linarith
  · intro h
    have : (z : ℚ) ≤ -1 := by exact_mod_cast (by omega : z ≤ -1)
    have := toDouble_le_neg_one _ this
    linarith

theorem toDouble_intCast_eq_one (z : Int) : toDouble (z : ℚ) = 1 ↔ z = 1 := by
  constructor
  · intro h
    have hp : 0 < z := (toDouble_intCast_pos z).mp (by rw [h]; norm_num)
    by_contra hz
    have h2 : (2 : ℚ) ^ (1 : Int) ≤ (z : ℚ) := by
      have : (2 : Int) ≤ z := by omega
      have : (2 : ℚ) ≤ (z : ℚ) := by exact_mod_cast this
      simpa using this
    have := toDouble_ge_zpow _ 1 (by norm_num) h2
    rw [h] at this
    norm_num at this
  · rintro rfl
    have := toDouble_intCast 1 (by norm_num)
    simpa using this

theorem toDouble_natCast (n : Nat) (h : n ≤ 2 ^ 53) : toDouble (n : ℚ) = n := by
  have := toDouble_intCast (n : Int) (by simpa using h)
  simpa using this

@[simp]
theorem toDouble_one : toDouble 1 = 1 := by
  have := toDouble_natCast 1 (by norm_num)
  simpa using this

@[simp]
theorem toDouble_zero_eq : toDouble 0 = 0 := toDouble_zero

@[simp]
theorem toDouble_ofNat (n : Nat) [n.AtLeastTwo] (h : n ≤ 2 ^ 53) :
    toDouble (no_index (OfNat.ofNat n) : ℚ) = OfNat.ofNat n := by
  have := toDouble_natCast n h
  simpa using this

@[simp]
theorem toDouble_neg_eq (x : ℚ) : toDouble (-x) = -toDouble x := toDouble_neg x

/-- The value of a literal is a binary64 value. -/
theorem toDouble_getValue (n : ASTNode) : toDouble n.getValue = n.getValue := by
  obtain ⟨k, cs⟩ := n
  cases k <;> simp only [getValue, ASTNode.kind, toDouble_zero, toDouble_idem]
  split
  · exact toDouble_zero
  · exact toDouble_idem _


@[simp]
theorem toDouble_inv_two : toDouble (2⁻¹ : ℚ) = 2⁻¹ := by
  have := toDouble_dyadic 1 (-1) (by norm_num) (by norm_num)
  simpa using this

theorem toDouble_five_halves : toDouble (5 / 2 : ℚ) = 5 / 2 := by
  have := toDouble_dyadic 5 (-1) (by norm_num) (by norm_num)
  have e : ((5 : Int) : ℚ) * (2 : ℚ) ^ (-1 : Int) = 5 / 2 := by norm_num
  rwa [e] at this
theorem roundHalfEven_le_floor_add_one (q : ℚ) : roundHalfEven q ≤ ⌊q⌋ + 1 := by
  unfold roundHalfEven
  split_ifs <;> omega

theorem roundHalfEven_mono (p q : ℚ) (h : p ≤ q) : roundHalfEven p ≤ roundHalfEven q := by
  have hf : ⌊p⌋ ≤ ⌊q⌋ := Int.floor_le_floor h
  rcases hf.lt_or_eq with hlt | heq
  · calc roundHalfEven p ≤ ⌊p⌋ + 1 := roundHalfEven_le_floor_add_one p
      _ ≤ ⌊q⌋ := hlt
      _ ≤ roundHalfEven q := floor_le_roundHalfEven q
  · have hd : p - (⌊p⌋ : ℚ) ≤ q - (⌊q⌋ : ℚ) := by rw [heq]; linarith
    unfold roundHalfEven
    rw [heq]
    rw [heq] at hd
    split_ifs <;> first | omega | (exfalso; linarith)

theorem roundBinary64_le_zpow (q : ℚ) (hq : 0 < q) :
    roundBinary64 q ≤ (2 : ℚ) ^ (max (Int.log 2 q) (-1022) + 1) := by
  obtain ⟨hl0, hl1⟩ := log_two_bounds _ hq
  unfold roundBinary64
  set E := max (Int.log 2 q) (-1022)
  have hE : Int.log 2 q ≤ E := le_max_left _ _
  have hq2 : q < (2 : ℚ) ^ (E + 1) :=
    lt_of_lt_of_le hl1 (zpow_le_zpow_right₀ (by norm_num) (by omega))
  have e1 : (2 : ℚ) ^ (E + 1) = (2 : ℚ) ^ (53 : Nat) * (2 : ℚ) ^ (E - 52) := by
    rw [← zpow_natCast, ← zpow_add₀ (by norm_num : (2 : ℚ) ≠ 0)]
    congr 1
    push_cast
    ring
  have hm : q / (2 : ℚ) ^ (E - 52) ≤ (((2 ^ 53 : Int)) : ℚ) := by
    rw [div_le_iff₀ (by positivity)]
    push_cast
    rw [e1] at hq2
    exact_mod_cast hq2.le
  have hr := roundHalfEven_le_of_le_intCast _ _ hm
  have hr2 : (roundHalfEven (q / (2 : ℚ) ^ (E - 52)) : ℚ) ≤ (2 : ℚ) ^ (53 : Nat) := by
    exact_mod_cast hr
  rw [e1]
  exact mul_le_mul_of_nonneg_right hr2 (by positivity)

theorem roundBinary64_mono (a b : ℚ) (ha : 0 < a) (h : a ≤ b) :
    roundBinary64 a ≤ roundBinary64 b := by
  have hb : 0 < b := lt_of_lt_of_le ha h
  have hlog : Int.log 2 a ≤ Int.log 2 b := Int.log_mono_right ha h
  have hE : max (Int.log 2 a) (-1022) ≤ max (Int.log 2 b) (-1022) := max_le_max hlog le_rfl
  rcases hE.lt_or_eq with hlt | heq
  · have hbL : max (Int.log 2 b) (-1022) = Int.log 2 b := by
      apply max_eq_left
      by_contra hc
      push_neg at hc
      rw [max_eq_right hc.le] at hlt
      have := le_max_right (Int.log 2 a) (-1022)
      omega
    rw [hbL] at hlt
    calc roundBinary64 a ≤ (2 : ℚ) ^ (max (Int.log 2 a) (-1022) + 1) :=
          roundBinary64_le_zpow a ha
      _ ≤ (2 : ℚ) ^ (Int.log 2 b) := zpow_le_zpow_right₀ (by norm_num) (by omega)
      _ ≤ roundBinary64 b := by
          apply roundBinary64_ge_zpow
          · have := le_max_right (Int.log 2 a) (-1022)
            omega
          · exact (log_two_bounds b hb).1
  · unfold roundBinary64
    rw [heq]
    apply mul_le_mul_of_nonneg_right _ (by positivity)
    have := roundHalfEven_mono (a / (2 : ℚ) ^ (max (Int.log 2 b) (-1022) - 52))
      (b / (2 : ℚ) ^ (max (Int.log 2 b) (-1022) - 52))
      (div_le_div_of_nonneg_right h (by positivity))
    exact_mod_cast this

/-- Rounding to binary64 is monotone. -/
theorem toDouble_mono (a b : ℚ) (h : a ≤ b) : toDouble a ≤ toDouble b := by
  rcases lt_trichotomy a 0 with ha | ha | ha
  · rcases lt_or_le b 0 with hb | hb
    · have e1 : a = -(-a) := by ring
      have e2 : b = -(-b) := by ring
      rw [e1, e2, toDouble_neg, toDouble_neg (-b), toDouble_of_pos _ (by linarith),
        toDouble_of_pos _ (by linarith)]
      have := roundBinary64_mono (-b) (-a) (by linarith) (by linarith)
      linarith
    · exact le_trans (toDouble_nonpos a ha.le) (toDouble_nonneg b hb)
  · rw [ha, toDouble_zero]
    exact toDouble_nonneg b (by rw [← ha]; exact h)
  · rw [toDouble_of_pos a ha, toDouble_of_pos b (lt_of_lt_of_le ha h)]
    exact roundBinary64_mono a b ha h

theorem intCast_le_toDouble (z : Int) (q : ℚ) (hz : z.natAbs ≤ 2 ^ 53) (h : (z : ℚ) ≤ q) :
    (z : ℚ) ≤ toDouble q := by
  rw [← toDouble_intCast z hz]
  exact toDouble_mono _ _ h

theorem toDouble_le_intCast (z : Int) (q : ℚ) (hz : z.natAbs ≤ 2 ^ 53) (h : q ≤ (z : ℚ)) :
    toDouble q ≤ (z : ℚ) := by
  rw [← toDouble_intCast z hz]
  exact toDouble_mono _ _ h

/-- Rounding of a value in the binade of `2 ^ 53`, where the spacing of binary64 is 2. -/
theorem toDouble_binade_53 (q : ℚ) (h0 : (2 : ℚ) ^ (53 : Int) ≤ q)
    (h1 : q < (2 : ℚ) ^ (54 : Int)) : toDouble q = (roundHalfEven (q / 2) : ℚ) * 2 := by
  have hq : 0 < q := lt_of_lt_of_le (by positivity) h0
  rw [toDouble_of_pos q hq, roundBinary64_eq q 53 h0 (by simpa using h1) (by decide)]
  norm_num

/-- The tie `2 ^ 53 + 1` rounds to the even neighbour `2 ^ 53`. -/
theorem toDouble_two_pow_53_add_one :
    toDouble ((9007199254740994 : ℚ) - 1) = 9007199254740992 := by
  rw [toDouble_binade_53 _ (by norm_num) (by norm_num)]
  have e : ((9007199254740994 : ℚ) - 1) / 2 = (4503599627370496 : ℚ) + 1 / 2 := by norm_num
  have hf : ⌊((9007199254740994 : ℚ) - 1) / 2⌋ = 4503599627370496 := by
    rw [e, Int.floor_eq_iff]
    constructor <;> norm_num
  have hr : roundHalfEven (((9007199254740994 : ℚ) - 1) / 2) = 4503599627370496 := by
    unfold roundHalfEven
    rw [hf, e]
    norm_num
  rw [hr]
  norm_num

theorem differentiateFuel_constant (fuel : Nat) (t : ASTNode) (x : String)
    (h : containsTarget (reduceToBinary t) x = false) :
    differentiateFuel (fuel + 1) t x = .ok (integerNode 0) := by
  rw [differentiateFuel]
  simp only [h, if_true]

mutual
theorem containsTarget_occurs (x : String) :
    ∀ t : ASTNode, containsTarget t x = true → occurs x t = true
  | ASTNode.mk k cs, h => by
    cases k <;> simp only [containsTarget, occurs] at h ⊢ <;>
      first
        | exact containsTargetEnds_occurs x cs h
        | (split at h
           · simp_all
           · simp [containsTargetEnds_occurs x cs h])
theorem containsTargetEnds_occurs (x : String) :
    ∀ cs : List ASTNode, containsTargetEnds cs x = true → occursList x cs = true
  | [], h => by simp [containsTargetEnds] at h
  | c :: rest, h => by
    simp only [containsTargetEnds, Bool.or_eq_true] at h
    simp only [occursList, Bool.or_eq_true]
    rcases h with h | h
    · exact Or.inl (containsTarget_occurs x c h)
    · exact Or.inr (containsTargetLast_occurs x rest h)
theorem containsTargetLast_occurs (x : String) :
    ∀ cs : List ASTNode, containsTargetLast cs x = true → occursList x cs = true
  | [], h => by simp [containsTargetLast] at h
  | [r], h => by
    simp only [containsTargetLast] at h
    simp [occursList, containsTarget_occurs x r h]
  | a :: c :: rest, h => by
    simp only [containsTargetLast] at h
    have := containsTargetLast_occurs x (c :: rest) h
    simp only [occursList, Bool.or_eq_true] at this ⊢
    exact Or.inr this
end

theorem occurs_chain_plus (x : String) :
    ∀ l : List ASTNode, occurs x (chain .AST_PLUS l) = occursList x l
  | [] => by simp [chain, occurs]
  | [a] => by simp [chain, occurs]
  | [a, b] => by simp [chain, occurs]
  | a :: b :: c :: rest => by
    have ih := occurs_chain_plus x (b :: c :: rest)
    simp only [chain, occurs, occursList] at ih ⊢
    simp [ih]

theorem occurs_chain_times (x : String) :
    ∀ l : List ASTNode, occurs x (chain .AST_TIMES l) = occursList x l
  | [] => by simp [chain, occurs]
  | [a] => by simp [chain, occurs]
  | [a, b] => by simp [chain, occurs]
  | a :: b :: c :: rest => by
    have ih := occurs_chain_times x (b :: c :: rest)
    simp only [chain, occurs, occursList] at ih ⊢
    simp [ih]

mutual
theorem occurs_reduceToBinary (x : String) :
    ∀ t : ASTNode, occurs x (reduceToBinary t) = occurs x t
  | ASTNode.mk k cs => by
    have ih := occursList_reduceToBinaryList x cs
    cases k <;> simp [reduceToBinary, occurs, occurs_chain_plus, occurs_chain_times, ih]
theorem occursList_reduceToBinaryList (x : String) :
    ∀ cs : List ASTNode, occursList x (reduceToBinaryList cs) = occursList x cs
  | [] => by simp [reduceToBinaryList]
  | c :: rest => by
    simp [reduceToBinaryList, occursList, occurs_reduceToBinary x c,
      occursList_reduceToBinaryList x rest]
end

/-- C1 (constant rule): if no `AST_NAME` node named `x` occurs anywhere in `t`, then
`differentiate t x` returns the Integer literal 0. -/
theorem differentiate_constant_rule (t : ASTNode) (x : String) (h : occurs x t = false) :
    differentiate t x = .ok (integerNode 0) := by
  have hc : containsTarget (reduceToBinary t) x = false := by
    cases hct : containsTarget (reduceToBinary t) x with
    | false => rfl
    | true =>
      have := containsTarget_occurs x _ hct
      rw [occurs_reduceToBinary, h] at this
      exact absurd this (by decide)
  have : 8 * nodeCount t + 8 = (8 * nodeCount t + 7) + 1 := rfl
  rw [differentiate, this]
  exact differentiateFuel_constant _ t x hc


theorem reduceToBinary_polyTree {t : ASTNode} (h : PolyTree t) : reduceToBinary t = t := by
  induction h with
  | integer v => simp [integerNode, reduceToBinary, reduceToBinaryList]
  | var s => simp [nameNode, reduceToBinary, reduceToBinaryList]
  | plus _ _ iha ihb => simp [reduceToBinary, reduceToBinaryList, chain, iha, ihb]
  | minus _ _ iha ihb => simp [reduceToBinary, reduceToBinaryList, iha, ihb]
  | times _ _ iha ihb => simp [reduceToBinary, reduceToBinaryList, chain, iha, ihb]

theorem pderiv_eq_zero_of_not_containsTarget {t : ASTNode} (h : PolyTree t) (x : String)
    (hc : containsTarget t x = false) :
    MvPolynomial.pderiv x (evalAST (R := MvPolynomial String ℚ) MvPolynomial.X t) = 0 := by
  induction h with
  | integer v => 
    simp only [integerNode, evalAST]
    rw [← map_intCast (MvPolynomial.C : ℚ →+* MvPolynomial String ℚ)]
    exact MvPolynomial.pderiv_C
  | var s =>
    simp only [nameNode, containsTarget, containsTargetEnds] at hc
    simp only [nameNode, evalAST]
    have hs : s ≠ x := by
      intro e
      simp [e] at hc
    simp [MvPolynomial.pderiv_X, Pi.single_apply, hs]
  | plus _ _ iha ihb => 
    simp only [containsTarget, containsTargetEnds, containsTargetLast, Bool.or_eq_false_iff] at hc
    simp [evalAST, evalSum, iha hc.1, ihb hc.2]
  | minus _ _ iha ihb =>
    simp only [containsTarget, containsTargetEnds, containsTargetLast, Bool.or_eq_false_iff] at hc
    simp [evalAST, evalDifference, iha hc.1, ihb hc.2]
  | times _ _ iha ihb =>
    simp only [containsTarget, containsTargetEnds, containsTargetLast, Bool.or_eq_false_iff] at hc
    simp [evalAST, evalProduct, iha hc.1, ihb hc.2]


theorem height_pos (t : ASTNode) : 1 ≤ height t := by
  cases t with
  | mk k cs => simp [height]

theorem differentiateFuel_polyTree {t : ASTNode} (h : PolyTree t) (x : String) :
    ∀ n, height t ≤ n → ∃ d, differentiateFuel n t x = .ok d ∧ PolyTree d ∧
      evalAST (R := MvPolynomial String ℚ) MvPolynomial.X d
        = MvPolynomial.pderiv x (evalAST (R := MvPolynomial String ℚ) MvPolynomial.X t) := by
  induction h with
  | integer v =>
    intro n hn
    obtain ⟨m, rfl⟩ : ∃ m, n = m + 1 := ⟨n - 1, by have := height_pos (integerNode v); omega⟩
    refine ⟨integerNode 0, ?_, PolyTree.integer 0, ?_⟩
    · exact differentiateFuel_constant m _ x
        (by simp [integerNode, reduceToBinary, reduceToBinaryList, containsTarget,
              containsTargetEnds])
    · rw [pderiv_eq_zero_of_not_containsTarget (PolyTree.integer v) x
        (by simp [integerNode, containsTarget, containsTargetEnds])]
      simp [integerNode, evalAST]
  | var s =>
    intro n hn
    obtain ⟨m, rfl⟩ : ∃ m, n = m + 1 := ⟨n - 1, by have := height_pos (nameNode s); omega⟩
    by_cases hs : s = x
    · subst hs
      refine ⟨integerNode 1, ?_, PolyTree.integer 1, ?_⟩
      · simp [differentiateFuel, nameNode, reduceToBinary, reduceToBinaryList, containsTarget,
          ASTNode.kind, integerNode, bind, Except.bind]
      · simp [integerNode, nameNode, evalAST]
    · refine ⟨integerNode 0, ?_, PolyTree.integer 0, ?_⟩
      · exact differentiateFuel_constant m _ x
          (by simp [nameNode, reduceToBinary, reduceToBinaryList, containsTarget,
                containsTargetEnds, hs])
      · rw [pderiv_eq_zero_of_not_containsTarget (PolyTree.var s) x
          (by simp [nameNode, containsTarget, containsTargetEnds, hs])]
        simp [integerNode, evalAST]
  | @plus a b ha hb iha ihb =>
    intro n hn
    obtain ⟨m, rfl⟩ : ∃ m, n = m + 1 :=
      ⟨n - 1, by have := height_pos (ASTNode.mk .AST_PLUS [a, b]); omega⟩
    have hrb := reduceToBinary_polyTree (PolyTree.plus ha hb)
    cases hct : containsTarget (ASTNode.mk .AST_PLUS [a, b]) x with
    | false =>
      refine ⟨integerNode 0, ?_, PolyTree.integer 0, ?_⟩
      · exact differentiateFuel_constant m _ x (by rw [hrb]; exact hct)
      · rw [pderiv_eq_zero_of_not_containsTarget (PolyTree.plus ha hb) x hct]
        simp [integerNode, evalAST]
    | true =>
      simp only [height, heightList] at hn
      obtain ⟨da, hda, pda, eda⟩ := iha m (by omega)
      obtain ⟨db, hdb, pdb, edb⟩ := ihb m (by omega)
      refine ⟨ASTNode.mk .AST_PLUS [da, db], ?_, PolyTree.plus pda pdb, ?_⟩
      · rw [differentiateFuel]
        simp only [hrb, hct]
        simp [ASTNode.kind, getLeftChild, getRightChild, ASTNode.children, hda, hdb,
          reduceToBinary, reduceToBinaryList, chain, reduceToBinary_polyTree pda,
          reduceToBinary_polyTree pdb, bind, Except.bind]
      · simp [evalAST, evalSum, eda, edb]
  | @minus a b ha hb iha ihb =>
    intro n hn
    obtain ⟨m, rfl⟩ : ∃ m, n = m + 1 :=
      ⟨n - 1, by have := height_pos (ASTNode.mk .AST_MINUS [a, b]); omega⟩
    have hrb := reduceToBinary_polyTree (PolyTree.minus ha hb)
    cases hct : containsTarget (ASTNode.mk .AST_MINUS [a, b]) x with
    | false =>
      refine ⟨integerNode 0, ?_, PolyTree.integer 0, ?_⟩
      · exact differentiateFuel_constant m _ x (by rw [hrb]; exact hct)
      · rw [pderiv_eq_zero_of_not_containsTarget (PolyTree.minus ha hb) x hct]
        simp [integerNode, evalAST]
    | true =>
      simp only [height, heightList] at hn
      obtain ⟨da, hda, pda, eda⟩ := iha m (by omega)
      obtain ⟨db, hdb, pdb, edb⟩ := ihb m (by omega)
      refine ⟨ASTNode.mk .AST_MINUS [da, db], ?_, PolyTree.minus pda pdb, ?_⟩
      · rw [differentiateFuel]
        simp only [hrb, hct]
        simp [ASTNode.kind, getLeftChild, getRightChild, ASTNode.children, hda, hdb,
          reduceToBinary, reduceToBinaryList, reduceToBinary_polyTree pda,
          reduceToBinary_polyTree pdb, bind, Except.bind]
      · simp [evalAST, evalDifference, eda, edb]
  | @times a b ha hb iha ihb =>
    intro n hn
    obtain ⟨m, rfl⟩ : ∃ m, n = m + 1 :=
      ⟨n - 1, by have := height_pos (ASTNode.mk .AST_TIMES [a, b]); omega⟩
    have hrb := reduceToBinary_polyTree (PolyTree.times ha hb)
    cases hct : containsTarget (ASTNode.mk .AST_TIMES [a, b]) x with
    | false =>
      refine ⟨integerNode 0, ?_, PolyTree.integer 0, ?_⟩
      · exact differentiateFuel_constant m _ x (by rw [hrb]; exact hct)
      · rw [pderiv_eq_zero_of_not_containsTarget (PolyTree.times ha hb) x hct]
        simp [integerNode, evalAST]
    | true =>
      simp only [height, heightList] at hn
      obtain ⟨da, hda, pda, eda⟩ := iha m (by omega)
      obtain ⟨db, hdb, pdb, edb⟩ := ihb m (by omega)
      refine ⟨ASTNode.mk .AST_PLUS
        [ASTNode.mk .AST_TIMES [da, b], ASTNode.mk .AST_TIMES [a, db]], ?_,
        PolyTree.plus (PolyTree.times pda hb) (PolyTree.times ha pdb), ?_⟩
      · rw [differentiateFuel]
        simp only [hrb, hct]
        simp [ASTNode.kind, getLeftChild, getRightChild, ASTNode.children, hda, hdb, deref,
          reduceToBinary, reduceToBinaryList, chain, reduceToBinary_polyTree pda,
          reduceToBinary_polyTree pdb, reduceToBinary_polyTree ha, reduceToBinary_polyTree hb,
          bind, Except.bind]
      · simp [evalAST, evalSum, evalProduct, eda, edb, Derivation.leibniz]
        ring

mutual
theorem height_le_nodeCount : ∀ t : ASTNode, height t ≤ nodeCount t
  | ASTNode.mk k cs => by
    have := heightList_le_nodeCountList cs
    simp only [height, nodeCount]
    omega
theorem heightList_le_nodeCountList : ∀ cs : List ASTNode, heightList cs ≤ nodeCountList cs
  | [] => by simp [heightList, nodeCountList]
  | c :: rest => by
    have h1 := height_le_nodeCount c
    have h2 := heightList_le_nodeCountList rest
    simp only [heightList, nodeCountList]
    omega
end

/-- C3 (sum, difference and product rules): for a tree `t` built only from integer
literals, variables and binary Plus, Minus and Times nodes, `differentiate t x` returns a
tree of the same class whose polynomial is the formal derivative with respect to `x` of
the polynomial of `t`. -/
theorem differentiate_polynomial (t : ASTNode) (x : String) (h : PolyTree t) :
    ∃ d, differentiate t x = .ok d ∧ PolyTree d ∧
      evalAST (R := MvPolynomial String ℚ) MvPolynomial.X d
        = MvPolynomial.pderiv x (evalAST (R := MvPolynomial String ℚ) MvPolynomial.X t) :=
  differentiateFuel_polyTree h x _ (by have := height_le_nodeCount t; omega)

/-- C1, at the scenario of the specification: `1 / 2` differentiated with respect to a
variable that is not present. -/
theorem differentiate_constant_rule_witness :
    occurs "x" (ASTNode.mk .AST_DIVIDE [integerNode 1, integerNode 2]) = false
      ∧ differentiate (ASTNode.mk .AST_DIVIDE [integerNode 1, integerNode 2]) "x"
          = .ok (integerNode 0) :=
  ⟨by decide, differentiate_constant_rule _ "x" (by decide)⟩

/-- C2 (variable rule): `differentiate` of the variable `x` with respect to `x` is the
Integer literal 1, and of any other variable `y` it is the Integer literal 0. -/
theorem differentiate_variable_rule (x : String) :
    differentiate (nameNode x) x = .ok (integerNode 1)
      ∧ ∀ y : String, y ≠ x → differentiate (nameNode y) x = .ok (integerNode 0) := by
  constructor
  · simp [differentiate, differentiateFuel, nodeCount, nodeCountList, reduceToBinary,
      reduceToBinaryList, containsTarget, bind, Except.bind]
  · intro y hy
    exact differentiateFuel_constant _ _ x
      (by simp [reduceToBinary, reduceToBinaryList, containsTarget, containsTargetEnds, hy])

/-- C2 at the variables `x` and `y`. -/
theorem differentiate_variable_rule_witness :
    differentiate (nameNode "x") "x" = .ok (integerNode 1)
      ∧ ("y" ≠ "x" ∧ differentiate (nameNode "y") "x" = .ok (integerNode 0)) :=
  ⟨(differentiate_variable_rule "x").1, by decide,
    (differentiate_variable_rule "x").2 "y" (by decide)⟩

/-- C3 at the product `x * y`. -/
theorem differentiate_polynomial_witness :
    PolyTree (ASTNode.mk .AST_TIMES [nameNode "x", nameNode "y"])
      ∧ ∃ d, differentiate (ASTNode.mk .AST_TIMES [nameNode "x", nameNode "y"]) "x" = .ok d
          ∧ PolyTree d
          ∧ evalAST (R := MvPolynomial String ℚ) MvPolynomial.X d
              = MvPolynomial.pderiv "x"
                  (evalAST (R := MvPolynomial String ℚ) MvPolynomial.X
                    (ASTNode.mk .AST_TIMES [nameNode "x", nameNode "y"])) :=
  ⟨PolyTree.times (PolyTree.var "x") (PolyTree.var "y"),
    differentiate_polynomial _ "x" (PolyTree.times (PolyTree.var "x") (PolyTree.var "y"))⟩

/-- Result of `differentiate` on `x ^ n` with respect to `x`, for an integer literal `n`. -/
theorem differentiate_power_literal (x : String) (n : Int) :
    differentiate (ASTNode.mk .AST_POWER [nameNode x, integerNode n]) x
      = .ok (ASTNode.mk .AST_PLUS
          [ASTNode.mk .AST_TIMES [integerNode n,
             ASTNode.mk .AST_TIMES
               [ASTNode.mk .AST_POWER
                  [nameNode x, ASTNode.mk .AST_MINUS [integerNode n, integerNode 1]],
                integerNode 1]],
           ASTNode.mk .AST_TIMES [ASTNode.mk .AST_POWER [nameNode x, integerNode n],
             ASTNode.mk .AST_TIMES
               [ASTNode.mk .AST_FUNCTION_LN [nameNode x], integerNode 0]]]) := by
  simp [differentiate, differentiateFuel, nodeCount, nodeCountList, reduceToBinary,
    reduceToBinaryList, containsTarget, containsTargetEnds, containsTargetLast, chain, bind,
    Except.bind]

/-- The fold `(double) n - 1` is exact up to `2 ^ 53`. -/
theorem toDouble_pred_exact (n : Int) (h0 : 0 ≤ n) (h1 : n ≤ 2 ^ 53) :
    toDouble (toDouble (n : ℚ) - 1) = (n : ℚ) - 1 := by
  rw [toDouble_intCast n (by omega)]
  have := toDouble_intCast (n - 1) (by omega)
  push_cast at this
  exact this

/-- Result of the legacy `simplify` on the derivative of `x ^ n`, for `n ≥ 2`: the
exponent is the fold `(double) n - 1` of the source, a Real literal. -/
theorem simplify_differentiate_power (x : String) (n : Int) (hn : 2 ≤ n) :
    (differentiate (ASTNode.mk .AST_POWER [nameNode x, integerNode n]) x >>= simplify)
      = .ok (if n = 2 then ASTNode.mk .AST_TIMES [integerNode 2, nameNode x]
          else ASTNode.mk .AST_TIMES
            [integerNode n,
              ASTNode.mk .AST_POWER [nameNode x, realNode (toDouble (toDouble (n : ℚ) - 1))]]) := by
  have h0 : toDouble (n : ℚ) ≠ 0 := fun h => by
    have := (toDouble_intCast_eq_zero n).mp h
    omega
  have h1 : toDouble (n : ℚ) ≠ 1 := fun h => by
    have := (toDouble_intCast_eq_one n).mp h
    omega
  rw [differentiate_power_literal]
  by_cases h2 : n = 2
  · have e1 : toDouble (toDouble (n : ℚ) - 1) = 1 := by
      rw [toDouble_pred_exact n (by omega) (by omega), h2]
      norm_num
    rw [if_pos h2]
    simp [simplify, simplifyFuel, nodeCount, nodeCountList, reduceToBinary,
      reduceToBinaryList, chain, bind, Except.bind, h0, h1, e1]
    try exact h2
  · have h3n : (3 : ℚ) ≤ (n : ℚ) := by
      have : (3 : Int) ≤ n := by omega
      exact_mod_cast this
    have h3 : (3 : ℚ) ≤ toDouble (n : ℚ) := by
      have := intCast_le_toDouble 3 (n : ℚ) (by decide) (by exact_mod_cast h3n)
      exact_mod_cast this
    have h4 : (2 : ℚ) ≤ toDouble (toDouble (n : ℚ) - 1) := by
      have := intCast_le_toDouble 2 (toDouble (n : ℚ) - 1) (by decide)
        (by push_cast; linarith)
      exact_mod_cast this
    have h5 : toDouble (toDouble (n : ℚ) - 1) ≠ 0 := by
      intro h
      rw [h] at h4
      norm_num at h4
    have h6 : toDouble (toDouble (n : ℚ) - 1) ≠ 1 := by
      intro h
      rw [h] at h4
      norm_num at h4
    simp [simplify, simplifyFuel, nodeCount, nodeCountList, reduceToBinary,
      reduceToBinaryList, chain, bind, Except.bind, h0, h1, h2, h5, h6, toDouble_idem]

/-- C4, as amended (power rule after simplification): for `2 ≤ n < 2 ^ 63` the simplified
derivative of `x ^ n` is `2 * x` when `n = 2` and `n * x ^ e` when `n ≥ 3`, where the
exponent `e` is the Real literal holding the fold `(double) n - 1` of the source, rounded
to binary64; `e` is `n - 1` exactly whenever `n ≤ 2 ^ 53`; the result is structurally equal
to that tree. -/
theorem power_rule_after_simplify (x : String) (n : Int) (hn : 2 ≤ n) (hlong : n < 2 ^ 63) :
    ∃ r, (differentiate (ASTNode.mk .AST_POWER [nameNode x, integerNode n]) x >>= simplify)
        = .ok r
      ∧ r = (if n = 2 then ASTNode.mk .AST_TIMES [integerNode 2, nameNode x]
          else ASTNode.mk .AST_TIMES
            [integerNode n,
              ASTNode.mk .AST_POWER [nameNode x, realNode (toDouble (toDouble (n : ℚ) - 1))]])
      ∧ (n ≤ 2 ^ 53 → toDouble (toDouble (n : ℚ) - 1) = (n : ℚ) - 1)
      ∧ isEqualTree (some r)
          (some (if n = 2 then ASTNode.mk .AST_TIMES [integerNode 2, nameNode x]
            else ASTNode.mk .AST_TIMES
              [integerNode n,
                ASTNode.mk .AST_POWER
                  [nameNode x, realNode (toDouble (toDouble (n : ℚ) - 1))]]))
          = .ok true := by
  refine ⟨_, simplify_differentiate_power x n hn, rfl,
    fun h => toDouble_pred_exact n (by omega) h, ?_⟩
  by_cases h2 : n = 2
  · simp [h2, isEqualTree, isEqualTreeFuel, isEqual, height, heightList, reduceToBinary,
      reduceToBinaryList, chain, bind, Except.bind]
  · simp [h2, isEqualTree, isEqualTreeFuel, isEqual, height, heightList, reduceToBinary,
      reduceToBinaryList, chain, bind, Except.bind]

/-- C4 as amended, at `x ^ 3`: the result is `3 * x ^ 2.0`. -/
theorem power_rule_after_simplify_witness :
    (2 : Int) ≤ 3 ∧ (3 : Int) < 2 ^ 63 ∧ ∃ r,
      (differentiate (ASTNode.mk .AST_POWER [nameNode "x", integerNode 3]) "x" >>= simplify)
        = .ok r
      ∧ r = (if (3 : Int) = 2 then ASTNode.mk .AST_TIMES [integerNode 2, nameNode "x"]
          else ASTNode.mk .AST_TIMES
            [integerNode 3,
              ASTNode.mk .AST_POWER
                [nameNode "x", realNode (toDouble (toDouble ((3 : Int) : ℚ) - 1))]])
      ∧ ((3 : Int) ≤ 2 ^ 53 → toDouble (toDouble ((3 : Int) : ℚ) - 1) = ((3 : Int) : ℚ) - 1)
      ∧ isEqualTree (some r)
          (some (if (3 : Int) = 2 then ASTNode.mk .AST_TIMES [integerNode 2, nameNode "x"]
            else ASTNode.mk .AST_TIMES
              [integerNode 3,
                ASTNode.mk .AST_POWER
                  [nameNode "x", realNode (toDouble (toDouble ((3 : Int) : ℚ) - 1))]]))
          = .ok true :=
  ⟨by decide, by decide, power_rule_after_simplify "x" 3 (by decide) (by decide)⟩

/-- C4 as stated fails at `n = 3`: the simplified derivative of `x ^ 3` is not
structurally equal to `Times(3, Power(x, 2))` with the Integer literal 2, because its
exponent is the Real literal 2. It also fails at `n = 2 ^ 53 + 2`, where the exponent is
the Real literal `2 ^ 53`, not `n - 1 = 2 ^ 53 + 1`: the subtraction is rounded. -/
theorem power_rule_integer_exponent_fails :
    ((differentiate (ASTNode.mk .AST_POWER [nameNode "x", integerNode 3]) "x" >>= simplify)
        = .ok (ASTNode.mk .AST_TIMES
            [integerNode 3, ASTNode.mk .AST_POWER [nameNode "x", realNode 2]])
      ∧ isEqualTree
          (some (ASTNode.mk .AST_TIMES
            [integerNode 3, ASTNode.mk .AST_POWER [nameNode "x", realNode 2]]))
          (some (ASTNode.mk .AST_TIMES
            [integerNode 3, ASTNode.mk .AST_POWER [nameNode "x", integerNode 2]]))
          = .ok false)
      ∧ ((differentiate
            (ASTNode.mk .AST_POWER [nameNode "x", integerNode 9007199254740994]) "x"
              >>= simplify)
          = .ok (ASTNode.mk .AST_TIMES
              [integerNode 9007199254740994,
                ASTNode.mk .AST_POWER [nameNode "x", realNode 9007199254740992]])
        ∧ (9007199254740992 : ℚ) ≠ ((9007199254740994 : Int) : ℚ) - 1) := by
  refine ⟨⟨?_, ?_⟩, ?_, ?_⟩
  · rw [simplify_differentiate_power "x" 3 (by decide)]
    have e0 : toDouble ((3 : Int) : ℚ) = 3 := by
      have := toDouble_intCast 3 (by decide)
      exact_mod_cast this
    rw [e0]
    norm_num
  · simp [isEqualTree, isEqualTreeFuel, isEqual, height, heightList, reduceToBinary,
      reduceToBinaryList, chain, bind, Except.bind]
  · rw [simplify_differentiate_power "x" 9007199254740994 (by decide)]
    have e0 : toDouble ((9007199254740994 : Int) : ℚ) = 9007199254740994 := by
      have := toDouble_dyadic 4503599627370497 1 (by decide) (by decide)
      norm_num at this
      exact_mod_cast this
    rw [e0]
    have e1 : toDouble ((9007199254740994 : ℚ) - 1) = 9007199254740992 :=
      toDouble_two_pow_53_add_one
    rw [e1]
    rfl
  · norm_num

/-- C5: the simplified derivative of `sin x` with respect to `x` is structurally equal to
`cos x`. -/
theorem sin_rule_after_simplify (x : String) :
    ∃ r, (differentiate (ASTNode.mk .AST_FUNCTION_SIN [nameNode x]) x >>= simplify) = .ok r
      ∧ isEqualTree (some r) (some (ASTNode.mk .AST_FUNCTION_COS [nameNode x])) = .ok true := by
  refine ⟨ASTNode.mk .AST_FUNCTION_COS [nameNode x], ?_, ?_⟩
  · simp [differentiate, differentiateFuel, simplify, simplifyFuel, nodeCount, nodeCountList,
      reduceToBinary, reduceToBinaryList, containsTarget, containsTargetEnds,
      containsTargetLast, chain, bind, Except.bind]
  · simp [isEqualTree, isEqualTreeFuel, isEqual, height, heightList, reduceToBinary,
      reduceToBinaryList, bind, Except.bind]

/-- C6: for distinct variables `x` and `y`, the simplified derivative of `x * y` with
respect to `x` is the variable `y`. -/
theorem product_rule_after_simplify (x y : String) (h : x ≠ y) :
    (differentiate (ASTNode.mk .AST_TIMES [nameNode x, nameNode y]) x >>= simplify)
      = .ok (nameNode y) := by
  have h1 : ¬ y = x := fun e => h e.symm
  simp [differentiate, differentiateFuel, simplify, simplifyFuel, nodeCount, nodeCountList,
    reduceToBinary, reduceToBinaryList, containsTarget, containsTargetEnds,
    containsTargetLast, chain, bind, Except.bind, h1]

/-- C6 at the variables `x` and `y`. -/
theorem product_rule_after_simplify_witness :
    "x" ≠ "y"
      ∧ (differentiate (ASTNode.mk .AST_TIMES [nameNode "x", nameNode "y"]) "x" >>= simplify)
          = .ok (nameNode "y") :=
  ⟨by decide, product_rule_after_simplify "x" "y" (by decide)⟩

theorem truncate_intCast (z : Int) : truncate (z : ℚ) = z := by
  unfold truncate
  split <;> simp

theorem toLong_intCast (z : Int) (h1 : -2 ^ 63 ≤ z) (h2 : z < 2 ^ 63) :
    toLong (z : ℚ) = z := by
  unfold toLong
  rw [truncate_intCast, if_pos ⟨h1, h2⟩]

theorem toInt_intCast (z : Int) (h1 : -2 ^ 31 ≤ z) (h2 : z < 2 ^ 31) :
    toInt (z : ℚ) = z := by
  unfold toInt
  rw [truncate_intCast, if_pos ⟨h1, h2⟩]

theorem modf_intCast (z : Int) : modf (z : ℚ) = 0 := by
  unfold modf
  rw [truncate_intCast]
  ring

theorem truncate_ne_zero (q : ℚ) (h : 1 ≤ |q|) : truncate q ≠ 0 := by
  unfold truncate
  rcases le_abs'.mp h with h1 | h1
  · have hn : ¬ (0 ≤ q) := by linarith
    rw [if_neg hn]
    have : ⌈q⌉ ≤ -1 := by
      rw [Int.ceil_le]
      push_cast
      exact h1
    omega
  · have hn : 0 ≤ q := by linarith
    rw [if_pos hn]
    have : 1 ≤ ⌊q⌋ := by
      rw [Int.le_floor]
      push_cast
      exact h1
    omega

/-- A `double` of magnitude at least one is converted to a non-zero `long`. -/
theorem toLong_ne_zero (q : ℚ) (h : 1 ≤ |q|) : toLong q ≠ 0 := by
  unfold toLong
  split
  · exact truncate_ne_zero q h
  · norm_num

/-- The `double` nearest to an integer is an integer. -/
theorem toDouble_intCast_isInt (z : Int) : ∃ w : Int, toDouble (z : ℚ) = (w : ℚ) := by
  by_cases hz : z.natAbs ≤ 2 ^ 53
  · exact ⟨z, toDouble_intCast z hz⟩
  · have key : ∀ n : Int, 2 ^ 53 < n → ∃ w : Int, roundBinary64 (n : ℚ) = (w : ℚ) := by
      intro n hn
      have hq : (0 : ℚ) < (n : ℚ) := by
        have : (0 : Int) < n := by omega
        exact_mod_cast this
      have h53 : (2 : ℚ) ^ (53 : Int) ≤ (n : ℚ) := by
        have : ((2 ^ 53 : Int) : ℚ) ≤ (n : ℚ) := by exact_mod_cast hn.le
        have e : ((2 ^ 53 : Int) : ℚ) = (2 : ℚ) ^ (53 : Int) := by norm_num
        rwa [e] at this
      have hL : (53 : Int) ≤ Int.log 2 (n : ℚ) :=
        (Int.zpow_le_iff_le_log (by norm_num) hq).mp (by exact_mod_cast h53)
      unfold roundBinary64
      rw [max_eq_left (by omega)]
      obtain ⟨k, hk⟩ : ∃ k : Nat, Int.log 2 (n : ℚ) - 52 = (k : Int) :=
        ⟨(Int.log 2 (n : ℚ) - 52).toNat, (Int.toNat_of_nonneg (by omega)).symm⟩
      rw [hk, zpow_natCast]
      exact ⟨roundHalfEven ((n : ℚ) / 2 ^ k) * 2 ^ k, by push_cast; ring⟩
    rcases le_or_lt 0 z with h0 | h0
    · obtain ⟨w, hw⟩ := key z (by omega)
      have hq : (0 : ℚ) < (z : ℚ) := by
        have : (0 : Int) < z := by omega
        exact_mod_cast this
      exact ⟨w, by rw [toDouble_of_pos _ hq, hw]⟩
    · obtain ⟨w, hw⟩ := key (-z) (by omega)
      have hq : (0 : ℚ) < ((-z : Int) : ℚ) := by
        have : (0 : Int) < -z := by omega
        exact_mod_cast this
      refine ⟨-w, ?_⟩
      have e : (z : ℚ) = -((-z : Int) : ℚ) := by push_cast; ring
      rw [e, toDouble_neg, toDouble_of_pos _ hq, hw]
      push_cast
      ring

theorem one_le_abs_toDouble (q : ℚ) (h : 1 ≤ |q|) : 1 ≤ |toDouble q| := by
  rcases le_abs'.mp h with h1 | h1
  · exact le_abs'.mpr (Or.inl (toDouble_le_neg_one q h1))
  · exact le_abs'.mpr (Or.inr (toDouble_ge_one q h1))

theorem one_le_abs_intCast (z : Int) (h : z ≠ 0) : (1 : ℚ) ≤ |(z : ℚ)| := by
  have : (1 : Int) ≤ |z| := Int.one_le_abs h
  exact_mod_cast this

/-- A non-zero Integer literal is converted to a non-zero `long` through `double`. -/
theorem toLong_toDouble_intCast_ne_zero (z : Int) (h : z ≠ 0) :
    toLong (toDouble (z : ℚ)) ≠ 0 :=
  toLong_ne_zero _ (one_le_abs_toDouble _ (one_le_abs_intCast z h))

/-- An Integer literal of at most 53 bits goes through `double` and back unchanged. -/
theorem toLong_toDouble_intCast (z : Int) (h : z.natAbs ≤ 2 ^ 53) :
    toLong (toDouble (z : ℚ)) = z := by
  rw [toDouble_intCast z h, toLong_intCast z (by omega) (by omega)]

theorem toDouble_9007199254740993 :
    toDouble (9007199254740993 : ℚ) = 9007199254740992 := by
  have := toDouble_two_pow_53_add_one
  norm_num at this
  exact this
/-- Rounding of a positive value in the binade of `2 ^ e`. -/
theorem toDouble_binade (q : ℚ) (e : Int) (h0 : (2 : ℚ) ^ e ≤ q) (h1 : q < (2 : ℚ) ^ (e + 1))
    (he : -1022 ≤ e) :
    toDouble q = (roundHalfEven (q / (2 : ℚ) ^ (e - 52)) : ℚ) * (2 : ℚ) ^ (e - 52) := by
  have hq : 0 < q := lt_of_lt_of_le (by positivity) h0
  rw [toDouble_of_pos q hq, roundBinary64_eq q e h0 h1 he]

/-- Rounding to the nearest integer, away from a tie. -/
theorem roundHalfEven_eq (q : ℚ) (z : Int) (h1 : (z : ℚ) - 1 / 2 < q) (h2 : q < (z : ℚ) + 1 / 2) :
    roundHalfEven q = z := by
  have hfl : ⌊q⌋ = z ∨ ⌊q⌋ = z - 1 := by
    have a : z - 1 ≤ ⌊q⌋ := by
      rw [Int.le_floor]
      push_cast
      linarith
    have b : ⌊q⌋ < z + 1 := by
      rw [Int.floor_lt]
      push_cast
      linarith
    omega
  have hl := Int.floor_le q
  have hu := Int.lt_floor_add_one q
  unfold roundHalfEven
  rcases hfl with e | e
  · rw [e] at hl hu ⊢
    rw [if_pos (by linarith)]
  · rw [e] at hl hu ⊢
    push_cast at hl hu ⊢
    rw [if_neg (by linarith), if_pos (by linarith)]
    ring

theorem reduceByGcd_eq_reducedForm (n d : Int) (h : d ≠ 0) :
    reduceByGcd n d = .ok (reducedForm n d) := by
  have hg : (Int.gcd n d : Int) ≠ 0 := by
    have : Int.gcd n d ≠ 0 := by
      intro e
      exact h ((Int.gcd_eq_zero_iff.mp e).2)
    exact_mod_cast this
  have hn : Int.tdiv n (Int.gcd n d : Int) = n / (Int.gcd n d : Int) :=
    Int.tdiv_eq_ediv_of_dvd (Int.gcd_dvd_left)
  have hd : Int.tdiv d (Int.gcd n d : Int) = d / (Int.gcd n d : Int) :=
    Int.tdiv_eq_ediv_of_dvd (Int.gcd_dvd_right)
  unfold reduceByGcd reducedForm
  simp only [hg, if_false, hn, hd]
  split <;> rfl

theorem reduceFraction_six_eighths :
    reduceFraction (rationalNode 6 8) = .ok (rationalNode 3 4) := by
  have g : Int.gcd 6 8 = 2 := by decide
  have e1 : Int.tdiv 8 2 = 4 := by decide
  have e2 : Int.tdiv 6 2 = 3 := by decide
  simp [reduceFraction, isRationalForm, bind, Except.bind, reduceByGcd, g, e1, e2]

/-- The run of `reduceFraction` on `Divide(Integer n, Integer d)`: both literals are read
as `double` and converted to `long`. -/
theorem reduceFraction_divide_literals (n d : Int) :
    reduceFraction (ASTNode.mk .AST_DIVIDE [integerNode n, integerNode d])
      = reduceByGcd (toLong (toDouble (n : ℚ))) (toLong (toDouble (d : ℚ))) := by
  simp [reduceFraction, isRationalForm, bind, Except.bind]

/-- The run of `reduceFraction` on `Times(Integer a, Rational(p, q))`: the product
`a * p` is formed in `double` and converted to `long`. -/
theorem reduceFraction_times_rational (a p q : Int) :
    reduceFraction (ASTNode.mk .AST_TIMES [integerNode a, rationalNode p q])
      = reduceByGcd (toLong (toDouble (toDouble (a : ℚ) * toDouble (p : ℚ)))) q := by
  simp [reduceFraction, isRationalForm, bind, Except.bind]

theorem reduceByGcd_one (m : Int) :
    reduceByGcd 1 m = .ok (if m = 1 then integerNode 1 else rationalNode 1 m) := by
  have g : Int.gcd 1 m = 1 := Int.one_gcd
  unfold reduceByGcd
  simp only [g, Nat.cast_one, one_ne_zero, if_false, Int.tdiv_one]
  split <;> rfl

theorem getDenominator_reduceByGcd_one (m : Int) :
    ∃ r, reduceByGcd 1 m = .ok r ∧ r.getDenominator = m := by
  rw [reduceByGcd_one]
  by_cases h1 : m = 1
  · exact ⟨_, rfl, by simp [h1]⟩
  · exact ⟨_, rfl, by simp [h1]⟩

/-- The run of `reduceFraction` on a power of an Integer literal `b` to a negative Integer
literal `-c`: the denominator is the `pow` of the two values read as `double`, converted
to `long`. -/
theorem reduceFraction_power (k : Kind) (b c : Int) (hc : 0 < c) :
    ∃ w : Int, 0 < w ∧ toDouble (c : ℚ) = (w : ℚ)
      ∧ isRationalFormPower (ASTNode.mk k [integerNode b, integerNode (-c)]) = .ok true
      ∧ reduceFractionPower (ASTNode.mk k [integerNode b, integerNode (-c)])
          = reduceByGcd 1 (toLong (toDouble (toDouble (b : ℚ) ^ w))) := by
  obtain ⟨w, hw⟩ := toDouble_intCast_isInt c
  have hpos : 0 < toDouble (c : ℚ) := (toDouble_intCast_pos c).mpr hc
  have hw0 : 0 < w := by
    rw [hw] at hpos
    exact_mod_cast hpos
  have hwq : ¬ ((w : ℚ) < 0) := by
    have : (0 : ℚ) < (w : ℚ) := by exact_mod_cast hw0
    linarith
  have hrec : isRationalFormPower (ASTNode.mk k [integerNode b, integerNode (-c)])
      = .ok true := by
    simp [isRationalFormPower, bind, Except.bind, hpos]
  refine ⟨w, hw0, hw, hrec, ?_⟩
  unfold reduceFractionPower
  rw [hrec]
  simp [bind, Except.bind, pow, hw, hwq]

theorem natAbs_pow_ge_base (b : Int) (k : Nat) (hk : 0 < k) (hb : (b ^ k).natAbs ≤ 2 ^ 53) :
    b.natAbs ≤ 2 ^ 53 := by
  rw [Int.natAbs_pow] at hb
  rcases Nat.eq_zero_or_pos b.natAbs with h0 | h0
  · rw [h0]
    positivity
  · calc b.natAbs = b.natAbs ^ 1 := (pow_one _).symm
      _ ≤ b.natAbs ^ k := Nat.pow_le_pow_right h0 hk
      _ ≤ 2 ^ 53 := hb

/-- Within 53 bits the denominator taken from a power node is `b ^ c`. -/
theorem reduceFraction_power_exact (k : Kind) (b c : Int) (hc : 0 < c)
    (hc2 : c ≤ 2 ^ 53) (hp : (b ^ c.toNat).natAbs ≤ 2 ^ 53) :
    reduceFractionPower (ASTNode.mk k [integerNode b, integerNode (-c)])
      = reduceByGcd 1 (b ^ c.toNat) := by
  obtain ⟨w, hw0, hw, -, he⟩ := reduceFraction_power k b c hc
  have hcn : 0 < c.toNat := by omega
  have hb : b.natAbs ≤ 2 ^ 53 := natAbs_pow_ge_base b c.toNat hcn hp
  rw [toDouble_intCast c (by omega)] at hw
  have hwc : w = c := by
    have : (c : Int) = w := by exact_mod_cast hw
    omega
  subst hwc
  rw [he, toDouble_intCast b hb]
  have e : ((b : ℚ) ^ (w : Int)) = ((b ^ w.toNat : Int) : ℚ) := by
    obtain ⟨j, rfl⟩ : ∃ j : Nat, w = (j : Int) := ⟨w.toNat, (Int.toNat_of_nonneg hw0.le).symm⟩
    rw [zpow_natCast, Int.toNat_natCast]
    push_cast
    rfl
  rw [e, toLong_toDouble_intCast _ hp]

/-- The run of `reduceFraction` on `Times(Integer a, Power(Integer b, Integer (-c)))`: the
numerator is `a` read as `double` and converted to `long`, the denominator is taken from the
reduced power node. -/
theorem reduceFraction_times_power (a b c : Int) (hc : 0 < c) (r : ASTNode)
    (hr : reduceFractionPower (ASTNode.mk .AST_POWER [integerNode b, integerNode (-c)])
      = .ok r) :
    reduceFraction
        (ASTNode.mk .AST_TIMES
          [integerNode a, ASTNode.mk .AST_POWER [integerNode b, integerNode (-c)]])
      = reduceByGcd (toLong (toDouble (a : ℚ))) r.getDenominator := by
  obtain ⟨-, -, -, hrf, -⟩ := reduceFraction_power .AST_POWER b c hc
  simp only [integerNode] at hrf hr
  simp [reduceFraction, isRationalForm, bind, Except.bind, hrf, hr]

/-- The `double` nearest to `3 ^ 35`. -/
theorem toDouble_three_pow_35 :
    toDouble ((3 : ℚ) ^ (35 : Int)) = 50031545098999704 := by
  rw [toDouble_binade _ 55 (by norm_num) (by norm_num) (by decide)]
  rw [roundHalfEven_eq _ 6253943137374963 (by norm_num) (by norm_num)]
  norm_num

/-- One pass on `sin x`: Rule One returns the node, Rule Two reads `children[1]` of its
one-element vector and dereferences the value read. -/
theorem simplifyTwoPath_sin :
    simplifyTwoPath (ASTNode.mk .AST_FUNCTION_SIN [nameNode "x"]) = .error .outOfRange := by
  simp [simplifyTwoPath, simplifyRuleOne, simplifyRuleOneFuel, simplifyRuleTwo,
    simplifyRuleTwoFuel, nodeCount, nodeCountList, mapAll, vectorAt, bind, Except.bind]

/-- C8, the run of the code at `sin x`: in the first pass of the loop of `simplifyNew`,
Rule Two reads `children[1]` of the one-element vector of simplified operands and
dereferences the value read; for every bound on the number of passes of at least one, the
loop ends in that failure and returns no tree. -/
theorem simplifyNew_sin_fails :
    simplifyRuleOne (ASTNode.mk .AST_FUNCTION_SIN [nameNode "x"])
        = .ok (ASTNode.mk .AST_FUNCTION_SIN [nameNode "x"])
      ∧ simplifyRuleTwo (ASTNode.mk .AST_FUNCTION_SIN [nameNode "x"]) = .error .outOfRange
      ∧ ∀ n : Nat,
          simplifyNewFuel (n + 1) (ASTNode.mk .AST_FUNCTION_SIN [nameNode "x"])
            = .error .outOfRange := by
  refine ⟨?_, ?_, ?_⟩
  · simp [simplifyRuleOne, simplifyRuleOneFuel, nodeCount, nodeCountList]
  · simp [simplifyRuleTwo, simplifyRuleTwoFuel, nodeCount, nodeCountList, mapAll, vectorAt,
      bind, Except.bind]
  · intro n
    rw [simplifyNewFuel, simplifyTwoPath_sin]
    rfl

theorem toDouble_one_half : toDouble (1 / 2 : ℚ) = 1 / 2 := by
  have := toDouble_inv_two
  norm_num at this ⊢
  exact this

/-- One pass on the piecewise example: the middle branch `x + 1/2` becomes `x + 0.5`. -/
theorem simplifyTwoPath_piecewise :
    simplifyTwoPath
        (ASTNode.mk .AST_FUNCTION_PIECEWISE
          [integerNode 1, ASTNode.mk .AST_RELATIONAL_GT [nameNode "y", integerNode 0],
           ASTNode.mk .AST_PLUS [nameNode "x", rationalNode 1 2],
           ASTNode.mk .AST_RELATIONAL_GT [nameNode "y", integerNode 1],
           integerNode 2])
      = .ok (ASTNode.mk .AST_FUNCTION_PIECEWISE
          [integerNode 1, ASTNode.mk .AST_RELATIONAL_GT [nameNode "y", integerNode 0],
           ASTNode.mk .AST_PLUS [nameNode "x", realNode (1 / 2)],
           ASTNode.mk .AST_RELATIONAL_GT [nameNode "y", integerNode 1],
           integerNode 2]) := by
  have g : Int.gcd 1 2 = 1 := by decide
  simp [simplifyTwoPath, simplifyRuleOne, simplifyRuleOneFuel, simplifyRuleTwo,
    simplifyRuleTwoFuel, nodeCount, nodeCountList, mapAll, mapEven, flattenChildren, plusScan,
    nonNumbers, reduceFraction, isRationalForm, reduceByGcd, g, vectorAt, bind, Except.bind]

theorem isLong_inv_two : isLong (2⁻¹ : ℚ) = false := by
  have hf : ⌊(2⁻¹ : ℚ)⌋ = 0 := by
    rw [Int.floor_eq_iff]
    constructor <;> norm_num
  have h0 : toLong ((0 : Int) : ℚ) = 0 := toLong_intCast 0 (by decide) (by decide)
  unfold isLong floor
  rw [hf, h0]
  simp

/-- One pass on the result of the piecewise example: Rule Two, applied to the Real literal
`0.5`, reads `children[0]` of an empty vector. -/
theorem simplifyTwoPath_piecewise_result :
    simplifyTwoPath
        (ASTNode.mk .AST_FUNCTION_PIECEWISE
          [integerNode 1, ASTNode.mk .AST_RELATIONAL_GT [nameNode "y", integerNode 0],
           ASTNode.mk .AST_PLUS [nameNode "x", realNode (1 / 2)],
           ASTNode.mk .AST_RELATIONAL_GT [nameNode "y", integerNode 1],
           integerNode 2])
      = .error .outOfRange := by
  simp [simplifyTwoPath, simplifyRuleOne, simplifyRuleOneFuel, simplifyRuleTwo,
    simplifyRuleTwoFuel, nodeCount, nodeCountList, mapAll, mapEven, flattenChildren,
    vectorAt, isLong_inv_two, bind, Except.bind]

/-- C7, the run of the code at `piecewise(1, y > 0, x + 1/2, y > 1, 2)`: `simplifyNew`
returns after one pass, in which the middle branch has become `x + 0.5` (the changed branch
is a middle child, which `isEqualTree` does not compare), and `simplifyNew` applied to that
result returns no tree: Rule Two, applied to the Real literal `0.5`, reads `children[0]` of
an empty vector and dereferences the value read. -/
theorem simplifyNew_piecewise_not_idempotent :
    (∀ n : Nat,
      simplifyNewFuel (n + 1)
          (ASTNode.mk .AST_FUNCTION_PIECEWISE
            [integerNode 1, ASTNode.mk .AST_RELATIONAL_GT [nameNode "y", integerNode 0],
             ASTNode.mk .AST_PLUS [nameNode "x", rationalNode 1 2],
             ASTNode.mk .AST_RELATIONAL_GT [nameNode "y", integerNode 1],
             integerNode 2])
        = .ok (ASTNode.mk .AST_FUNCTION_PIECEWISE
            [integerNode 1, ASTNode.mk .AST_RELATIONAL_GT [nameNode "y", integerNode 0],
             ASTNode.mk .AST_PLUS [nameNode "x", realNode (1 / 2)],
             ASTNode.mk .AST_RELATIONAL_GT [nameNode "y", integerNode 1],
             integerNode 2]))
      ∧ ∀ n : Nat,
        simplifyNewFuel (n + 1)
            (ASTNode.mk .AST_FUNCTION_PIECEWISE
              [integerNode 1, ASTNode.mk .AST_RELATIONAL_GT [nameNode "y", integerNode 0],
               ASTNode.mk .AST_PLUS [nameNode "x", realNode (1 / 2)],
               ASTNode.mk .AST_RELATIONAL_GT [nameNode "y", integerNode 1],
               integerNode 2])
          = .error .outOfRange := by
  constructor
  · intro n
    rw [simplifyNewFuel, simplifyTwoPath_piecewise]
    simp [isEqualTree, isEqualTreeFuel, isEqual, height, heightList, reduceToBinary,
      reduceToBinaryList, chain, bind, Except.bind]
  · intro n
    rw [simplifyNewFuel, simplifyTwoPath_piecewise_result]
    rfl

/-- C11 (no-op on unrecognised shapes): when `isRationalForm t` is false,
`reduceFraction t` succeeds and returns `t` itself. -/
theorem reduceFraction_unrecognised (t : ASTNode) (h : isRationalForm t = .ok false) :
    reduceFraction t = .ok t := by
  simp [reduceFraction, h, bind, Except.bind]

/-- C11 at the sum `x + 1`. -/
theorem reduceFraction_unrecognised_witness :
    isRationalForm (ASTNode.mk .AST_PLUS [nameNode "x", integerNode 1]) = .ok false
      ∧ reduceFraction (ASTNode.mk .AST_PLUS [nameNode "x", integerNode 1])
          = .ok (ASTNode.mk .AST_PLUS [nameNode "x", integerNode 1]) :=
  ⟨rfl, reduceFraction_unrecognised _ rfl⟩

theorem getValue_of_isInteger (r : ASTNode) (h : r.isInteger = true) :
    r.getValue = toDouble (r.getNumerator : ℚ) := by
  obtain ⟨k, cs⟩ := r
  cases k <;> simp_all

theorem isRationalFormPower_sound (t : ASTNode) (b : Bool)
    (h : isRationalFormPower t = .ok b) :
    b = (leftIsInteger t && rightIsNegativeInteger t) := by
  unfold isRationalFormPower at h
  unfold leftIsInteger rightIsNegativeInteger
  cases hl : t.getLeftChild with
  | none => simp [hl, bind, Except.bind, -getLeftChild] at h
  | some l =>
    simp only [hl, bind, Except.bind, deref] at h ⊢
    cases hli : l.isInteger with
    | false => simp_all [-getRightChild, -isInteger]
    | true =>
      simp only [hli, if_true] at h
      cases hr : t.getRightChild with
      | none => simp [hr, -getRightChild] at h
      | some r =>
        simp only [hr] at h ⊢
        cases hri : r.isInteger with
        | false => simp_all [-isInteger]
        | true =>
          have hv := getValue_of_isInteger r hri
          simp only [hri, if_true, hv] at h
          by_cases hneg : r.getNumerator < 0
          · have : toDouble ((r.getNumerator : Int) : ℚ) < 0 :=
              (toDouble_intCast_neg _).mpr hneg
            simp_all [-isInteger, -getNumerator, -getValue]
          · have : ¬ toDouble ((r.getNumerator : Int) : ℚ) < 0 := by
              intro hc
              exact hneg ((toDouble_intCast_neg _).mp hc)
            simp_all [-isInteger, -getNumerator, -getValue]

theorem isRationalFormPower_complete (t : ASTNode)
    (h : (leftIsInteger t && rightIsNegativeInteger t) = true) :
    isRationalFormPower t = .ok true := by
  unfold isRationalFormPower
  unfold leftIsInteger rightIsNegativeInteger at h
  cases hl : t.getLeftChild with
  | none => simp [hl, -getLeftChild] at h
  | some l =>
    cases hr : t.getRightChild with
    | none => simp [hr, -getRightChild] at h
    | some r =>
      simp only [hl, hr, Bool.and_eq_true, decide_eq_true_eq] at h
      obtain ⟨hli, hri, hneg⟩ := h
      have hv := getValue_of_isInteger r hri
      have : toDouble ((r.getNumerator : Int) : ℚ) < 0 := (toDouble_intCast_neg _).mpr hneg
      simp only [hl, hr, bind, Except.bind, deref, hli, hri, hv, this, if_true]

theorem isRationalForm_divide (t : ASTNode) (hk : t.kind = .AST_DIVIDE) :
    (∀ b, isRationalForm t = .ok b → b = (leftIsInteger t && rightIsInteger t))
      ∧ ((leftIsInteger t && rightIsInteger t) = true → isRationalForm t = .ok true) := by
  unfold isRationalForm leftIsInteger rightIsInteger
  simp only [hk, bind, Except.bind]
  cases hl : t.getLeftChild with
  | none => simp [deref]
  | some l =>
    cases hli : l.isInteger with
    | false => simp [deref, hli, -isInteger]
    | true =>
      cases hr : t.getRightChild with
      | none => simp [deref, hli, -isInteger]
      | some r =>
        cases hri : r.isInteger <;> simp [deref, hli, hri, -isInteger]

theorem isRationalForm_times (t : ASTNode) (hk : t.kind = .AST_TIMES) :
    (∀ b, isRationalForm t = .ok b →
        b = (isTimesIntegerPower t || isTimesIntegerRational t))
      ∧ ((isTimesIntegerPower t || isTimesIntegerRational t) = true →
          isRationalForm t = .ok true) := by
  unfold isRationalForm isTimesIntegerPower isTimesIntegerRational leftIsInteger
    rightIsRational
  simp only [hk, bind, Except.bind]
  by_cases hn : t.getNumChildren = 2
  · simp only [hn, if_true, decide_True, Bool.true_and, decide_eq_true_eq]
    cases hl : t.getLeftChild with
    | none =>
      exfalso
      obtain ⟨k, cs⟩ := t
      cases cs <;> simp_all
    | some l =>
      cases hr : t.getRightChild with
      | none =>
        exfalso
        obtain ⟨k, cs⟩ := t
        match cs with
        | [] => simp at hn
        | [a] => simp at hn
        | [a, c] => simp at hr
        | a :: c :: e :: rest => simp at hn
      | some r =>
        cases hli : l.isInteger with
        | false => simp [deref, hli, -isInteger]
        | true =>
          simp only [deref, hli, if_true, Bool.true_and]
          have hp1 := isRationalFormPower_sound r
          have hp2 := isRationalFormPower_complete r
          unfold isNegativeIntegerPower
          cases hrk : r.kind <;>
            simp only [hrk, ASTNode.isRational, decide_True, decide_False, Bool.or_false,
              Bool.false_or, Bool.or_true, Bool.true_or, Bool.false_and, Bool.true_and,
              reduceCtorEq] <;>
            first
              | (constructor
                 · intro b hb
                   simpa [Bool.and_assoc] using hp1 b hb
                 · intro hb
                   exact hp2 (by simpa [Bool.and_assoc] using hb))
              | simp
  · simp [hn, -getNumChildren]

theorem isRationalForm_shapes (t : ASTNode) :
    (∀ b, isRationalForm t = .ok b → b = (fourShapes t || isNegativeIntegerPower t))
      ∧ ((fourShapes t || isNegativeIntegerPower t) = true → isRationalForm t = .ok true) := by
  have hd := isRationalForm_divide t
  have ht := isRationalForm_times t
  have hp1 := isRationalFormPower_sound t
  have hp2 := isRationalFormPower_complete t
  cases hk : t.kind <;>
    simp only [fourShapes, isRationalLiteral, isDivideOfIntegers, isTimesIntegerPower,
      isTimesIntegerRational, isNegativeIntegerPower, ASTNode.isRational, hk, reduceCtorEq,
      decide_False, decide_True, Bool.false_and, Bool.true_and, Bool.or_false, Bool.false_or,
      Bool.or_true, Bool.true_or] <;>
    first
      | (have e : isRationalForm t = .ok false := by simp [isRationalForm, hk, -ASTNode.kind]
         simp [e])
      | (have e : isRationalForm t = .ok true := by simp [isRationalForm, hk, -ASTNode.kind]
         simp [e])
      | exact hd hk
      | (have h := ht hk
         simpa [isTimesIntegerPower, isTimesIntegerRational, hk, isNegativeIntegerPower,
           -ASTNode.kind, -getNumChildren, -getRightChild] using h)
      | (have e : isRationalForm t = isRationalFormPower t := by
           simp [isRationalForm, hk, -ASTNode.kind]
         rw [e]
         exact ⟨fun b hb => by simpa [Bool.and_assoc] using hp1 b hb,
           fun hb => hp2 (by simpa [Bool.and_assoc] using hb)⟩)

theorem integer_of_isInteger (l : ASTNode) (h : l.isInteger = true) :
    ∃ v : Int, integerValue l = some v ∧ l.getValue = toDouble (v : ℚ)
      ∧ l.getNumerator = v := by
  obtain ⟨k, cs⟩ := l
  cases k <;> simp_all [integerValue]

theorem rational_of_isRational (r : ASTNode) (h : r.isRational = true) :
    ∃ p q : Int, r.kind = .AST_RATIONAL p q ∧ r.getNumerator = p ∧ r.getDenominator = q := by
  obtain ⟨k, cs⟩ := r
  cases k <;> simp_all

/-- The `pow` call of the power case of `reduceFraction`, on the values of an Integer base
`b` and a negative Integer exponent `e`: it returns; a non-zero base gives a non-zero
`long`; and within 53 bits the `long` is `b ^ (-e)`. -/
theorem pow_negative_exponent (b e : Int) (he : e < 0) :
    ∃ p : ℚ, pow (toDouble (b : ℚ)) (toDouble (e : ℚ) * (-1)) = .ok p
      ∧ (b ≠ 0 → toLong p ≠ 0)
      ∧ (b.natAbs ≤ 2 ^ 53 → e.natAbs ≤ 2 ^ 53 → (b ^ (-e).toNat).natAbs ≤ 2 ^ 53 →
          toLong p = b ^ (-e).toNat) := by
  obtain ⟨w, hw⟩ := toDouble_intCast_isInt (-e)
  have hpos : 0 < toDouble ((-e : Int) : ℚ) := (toDouble_intCast_pos (-e)).mpr (by omega)
  have hw0 : 0 < w := by
    rw [hw] at hpos
    exact_mod_cast hpos
  have hwq : ¬ ((w : ℚ) < 0) := by
    have : (0 : ℚ) < (w : ℚ) := by exact_mod_cast hw0
    linarith
  have hcast : toDouble (e : ℚ) * (-1) = (w : ℚ) := by
    rw [← hw]
    push_cast
    rw [toDouble_neg]
    ring
  have hden : ((w : Int) : ℚ).den = 1 := Rat.intCast_den _
  have hnum : ((w : Int) : ℚ).num = w := Rat.num_intCast _
  refine ⟨toDouble (toDouble (b : ℚ) ^ w), ?_, ?_, ?_⟩
  · rw [hcast]
    simp only [pow, hden, hnum, if_true, hwq, and_false, if_false]
  · intro hb
    apply toLong_ne_zero
    apply one_le_abs_toDouble
    obtain ⟨j, hj⟩ : ∃ j : Nat, w = (j : Int) := ⟨w.toNat, (Int.toNat_of_nonneg hw0.le).symm⟩
    rw [hj, zpow_natCast, abs_pow]
    exact one_le_pow₀ (one_le_abs_toDouble _ (one_le_abs_intCast b hb))
  · intro hb he2 hp
    rw [toDouble_intCast (-e) (by omega)] at hw
    have hwe : w = -e := by
      have : (-e : Int) = w := by exact_mod_cast hw
      omega
    subst hwe
    rw [toDouble_intCast b hb]
    have e1 : ((b : ℚ) ^ (-e : Int)) = ((b ^ (-e).toNat : Int) : ℚ) := by
      obtain ⟨j, hj⟩ : ∃ j : Nat, -e = (j : Int) :=
        ⟨(-e).toNat, (Int.toNat_of_nonneg hw0.le).symm⟩
      rw [hj, zpow_natCast, Int.toNat_natCast]
      push_cast
      rfl
    rw [e1, toLong_toDouble_intCast _ hp]

/-- The run of `reduceFraction` on a power node with Integer base `b` and negative Integer
exponent `e`: the tail is entered with numerator 1 and the `long` of the `double` power;
that denominator is non-zero when `b ^ (-e)` is, and equal to it within 53 bits. -/
theorem reduceFractionPower_eq (t : ASTNode)
    (h : (leftIsInteger t && rightIsNegativeInteger t) = true) :
    ∃ (l r : ASTNode) (D : Int), t.getLeftChild = some l ∧ t.getRightChild = some r
      ∧ powerFraction t = some (1, l.getNumerator ^ (-r.getNumerator).toNat)
      ∧ reduceFractionPower t = reduceByGcd 1 D
      ∧ (∃ res, reduceByGcd 1 D = .ok res ∧ res.getDenominator = D)
      ∧ (l.getNumerator ^ (-r.getNumerator).toNat ≠ 0 → D ≠ 0)
      ∧ (l.getNumerator.natAbs ≤ 2 ^ 53 → r.getNumerator.natAbs ≤ 2 ^ 53 →
          (l.getNumerator ^ (-r.getNumerator).toNat).natAbs ≤ 2 ^ 53 →
          D = l.getNumerator ^ (-r.getNumerator).toNat) := by
  have hrec := isRationalFormPower_complete t h
  unfold leftIsInteger rightIsNegativeInteger at h
  cases hl : t.getLeftChild with
  | none => simp [hl, -getLeftChild] at h
  | some l =>
    cases hr : t.getRightChild with
    | none => simp [hr, -getRightChild] at h
    | some r =>
      simp only [hl, hr, Bool.and_eq_true, decide_eq_true_eq] at h
      obtain ⟨hli, hri, hneg⟩ := h
      obtain ⟨b, hb1, hb2, hb3⟩ := integer_of_isInteger l hli
      obtain ⟨e, he1, he2, he3⟩ := integer_of_isInteger r hri
      rw [he3] at hneg
      obtain ⟨p, hp1, hp2, hp3⟩ := pow_negative_exponent b e hneg
      have hk : 0 < (-e).toNat := by omega
      refine ⟨l, r, toLong p, rfl, rfl, ?_, ?_, getDenominator_reduceByGcd_one _, ?_, ?_⟩
      · rw [hb3, he3]
        simp only [powerFraction, hl, hr, hb1, he1, hneg, if_true]
      · unfold reduceFractionPower
        simp only [hrec, bind, Except.bind, hl, hr, deref, hb2, he2, hp1]
        simp
      · rw [hb3, he3]
        intro hd
        apply hp2
        intro hb0
        rw [hb0] at hd
        exact hd (zero_pow (by omega))
      · rw [hb3, he3]
        exact hp3

/-- The run of `reduceFraction` on a tree in rational form: the tail is entered with a
numerator `n'` and a denominator `d'`.  With `n / d` the fraction that the tree denotes,
`d'` is non-zero when `d` is, and `n' = n`, `d' = d` when the integers taken through
`double` have magnitude at most `2 ^ 53`. -/
theorem reduceFraction_recognised (t : ASTNode) (h : isRationalForm t = .ok true) :
    ∃ n d n' d' : Int, fractionOf t = some (n, d) ∧ reduceFraction t = reduceByGcd n' d'
      ∧ (d ≠ 0 → d' ≠ 0)
      ∧ ((∀ z ∈ doubleOperands t, z.natAbs ≤ 2 ^ 53) → n' = n ∧ d' = d) := by
  have hshape := (isRationalForm_shapes t).1 true h
  have hp := reduceFractionPower_eq t
  cases hk : t.kind <;>
    simp only [fourShapes, isRationalLiteral, isDivideOfIntegers, isTimesIntegerPower,
      isTimesIntegerRational, isNegativeIntegerPower, ASTNode.isRational, hk, reduceCtorEq,
      decide_False, decide_True, Bool.false_and, Bool.true_and, Bool.or_false, Bool.false_or,
      Bool.or_true, Bool.true_or] at hshape
  case AST_RATIONAL p q =>
    exact ⟨p, q, p, q, by simp [fractionOf, hk, -ASTNode.kind],
      by simp [reduceFraction, h, hk, bind, Except.bind, -ASTNode.kind],
      fun hq => hq, fun _ => ⟨rfl, rfl⟩⟩
  case AST_DIVIDE =>
    unfold leftIsInteger rightIsInteger at hshape
    cases hl : t.getLeftChild with
    | none => simp [hl, -getLeftChild] at hshape
    | some l =>
      cases hr : t.getRightChild with
      | none => simp [hl, hr, -getRightChild, -getLeftChild] at hshape
      | some r =>
        simp only [hl, hr, Bool.true_eq, Bool.and_eq_true] at hshape
        obtain ⟨n, hn1, hn2, hn3⟩ := integer_of_isInteger l hshape.1
        obtain ⟨d, hd1, hd2, hd3⟩ := integer_of_isInteger r hshape.2
        refine ⟨n, d, toLong (toDouble (n : ℚ)), toLong (toDouble (d : ℚ)), ?_, ?_, ?_, ?_⟩
        · simp only [fractionOf, hk, hl, hr, hn1, hd1]
        · unfold reduceFraction
          simp only [h, bind, Except.bind, hk, hl, hr, deref, hn2, hd2]
          simp
        · exact fun hd0 => toLong_toDouble_intCast_ne_zero d hd0
        · intro hx
          simp only [doubleOperands, hk, hl, hr, hn3, hd3, List.mem_cons, List.mem_singleton,
            forall_eq_or_imp, forall_eq, List.not_mem_nil, false_implies, implies_true,
            and_true] at hx
          exact ⟨toLong_toDouble_intCast n hx.1, toLong_toDouble_intCast d hx.2⟩
  case AST_TIMES =>
    unfold leftIsInteger rightIsRational at hshape
    by_cases hnc : t.getNumChildren = 2
    · cases hl : t.getLeftChild with
      | none => simp [hl, -getLeftChild, -getNumChildren, -getRightChild] at hshape
      | some l =>
        cases hr : t.getRightChild with
        | none => simp [hl, hr, -getLeftChild, -getNumChildren, -getRightChild] at hshape
        | some r =>
          simp only [hl, hr, hnc, decide_True, Bool.true_and] at hshape
          have hli : l.isInteger = true := by
            cases hli : l.isInteger
            · simp [hli, -isInteger] at hshape
            · rfl
          obtain ⟨a, ha1, ha2, ha3⟩ := integer_of_isInteger l hli
          simp only [hli, Bool.true_and] at hshape
          cases hrat : r.isRational with
          | true =>
            obtain ⟨p, q, hrk, hp1, hq1⟩ := rational_of_isRational r hrat
            refine ⟨a * p, q, toLong (toDouble (toDouble (a : ℚ) * toDouble (p : ℚ))), q,
              ?_, ?_, fun hq => hq, ?_⟩
            · simp only [fractionOf, hk, hnc, if_true, hl, hr, ha1, hrk]
            · unfold reduceFraction
              simp only [h, bind, Except.bind, hk, hl, hr, deref, hrk, ha2, hp1, hq1]
              simp
            · intro hx
              simp only [doubleOperands, hk, hl, hr, hrk, ha3, List.mem_cons,
                List.mem_singleton, forall_eq_or_imp, forall_eq, List.not_mem_nil,
                false_implies, implies_true, and_true] at hx
              refine ⟨?_, rfl⟩
              rw [toDouble_intCast a hx.1, toDouble_intCast p hx.2.1]
              have e : (a : ℚ) * (p : ℚ) = ((a * p : Int) : ℚ) := by push_cast; rfl
              rw [e, toLong_toDouble_intCast _ hx.2.2]
          | false =>
            simp only [hrat, Bool.or_false] at hshape
            have hs := hshape.symm
            simp only [Bool.and_eq_true, Bool.or_eq_true, decide_eq_true_eq] at hs
            have hrk : r.kind = .AST_POWER ∨ r.kind = .AST_FUNCTION_POWER := hs.1.1
            have hbody : (leftIsInteger r && rightIsNegativeInteger r) = true := by
              unfold leftIsInteger
              simp only [Bool.and_eq_true]
              exact ⟨hs.1.2, hs.2⟩
            obtain ⟨bl, er, D, hbl, her, hd1, hd2, ⟨rr, hrr, hden⟩, hnz, hex⟩ :=
              reduceFractionPower_eq r hbody
            refine ⟨a, bl.getNumerator ^ (-er.getNumerator).toNat, toLong (toDouble (a : ℚ)),
              D, ?_, ?_, hnz, ?_⟩
            · rcases hrk with hrk | hrk <;>
                simp only [fractionOf, hk, hnc, if_true, hl, hr, ha1, hrk, hd1, Option.map]
            · unfold reduceFraction
              rw [hrr] at hd2
              rcases hrk with hrk | hrk <;>
                simp only [h, bind, Except.bind, hk, hl, hr, deref, hrk, ha2, hd2, hden] <;>
                simp
            · intro hx
              have hx2 : ∀ z ∈ [a, bl.getNumerator, er.getNumerator,
                  bl.getNumerator ^ (-er.getNumerator).toNat], z.natAbs ≤ 2 ^ 53 := by
                rcases hrk with hrk | hrk <;>
                  simpa only [doubleOperands, hk, hl, hr, hrk, ha3, hbl, her] using hx
              simp only [List.mem_cons, List.mem_singleton, forall_eq_or_imp, forall_eq,
                List.not_mem_nil, false_implies, implies_true, and_true] at hx2
              exact ⟨toLong_toDouble_intCast a hx2.1, hex hx2.2.1 hx2.2.2.1 hx2.2.2.2⟩
    · simp [hnc, -getNumChildren, -getLeftChild, -getRightChild] at hshape
  case AST_POWER =>
    obtain ⟨bl, er, D, hbl, her, hd1, hd2, -, hnz, hex⟩ :=
      hp (by simpa [Bool.and_assoc] using hshape)
    refine ⟨1, _, 1, D, by simp only [fractionOf, hk, hd1],
      by rw [← hd2]; simp [reduceFraction, h, hk, bind, Except.bind, -ASTNode.kind], hnz, ?_⟩
    intro hx
    simp only [doubleOperands, hk, hbl, her, List.mem_cons, List.mem_singleton,
      forall_eq_or_imp, forall_eq, List.not_mem_nil, false_implies, implies_true,
      and_true] at hx
    exact ⟨rfl, hex hx.1 hx.2.1 hx.2.2⟩
  case AST_FUNCTION_POWER =>
    obtain ⟨bl, er, D, hbl, her, hd1, hd2, -, hnz, hex⟩ :=
      hp (by simpa [Bool.and_assoc] using hshape)
    refine ⟨1, _, 1, D, by simp only [fractionOf, hk, hd1],
      by rw [← hd2]; simp [reduceFraction, h, hk, bind, Except.bind, -ASTNode.kind], hnz, ?_⟩
    intro hx
    simp only [doubleOperands, hk, hbl, her, List.mem_cons, List.mem_singleton,
      forall_eq_or_imp, forall_eq, List.not_mem_nil, false_implies, implies_true,
      and_true] at hx
    exact ⟨rfl, hex hx.1 hx.2.1 hx.2.2⟩

/-- C12, as amended (recognised shapes): whenever `isRationalForm t` returns, its answer is
true exactly when `t` is one of the four shapes of the specification or a bare power node
with Integer base and negative Integer exponent; and on each of these five shapes it
returns true. -/
theorem isRationalForm_five_shapes (t : ASTNode) :
    (∀ b, isRationalForm t = .ok b → b = (fourShapes t || isNegativeIntegerPower t))
      ∧ ((fourShapes t || isNegativeIntegerPower t) = true → isRationalForm t = .ok true) :=
  isRationalForm_shapes t

/-- C12 as amended, at the bare power `2 ^ (-1)` and at the sum `x + 1`. -/
theorem isRationalForm_five_shapes_witness :
    (isRationalForm (ASTNode.mk .AST_PLUS [nameNode "x", integerNode 1]) = .ok false
        ∧ false = (fourShapes (ASTNode.mk .AST_PLUS [nameNode "x", integerNode 1])
            || isNegativeIntegerPower (ASTNode.mk .AST_PLUS [nameNode "x", integerNode 1])))
      ∧ ((fourShapes (ASTNode.mk .AST_POWER [integerNode 2, integerNode (-1)])
            || isNegativeIntegerPower (ASTNode.mk .AST_POWER [integerNode 2, integerNode (-1)]))
          = true
        ∧ isRationalForm (ASTNode.mk .AST_POWER [integerNode 2, integerNode (-1)])
          = .ok true) :=
  ⟨⟨rfl, (isRationalForm_five_shapes _).1 false rfl⟩,
    ⟨by decide, (isRationalForm_five_shapes _).2 (by decide)⟩⟩

/-- C12 as stated fails at the bare power `2 ^ (-1)`: `isRationalForm` answers true on a
tree that is none of the four shapes. -/
theorem isRationalForm_bare_power :
    isRationalForm (ASTNode.mk .AST_POWER [integerNode 2, integerNode (-1)]) = .ok true
      ∧ fourShapes (ASTNode.mk .AST_POWER [integerNode 2, integerNode (-1)]) = false :=
  ⟨(isRationalForm_shapes _).2 (by decide), by decide⟩


theorem ediv_gcd_ne_zero (n d : Int) (h : d ≠ 0) : d / (Int.gcd n d : Int) ≠ 0 := by
  intro e
  have h1 : ((Int.gcd n d : Int)) ∣ d := Int.gcd_dvd_right
  have := Int.ediv_mul_cancel h1
  rw [e] at this
  simp at this
  exact h this.symm

theorem noZeroDenominator_reducedForm (n d : Int) (h : d ≠ 0) :
    noZeroDenominator (reducedForm n d) = true := by
  unfold reducedForm
  have := ediv_gcd_ne_zero n d h
  simp only []
  split
  · simp [noZeroDenominator, noZeroDenominatorList]
  · simp [noZeroDenominator, noZeroDenominatorList, this]

/-- C13, as amended (non-zero denominator): when the input holds no Rational node with
denominator zero, `isRationalForm` returns on it, and the fraction it denotes has a
non-zero denominator, `reduceFraction` returns a tree that holds no Rational node with
denominator zero. -/
theorem reduceFraction_nonzero_denominator (t : ASTNode) (b : Bool)
    (hform : isRationalForm t = .ok b) (hin : noZeroDenominator t = true)
    (hden : ∀ n d : Int, fractionOf t = some (n, d) → d ≠ 0) :
    ∃ r, reduceFraction t = .ok r ∧ noZeroDenominator r = true := by
  cases b with
  | false => exact ⟨t, by simp [reduceFraction, hform, bind, Except.bind], hin⟩
  | true =>
    obtain ⟨n, d, n', d', hf, hr, hnz, -⟩ := reduceFraction_recognised t hform
    have hd := hnz (hden n d hf)
    exact ⟨reducedForm n' d', by rw [hr, reduceByGcd_eq_reducedForm n' d' hd],
      noZeroDenominator_reducedForm n' d' hd⟩

theorem reduceByGcd_coprime (n d : Int) (r : ASTNode) (h : reduceByGcd n d = .ok r)
    (hr : r.isRational = true) : Int.gcd r.getNumerator r.getDenominator = 1 := by
  unfold reduceByGcd at h
  by_cases hg : (Int.gcd n d : Int) = 0
  · simp [hg] at h
  · have hn : Int.tdiv n (Int.gcd n d : Int) = n / (Int.gcd n d : Int) :=
      Int.tdiv_eq_ediv_of_dvd (Int.gcd_dvd_left)
    have hd : Int.tdiv d (Int.gcd n d : Int) = d / (Int.gcd n d : Int) :=
      Int.tdiv_eq_ediv_of_dvd (Int.gcd_dvd_right)
    have hpos : 0 < Int.gcd n d := by
      rcases Nat.eq_zero_or_pos (Int.gcd n d) with e | e
      · exact absurd (by exact_mod_cast e) hg
      · exact e
    simp only [hg, if_false, hn, hd] at h
    split at h
    · injection h with h; subst h; simp at hr
    · injection h with h; subst h
      simp only [rationalNode, getNumerator, getDenominator, ASTNode.kind]
      exact Int.gcd_div_gcd_div_gcd hpos

theorem reducedForm_of_pos (n d : Int) (hd : 0 < d) :
    reducedForm n d =
      if (((n : ℚ) / (d : ℚ)).den : Int) = 1 then integerNode ((n : ℚ) / (d : ℚ)).num
      else rationalNode ((n : ℚ) / (d : ℚ)).num (((n : ℚ) / (d : ℚ)).den : Int) := by
  have hg0 : Int.gcd n d ≠ 0 := by
    intro e
    exact (ne_of_gt hd) ((Int.gcd_eq_zero_iff.mp e).2)
  have hgpos : 0 < Int.gcd n d := Nat.pos_of_ne_zero hg0
  have hgposI : (0 : Int) < (Int.gcd n d : Int) := by exact_mod_cast hgpos
  have hdn : ((Int.gcd n d : Int)) ∣ n := Int.gcd_dvd_left
  have hdd : ((Int.gcd n d : Int)) ∣ d := Int.gcd_dvd_right
  have hd' : 0 < d / (Int.gcd n d : Int) := Int.ediv_pos_of_pos_of_dvd hd (le_of_lt hgposI) hdd
  have hcop : Int.gcd (n / (Int.gcd n d : Int)) (d / (Int.gcd n d : Int)) = 1 :=
    Int.gcd_div_gcd_div_gcd hgpos
  have hq : (n : ℚ) / (d : ℚ)
      = ((n / (Int.gcd n d : Int) : Int) : ℚ) / ((d / (Int.gcd n d : Int) : Int) : ℚ) := by
    have hgq : ((Int.gcd n d : Int) : ℚ) ≠ 0 := by exact_mod_cast (ne_of_gt hgposI)
    rw [Int.cast_div hdn hgq, Int.cast_div hdd hgq]
    field_simp
  have hnum : ((n : ℚ) / (d : ℚ)).num = n / (Int.gcd n d : Int) := by
    rw [hq]; exact Rat.num_div_eq_of_coprime hd' hcop
  have hden : (((n : ℚ) / (d : ℚ)).den : Int) = d / (Int.gcd n d : Int) := by
    rw [hq]; exact Rat.den_div_eq_of_coprime hd' hcop
  unfold reducedForm
  simp only [hnum, hden]

theorem reducedForm_integer (n d z : Int) (hd : 0 < d) (hz : (n : ℚ) / (d : ℚ) = (z : ℚ)) :
    reducedForm n d = integerNode z := by
  rw [reducedForm_of_pos n d hd, hz]
  simp

/-- C13 as amended, at `Divide(6, 8)`. -/
theorem reduceFraction_nonzero_denominator_witness :
    isRationalForm (ASTNode.mk .AST_DIVIDE [integerNode 6, integerNode 8]) = .ok true
      ∧ ∃ r, reduceFraction (ASTNode.mk .AST_DIVIDE [integerNode 6, integerNode 8]) = .ok r
          ∧ noZeroDenominator r = true :=
  ⟨by simp [isRationalForm, bind, Except.bind],
    reduceFraction_nonzero_denominator _ true (by simp [isRationalForm, bind, Except.bind])
      (by simp [noZeroDenominator, noZeroDenominatorList])
      (by simp [fractionOf, integerValue])⟩

/-- C13 as stated fails at `Divide(1, 0)`: the input holds no Rational node at all, and
`reduceFraction` returns the Rational node `1 / 0`; at `Divide(0, 0)` the division by the
greatest common divisor is a division by zero. -/
theorem reduceFraction_zero_divisor :
    noZeroDenominator (ASTNode.mk .AST_DIVIDE [integerNode 1, integerNode 0]) = true
      ∧ reduceFraction (ASTNode.mk .AST_DIVIDE [integerNode 1, integerNode 0])
          = .ok (rationalNode 1 0)
      ∧ noZeroDenominator (rationalNode 1 0) = false
      ∧ noZeroDenominator (ASTNode.mk .AST_DIVIDE [integerNode 0, integerNode 0]) = true
      ∧ reduceFraction (ASTNode.mk .AST_DIVIDE [integerNode 0, integerNode 0])
          = .error .divideByZero := by
  refine ⟨?_, ?_, ?_, ?_, ?_⟩
  · simp [noZeroDenominator, noZeroDenominatorList]
  · rw [reduceFraction_divide_literals, toLong_toDouble_intCast 1 (by decide),
      toLong_toDouble_intCast 0 (by decide)]
    simp [reduceByGcd]
  · simp [noZeroDenominator, noZeroDenominatorList]
  · simp [noZeroDenominator, noZeroDenominatorList]
  · rw [reduceFraction_divide_literals, toLong_toDouble_intCast 0 (by decide)]
    simp [reduceByGcd]

/-- C14 (coprimality): when `reduceFraction` is given a tree in rational form and returns
a Rational node, the numerator and the denominator of that node have greatest common
divisor 1. -/
theorem reduceFraction_coprime (t r : ASTNode) (hform : isRationalForm t = .ok true)
    (hres : reduceFraction t = .ok r) (hr : r.isRational = true) :
    Int.gcd r.getNumerator r.getDenominator = 1 := by
  obtain ⟨_, _, n, d, _, he, _, _⟩ := reduceFraction_recognised t hform
  rw [he] at hres
  exact reduceByGcd_coprime n d r hres hr

/-- C14 at the Rational literal `6 / 8`, reduced to `3 / 4`. -/
theorem reduceFraction_coprime_witness :
    reduceFraction (rationalNode 6 8) = .ok (rationalNode 3 4)
      ∧ Int.gcd (rationalNode 3 4).getNumerator (rationalNode 3 4).getDenominator = 1 :=
  ⟨reduceFraction_six_eighths,
    reduceFraction_coprime (rationalNode 6 8) (rationalNode 3 4)
      (by simp [isRationalForm, bind, Except.bind]) reduceFraction_six_eighths (by simp)⟩

/-- C15, as amended (canonical result): two trees in rational form whose fractions have
positive denominators and denote the same rational number, and in which the integers that
the code takes through `double` have magnitude at most `2 ^ 53`, are reduced to the same
node, and that node is the bare Integer node `z` whenever the number is the integer `z`. -/
theorem reduceFraction_canonical (t1 t2 : ASTNode) (n1 d1 n2 d2 : Int)
    (h1 : isRationalForm t1 = .ok true) (h2 : isRationalForm t2 = .ok true)
    (hf1 : fractionOf t1 = some (n1, d1)) (hf2 : fractionOf t2 = some (n2, d2))
    (hx1 : ∀ z ∈ doubleOperands t1, z.natAbs ≤ 2 ^ 53)
    (hx2 : ∀ z ∈ doubleOperands t2, z.natAbs ≤ 2 ^ 53)
    (hd1 : 0 < d1) (hd2 : 0 < d2) (hv : (n1 : ℚ) / (d1 : ℚ) = (n2 : ℚ) / (d2 : ℚ)) :
    ∃ r, reduceFraction t1 = .ok r ∧ reduceFraction t2 = .ok r
      ∧ ∀ z : Int, (n1 : ℚ) / (d1 : ℚ) = (z : ℚ) → r = integerNode z := by
  obtain ⟨a1, b1, a1', b1', hg1, he1, -, hex1⟩ := reduceFraction_recognised t1 h1
  obtain ⟨a2, b2, a2', b2', hg2, he2, -, hex2⟩ := reduceFraction_recognised t2 h2
  obtain ⟨rfl, rfl⟩ := hex1 hx1
  obtain ⟨rfl, rfl⟩ := hex2 hx2
  rw [hf1] at hg1
  rw [hf2] at hg2
  simp only [Option.some.injEq, Prod.mk.injEq] at hg1 hg2
  obtain ⟨rfl, rfl⟩ := hg1
  obtain ⟨rfl, rfl⟩ := hg2
  refine ⟨reducedForm n1 d1, ?_, ?_, ?_⟩
  · rw [he1, reduceByGcd_eq_reducedForm n1 d1 (ne_of_gt hd1)]
  · rw [he2, reduceByGcd_eq_reducedForm n2 d2 (ne_of_gt hd2), reducedForm_of_pos n1 d1 hd1,
      reducedForm_of_pos n2 d2 hd2, hv]
  · intro z hz
    exact reducedForm_integer n1 d1 z hd1 hz

/-- C15 as amended, at the Rational literal `2 / 4` and `Divide(1, 2)`. -/
theorem reduceFraction_canonical_witness :
    ∃ r, reduceFraction (rationalNode 2 4) = .ok r
      ∧ reduceFraction (ASTNode.mk .AST_DIVIDE [integerNode 1, integerNode 2]) = .ok r
      ∧ ∀ z : Int, ((2 : Int) : ℚ) / ((4 : Int) : ℚ) = (z : ℚ) → r = integerNode z :=
  reduceFraction_canonical (rationalNode 2 4)
    (ASTNode.mk .AST_DIVIDE [integerNode 1, integerNode 2]) 2 4 1 2
    (by simp [isRationalForm, bind, Except.bind])
    (by simp [isRationalForm, bind, Except.bind])
    (by simp [fractionOf]) (by simp [fractionOf, integerValue])
    (by simp [doubleOperands]) (by simp [doubleOperands])
    (by decide) (by decide) (by norm_num)

/-- C15 as stated fails at the Rational literals `1 / (-2)` and `(-1) / 2`: both are in
rational form with a non-zero denominator and denote the same number, and `reduceFraction`
returns each unchanged; and the literal `3 / (-1)`, which denotes the integer `-3`, stays a
Rational node.  It fails at `Times(Integer (2 ^ 53 + 1), Rational(1, 3))` and
`Rational(2 ^ 53 + 1, 3)` as well, which denote the same number with the positive
denominator 3: the first is reduced to `Rational(2 ^ 53, 3)`, its product being rounded in
`double`, the second to the Integer `3002399751580331`. -/
theorem reduceFraction_sign_not_canonical :
    (isRationalForm (rationalNode 1 (-2)) = .ok true
      ∧ isRationalForm (rationalNode (-1) 2) = .ok true
      ∧ ((1 : Int) : ℚ) / ((-2 : Int) : ℚ) = ((-1 : Int) : ℚ) / ((2 : Int) : ℚ)
      ∧ reduceFraction (rationalNode 1 (-2)) = .ok (rationalNode 1 (-2))
      ∧ reduceFraction (rationalNode (-1) 2) = .ok (rationalNode (-1) 2)
      ∧ rationalNode 1 (-2) ≠ rationalNode (-1) 2
      ∧ ((3 : Int) : ℚ) / ((-1 : Int) : ℚ) = ((-3 : Int) : ℚ)
      ∧ reduceFraction (rationalNode 3 (-1)) = .ok (rationalNode 3 (-1)))
    ∧ (isRationalForm
          (ASTNode.mk .AST_TIMES [integerNode 9007199254740993, rationalNode 1 3]) = .ok true
      ∧ isRationalForm (rationalNode 9007199254740993 3) = .ok true
      ∧ fractionOf (ASTNode.mk .AST_TIMES [integerNode 9007199254740993, rationalNode 1 3])
          = some (9007199254740993, 3)
      ∧ fractionOf (rationalNode 9007199254740993 3) = some (9007199254740993, 3)
      ∧ reduceFraction
            (ASTNode.mk .AST_TIMES [integerNode 9007199254740993, rationalNode 1 3])
          = .ok (rationalNode 9007199254740992 3)
      ∧ reduceFraction (rationalNode 9007199254740993 3)
          = .ok (integerNode 3002399751580331)) := by
  refine ⟨⟨?_, ?_, ?_, ?_, ?_, ?_, ?_, ?_⟩, ?_, ?_, ?_, ?_, ?_, ?_⟩
  · simp [isRationalForm, bind, Except.bind]
  · simp [isRationalForm, bind, Except.bind]
  · norm_num
  · simp [reduceFraction, isRationalForm, reduceByGcd, bind, Except.bind]
  · simp [reduceFraction, isRationalForm, reduceByGcd, bind, Except.bind]
  · simp
  · norm_num
  · simp [reduceFraction, isRationalForm, reduceByGcd, bind, Except.bind]
  · simp [isRationalForm, bind, Except.bind]
  · simp [isRationalForm, bind, Except.bind]
  · simp [fractionOf, integerValue]
  · simp [fractionOf]
  · rw [reduceFraction_times_rational]
    have e1 : toDouble ((9007199254740993 : Int) : ℚ) = ((9007199254740992 : Int) : ℚ) := by
      have := toDouble_9007199254740993
      exact_mod_cast this
    rw [e1, toDouble_intCast 1 (by decide)]
    have e2 : ((9007199254740992 : Int) : ℚ) * ((1 : Int) : ℚ)
        = ((9007199254740992 : Int) : ℚ) := by norm_num
    rw [e2, toLong_toDouble_intCast _ (by decide)]
    have g : Int.gcd 9007199254740992 3 = 1 := by norm_num
    simp [reduceByGcd, g]
  · have g : Int.gcd 9007199254740993 3 = 3 := by norm_num
    have e : Int.tdiv 9007199254740993 3 = 3002399751580331 := by rfl
    have e3 : Int.tdiv 3 3 = 1 := by decide
    simp [reduceFraction, isRationalForm, reduceByGcd, bind, Except.bind, g, e, e3]

theorem reduceToBinaryList_length (l : List ASTNode) :
    (reduceToBinaryList l).length = l.length := by
  induction l with
  | nil => simp [reduceToBinaryList]
  | cons c cs ih => simp [reduceToBinaryList, ih]

theorem reduceToBinaryList_fixed (l : List ASTNode) :
    reduceToBinaryList l = l ↔ ∀ c ∈ l, reduceToBinary c = c := by
  induction l with
  | nil => simp [reduceToBinaryList]
  | cons c cs ih => simp [reduceToBinaryList, ih]

theorem reduceToBinary_chain_plus (l : List ASTNode) (h : reduceToBinaryList l = l) :
    reduceToBinary (chain .AST_PLUS l) = chain .AST_PLUS l := by
  match l, h with
  | [], _ => simp [chain, reduceToBinary, reduceToBinaryList]
  | [a], h =>
    simp only [reduceToBinaryList, List.cons.injEq, and_true] at h
    simp [chain, reduceToBinary, reduceToBinaryList, h]
  | [a, b], h =>
    simp only [reduceToBinaryList, List.cons.injEq, and_true] at h
    simp [chain, reduceToBinary, reduceToBinaryList, h.1, h.2]
  | a :: b :: c :: rest, h =>
    simp only [reduceToBinaryList, List.cons.injEq] at h
    have ih := reduceToBinary_chain_plus (b :: c :: rest)
      (by simp only [reduceToBinaryList, List.cons.injEq]; exact h.2)
    simp only [chain, reduceToBinary, reduceToBinaryList, h.1]
    rw [ih]

theorem reduceToBinary_chain_times (l : List ASTNode) (h : reduceToBinaryList l = l) :
    reduceToBinary (chain .AST_TIMES l) = chain .AST_TIMES l := by
  match l, h with
  | [], _ => simp [chain, reduceToBinary, reduceToBinaryList]
  | [a], h =>
    simp only [reduceToBinaryList, List.cons.injEq, and_true] at h
    simp [chain, reduceToBinary, reduceToBinaryList, h]
  | [a, b], h =>
    simp only [reduceToBinaryList, List.cons.injEq, and_true] at h
    simp [chain, reduceToBinary, reduceToBinaryList, h.1, h.2]
  | a :: b :: c :: rest, h =>
    simp only [reduceToBinaryList, List.cons.injEq] at h
    have ih := reduceToBinary_chain_times (b :: c :: rest)
      (by simp only [reduceToBinaryList, List.cons.injEq]; exact h.2)
    simp only [chain, reduceToBinary, reduceToBinaryList, h.1]
    rw [ih]

mutual
theorem reduceToBinary_idem : ∀ t : ASTNode, reduceToBinary (reduceToBinary t) = reduceToBinary t
  | ASTNode.mk k cs => by
    have ih := reduceToBinaryList_idem cs
    cases k <;>
      first
      | (simp only [reduceToBinary]; exact reduceToBinary_chain_plus _ ih)
      | (simp only [reduceToBinary]; exact reduceToBinary_chain_times _ ih)
      | (simp only [reduceToBinary, ih])
theorem reduceToBinaryList_idem : ∀ l : List ASTNode,
    reduceToBinaryList (reduceToBinaryList l) = reduceToBinaryList l
  | [] => by simp [reduceToBinaryList]
  | c :: cs => by
    simp only [reduceToBinaryList, reduceToBinary_idem c, reduceToBinaryList_idem cs]
end

theorem reduceToBinary_fixed_children (t : ASTNode) (h : reduceToBinary t = t) :
    ∀ c ∈ t.children, reduceToBinary c = c := by
  obtain ⟨k, cs⟩ := t
  have key : reduceToBinaryList cs = cs := by
    cases k <;>
      first
      | (simp only [reduceToBinary, ASTNode.mk.injEq, true_and] at h; exact h)
      | (simp only [reduceToBinary] at h
         match cs, h with
         | [], _ => simp [reduceToBinaryList]
         | [a], h => simpa [chain, reduceToBinaryList] using h
         | [a, b], h => simpa [chain, reduceToBinaryList] using h
         | a :: b :: c :: rest, h => simp [chain, reduceToBinaryList] at h)
  exact (reduceToBinaryList_fixed cs).mp key

theorem height_le_heightList (c : ASTNode) (l : List ASTNode) (h : c ∈ l) :
    height c ≤ heightList l := by
  induction l with
  | nil => simp at h
  | cons a as ih =>
    simp only [heightList]
    rcases List.mem_cons.mp h with e | e
    · subst e; exact le_max_left _ _
    · exact le_trans (ih e) (le_max_right _ _)

theorem height_child_lt (t c : ASTNode) (h : c ∈ t.children) : height c < height t := by
  obtain ⟨k, cs⟩ := t
  have := height_le_heightList c cs h
  simp only [height]
  omega

theorem getLeftChild_mem (t c : ASTNode) (h : t.getLeftChild = some c) : c ∈ t.children := by
  obtain ⟨k, cs⟩ := t
  cases cs with
  | nil => simp at h
  | cons a as => simp at h; simp [h]

theorem getRightChild_mem (t c : ASTNode) (h : t.getRightChild = some c) :
    c ∈ t.children := by
  obtain ⟨k, cs⟩ := t
  simp only [getRightChild, ASTNode.children] at h
  split at h
  · exact List.mem_of_mem_getLast? h
  · simp at h

theorem isEqualTreeFuel_child (k : Nat) (x : ASTNode) (P : Option ASTNode → Prop)
    (hk : height (reduceToBinary x) ≤ k)
    (hnone : P none)
    (hsome : ∀ c, height (reduceToBinary c) < k → P (some c)) :
    P (reduceToBinary x).getLeftChild ∧ P (reduceToBinary x).getRightChild := by
  have hchild : ∀ c : Option ASTNode,
      (∀ c0, c = some c0 → c0 ∈ (reduceToBinary x).children) → P c := by
    intro c hc
    cases c with
    | none => exact hnone
    | some c0 =>
      have hm := hc c0 rfl
      have h1 := reduceToBinary_fixed_children _ (reduceToBinary_idem x) c0 hm
      have h2 := height_child_lt _ c0 hm
      exact hsome c0 (by rw [h1]; omega)
  exact ⟨hchild _ (fun c0 h => getLeftChild_mem _ c0 h),
    hchild _ (fun c0 h => getRightChild_mem _ c0 h)⟩

theorem isEqualTreeFuel_total (n : Nat) : ∀ (x : ASTNode) (y : Option ASTNode),
    height (reduceToBinary x) < n → ∃ v, isEqualTreeFuel n (some x) y = .ok v := by
  induction n with
  | zero => intro x y h; omega
  | succ k ih =>
    intro x y hh
    cases y with
    | none => exact ⟨false, by simp [isEqualTreeFuel]⟩
    | some y =>
      obtain ⟨hL, hR⟩ := isEqualTreeFuel_child k x
        (fun c => ∀ z, ∃ v, isEqualTreeFuel k c z = .ok v) (by omega)
        (fun z => by cases z <;> simp [isEqualTreeFuel])
        (fun c hc z => ih c z hc)
      unfold isEqualTreeFuel
      simp only []
      split
      · exact ⟨false, rfl⟩
      · obtain ⟨v1, e1⟩ := hL (reduceToBinary y).getLeftChild
        obtain ⟨v2, e2⟩ := hR (reduceToBinary y).getRightChild
        obtain ⟨v3, e3⟩ := hL (reduceToBinary y).getRightChild
        obtain ⟨v4, e4⟩ := hR (reduceToBinary y).getLeftChild
        simp only [e1, e2, e3, e4, bind, Except.bind]
        cases v1 <;> cases v2 <;> cases v3 <;> cases v4 <;> simp

theorem isEqualTreeFuel_refl (n : Nat) : ∀ (x : ASTNode),
    height (reduceToBinary x) < n → isEqualTreeFuel n (some x) (some x) = .ok true := by
  induction n with
  | zero => intro x h; omega
  | succ k ih =>
    intro x hh
    obtain ⟨hL, hR⟩ := isEqualTreeFuel_child k x
      (fun c => isEqualTreeFuel k c c = .ok true) (by omega)
      (by simp [isEqualTreeFuel])
      (fun c hc => ih c hc)
    unfold isEqualTreeFuel
    simp only [hL, hR, bind, Except.bind, isEqual]
    simp

theorem isEqualTree_refl (x : ASTNode) : isEqualTree (some x) (some x) = .ok true := by
  unfold isEqualTree
  exact isEqualTreeFuel_refl _ x (Nat.lt_succ_self _)

theorem isEqualTree_swap_children (k : Kind) (a b : ASTNode) :
    isEqualTree (some (ASTNode.mk k [a, b])) (some (ASTNode.mk k [b, a])) = .ok true := by
  have hab : reduceToBinary (ASTNode.mk k [a, b])
      = ASTNode.mk k [reduceToBinary a, reduceToBinary b] := by
    cases k <;> simp [reduceToBinary, reduceToBinaryList, chain]
  have hba : reduceToBinary (ASTNode.mk k [b, a])
      = ASTNode.mk k [reduceToBinary b, reduceToBinary a] := by
    cases k <;> simp [reduceToBinary, reduceToBinaryList, chain]
  have ha : height (reduceToBinary (reduceToBinary a))
      < 1 + max (height (reduceToBinary a)) (height (reduceToBinary b)) := by
    rw [reduceToBinary_idem]
    have := le_max_left (height (reduceToBinary a)) (height (reduceToBinary b)); omega
  have hb : height (reduceToBinary (reduceToBinary b))
      < 1 + max (height (reduceToBinary a)) (height (reduceToBinary b)) := by
    rw [reduceToBinary_idem]
    have := le_max_right (height (reduceToBinary a)) (height (reduceToBinary b)); omega
  obtain ⟨v1, e1⟩ := isEqualTreeFuel_total _ (reduceToBinary a) (some (reduceToBinary b)) ha
  obtain ⟨v2, e2⟩ := isEqualTreeFuel_total _ (reduceToBinary b) (some (reduceToBinary a)) hb
  have e3 := isEqualTreeFuel_refl _ (reduceToBinary a) ha
  have e4 := isEqualTreeFuel_refl _ (reduceToBinary b) hb
  unfold isEqualTree
  simp only [hab, height, heightList, Nat.max_zero]
  unfold isEqualTreeFuel
  simp only [hab, hba, isEqual, ASTNode.kind, getLeftChild, getRightChild, ASTNode.children,
    List.head?, List.length, List.getLast?, List.getLast, e1, e2, e3, e4, bind, Except.bind]
  cases v1 <;> cases v2 <;> simp [e1, e2, e3, e4]

/-- C16 (commutative swap): for all trees `a` and `b`, `isEqualTree` answers true on
`Plus(a, b)` against `Plus(b, a)` and on `Times(a, b)` against `Times(b, a)`. -/
theorem isEqualTree_commutative_swap (a b : ASTNode) :
    isEqualTree (some (ASTNode.mk .AST_PLUS [a, b])) (some (ASTNode.mk .AST_PLUS [b, a]))
        = .ok true
      ∧ isEqualTree (some (ASTNode.mk .AST_TIMES [a, b])) (some (ASTNode.mk .AST_TIMES [b, a]))
        = .ok true :=
  ⟨isEqualTree_swap_children .AST_PLUS a b, isEqualTree_swap_children .AST_TIMES a b⟩

theorem differentiate_divide_xy :
    differentiate (ASTNode.mk .AST_DIVIDE [nameNode "x", nameNode "y"]) "x"
      = .ok (ASTNode.mk .AST_DIVIDE [integerNode 1, nameNode "y"]) := by
  simp [differentiate, differentiateFuel, nodeCount, nodeCountList, reduceToBinary,
    reduceToBinaryList, chain, containsTarget, containsTargetEnds, containsTargetLast, bind,
    Except.bind]

theorem differentiate_divide_yx :
    differentiate (ASTNode.mk .AST_DIVIDE [nameNode "y", nameNode "x"]) "x"
      = .ok (ASTNode.mk .AST_DIVIDE
          [ASTNode.mk .AST_MINUS
            [ASTNode.mk .AST_TIMES [integerNode 0, nameNode "x"],
             ASTNode.mk .AST_TIMES [nameNode "y", integerNode 1]],
           ASTNode.mk .AST_FUNCTION_POWER [nameNode "x", integerNode 2]]) := by
  simp [differentiate, differentiateFuel, nodeCount, nodeCountList, reduceToBinary,
    reduceToBinaryList, chain, containsTarget, containsTargetEnds, containsTargetLast, bind,
    Except.bind]

theorem simplify_minus_x_zero :
    simplify (ASTNode.mk .AST_MINUS [nameNode "x", integerNode 0]) = .ok (nameNode "x") := by
  simp [simplify, simplifyFuel, nodeCount, nodeCountList, reduceToBinary,
    reduceToBinaryList, chain, bind, Except.bind]

theorem simplify_minus_zero_x :
    simplify (ASTNode.mk .AST_MINUS [integerNode 0, nameNode "x"])
      = .ok (ASTNode.mk .AST_MINUS [integerNode 0, nameNode "x"]) := by
  simp [simplify, simplifyFuel, nodeCount, nodeCountList, reduceToBinary,
    reduceToBinaryList, chain, bind, Except.bind]

theorem reduceFraction_times_integer_rational :
    reduceFraction (ASTNode.mk .AST_TIMES [integerNode 2, rationalNode 1 4])
      = .ok (rationalNode 1 2) := by
  have g : Int.gcd 2 4 = 2 := by decide
  have e1 : Int.tdiv 4 2 = 2 := by decide
  have e2 : Int.tdiv 2 2 = 1 := by decide
  have t2 : toLong (2 : ℚ) = 2 := by simpa using toLong_intCast 2
  simp [reduceFraction, isRationalForm, bind, Except.bind, reduceByGcd, t2, g, e1, e2]

theorem reduceFraction_times_rational_integer :
    reduceFraction (ASTNode.mk .AST_TIMES [rationalNode 1 4, integerNode 2])
      = .ok (ASTNode.mk .AST_TIMES [rationalNode 1 4, integerNode 2]) := by
  simp [reduceFraction, isRationalForm, bind, Except.bind]

/-- A natural number with a significand of at most 53 bits is its own `double`. -/
theorem toDouble_of_exactInDouble (v : Nat) (h : exactInDouble v) :
    toDouble ((v : Nat) : ℚ) = ((v : Nat) : ℚ) := by
  obtain ⟨m, e, hm, rfl⟩ := h
  have := toDouble_dyadic (m : Int) (e : Int) (by simpa using hm.le) (by omega)
  push_cast at this ⊢
  rw [zpow_natCast] at this
  exact this

theorem factorial_table (n : Nat) (h : n ≤ 19) :
    FACTORIAL_TABLE.getD n 0 = Nat.factorial n := by
  interval_cases n <;> decide

theorem factorial_table_step (n : Nat) (h1 : 1 ≤ n) (h : n ≤ 19) :
    FACTORIAL_TABLE.getD n 0 = n * FACTORIAL_TABLE.getD (n - 1) 0 := by
  interval_cases n <;> decide

theorem factorial_table_exactInDouble (n : Nat) (h : n ≤ 19) :
    exactInDouble (FACTORIAL_TABLE.getD n 0) := by
  by_cases h19 : n = 19
  · subst h19
    exact ⟨1856156927625, 16, by norm_num, by decide⟩
  · have h18 : n ≤ 18 := by omega
    refine ⟨FACTORIAL_TABLE.getD n 0, 0, ?_, by simp⟩
    interval_cases n <;> simp [FACTORIAL_TABLE]

theorem factorial_of_le_19 (n : Nat) (h : n ≤ 19) :
    factorial n = ((Nat.factorial n : Nat) : ℚ) := by
  unfold factorial
  rw [if_pos h, toDouble_of_exactInDouble _ (factorial_table_exactInDouble n h),
    factorial_table n h]

theorem toDouble_factorial_19 :
    toDouble ((FACTORIAL_TABLE.getD 19 0 : Nat) : ℚ) = 121645100408832000 := by
  rw [toDouble_of_exactInDouble _ (factorial_table_exactInDouble 19 (le_refl _))]
  simp [FACTORIAL_TABLE]

theorem toDouble_factorial_20 :
    toDouble ((121645100408832000 : ℚ) * 20) = 2432902008176640000 := by
  have := toDouble_dyadic 9280784638125 18 (by decide) (by decide)
  norm_num at this ⊢
  exact this

theorem toDouble_factorial_21 :
    toDouble ((2432902008176640000 : ℚ) * 21) = 51090942171709440000 := by
  have := toDouble_dyadic 194896477400625 18 (by decide) (by decide)
  norm_num at this ⊢
  exact this

theorem toDouble_factorial_22 :
    toDouble ((51090942171709440000 : ℚ) * 22) = 1124000727777607680000 := by
  have := toDouble_dyadic 2143861251406875 19 (by decide) (by decide)
  norm_num at this ⊢
  exact this

/-- The product `22! * 23` is rounded: `23!` has a significand of 56 bits. -/
theorem toDouble_factorial_23 :
    toDouble ((1124000727777607680000 : ℚ) * 23) = 25852016738884978212864 := by
  rw [toDouble_binade _ 74 (by norm_num) (by norm_num) (by decide)]
  rw [roundHalfEven_eq _ 6163601097794766 (by norm_num) (by norm_num)]
  norm_num

/-- Above the table, one more factor is one more rounded multiplication. -/
theorem factorial_succ (n : Nat) (h : 19 ≤ n) :
    factorial (n + 1) = toDouble (factorial n * toDouble (((n + 1 : Nat) : ℚ))) := by
  have hfold : ∀ m : Nat,
      (List.range' 20 (m + 1)).foldl
          (fun (ret : ℚ) (i : Nat) => toDouble (ret * toDouble (i : ℚ)))
          (toDouble ((FACTORIAL_TABLE.getD 19 0 : Nat) : ℚ))
        = toDouble ((List.range' 20 m).foldl
            (fun (ret : ℚ) (i : Nat) => toDouble (ret * toDouble (i : ℚ)))
            (toDouble ((FACTORIAL_TABLE.getD 19 0 : Nat) : ℚ))
          * toDouble (((20 + m : Nat) : Nat) : ℚ)) := by
    intro m
    rw [List.range'_concat, List.foldl_append]
    simp only [List.foldl_cons, List.foldl_nil, Nat.one_mul]
  obtain ⟨m, rfl⟩ : ∃ m, n = 19 + m := ⟨n - 19, by omega⟩
  have e1 : factorial (19 + m + 1)
      = (List.range' 20 (m + 1)).foldl
          (fun (ret : ℚ) (i : Nat) => toDouble (ret * toDouble (i : ℚ)))
          (toDouble ((FACTORIAL_TABLE.getD 19 0 : Nat) : ℚ)) := by
    unfold factorial
    rw [if_neg (by omega)]
    congr 2
    omega
  have e2 : factorial (19 + m)
      = (List.range' 20 m).foldl
          (fun (ret : ℚ) (i : Nat) => toDouble (ret * toDouble (i : ℚ)))
          (toDouble ((FACTORIAL_TABLE.getD 19 0 : Nat) : ℚ)) := by
    unfold factorial
    by_cases hm : m = 0
    · subst hm
      simp
    · rw [if_neg (by omega)]
      congr 2
      omega
  have e3 : 20 + m = 19 + m + 1 := by omega
  rw [e1, e2, hfold, e3]

theorem factorial_19 : factorial 19 = 121645100408832000 := by
  unfold factorial
  rw [if_pos (le_refl _)]
  exact toDouble_factorial_19

theorem factorial_20 : factorial 20 = 2432902008176640000 := by
  rw [factorial_succ 19 (le_refl _), factorial_19, toDouble_natCast _ (by norm_num)]
  exact_mod_cast toDouble_factorial_20

theorem factorial_21 : factorial 21 = 51090942171709440000 := by
  rw [factorial_succ 20 (by norm_num), factorial_20, toDouble_natCast _ (by norm_num)]
  exact_mod_cast toDouble_factorial_21

theorem factorial_22 : factorial 22 = 1124000727777607680000 := by
  rw [factorial_succ 21 (by norm_num), factorial_21, toDouble_natCast _ (by norm_num)]
  exact_mod_cast toDouble_factorial_22

/-- The `factorial` of the source at 23: the product accumulated in `double` is not `23!`. -/
theorem factorial_23 : factorial 23 = 25852016738884978212864 := by
  rw [factorial_succ 22 (by norm_num), factorial_22, toDouble_natCast _ (by norm_num)]
  exact_mod_cast toDouble_factorial_23

/-- Up to 22 the `factorial` of the source is the factorial. -/
theorem factorial_of_le_22 (n : Nat) (h : n ≤ 22) :
    factorial n = ((Nat.factorial n : Nat) : ℚ) := by
  by_cases h19 : n ≤ 19
  · exact factorial_of_le_19 n h19
  · have hn : n = 20 ∨ n = 21 ∨ n = 22 := by omega
    rcases hn with rfl | rfl | rfl
    · rw [factorial_20]
      norm_num [Nat.factorial]
    · rw [factorial_21]
      norm_num [Nat.factorial]
    · rw [factorial_22]
      norm_num [Nat.factorial]

theorem derivativeSeq_shift (f : ASTNode) (x : String) (k : Nat) :
    derivativeSeq f x (k + 1)
      = (do
          let derivative ← differentiate f x
          let dfdx ← simplify derivative
          derivativeSeq dfdx x k) := by
  induction k with
  | zero =>
    simp only [derivativeSeq, bind, Except.bind]
    cases h1 : differentiate f x with
    | error e => rfl
    | ok d =>
      simp only []
      cases h2 : simplify d <;> rfl
  | succ j ih =>
    rw [derivativeSeq, ih]
    simp only [bind, Except.bind]
    cases h1 : differentiate f x with
    | error e => rfl
    | ok d =>
      simp only []
      cases h2 : simplify d with
      | error e => rfl
      | ok s =>
        simp only [derivativeSeq, bind, Except.bind]

theorem taylorSeriesLoop_terms (x : String) (a : ℚ) (m : Nat) :
    ∀ (n : Nat) (term : ASTNode), (∃ d, derivativeSeq term x m = .ok d) →
      ∃ terms, taylorSeriesLoop x a m n term = .ok terms ∧ terms.length = m
        ∧ ∀ i, i < m → ∃ d, derivativeSeq term x (i + 1) = .ok d
            ∧ terms[i]? = some (ASTNode.mk .AST_TIMES
                [ASTNode.mk .AST_DIVIDE
                  [replaceArgument x (realNode a) d, realNode (factorial (n + i))],
                 ASTNode.mk .AST_POWER
                  [ASTNode.mk .AST_MINUS [nameNode x, realNode a],
                   integerNode ((n + i : Nat) : Int)]]) := by
  induction m with
  | zero =>
    intro n term _
    exact ⟨[], rfl, rfl, fun i hi => absurd hi (Nat.not_lt_zero i)⟩
  | succ j ih =>
    intro n term hd
    obtain ⟨d, hd⟩ := hd
    rw [derivativeSeq_shift] at hd
    cases h1 : differentiate term x with
    | error e => simp [h1, bind, Except.bind] at hd
    | ok der =>
      cases h2 : simplify der with
      | error e => simp [h1, h2, bind, Except.bind] at hd
      | ok dfdx =>
        simp only [h1, h2, bind, Except.bind] at hd
        obtain ⟨rest, hrest, hlen, hterms⟩ := ih (n + 1) dfdx ⟨d, hd⟩
        refine ⟨ASTNode.mk .AST_TIMES
            [ASTNode.mk .AST_DIVIDE
              [replaceArgument x (realNode a) dfdx, realNode (factorial n)],
             ASTNode.mk .AST_POWER
              [ASTNode.mk .AST_MINUS [nameNode x, realNode a],
               integerNode ((n : Nat) : Int)]] :: rest, ?_, by simp [hlen], ?_⟩
        · simp only [taylorSeriesLoop, h1, h2, hrest, bind, Except.bind]
        · intro i hi
          cases i with
          | zero =>
            refine ⟨dfdx, ?_, by simp⟩
            simp only [derivativeSeq, h1, h2, bind, Except.bind]
          | succ i0 =>
            obtain ⟨d0, hd0, ht0⟩ := hterms i0 (by omega)
            refine ⟨d0, ?_, ?_⟩
            · rw [derivativeSeq_shift]
              simp only [h1, h2, bind, Except.bind]
              exact hd0
            · have : n + (i0 + 1) = n + 1 + i0 := by omega
              rw [this]
              simpa using ht0

/-- The structure of the result of `taylorSeries` when the running derivatives up to the
order are defined. -/
theorem taylorSeries_children (f : ASTNode) (x : String) (a : ℚ) (n : Nat)
    (h : ∃ d, derivativeSeq f x n = .ok d) :
    ∃ terms, taylorSeries f x a (n : Int) = .ok (ASTNode.mk .AST_PLUS terms)
      ∧ terms.length = n + 1
      ∧ terms[0]? = some (replaceArgument x (realNode a) f)
      ∧ ∀ k, 1 ≤ k → k ≤ n →
          ∃ d, derivativeSeq f x k = .ok d
            ∧ terms[k]? = some (ASTNode.mk .AST_TIMES
                [ASTNode.mk .AST_DIVIDE
                  [replaceArgument x (realNode a) d, realNode (factorial k)],
                 ASTNode.mk .AST_POWER
                  [ASTNode.mk .AST_MINUS [nameNode x, realNode a], integerNode (k : Int)]]) := by
  obtain ⟨rest, hrest, hlen, hterms⟩ := taylorSeriesLoop_terms x a n 1 f h
  refine ⟨replaceArgument x (realNode a) f :: rest, ?_, by simp [hlen], by simp, ?_⟩
  · simp [taylorSeries, hrest, bind, Except.bind]
  · intro k h1 h2
    obtain ⟨j, rfl⟩ : ∃ j, k = j + 1 := ⟨k - 1, by omega⟩
    obtain ⟨d, hd, ht⟩ := hterms j (by omega)
    refine ⟨d, hd, ?_⟩
    have : 1 + j = j + 1 := by omega
    rw [this] at ht
    simpa using ht

/-- C19, as amended (order-zero Taylor series): for every tree `f`, name `x` and point
`a`, `taylorSeries f x a 0` returns a Plus node whose only child is `f` with every
occurrence of the name `x` replaced by the Real literal `a`. -/
theorem taylorSeries_order_zero (f : ASTNode) (x : String) (a : ℚ) :
    taylorSeries f x a 0 = .ok (ASTNode.mk .AST_PLUS [replaceArgument x (realNode a) f]) := by
  simp [taylorSeries, taylorSeriesLoop, bind, Except.bind]

/-- C19 as stated fails at `f = sin(x)`, `a = 0`: the result is `Plus(sin(0))`, which
`isEqualTree` tells apart from `sin(0)`, the tree `f` with `x` replaced by the literal. -/
theorem taylorSeries_order_zero_not_equal :
    taylorSeries (ASTNode.mk .AST_FUNCTION_SIN [nameNode "x"]) "x" 0 0
        = .ok (ASTNode.mk .AST_PLUS [ASTNode.mk .AST_FUNCTION_SIN [realNode 0]])
      ∧ replaceArgument "x" (realNode 0) (ASTNode.mk .AST_FUNCTION_SIN [nameNode "x"])
        = ASTNode.mk .AST_FUNCTION_SIN [realNode 0]
      ∧ isEqualTree (some (ASTNode.mk .AST_PLUS [ASTNode.mk .AST_FUNCTION_SIN [realNode 0]]))
          (some (ASTNode.mk .AST_FUNCTION_SIN [realNode 0])) = .ok false := by
  refine ⟨?_, ?_, ?_⟩
  · simp [taylorSeries, taylorSeriesLoop, replaceArgument, replaceArgumentList, bind,
      Except.bind]
  · simp [replaceArgument, replaceArgumentList]
  · simp [isEqualTree, isEqualTreeFuel, isEqual]

/-- C20, as amended (Taylor term structure): for an order `n ≤ 170` (beyond it the
factorial leaves the range of `double`), when the running derivatives `D_1 .. D_n` are
defined, `taylorSeries f x a n` returns a Plus node with exactly `n + 1` children; child 0
is `f[x := a]`, and for `1 ≤ k ≤ n` child `k` is
`Times(Divide(D_k[x := a], Real c), Power(Minus(x, Real a), Integer k))`, where `c` is the
`double` that `MathUtil::factorial` returns at `k`; up to `k = 22` that `double` is `k!`
and the child is the term of the specification. -/
theorem taylorSeries_terms (f : ASTNode) (x : String) (a : ℚ) (n : Nat) (_hn : n ≤ 170)
    (h : ∃ d, derivativeSeq f x n = .ok d) :
    ∃ terms, taylorSeries f x a (n : Int) = .ok (ASTNode.mk .AST_PLUS terms)
      ∧ terms.length = n + 1
      ∧ terms[0]? = some (replaceArgument x (realNode a) f)
      ∧ ∀ k, 1 ≤ k → k ≤ n →
          ∃ d, derivativeSeq f x k = .ok d
            ∧ terms[k]? = some (ASTNode.mk .AST_TIMES
                [ASTNode.mk .AST_DIVIDE
                  [replaceArgument x (realNode a) d, realNode (factorial k)],
                 ASTNode.mk .AST_POWER
                  [ASTNode.mk .AST_MINUS [nameNode x, realNode a], integerNode (k : Int)]])
            ∧ (k ≤ 22 → terms[k]? = some (taylorTerm x a k d)) := by
  obtain ⟨terms, h1, h2, h3, h4⟩ := taylorSeries_children f x a n h
  refine ⟨terms, h1, h2, h3, ?_⟩
  intro k hk1 hk2
  obtain ⟨d, hd, ht⟩ := h4 k hk1 hk2
  refine ⟨d, hd, ht, ?_⟩
  intro hk3
  rw [ht, taylorTerm, factorial_of_le_22 k hk3]

theorem derivativeSeq_sin_one :
    derivativeSeq (ASTNode.mk .AST_FUNCTION_SIN [nameNode "x"]) "x" 1
      = .ok (ASTNode.mk .AST_FUNCTION_COS [nameNode "x"]) := by
  simp [derivativeSeq, differentiate, differentiateFuel, simplify, simplifyFuel, nodeCount,
    nodeCountList, reduceToBinary, reduceToBinaryList, chain, containsTarget,
    containsTargetEnds, containsTargetLast, bind, Except.bind]

/-- C20 as amended, at `f = sin(x)`, `a = 0`, `n = 1`. -/
theorem taylorSeries_terms_witness :
    1 ≤ 170 ∧ ∃ terms, taylorSeries (ASTNode.mk .AST_FUNCTION_SIN [nameNode "x"]) "x" 0 ((1 : Nat) : Int)
        = .ok (ASTNode.mk .AST_PLUS terms)
      ∧ terms.length = 1 + 1
      ∧ terms[0]? = some (replaceArgument "x" (realNode 0)
          (ASTNode.mk .AST_FUNCTION_SIN [nameNode "x"]))
      ∧ ∀ k, 1 ≤ k → k ≤ 1 →
          ∃ d, derivativeSeq (ASTNode.mk .AST_FUNCTION_SIN [nameNode "x"]) "x" k = .ok d
            ∧ terms[k]? = some (ASTNode.mk .AST_TIMES
                [ASTNode.mk .AST_DIVIDE
                  [replaceArgument "x" (realNode 0) d, realNode (factorial k)],
                 ASTNode.mk .AST_POWER
                  [ASTNode.mk .AST_MINUS [nameNode "x", realNode 0], integerNode (k : Int)]])
            ∧ (k ≤ 22 → terms[k]? = some (taylorTerm "x" 0 k d)) :=
  ⟨by decide, taylorSeries_terms (ASTNode.mk .AST_FUNCTION_SIN [nameNode "x"]) "x" 0 1 (by decide)
    ⟨_, derivativeSeq_sin_one⟩⟩

theorem derivativeSeq_constant (k : Nat) :
    derivativeSeq (integerNode 5) "x" (k + 1) = .ok (integerNode 0) := by
  induction k with
  | zero =>
    simp [derivativeSeq, differentiate, differentiateFuel, simplify, simplifyFuel, nodeCount,
      nodeCountList, reduceToBinary, reduceToBinaryList, chain, containsTarget,
      containsTargetEnds, containsTargetLast, bind, Except.bind]
  | succ j ih =>
    rw [derivativeSeq, ih]
    simp [differentiate, differentiateFuel, simplify, simplifyFuel, nodeCount,
      nodeCountList, reduceToBinary, reduceToBinaryList, chain, containsTarget,
      containsTargetEnds, containsTargetLast, bind, Except.bind]

set_option maxRecDepth 100000 in
theorem factorial_171_large : (2 : ℚ) ^ 1024 ≤ ((Nat.factorial 171 : Nat) : ℚ) := by
  have h : (2 ^ 256) ^ 4 ≤ Nat.factorial 171 := by decide
  have e : (2 : ℚ) ^ 1024 = (((2 ^ 256) ^ 4 : Nat) : ℚ) := by
    norm_num
  rw [e]
  exact_mod_cast h

/-- C20 as stated fails at order 23, for the constant `f = 5` at the point 0: the running
derivative `D_23` is the Integer literal 0, and child 23 of the result divides it by the
Real literal `25852016738884978212864`, the product `19! * 20 * 21 * 22 * 23` accumulated
in `double`, which is not `23! = 25852016738884976640000`.  And `171!` is beyond the range
of `double`, whose finite values are below `2 ^ 1024`. -/
theorem taylorSeries_factorial_rounds :
    derivativeSeq (integerNode 5) "x" 23 = .ok (integerNode 0)
      ∧ (taylorSeries (integerNode 5) "x" 0 23).map (fun t => t.children[23]?)
        = .ok (some (ASTNode.mk .AST_TIMES
            [ASTNode.mk .AST_DIVIDE [integerNode 0, realNode 25852016738884978212864],
             ASTNode.mk .AST_POWER
              [ASTNode.mk .AST_MINUS [nameNode "x", realNode 0], integerNode 23]]))
      ∧ ASTNode.mk .AST_TIMES
            [ASTNode.mk .AST_DIVIDE [integerNode 0, realNode 25852016738884978212864],
             ASTNode.mk .AST_POWER
              [ASTNode.mk .AST_MINUS [nameNode "x", realNode 0], integerNode 23]]
          ≠ taylorTerm "x" 0 23 (integerNode 0)
      ∧ ((Nat.factorial 23 : Nat) : ℚ) = 25852016738884976640000
      ∧ (2 : ℚ) ^ 1024 ≤ ((Nat.factorial 171 : Nat) : ℚ) := by
  refine ⟨derivativeSeq_constant 22, ?_, ?_, ?_, ?_⟩
  · obtain ⟨terms, h1, -, -, h4⟩ :=
      taylorSeries_children (integerNode 5) "x" 0 23 ⟨_, derivativeSeq_constant 22⟩
    obtain ⟨d, hd, ht⟩ := h4 23 (by decide) (le_refl _)
    rw [derivativeSeq_constant 22] at hd
    obtain rfl : integerNode 0 = d := by
      injection hd
    have h1' : taylorSeries (integerNode 5) "x" 0 23 = .ok (ASTNode.mk .AST_PLUS terms) := by
      exact_mod_cast h1
    rw [h1']
    simp only [Except.map, ASTNode.children, ht, factorial_23]
    simp [replaceArgument, replaceArgumentList]
  · have e : ((Nat.factorial 23 : Nat) : ℚ) = 25852016738884976640000 := by
      norm_num [Nat.factorial]
    simp only [taylorTerm, e]
    simp [replaceArgument, replaceArgumentList]
  · norm_num [Nat.factorial]
  · exact factorial_171_large

/-- C21 (exact factorial table): for `0 ≤ n ≤ 19`, `factorial n` is `n!`; entry 0 of the
table is 1, entry `n` is `n` times entry `n - 1`, the last entry is 121645100408832000, and
every entry is a number that a `double` holds exactly. -/
theorem factorial_table_exact (n : Nat) (h : n ≤ 19) :
    factorial n = ((Nat.factorial n : Nat) : ℚ)
      ∧ FACTORIAL_TABLE.getD 0 0 = 1
      ∧ (1 ≤ n → FACTORIAL_TABLE.getD n 0 = n * FACTORIAL_TABLE.getD (n - 1) 0)
      ∧ FACTORIAL_TABLE.getD 19 0 = 121645100408832000
      ∧ exactInDouble (FACTORIAL_TABLE.getD n 0) := by
  refine ⟨?_, by decide, fun h1 => factorial_table_step n h1 h, by decide,
    factorial_table_exactInDouble n h⟩
  exact factorial_of_le_19 n h

/-- C21 at `n = 19`. -/
theorem factorial_table_exact_witness :
    factorial 19 = ((Nat.factorial 19 : Nat) : ℚ)
      ∧ FACTORIAL_TABLE.getD 0 0 = 1
      ∧ (1 ≤ 19 → FACTORIAL_TABLE.getD 19 0 = 19 * FACTORIAL_TABLE.getD (19 - 1) 0)
      ∧ FACTORIAL_TABLE.getD 19 0 = 121645100408832000
      ∧ exactInDouble (FACTORIAL_TABLE.getD 19 0) :=
  factorial_table_exact 19 (by decide)

theorem agreesWhenOk_refl {α : Type} (a : Except Err α) : AgreesWhenOk a a :=
  fun _ h => h

theorem agreesWhenOk_bind {α β : Type} {a a1 : Except Err α} {f f1 : α → Except Err β}
    (h : AgreesWhenOk a a1) (hf : ∀ v, AgreesWhenOk (f v) (f1 v)) :
    AgreesWhenOk (a >>= f) (a1 >>= f1) := by
  intro r hr
  cases ha : a with
  | error e => rw [ha] at hr; cases hr
  | ok v =>
    rw [ha] at hr
    rw [h v ha]
    exact hf v r hr

theorem agreesWhenOk_mapEven {f g : ASTNode → Except Err ASTNode}
    (h : ∀ c, AgreesWhenOk (f c) (g c)) : ∀ l, AgreesWhenOk (mapEven f l) (mapEven g l)
  | [] => agreesWhenOk_refl _
  | [e] => by
    simp only [mapEven]
    exact agreesWhenOk_bind (h e) (fun _ => agreesWhenOk_refl _)
  | e :: c :: rest => by
    simp only [mapEven]
    exact agreesWhenOk_bind (h e)
      (fun _ => agreesWhenOk_bind (agreesWhenOk_mapEven h rest) (fun _ => agreesWhenOk_refl _))

set_option maxRecDepth 100000 in
set_option maxHeartbeats 4000000 in
theorem differentiateFuel_agrees (x : String) (n : Nat) :
    ∀ (m : Nat) (t : ASTNode), n ≤ m →
      AgreesWhenOk (differentiateFuel n t x) (differentiateFuel m t x) := by
  induction n with
  | zero =>
    intro m t _ r h
    simp [differentiateFuel] at h
  | succ k ih =>
    intro m t hm
    obtain ⟨j, rfl⟩ : ∃ j, m = j + 1 := ⟨m - 1, by omega⟩
    have ih1 : ∀ c, AgreesWhenOk (differentiateFuel k c x) (differentiateFuel j c x) :=
      fun c => ih j c (by omega)
    have hd : ∀ c : Option ASTNode,
        AgreesWhenOk
          (match c with
            | some n => differentiateFuel k n x
            | none => .error .nullPointer)
          (match c with
            | some n => differentiateFuel j n x
            | none => .error .nullPointer) := by
      intro c
      cases c with
      | none => exact agreesWhenOk_refl _
      | some c0 => exact ih1 c0
    unfold differentiateFuel
    simp only []
    split
    · exact agreesWhenOk_refl _
    · apply agreesWhenOk_bind _ (fun _ => agreesWhenOk_refl _)
      generalize (reduceToBinary t).kind = kd
      cases kd <;> dsimp only <;>
        repeat (first
          | with_reducible exact agreesWhenOk_refl _
          | with_reducible exact ih1 _
          | with_reducible exact hd _
          | with_reducible exact agreesWhenOk_mapEven ih1 _
          | with_reducible apply agreesWhenOk_bind
          | split
          | intro _)

theorem agreesWhenOk_ite {α : Type} {c : Prop} [Decidable c] {a a1 b b1 : Except Err α}
    (h1 : AgreesWhenOk a a1) (h2 : AgreesWhenOk b b1) :
    AgreesWhenOk (if c then a else b) (if c then a1 else b1) := by
  by_cases hc : c
  · rw [if_pos hc, if_pos hc]; exact h1
  · rw [if_neg hc, if_neg hc]; exact h2

set_option maxHeartbeats 4000000 in
theorem simplifyFuel_agrees (n : Nat) :
    ∀ (m : Nat) (t : ASTNode), n ≤ m →
      AgreesWhenOk (simplifyFuel n t) (simplifyFuel m t) := by
  induction n with
  | zero =>
    intro m t _ r h
    simp [simplifyFuel] at h
  | succ k ih =>
    intro m t hm
    obtain ⟨j, rfl⟩ : ∃ j, m = j + 1 := ⟨m - 1, by omega⟩
    have ih1 : ∀ c, AgreesWhenOk (simplifyFuel k c) (simplifyFuel j c) :=
      fun c => ih j c (by omega)
    have hd : ∀ c : Option ASTNode,
        AgreesWhenOk
          (match c with
            | some n => simplifyFuel k n
            | none => .error .nullPointer)
          (match c with
            | some n => simplifyFuel j n
            | none => .error .nullPointer) := by
      intro c
      cases c with
      | none => exact agreesWhenOk_refl _
      | some c0 => exact ih1 c0
    unfold simplifyFuel
    lift_lets
    intro binaryTree type s1 s2
    have hs : ∀ c, AgreesWhenOk (s1 c) (s2 c) := hd
    clear_value s1 s2 type binaryTree
    apply agreesWhenOk_ite (agreesWhenOk_refl _)
    apply agreesWhenOk_ite
    · exact agreesWhenOk_bind (agreesWhenOk_mapEven ih1 _) (fun _ => agreesWhenOk_refl _)
    apply agreesWhenOk_bind (hs _)
    intro left
    beta_reduce
    lift_lets
    intro left_val
    apply agreesWhenOk_bind (agreesWhenOk_refl _)
    intro arg
    beta_reduce
    apply agreesWhenOk_ite (agreesWhenOk_refl _)
    apply agreesWhenOk_ite (agreesWhenOk_refl _)
    apply agreesWhenOk_ite (agreesWhenOk_refl _)
    apply agreesWhenOk_ite (agreesWhenOk_refl _)
    apply agreesWhenOk_bind (hs _)
    intro right
    beta_reduce
    lift_lets
    intro right_val rebuilt mergeRightP1 mergeLeftP1 rightZero1 mergeRightT1 mergeLeftT1
      rightNumberT1 rightOne convert nested1 rightNumberW1 mergeRightP2 mergeLeftP2 rightZero2
      mergeRightT2 mergeLeftT2 rightNumberT2 nested2 rightNumberW2
    have h1 : AgreesWhenOk mergeRightP1 mergeRightP2 := by
      repeat (first
        | assumption
        | with_reducible exact agreesWhenOk_refl _
        | with_reducible exact ih1 _
        | apply agreesWhenOk_ite
        | apply agreesWhenOk_bind
        | intro _)
    have h2 : AgreesWhenOk mergeLeftP1 mergeLeftP2 := by
      repeat (first
        | assumption
        | with_reducible exact agreesWhenOk_refl _
        | with_reducible exact ih1 _
        | apply agreesWhenOk_ite
        | apply agreesWhenOk_bind
        | intro _)
    have h3 : AgreesWhenOk rightZero1 rightZero2 := by
      repeat (first
        | assumption
        | with_reducible exact agreesWhenOk_refl _
        | with_reducible exact ih1 _
        | apply agreesWhenOk_ite
        | apply agreesWhenOk_bind
        | intro _)
    have h4 : AgreesWhenOk mergeRightT1 mergeRightT2 := by
      repeat (first
        | assumption
        | with_reducible exact agreesWhenOk_refl _
        | with_reducible exact ih1 _
        | apply agreesWhenOk_ite
        | apply agreesWhenOk_bind
        | intro _)
    have h5 : AgreesWhenOk mergeLeftT1 mergeLeftT2 := by
      repeat (first
        | assumption
        | with_reducible exact agreesWhenOk_refl _
        | with_reducible exact ih1 _
        | apply agreesWhenOk_ite
        | apply agreesWhenOk_bind
        | intro _)
    have h6 : AgreesWhenOk rightNumberT1 rightNumberT2 := by
      repeat (first
        | assumption
        | with_reducible exact agreesWhenOk_refl _
        | with_reducible exact ih1 _
        | apply agreesWhenOk_ite
        | apply agreesWhenOk_bind
        | intro _)
    have h7 : AgreesWhenOk nested1 nested2 := by
      repeat (first
        | assumption
        | with_reducible exact agreesWhenOk_refl _
        | with_reducible exact ih1 _
        | apply agreesWhenOk_ite
        | apply agreesWhenOk_bind
        | intro _)
    have h8 : AgreesWhenOk rightNumberW1 rightNumberW2 := by
      repeat (first
        | assumption
        | with_reducible exact agreesWhenOk_refl _
        | with_reducible exact ih1 _
        | apply agreesWhenOk_ite
        | apply agreesWhenOk_bind
        | intro _)
    clear_value mergeRightP1 mergeLeftP1 rightZero1 mergeRightT1 mergeLeftT1
      rightNumberT1 rightOne convert nested1 rightNumberW1 mergeRightP2 mergeLeftP2 rightZero2
      mergeRightT2 mergeLeftT2 rightNumberT2 nested2 rightNumberW2 rebuilt
    cases type <;> dsimp only <;>
      repeat (first
        | assumption
        | with_reducible exact agreesWhenOk_refl _
        | with_reducible exact ih1 _
        | apply agreesWhenOk_ite
        | apply agreesWhenOk_bind
        | intro _)

theorem differentiateFuel_reduceToBinary (n : Nat) (t : ASTNode) (x : String) :
    differentiateFuel n (reduceToBinary t) x = differentiateFuel n t x := by
  cases n with
  | zero => rfl
  | succ k =>
    unfold differentiateFuel
    simp only [reduceToBinary_idem]

theorem simplifyFuel_reduceToBinary (n : Nat) (t : ASTNode) :
    simplifyFuel n (reduceToBinary t) = simplifyFuel n t := by
  cases n with
  | zero => rfl
  | succ k =>
    unfold simplifyFuel
    simp only [reduceToBinary_idem]

theorem differentiate_child (t : ASTNode) (x : String) (r : ASTNode) (n : Nat)
    (h : differentiate t x = .ok r) (hn : 8 * nodeCount t + 8 ≤ n) :
    differentiateFuel n (reduceToBinary t) x = .ok r := by
  rw [differentiateFuel_reduceToBinary]
  exact differentiateFuel_agrees x _ n t hn r h

theorem simplify_child (t : ASTNode) (r : ASTNode) (n : Nat)
    (h : simplify t = .ok r) (hn : 8 * nodeCount t + 8 ≤ n) :
    simplifyFuel n (reduceToBinary t) = .ok r := by
  rw [simplifyFuel_reduceToBinary]
  exact simplifyFuel_agrees _ n t hn r h

theorem differentiateFuel_fixed (n : Nat) (t : ASTNode) (x : String) (r : ASTNode)
    (h : differentiateFuel n t x = .ok r) : reduceToBinary r = r := by
  cases n with
  | zero => simp [differentiateFuel] at h
  | succ k =>
    unfold differentiateFuel at h
    simp only [] at h
    split at h
    · injection h with h
      subst h
      simp [reduceToBinary, reduceToBinaryList]
    · simp only [bind, Except.bind] at h
      split at h
      · cases h
      · injection h with h
        subst h
        exact reduceToBinary_idem _


theorem differentiate_csc_x :
    differentiate (ASTNode.mk .AST_FUNCTION_CSC [nameNode "x"]) "x"
      = .error (.unknownType .AST_FUNCTION_CSC) := by
  simp [differentiate, differentiateFuel, nodeCount, nodeCountList, reduceToBinary,
    reduceToBinaryList, chain, containsTarget, containsTargetEnds, containsTargetLast, bind,
    Except.bind]

/-- C22 fails at `t = csc(piecewise(1, y > 0, x, y > 1, 2))`: `x` occurs in `t` and the
root kind has no derivative rule, yet `differentiate t x` returns the tree `Integer 0`;
on `csc(x)` it ends in the unsupported-kind failure. -/
theorem differentiate_unsupported_returns_zero :
    occurs "x" (ASTNode.mk .AST_FUNCTION_CSC
        [ASTNode.mk .AST_FUNCTION_PIECEWISE
          [integerNode 1, ASTNode.mk .AST_RELATIONAL_GT [nameNode "y", integerNode 0],
           nameNode "x", ASTNode.mk .AST_RELATIONAL_GT [nameNode "y", integerNode 1],
           integerNode 2]]) = true
      ∧ differentiate (ASTNode.mk .AST_FUNCTION_CSC
        [ASTNode.mk .AST_FUNCTION_PIECEWISE
          [integerNode 1, ASTNode.mk .AST_RELATIONAL_GT [nameNode "y", integerNode 0],
           nameNode "x", ASTNode.mk .AST_RELATIONAL_GT [nameNode "y", integerNode 1],
           integerNode 2]]) "x" = .ok (integerNode 0)
      ∧ differentiate (ASTNode.mk .AST_FUNCTION_CSC [nameNode "x"]) "x"
        = .error (.unknownType .AST_FUNCTION_CSC) := by
  refine ⟨?_, ?_, differentiate_csc_x⟩
  · simp [occurs, occursList]
  · simp [differentiate, differentiateFuel, nodeCount, nodeCountList, reduceToBinary,
      reduceToBinaryList, chain, containsTarget, containsTargetEnds, containsTargetLast]

/-- C23 fails at `p = piecewise(1, y > 0, x, y > 1, 2)`: `x` occurs in the expression
branch at index 2, whose derivative is `Integer 1`, yet `differentiate p x` returns
`Integer 0` and not a Piecewise node with five children. -/
theorem differentiate_piecewise_middle_branch :
    occurs "x" (nameNode "x") = true
      ∧ differentiate (nameNode "x") "x" = .ok (integerNode 1)
      ∧ differentiate (ASTNode.mk .AST_FUNCTION_PIECEWISE
          [integerNode 1, ASTNode.mk .AST_RELATIONAL_GT [nameNode "y", integerNode 0],
           nameNode "x", ASTNode.mk .AST_RELATIONAL_GT [nameNode "y", integerNode 1],
           integerNode 2]) "x" = .ok (integerNode 0) := by
  refine ⟨?_, ?_, ?_⟩
  · simp [occurs, occursList]
  · simp [differentiate, differentiateFuel, nodeCount, nodeCountList, reduceToBinary,
      reduceToBinaryList, chain, containsTarget, containsTargetEnds, containsTargetLast, bind,
      Except.bind]
  · simp [differentiate, differentiateFuel, nodeCount, nodeCountList, reduceToBinary,
      reduceToBinaryList, chain, containsTarget, containsTargetEnds, containsTargetLast]


theorem differentiate_fixed (t : ASTNode) (x : String) (r : ASTNode)
    (h : differentiate t x = .ok r) : reduceToBinary r = r :=
  differentiateFuel_fixed _ t x r h

theorem reduceToBinary_pair (k : Kind) (a b : ASTNode) :
    reduceToBinary (ASTNode.mk k [a, b])
      = ASTNode.mk k [reduceToBinary a, reduceToBinary b] := by
  cases k <;> simp [reduceToBinary, reduceToBinaryList, chain]

theorem getLeftChild_pair (k : Kind) (a b : ASTNode) :
    (ASTNode.mk k [a, b]).getLeftChild = some a := by
  simp

theorem getRightChild_pair (k : Kind) (a b : ASTNode) :
    (ASTNode.mk k [a, b]).getRightChild = some b := by
  simp

theorem kind_mk (k : Kind) (cs : List ASTNode) : (ASTNode.mk k cs).kind = k := rfl

theorem nodeCount_pair (k : Kind) (a b : ASTNode) :
    8 * nodeCount (ASTNode.mk k [a, b]) + 8
      = (8 * nodeCount a + 8 * nodeCount b + 15) + 1 := by
  simp only [nodeCount, nodeCountList]
  omega

/-- The Divide case of `differentiate` in terms of its own test `containsTarget`. -/
theorem differentiate_quotient_containsTarget (u v du : ASTNode) (x : String)
    (hx : containsTarget (reduceToBinary (ASTNode.mk .AST_DIVIDE [u, v])) x = true)
    (hdu : differentiate u x = .ok du) :
    (containsTarget (reduceToBinary v) x = false →
        differentiate (ASTNode.mk .AST_DIVIDE [u, v]) x
          = .ok (ASTNode.mk .AST_DIVIDE [du, reduceToBinary v]))
      ∧ (∀ dv, containsTarget (reduceToBinary v) x = true → differentiate v x = .ok dv →
        differentiate (ASTNode.mk .AST_DIVIDE [u, v]) x
          = .ok (ASTNode.mk .AST_DIVIDE
              [ASTNode.mk .AST_MINUS
                [ASTNode.mk .AST_TIMES [du, reduceToBinary v],
                 ASTNode.mk .AST_TIMES [reduceToBinary u, dv]],
               ASTNode.mk .AST_FUNCTION_POWER [reduceToBinary v, integerNode 2]])) := by
  have hfu := differentiate_fixed u x du hdu
  have hu := differentiate_child u x du (8 * nodeCount u + 8 * nodeCount v + 15) hdu
    (by omega)
  have hrb := reduceToBinary_pair .AST_DIVIDE u v
  rw [hrb] at hx
  constructor
  · intro hv
    unfold differentiate
    rw [nodeCount_pair, differentiateFuel]
    simp only [hx, hrb, kind_mk, getLeftChild_pair, getRightChild_pair, deref, hu, hv, bind,
      Except.bind, reduceToBinary_pair, hfu, reduceToBinary_idem, ↓reduceIte,
      Bool.true_eq_false]
  · intro dv hv hdv
    have hfv := differentiate_fixed v x dv hdv
    have hv1 := differentiate_child v x dv (8 * nodeCount u + 8 * nodeCount v + 15) hdv
      (by omega)
    unfold differentiate
    rw [nodeCount_pair, differentiateFuel]
    simp only [hx, hrb, kind_mk, getLeftChild_pair, getRightChild_pair, deref, hu, hv, hv1,
      bind, Except.bind, reduceToBinary_pair, hfu, hfv, reduceToBinary_idem, ↓reduceIte,
      Bool.true_eq_false, integerNode, reduceToBinary, reduceToBinaryList, chain]

theorem differentiate_name_x : differentiate (nameNode "x") "x" = .ok (integerNode 1) := by
  simp [differentiate, differentiateFuel, nodeCount, nodeCountList, reduceToBinary,
    reduceToBinaryList, chain, containsTarget, containsTargetEnds, containsTargetLast, bind,
    Except.bind]

theorem differentiate_name_y : differentiate (nameNode "y") "x" = .ok (integerNode 0) := by
  simp [differentiate, differentiateFuel, nodeCount, nodeCountList, reduceToBinary,
    reduceToBinaryList, chain, containsTarget, containsTargetEnds, containsTargetLast, bind,
    Except.bind]

theorem kind_chain (k : Kind) (l : List ASTNode) : (chain k l).kind = k := by
  match l with
  | [] => rfl
  | [_] => rfl
  | [_, _] => rfl
  | _ :: _ :: _ :: _ => rfl

theorem kind_reduceToBinary (t : ASTNode) : (reduceToBinary t).kind = t.kind := by
  obtain ⟨k, cs⟩ := t
  cases k <;> simp only [reduceToBinary] <;> first | rfl | exact kind_chain _ _

/-- On at most two children `containsTarget` searches every child. -/
theorem containsTargetEnds_short (x : String) (l : List ASTNode) (h : l.length ≤ 2) :
    containsTargetEnds l x = l.any (fun c => containsTarget c x) := by
  match l, h with
  | [], _ => simp [containsTargetEnds]
  | [a], _ => simp [containsTargetEnds, containsTargetLast]
  | [a, b], _ => simp [containsTargetEnds, containsTargetLast]
  | _ :: _ :: _ :: _, h =>
    simp only [List.length_cons] at h
    omega

theorem containsTarget_chain_plus (x : String) (l : List ASTNode) :
    containsTarget (chain .AST_PLUS l) x = l.any (fun c => containsTarget c x) := by
  match l with
  | [] => simp [chain, containsTarget, containsTargetEnds]
  | [a] => simp [chain, containsTarget, containsTargetEnds, containsTargetLast]
  | [a, b] => simp [chain, containsTarget, containsTargetEnds, containsTargetLast]
  | a :: b :: c :: rest =>
    have ih := containsTarget_chain_plus x (b :: c :: rest)
    simp only [chain, containsTarget, containsTargetEnds, containsTargetLast, ih, List.any_cons]

theorem containsTarget_chain_times (x : String) (l : List ASTNode) :
    containsTarget (chain .AST_TIMES l) x = l.any (fun c => containsTarget c x) := by
  match l with
  | [] => simp [chain, containsTarget, containsTargetEnds]
  | [a] => simp [chain, containsTarget, containsTargetEnds, containsTargetLast]
  | [a, b] => simp [chain, containsTarget, containsTargetEnds, containsTargetLast]
  | a :: b :: c :: rest =>
    have ih := containsTarget_chain_times x (b :: c :: rest)
    simp only [chain, containsTarget, containsTargetEnds, containsTargetLast, ih, List.any_cons]

mutual
/-- On a tree in which only Plus and Times nodes have more than two children, the search
of `containsTarget` in the binary form is the exhaustive occurrence test. -/
theorem containsTarget_eq_occurs (x : String) :
    ∀ t : ASTNode, binaryArity t = true →
      containsTarget (reduceToBinary t) x = occurs x t
  | ASTNode.mk k cs => by
    intro h
    simp only [binaryArity, Bool.and_eq_true, Bool.or_eq_true, decide_eq_true_eq] at h
    have ih := containsTargetAny_eq_occursList x cs h.2
    have hlen : k ≠ .AST_PLUS → k ≠ .AST_TIMES → (reduceToBinaryList cs).length ≤ 2 := by
      intro h1 h2
      rw [reduceToBinaryList_length]
      rcases h.1 with (h3 | h3) | h3
      · exact h3
      · exact absurd h3 h1
      · exact absurd h3 h2
    cases k <;>
      first
      | (simp only [reduceToBinary, containsTarget_chain_plus, occurs, ih]; done)
      | (simp only [reduceToBinary, containsTarget_chain_times, occurs, ih]; done)
      | (simp only [reduceToBinary, containsTarget, occurs]
         rw [containsTargetEnds_short x _ (hlen (by simp) (by simp)), ih]; done)
      | (rename_i name
         simp only [reduceToBinary, containsTarget, occurs]
         rw [containsTargetEnds_short x _ (hlen (by simp) (by simp)), ih]
         by_cases hn : name = x <;> simp [hn])
theorem containsTargetAny_eq_occursList (x : String) :
    ∀ l : List ASTNode, binaryArityList l = true →
      (reduceToBinaryList l).any (fun c => containsTarget c x) = occursList x l
  | [] => by simp [reduceToBinaryList, occursList]
  | c :: cs => by
    intro h
    simp only [binaryArityList, Bool.and_eq_true] at h
    simp only [reduceToBinaryList, List.any_cons, occursList,
      containsTarget_eq_occurs x c h.1, containsTargetAny_eq_occursList x cs h.2]
end

/-- Where the name does not occur, `containsTarget` does not find it in the binary form. -/
theorem containsTarget_false_of_not_occurs (x : String) (t : ASTNode)
    (h : occurs x t = false) : containsTarget (reduceToBinary t) x = false := by
  cases hc : containsTarget (reduceToBinary t) x with
  | false => rfl
  | true =>
    have := containsTarget_occurs x _ hc
    rw [occurs_reduceToBinary, h] at this
    exact absurd this (by decide)

/-- C24, as amended (quotient rule): when `x` occurs in `Divide(u, v)`, no node of `u` and
`v` other than a Plus or Times node has more than two children, and `du` is the derivative
of `u`, the derivative of the quotient is `Divide(du, v)` when `x` does not occur in `v`,
and otherwise `Divide(Minus(Times(du, v), Times(u, dv)), FunctionPower(v, 2))` with `dv`
the derivative of `v`; here `u` and `v` stand in binary form, and the square is a
function-power node. -/
theorem differentiate_quotient_rule (u v du : ASTNode) (x : String)
    (hx : occurs x (ASTNode.mk .AST_DIVIDE [u, v]) = true)
    (hb : binaryArity (ASTNode.mk .AST_DIVIDE [u, v]) = true)
    (hdu : differentiate u x = .ok du) :
    (occurs x v = false →
        differentiate (ASTNode.mk .AST_DIVIDE [u, v]) x
          = .ok (ASTNode.mk .AST_DIVIDE [du, reduceToBinary v]))
      ∧ (∀ dv, occurs x v = true → differentiate v x = .ok dv →
        differentiate (ASTNode.mk .AST_DIVIDE [u, v]) x
          = .ok (ASTNode.mk .AST_DIVIDE
              [ASTNode.mk .AST_MINUS
                [ASTNode.mk .AST_TIMES [du, reduceToBinary v],
                 ASTNode.mk .AST_TIMES [reduceToBinary u, dv]],
               ASTNode.mk .AST_FUNCTION_POWER [reduceToBinary v, integerNode 2]])) := by
  have hbv : binaryArity v = true := by
    simp only [binaryArity, binaryArityList, Bool.and_eq_true] at hb
    exact hb.2.2.1
  have hct : containsTarget (reduceToBinary (ASTNode.mk .AST_DIVIDE [u, v])) x = true := by
    rw [containsTarget_eq_occurs x _ hb]
    exact hx
  have hcv : containsTarget (reduceToBinary v) x = occurs x v :=
    containsTarget_eq_occurs x v hbv
  obtain ⟨h1, h2⟩ := differentiate_quotient_containsTarget u v du x hct hdu
  exact ⟨fun hv => h1 (by rw [hcv]; exact hv), fun dv hv hdv => h2 dv (by rw [hcv]; exact hv) hdv⟩

/-- C24 as amended, at `u = y`, `v = x`. -/
theorem differentiate_quotient_rule_witness :
    occurs "x" (ASTNode.mk .AST_DIVIDE [nameNode "y", nameNode "x"]) = true
      ∧ binaryArity (ASTNode.mk .AST_DIVIDE [nameNode "y", nameNode "x"]) = true
      ∧ differentiate (nameNode "y") "x" = .ok (integerNode 0)
      ∧ occurs "x" (nameNode "x") = true
      ∧ differentiate (nameNode "x") "x" = .ok (integerNode 1)
      ∧ differentiate (ASTNode.mk .AST_DIVIDE [nameNode "y", nameNode "x"]) "x"
          = .ok (ASTNode.mk .AST_DIVIDE
              [ASTNode.mk .AST_MINUS
                [ASTNode.mk .AST_TIMES [integerNode 0, reduceToBinary (nameNode "x")],
                 ASTNode.mk .AST_TIMES [reduceToBinary (nameNode "y"), integerNode 1]],
               ASTNode.mk .AST_FUNCTION_POWER
                [reduceToBinary (nameNode "x"), integerNode 2]]) :=
  ⟨by simp [occurs, occursList], by simp [binaryArity, binaryArityList],
    differentiate_name_y, by simp [occurs, occursList], differentiate_name_x,
    (differentiate_quotient_rule (nameNode "y") (nameNode "x") (integerNode 0) "x"
      (by simp [occurs, occursList]) (by simp [binaryArity, binaryArityList])
      differentiate_name_y).2 (integerNode 1) (by simp [occurs, occursList])
      differentiate_name_x⟩

/-- C24 as stated fails at `Divide(y, x)`: with `du = 0` and `dv = 1` the derivative is
`Divide(Minus(Times(0, x), Times(y, 1)), FunctionPower(x, 2))`, whose denominator is a
function-power node and not the operator node `Power(x, 2)` of the claim.  It fails at
`Divide(x, piecewise(1, y > 0, x, y > 1, 2))` as well: `x` occurs in the denominator, in a
middle child that `containsTarget` does not search, and the derivative is the shortcut
`Divide(1, v)` and not the quotient-rule expansion. -/
theorem differentiate_quotient_function_power :
    (differentiate (nameNode "y") "x" = .ok (integerNode 0)
      ∧ differentiate (nameNode "x") "x" = .ok (integerNode 1)
      ∧ differentiate (ASTNode.mk .AST_DIVIDE [nameNode "y", nameNode "x"]) "x"
        = .ok (ASTNode.mk .AST_DIVIDE
            [ASTNode.mk .AST_MINUS
              [ASTNode.mk .AST_TIMES [integerNode 0, nameNode "x"],
               ASTNode.mk .AST_TIMES [nameNode "y", integerNode 1]],
             ASTNode.mk .AST_FUNCTION_POWER [nameNode "x", integerNode 2]])
      ∧ differentiate (ASTNode.mk .AST_DIVIDE [nameNode "y", nameNode "x"]) "x"
        ≠ .ok (ASTNode.mk .AST_DIVIDE
            [ASTNode.mk .AST_MINUS
              [ASTNode.mk .AST_TIMES [integerNode 0, nameNode "x"],
               ASTNode.mk .AST_TIMES [nameNode "y", integerNode 1]],
             ASTNode.mk .AST_POWER [nameNode "x", integerNode 2]]))
    ∧ (occurs "x"
          (ASTNode.mk .AST_FUNCTION_PIECEWISE
            [integerNode 1, ASTNode.mk .AST_RELATIONAL_GT [nameNode "y", integerNode 0],
             nameNode "x", ASTNode.mk .AST_RELATIONAL_GT [nameNode "y", integerNode 1],
             integerNode 2]) = true
      ∧ differentiate
          (ASTNode.mk .AST_DIVIDE
            [nameNode "x",
             ASTNode.mk .AST_FUNCTION_PIECEWISE
              [integerNode 1, ASTNode.mk .AST_RELATIONAL_GT [nameNode "y", integerNode 0],
               nameNode "x", ASTNode.mk .AST_RELATIONAL_GT [nameNode "y", integerNode 1],
               integerNode 2]]) "x"
        = .ok (ASTNode.mk .AST_DIVIDE
            [integerNode 1,
             ASTNode.mk .AST_FUNCTION_PIECEWISE
              [integerNode 1, ASTNode.mk .AST_RELATIONAL_GT [nameNode "y", integerNode 0],
               nameNode "x", ASTNode.mk .AST_RELATIONAL_GT [nameNode "y", integerNode 1],
               integerNode 2]])) := by
  refine ⟨⟨differentiate_name_y, differentiate_name_x, differentiate_divide_yx, ?_⟩, ?_, ?_⟩
  · rw [differentiate_divide_yx]
    simp
  · simp [occurs, occursList]
  · simp [differentiate, differentiateFuel, nodeCount, nodeCountList, reduceToBinary,
      reduceToBinaryList, chain, containsTarget, containsTargetEnds, containsTargetLast, bind,
      Except.bind]


theorem differentiate_arccsch_x :
    differentiate (ASTNode.mk .AST_FUNCTION_ARCCSCH [nameNode "x"]) "x"
      = .ok (ASTNode.mk .AST_TIMES
          [integerNode (-1),
           ASTNode.mk .AST_DIVIDE
            [integerNode 1,
             ASTNode.mk .AST_TIMES
              [nameNode "x",
               ASTNode.mk .AST_FUNCTION_ROOT
                [integerNode 2,
                 ASTNode.mk .AST_PLUS
                  [ASTNode.mk .AST_POWER [nameNode "x", integerNode 2], integerNode 1]]]]]) := by
  simp [differentiate, differentiateFuel, nodeCount, nodeCountList, reduceToBinary,
    reduceToBinaryList, chain, containsTarget, containsTargetEnds, containsTargetLast, bind,
    Except.bind]

/-- C25 fails at `ArcCsch(x)`: the derivative returned is
`Times(-1, Divide(1, Times(x, Root(2, Plus(Power(x, 2), 1)))))`, with no absolute value
around `x`.  For every reading of the square root and of the absolute value and every
value of `x` it denotes `-(1 / (x * sqrt(x ^ 2 + 1)))`; at `x = -3/4`, where the square root
of `25/16` is `5/4`, this is `16/15`, while the standard derivative
`-1 / (|x| * sqrt(1 + x ^ 2))` is `-16/15`. -/
theorem differentiate_arccsch_no_abs :
    ∃ d, differentiate (ASTNode.mk .AST_FUNCTION_ARCCSCH [nameNode "x"]) "x" = .ok d
      ∧ (∀ (sqrt abs : ℚ → ℚ) (σ : String → ℚ),
          evalNumeric sqrt abs σ d = -(1 / (σ "x" * sqrt (σ "x" ^ 2 + 1))))
      ∧ evalNumeric (fun _ => 5 / 4) (fun q => |q|) (fun _ => -3 / 4) d = 16 / 15
      ∧ -(1 : ℚ) / (|(-3 / 4 : ℚ)| * (5 / 4)) = -16 / 15 := by
  refine ⟨_, differentiate_arccsch_x, ?_, ?_, ?_⟩
  · intro sqrt abs σ
    simp [evalNumeric, evalNumericList, binaryValue, integerExponent, isSquareRoot,
      integerValue]
    left
    norm_cast
  · simp [evalNumeric, evalNumericList, binaryValue, integerExponent, isSquareRoot,
      integerValue]
    norm_num
  · norm_num [abs_of_neg]


theorem exists_ok_of_isOk {α : Type} (e : Except Err α) (h : e.isOk = true) :
    ∃ r, e = .ok r := by
  cases e with
  | error err => simp [Except.isOk, Except.toBool] at h
  | ok r => exact ⟨r, rfl⟩

theorem differentiateFuel_stirling (n dn : ASTNode) (x : String) (f : Nat)
    (hfix : reduceToBinary n = n) (hct : containsTarget n x = true)
    (h : ∀ m, f + 1 ≤ m → differentiateFuel m n x = .ok dn) (hdn : reduceToBinary dn = dn) :
    differentiateFuel (f + 6) (stirlingRewrite n) x = .ok (stirlingDerivative n dn) := by
  have h1 := h (f + 1) (by omega)
  have h2 := h (f + 2) (by omega)
  have h3 := h (f + 3) (by omega)
  have h4 := h (f + 4) (by omega)
  simp [stirlingRewrite, stirlingDerivative, differentiateFuel, reduceToBinary,
    reduceToBinaryList, chain, containsTarget, containsTargetEnds, containsTargetLast, bind,
    Except.bind, hfix, hct, ↓h1, ↓h2, ↓h3, ↓h4, hdn]

/-- Where `containsTarget` does not find the variable in `n`, it does not find it in
Stirling's rewrite of `n!` either. -/
theorem containsTarget_stirlingRewrite_false (n : ASTNode) (x : String)
    (h : containsTarget (reduceToBinary n) x = false) :
    containsTarget (reduceToBinary (stirlingRewrite n)) x = false := by
  simp [stirlingRewrite, reduceToBinary, reduceToBinaryList, chain, containsTarget,
    containsTargetEnds, containsTargetLast, h]

theorem reduceToBinary_stirlingRewrite (n : ASTNode) :
    reduceToBinary (stirlingRewrite (reduceToBinary n)) = reduceToBinary (stirlingRewrite n) := by
  simp [stirlingRewrite, reduceToBinary, reduceToBinaryList, chain, reduceToBinary_idem]

/-- The Factorial case of `differentiate` where `containsTarget` finds the variable. -/
theorem differentiate_factorial_found (n dn : ASTNode) (x : String)
    (hx : containsTarget (reduceToBinary n) x = true) (hdn : differentiate n x = .ok dn) :
    differentiate (ASTNode.mk .AST_FUNCTION_FACTORIAL [n]) x
        = .ok (stirlingDerivative (reduceToBinary n) dn)
      ∧ differentiate (stirlingRewrite n) x
        = .ok (stirlingDerivative (reduceToBinary n) dn) := by
  have hR := differentiateFuel_stirling (reduceToBinary n) dn x (8 * nodeCount n + 9)
    (reduceToBinary_idem n) hx
    (fun m hm => differentiate_child n x dn m hdn (by omega))
    (differentiate_fixed n x dn hdn)
  have hRfix := differentiateFuel_fixed _ _ x _ hR
  refine ⟨?_, ?_⟩
  · have hfuel : 8 * nodeCount (ASTNode.mk .AST_FUNCTION_FACTORIAL [n]) + 8
        = (8 * nodeCount n + 9 + 6) + 1 := by
      simp only [nodeCount, nodeCountList]
      omega
    have hrb : reduceToBinary (ASTNode.mk .AST_FUNCTION_FACTORIAL [n])
        = ASTNode.mk .AST_FUNCTION_FACTORIAL [reduceToBinary n] := by
      simp [reduceToBinary, reduceToBinaryList]
    have hct : containsTarget (ASTNode.mk .AST_FUNCTION_FACTORIAL [reduceToBinary n]) x
        = true := by
      simp [containsTarget, containsTargetEnds, containsTargetLast, hx]
    have hS : stirlingRewrite (reduceToBinary n)
        = ASTNode.mk .AST_TIMES
            [ASTNode.mk .AST_FUNCTION_ROOT
              [integerNode 2,
               ASTNode.mk .AST_TIMES
                [integerNode 2, ASTNode.mk .AST_CONSTANT_PI [], reduceToBinary n]],
             ASTNode.mk .AST_POWER
              [ASTNode.mk .AST_DIVIDE [reduceToBinary n, ASTNode.mk .AST_CONSTANT_E []],
               reduceToBinary n]] := rfl
    rw [hS] at hR
    unfold differentiate
    rw [hfuel, differentiateFuel]
    simp only [hrb, hct, kind_mk, bind, Except.bind, Bool.true_eq_false, ↓reduceIte]
    have hl : (ASTNode.mk .AST_FUNCTION_FACTORIAL [reduceToBinary n]).getLeftChild
        = some (reduceToBinary n) := by simp
    simp only [hl, deref, hR, hRfix]
  · unfold differentiate
    rw [← differentiateFuel_reduceToBinary, ← reduceToBinary_stirlingRewrite,
      differentiateFuel_reduceToBinary]
    refine differentiateFuel_agrees x _ _ _ ?_ _ hR
    simp only [stirlingRewrite, nodeCount, nodeCountList]
    omega

/-- The Factorial case of `differentiate` where `containsTarget` does not find the
variable: both derivatives are the Integer literal 0. -/
theorem differentiate_factorial_not_found (n : ASTNode) (x : String)
    (hx : containsTarget (reduceToBinary n) x = false) :
    differentiate (ASTNode.mk .AST_FUNCTION_FACTORIAL [n]) x = .ok (integerNode 0)
      ∧ differentiate (stirlingRewrite n) x = .ok (integerNode 0) := by
  have h1 : containsTarget (reduceToBinary (ASTNode.mk .AST_FUNCTION_FACTORIAL [n])) x
      = false := by
    simp [reduceToBinary, reduceToBinaryList, containsTarget, containsTargetEnds,
      containsTargetLast, hx]
  have h2 := containsTarget_stirlingRewrite_false n x hx
  constructor
  · have : 8 * nodeCount (ASTNode.mk .AST_FUNCTION_FACTORIAL [n]) + 8
        = (8 * nodeCount (ASTNode.mk .AST_FUNCTION_FACTORIAL [n]) + 7) + 1 := rfl
    rw [differentiate, this]
    exact differentiateFuel_constant _ _ x h1
  · have : 8 * nodeCount (stirlingRewrite n) + 8
        = (8 * nodeCount (stirlingRewrite n) + 7) + 1 := rfl
    rw [differentiate, this]
    exact differentiateFuel_constant _ _ x h2

/-- C26 (factorial through Stirling's rewrite): for every `n` whose derivative is defined,
`differentiate (Factorial(n), x)` and
`differentiate (Times(Root(2, Times(2, Pi, n)), Power(Divide(n, E), n)), x)` return the
same tree `r`.  Where `x` occurs in `n` (and no node of `n` other than a Plus or Times
node has more than two children) `r` is the derivative of the rewrite spelled out over the
binary form of `n` and its derivative; where `x` does not occur in `n`, `r` is the Integer
literal 0. -/
theorem differentiate_factorial_stirling (n dn : ASTNode) (x : String)
    (hdn : differentiate n x = .ok dn) :
    ∃ r, differentiate (ASTNode.mk .AST_FUNCTION_FACTORIAL [n]) x = .ok r
      ∧ differentiate (stirlingRewrite n) x = .ok r
      ∧ (occurs x n = true → binaryArity n = true →
          r = stirlingDerivative (reduceToBinary n) dn)
      ∧ (occurs x n = false → r = integerNode 0) := by
  cases hx : containsTarget (reduceToBinary n) x with
  | true =>
    obtain ⟨h1, h2⟩ := differentiate_factorial_found n dn x hx hdn
    refine ⟨_, h1, h2, fun _ _ => rfl, ?_⟩
    intro ho
    rw [containsTarget_false_of_not_occurs x n ho] at hx
    exact absurd hx (by decide)
  | false =>
    obtain ⟨h1, h2⟩ := differentiate_factorial_not_found n x hx
    refine ⟨_, h1, h2, ?_, fun _ => rfl⟩
    intro ho hb
    rw [containsTarget_eq_occurs x n hb, ho] at hx
    exact absurd hx (by decide)

/-- C26 at `n = x`. -/
theorem differentiate_factorial_stirling_witness :
    differentiate (nameNode "x") "x" = .ok (integerNode 1)
      ∧ ∃ r, differentiate (ASTNode.mk .AST_FUNCTION_FACTORIAL [nameNode "x"]) "x" = .ok r
        ∧ differentiate (stirlingRewrite (nameNode "x")) "x" = .ok r
        ∧ (occurs "x" (nameNode "x") = true → binaryArity (nameNode "x") = true →
            r = stirlingDerivative (reduceToBinary (nameNode "x")) (integerNode 1))
        ∧ (occurs "x" (nameNode "x") = false → r = integerNode 0) :=
  ⟨differentiate_name_x,
    differentiate_factorial_stirling (nameNode "x") (integerNode 1) "x" differentiate_name_x⟩

theorem isEqualTree_of_same_binary_form (a b : ASTNode)
    (h : reduceToBinary a = reduceToBinary b) :
    isEqualTree (some a) (some b) = .ok true := by
  have hk : a.kind = b.kind := by
    rw [← kind_reduceToBinary a, ← kind_reduceToBinary b, h]
  obtain ⟨hL, hR⟩ := isEqualTreeFuel_child (height (reduceToBinary a)) a
    (fun c => isEqualTreeFuel (height (reduceToBinary a)) c c = .ok true) (le_refl _)
    (by simp [isEqualTreeFuel])
    (fun c hc => isEqualTreeFuel_refl _ c hc)
  unfold isEqualTree
  simp only []
  unfold isEqualTreeFuel
  simp only [← h, hL, hR, bind, Except.bind, isEqual, hk]
  simp

theorem reduceToBinaryList_eq_map (l : List ASTNode) :
    reduceToBinaryList l = l.map reduceToBinary := by
  induction l with
  | nil => rfl
  | cons c cs ih => simp [reduceToBinaryList, ih]

theorem getLeftChild_map (k : Kind) (l : List ASTNode) :
    (ASTNode.mk k (l.map reduceToBinary)).getLeftChild
      = (ASTNode.mk k l).getLeftChild.map reduceToBinary := by
  simp only [getLeftChild, ASTNode.children, List.head?_map]

theorem getRightChild_map (k : Kind) (l : List ASTNode) :
    (ASTNode.mk k (l.map reduceToBinary)).getRightChild
      = (ASTNode.mk k l).getRightChild.map reduceToBinary := by
  simp only [getRightChild, ASTNode.children, List.length_map, List.getLast?_map]
  split <;> rfl

/-- The binary form of a node that is neither a Plus nor a Times node. -/
theorem reduceToBinary_other (t : ASTNode) (h1 : t.kind ≠ .AST_PLUS)
    (h2 : t.kind ≠ .AST_TIMES) :
    reduceToBinary t = ASTNode.mk t.kind (t.children.map reduceToBinary) := by
  obtain ⟨k, cs⟩ := t
  simp only [ASTNode.kind] at h1 h2
  cases k <;> simp only [reduceToBinary, reduceToBinaryList_eq_map, ASTNode.kind,
    ASTNode.children] <;> first | rfl | exact absurd rfl h1 | exact absurd rfl h2

theorem isInteger_congr (a b : ASTNode) (h : a.kind = b.kind) : a.isInteger = b.isInteger := by
  simp only [isInteger, h]

theorem getValue_congr (a b : ASTNode) (h : a.kind = b.kind) : a.getValue = b.getValue := by
  simp only [getValue, h]

theorem getDenominator_congr (a b : ASTNode) (h : a.kind = b.kind) :
    a.getDenominator = b.getDenominator := by
  simp only [getDenominator, h]

theorem getNumerator_congr (a b : ASTNode) (h : a.kind = b.kind) :
    a.getNumerator = b.getNumerator := by
  simp only [getNumerator, h]

/-- The power case of `isRationalForm` looks at the kinds of the two operands only. -/
theorem isRationalFormPower_map (k : Kind) (l : List ASTNode) :
    isRationalFormPower (ASTNode.mk k (l.map reduceToBinary))
      = isRationalFormPower (ASTNode.mk k l) := by
  unfold isRationalFormPower
  rw [getLeftChild_map, getRightChild_map]
  cases hl : (ASTNode.mk k l).getLeftChild with
  | none => rfl
  | some cl =>
    cases hr : (ASTNode.mk k l).getRightChild with
    | none =>
      simp only [Option.map, bind, Except.bind, deref,
        isInteger_congr _ _ (kind_reduceToBinary cl)]
    | some cr =>
      simp only [Option.map, bind, Except.bind, deref,
        isInteger_congr _ _ (kind_reduceToBinary cl),
        isInteger_congr _ _ (kind_reduceToBinary cr),
        getValue_congr _ _ (kind_reduceToBinary cr)]

/-- The power case of `reduceFraction` looks at the kinds of the two operands only. -/
theorem reduceFractionPower_map (k : Kind) (l : List ASTNode)
    (h : isRationalFormPower (ASTNode.mk k l) = .ok true) :
    reduceFractionPower (ASTNode.mk k (l.map reduceToBinary))
      = reduceFractionPower (ASTNode.mk k l) := by
  unfold reduceFractionPower
  rw [isRationalFormPower_map, h, getLeftChild_map, getRightChild_map]
  cases hl : (ASTNode.mk k l).getLeftChild with
  | none =>
    cases hr : (ASTNode.mk k l).getRightChild with
    | none => rfl
    | some cr => rfl
  | some cl =>
    cases hr : (ASTNode.mk k l).getRightChild with
    | none => rfl
    | some cr =>
      simp only [Option.map, bind, Except.bind, deref,
        getValue_congr _ _ (kind_reduceToBinary cl),
        getValue_congr _ _ (kind_reduceToBinary cr), Bool.true_eq_false, if_false]

theorem mk_kind_children (t : ASTNode) : ASTNode.mk t.kind t.children = t := by
  obtain ⟨k, cs⟩ := t
  rfl

theorem isRationalFormPower_reduceToBinary (t : ASTNode) (h1 : t.kind ≠ .AST_PLUS)
    (h2 : t.kind ≠ .AST_TIMES) :
    isRationalFormPower (reduceToBinary t) = isRationalFormPower t := by
  rw [reduceToBinary_other t h1 h2, isRationalFormPower_map, mk_kind_children]

theorem reduceFractionPower_reduceToBinary (t : ASTNode) (h1 : t.kind ≠ .AST_PLUS)
    (h2 : t.kind ≠ .AST_TIMES) (h : isRationalFormPower t = .ok true) :
    reduceFractionPower (reduceToBinary t) = reduceFractionPower t := by
  rw [reduceToBinary_other t h1 h2]
  have := reduceFractionPower_map t.kind t.children (by rw [mk_kind_children]; exact h)
  rw [mk_kind_children] at this
  exact this

theorem getNumChildren_pair (k : Kind) (a b : ASTNode) :
    (ASTNode.mk k [a, b]).getNumChildren = 2 := rfl

/-- `isRationalForm` and, on a tree in rational form, `reduceFraction` give the same on a
Times node with two operands and on its binary form. -/
theorem reduceFraction_times_pair (a b : ASTNode) :
    isRationalForm (ASTNode.mk .AST_TIMES [reduceToBinary a, reduceToBinary b])
        = isRationalForm (ASTNode.mk .AST_TIMES [a, b])
      ∧ (isRationalForm (ASTNode.mk .AST_TIMES [a, b]) = .ok true →
          reduceFraction (ASTNode.mk .AST_TIMES [reduceToBinary a, reduceToBinary b])
            = reduceFraction (ASTNode.mk .AST_TIMES [a, b])) := by
  have hka := kind_reduceToBinary a
  have hkb := kind_reduceToBinary b
  have hia := isInteger_congr _ _ hka
  have hva := getValue_congr _ _ hka
  have hpw : b.kind = .AST_POWER ∨ b.kind = .AST_FUNCTION_POWER →
      isRationalFormPower (reduceToBinary b) = isRationalFormPower b := by
    intro h
    apply isRationalFormPower_reduceToBinary
    · rcases h with h | h <;> rw [h] <;> simp
    · rcases h with h | h <;> rw [h] <;> simp
  have hrp : b.kind = .AST_POWER ∨ b.kind = .AST_FUNCTION_POWER →
      isRationalFormPower b = .ok true →
      reduceFractionPower (reduceToBinary b) = reduceFractionPower b := by
    intro h
    apply reduceFractionPower_reduceToBinary
    · rcases h with h | h <;> rw [h] <;> simp
    · rcases h with h | h <;> rw [h] <;> simp
  have hform : isRationalForm (ASTNode.mk .AST_TIMES [reduceToBinary a, reduceToBinary b])
      = isRationalForm (ASTNode.mk .AST_TIMES [a, b]) := by
    unfold isRationalForm
    simp only [kind_mk, getNumChildren_pair, getLeftChild_pair, getRightChild_pair, deref,
      bind, Except.bind, if_true, hia, hkb]
    cases hbk : b.kind <;>
      first
      | rfl
      | rw [hpw (Or.inl hbk)]
      | rw [hpw (Or.inr hbk)]
  refine ⟨hform, ?_⟩
  intro hrec
  have hrec2 := hrec
  unfold isRationalForm at hrec2
  simp only [kind_mk, getNumChildren_pair, getLeftChild_pair, getRightChild_pair, deref,
    bind, Except.bind, if_true] at hrec2
  have hi : a.isInteger = true := by
    by_contra hc
    simp only [hc] at hrec2
    exact absurd hrec2 (by simp)
  simp only [hi, if_true] at hrec2
  unfold reduceFraction
  rw [hform, hrec]
  simp only [kind_mk, getLeftChild_pair, getRightChild_pair, deref, bind, Except.bind, hva,
    hkb, Bool.true_eq_false, if_false]
  cases hbk : b.kind <;> simp only [hbk] at hrec2 <;>
    first
    | rw [hrp (Or.inl hbk) hrec2]
    | rw [hrp (Or.inr hbk) hrec2]
    | (simp only [getNumerator_congr _ _ hkb, getDenominator_congr _ _ hkb]; done)
    | exact absurd hrec2 (by simp)

theorem isRationalForm_plus (cs : List ASTNode) :
    isRationalForm (chain .AST_PLUS cs) = .ok false := by
  unfold isRationalForm
  rw [kind_chain]

/-- On a Divide node, `isRationalForm` and `reduceFraction` look at the kinds of the two
operands only. -/
theorem reduceFraction_divide_map (l : List ASTNode) :
    isRationalForm (ASTNode.mk .AST_DIVIDE (l.map reduceToBinary))
        = isRationalForm (ASTNode.mk .AST_DIVIDE l)
      ∧ (isRationalForm (ASTNode.mk .AST_DIVIDE l) = .ok true →
          reduceFraction (ASTNode.mk .AST_DIVIDE (l.map reduceToBinary))
            = reduceFraction (ASTNode.mk .AST_DIVIDE l)) := by
  have hform : isRationalForm (ASTNode.mk .AST_DIVIDE (l.map reduceToBinary))
      = isRationalForm (ASTNode.mk .AST_DIVIDE l) := by
    unfold isRationalForm
    simp only [kind_mk]
    rw [getLeftChild_map, getRightChild_map]
    cases hl : (ASTNode.mk .AST_DIVIDE l).getLeftChild with
    | none => rfl
    | some cl =>
      cases hr : (ASTNode.mk .AST_DIVIDE l).getRightChild with
      | none =>
        simp only [Option.map, bind, Except.bind, deref,
          isInteger_congr _ _ (kind_reduceToBinary cl)]
      | some cr =>
        simp only [Option.map, bind, Except.bind, deref,
          isInteger_congr _ _ (kind_reduceToBinary cl),
          isInteger_congr _ _ (kind_reduceToBinary cr)]
  refine ⟨hform, ?_⟩
  intro hrec
  unfold reduceFraction
  rw [hform, hrec]
  simp only [kind_mk, bind, Except.bind, Bool.true_eq_false, if_false]
  rw [getLeftChild_map, getRightChild_map]
  cases hl : (ASTNode.mk .AST_DIVIDE l).getLeftChild with
  | none =>
    cases hr : (ASTNode.mk .AST_DIVIDE l).getRightChild with
    | none => rfl
    | some cr => rfl
  | some cl =>
    cases hr : (ASTNode.mk .AST_DIVIDE l).getRightChild with
    | none => rfl
    | some cr =>
      simp only [Option.map, deref, getValue_congr _ _ (kind_reduceToBinary cl),
        getValue_congr _ _ (kind_reduceToBinary cr)]

/-- `isRationalForm` gives the same answer on a tree and on its binary form, and on a tree
in rational form `reduceFraction` gives the same result on both. -/
theorem reduceFraction_reduceToBinary (t : ASTNode) :
    isRationalForm (reduceToBinary t) = isRationalForm t
      ∧ (isRationalForm t = .ok true →
          reduceFraction (reduceToBinary t) = reduceFraction t) := by
  obtain ⟨k, cs⟩ := t
  by_cases hT : k = .AST_TIMES
  · subst hT
    match cs with
    | [] => exact ⟨rfl, fun _ => rfl⟩
    | [a] =>
      have e : reduceToBinary (ASTNode.mk .AST_TIMES [a])
          = ASTNode.mk .AST_TIMES [reduceToBinary a] := by
        simp [reduceToBinary, reduceToBinaryList, chain]
      have f1 : ∀ c, isRationalForm (ASTNode.mk .AST_TIMES [c]) = .ok false := by
        intro c
        simp [isRationalForm]
      rw [e, f1, f1]
      exact ⟨rfl, fun h => absurd h (by simp)⟩
    | [a, b] =>
      rw [reduceToBinary_pair]
      exact reduceFraction_times_pair a b
    | a :: b :: c :: rest =>
      have e : reduceToBinary (ASTNode.mk .AST_TIMES (a :: b :: c :: rest))
          = ASTNode.mk .AST_TIMES
              [reduceToBinary a,
                chain .AST_TIMES (reduceToBinaryList (b :: c :: rest))] := by
        simp [reduceToBinary, reduceToBinaryList, chain]
      have f1 : isRationalForm (ASTNode.mk .AST_TIMES (a :: b :: c :: rest)) = .ok false := by
        simp [isRationalForm]
      have f2 : isRationalForm
          (ASTNode.mk .AST_TIMES
            [reduceToBinary a, chain .AST_TIMES (reduceToBinaryList (b :: c :: rest))])
          = .ok false := by
        unfold isRationalForm
        simp only [kind_mk, getNumChildren_pair, getLeftChild_pair, getRightChild_pair, deref,
          bind, Except.bind, if_true, kind_chain]
        split <;> rfl
      rw [e, f1, f2]
      exact ⟨rfl, fun h => absurd h (by simp)⟩
  · by_cases hP : k = .AST_PLUS
    · subst hP
      have e : reduceToBinary (ASTNode.mk .AST_PLUS cs)
          = chain .AST_PLUS (reduceToBinaryList cs) := by
        simp [reduceToBinary]
      have f1 : isRationalForm (ASTNode.mk .AST_PLUS cs) = .ok false := by
        simp [isRationalForm]
      rw [e, f1, isRationalForm_plus]
      exact ⟨rfl, fun h => absurd h (by simp)⟩
    · have e := reduceToBinary_other (ASTNode.mk k cs) hP hT
      simp only [kind_mk, ASTNode.children] at e
      rw [e]
      by_cases hD : k = .AST_DIVIDE
      · subst hD
        exact reduceFraction_divide_map cs
      · have epow : k = .AST_POWER ∨ k = .AST_FUNCTION_POWER →
            isRationalForm (ASTNode.mk k (cs.map reduceToBinary))
                = isRationalForm (ASTNode.mk k cs)
              ∧ (isRationalForm (ASTNode.mk k cs) = .ok true →
                reduceFraction (ASTNode.mk k (cs.map reduceToBinary))
                  = reduceFraction (ASTNode.mk k cs)) := by
          intro hk
          have g1 : ∀ l, isRationalForm (ASTNode.mk k l) = isRationalFormPower (ASTNode.mk k l) := by
            intro l
            rcases hk with rfl | rfl <;> simp [isRationalForm, -ASTNode.kind, kind_mk]
          have g2 : ∀ l, isRationalForm (ASTNode.mk k l) = .ok true →
              reduceFraction (ASTNode.mk k l) = reduceFractionPower (ASTNode.mk k l) := by
            intro l hl
            unfold reduceFraction
            rw [hl]
            rcases hk with rfl | rfl <;>
              simp only [kind_mk, bind, Except.bind, Bool.true_eq_false, if_false]
          have hm := isRationalFormPower_map k cs
          refine ⟨by rw [g1, g1, hm], ?_⟩
          intro hrec
          have hrec1 : isRationalForm (ASTNode.mk k (cs.map reduceToBinary)) = .ok true := by
            rw [g1, hm, ← g1]
            exact hrec
          rw [g2 _ hrec1, g2 _ hrec]
          exact reduceFractionPower_map k cs (by rw [← g1]; exact hrec)
        cases k <;>
          first
          | exact absurd rfl hT
          | exact absurd rfl hP
          | exact absurd rfl hD
          | exact epow (Or.inl rfl)
          | exact epow (Or.inr rfl)
          | (refine ⟨by simp [isRationalForm], fun _ => ?_⟩
             simp [reduceFraction, isRationalForm, bind, Except.bind]; done)
          | (refine ⟨by simp [isRationalForm], fun h => ?_⟩
             simp [isRationalForm] at h)

/-- Two trees with the same binary form are taken alike by `reduceFraction`: when it
returns on the first it returns on the second, and the two results are structurally
equal. -/
theorem reduceFraction_same_binary_form (a b : ASTNode)
    (h : reduceToBinary a = reduceToBinary b) (r : ASTNode)
    (hr : reduceFraction a = .ok r) :
    ∃ s, reduceFraction b = .ok s ∧ isEqualTree (some r) (some s) = .ok true := by
  obtain ⟨ha1, ha2⟩ := reduceFraction_reduceToBinary a
  obtain ⟨hb1, hb2⟩ := reduceFraction_reduceToBinary b
  have hform : isRationalForm a = isRationalForm b := by
    rw [← ha1, ← hb1, h]
  cases hf : isRationalForm a with
  | error e =>
    simp [reduceFraction, hf, bind, Except.bind] at hr
  | ok v =>
    cases v with
    | false =>
      have e1 : reduceFraction a = .ok a := by
        simp [reduceFraction, hf, bind, Except.bind]
      have e2 : reduceFraction b = .ok b := by
        simp [reduceFraction, ← hform, hf, bind, Except.bind]
      rw [e1] at hr
      injection hr with hr
      subst hr
      exact ⟨b, e2, isEqualTree_of_same_binary_form _ b h⟩
    | true =>
      have e : reduceFraction b = reduceFraction a := by
        rw [← hb2 (by rw [← hform]; exact hf), ← h, ha2 hf]
      exact ⟨r, by rw [e]; exact hr, isEqualTree_refl r⟩

theorem differentiate_plus_three :
    differentiate (ASTNode.mk .AST_PLUS [nameNode "x", nameNode "y", nameNode "z"]) "x"
      = .ok (ASTNode.mk .AST_PLUS [integerNode 1, integerNode 0]) := by
  simp [differentiate, differentiateFuel, nodeCount, nodeCountList, reduceToBinary,
    reduceToBinaryList, chain, containsTarget, containsTargetEnds, containsTargetLast, bind,
    Except.bind]

theorem differentiate_plus_nested :
    differentiate
        (ASTNode.mk .AST_PLUS [nameNode "x", ASTNode.mk .AST_PLUS [nameNode "y", nameNode "z"]])
        "x"
      = .ok (ASTNode.mk .AST_PLUS [integerNode 1, integerNode 0]) := by
  simp [differentiate, differentiateFuel, nodeCount, nodeCountList, reduceToBinary,
    reduceToBinaryList, chain, containsTarget, containsTargetEnds, containsTargetLast, bind,
    Except.bind]

theorem isOperator_mk (k : Kind) (cs : List ASTNode) :
    (ASTNode.mk k cs).isOperator
      = (match k with
        | .AST_PLUS => true
        | .AST_MINUS => true
        | .AST_TIMES => true
        | .AST_DIVIDE => true
        | .AST_POWER => true
        | _ => false) := rfl

theorem literal_reduceToBinary (a : ASTNode) (h1 : a.isNumber = true) (h2 : a.children = []) :
    reduceToBinary a = a := by
  obtain ⟨k, cs⟩ := a
  simp only [ASTNode.children] at h2
  subst h2
  cases k <;> simp at h1 <;> simp [reduceToBinary, reduceToBinaryList]

theorem literal_simplifyFuel (n : Nat) (a : ASTNode) (h1 : a.isNumber = true)
    (h2 : a.children = []) : simplifyFuel (n + 1) a = .ok a := by
  obtain ⟨k, cs⟩ := a
  simp only [ASTNode.children] at h2
  subst h2
  cases k <;> simp at h1 <;> simp [simplifyFuel, reduceToBinary, reduceToBinaryList]

theorem literal_nodeCount (a : ASTNode) (h2 : a.children = []) : nodeCount a = 1 := by
  obtain ⟨k, cs⟩ := a
  simp only [ASTNode.children] at h2
  subst h2
  simp [nodeCount, nodeCountList]

theorem literal_kind (a : ASTNode) (h1 : a.isNumber = true) :
    a.kind ≠ .AST_PLUS ∧ a.kind ≠ .AST_TIMES ∧ a.kind ≠ .AST_POWER
      ∧ a.kind ≠ .AST_FUNCTION_POWER := by
  obtain ⟨k, cs⟩ := a
  cases k <;> simp at h1 <;> simp

theorem simplify_literal (a : ASTNode) (h1 : a.isNumber = true) (h2 : a.children = []) :
    simplify a = .ok a :=
  literal_simplifyFuel _ a h1 h2

theorem simplify_binary_fuel (k : Kind) (a b : ASTNode) :
    simplify (ASTNode.mk k [a, b])
      = simplifyFuel ((8 * nodeCount a + 8 * nodeCount b + 15) + 1) (ASTNode.mk k [a, b]) := by
  unfold simplify
  rw [nodeCount_pair]

theorem simplify_plus_literals (a b : ASTNode) (ha : a.isNumber = true)
    (ha0 : a.children = []) (hb : b.isNumber = true) (hb0 : b.children = []) :
    simplify (ASTNode.mk .AST_PLUS [a, b])
      = .ok (if a.getValue = 0 then b else realNode (toDouble (a.getValue + b.getValue))) := by
  have hl := literal_simplifyFuel (8 * nodeCount a + 8 * nodeCount b + 14) a ha ha0
  have hr := literal_simplifyFuel (8 * nodeCount a + 8 * nodeCount b + 14) b hb hb0
  rw [simplify_binary_fuel, simplifyFuel]
  simp only [reduceToBinary_pair, getLeftChild_pair, getRightChild_pair, kind_mk,
    literal_reduceToBinary a ha ha0, literal_reduceToBinary b hb hb0, hl, hr, ha, hb,
    isOperator_mk, deref, bind, Except.bind, ↓reduceIte, ne_eq, reduceCtorEq,
    not_false_eq_true, not_true_eq_false, and_true, true_and, and_false, false_and,
    Bool.true_eq_false, Bool.false_eq_true]
  split <;> rfl

theorem simplify_minus_literals (a b : ASTNode) (ha : a.isNumber = true)
    (ha0 : a.children = []) (hb : b.isNumber = true) (hb0 : b.children = []) :
    simplify (ASTNode.mk .AST_MINUS [a, b])
      = .ok (if b.getValue = 0 then a else realNode (toDouble (a.getValue - b.getValue))) := by
  have hl := literal_simplifyFuel (8 * nodeCount a + 8 * nodeCount b + 14) a ha ha0
  have hr := literal_simplifyFuel (8 * nodeCount a + 8 * nodeCount b + 14) b hb hb0
  rw [simplify_binary_fuel, simplifyFuel]
  simp only [reduceToBinary_pair, getLeftChild_pair, getRightChild_pair, kind_mk,
    literal_reduceToBinary a ha ha0, literal_reduceToBinary b hb hb0, hl, hr, ha, hb,
    isOperator_mk, deref, bind, Except.bind, ↓reduceIte, ne_eq, reduceCtorEq,
    not_false_eq_true, not_true_eq_false, and_true, true_and, and_false, false_and,
    Bool.true_eq_false, Bool.false_eq_true]
  split <;> rfl

theorem simplify_times_literals (a b : ASTNode) (ha : a.isNumber = true)
    (ha0 : a.children = []) (hb : b.isNumber = true) (hb0 : b.children = []) :
    simplify (ASTNode.mk .AST_TIMES [a, b])
      = .ok (if a.getValue = 0 then integerNode 0
          else if a.getValue = 1 then b
          else realNode (toDouble (a.getValue * b.getValue))) := by
  have hl := literal_simplifyFuel (8 * nodeCount a + 8 * nodeCount b + 14) a ha ha0
  have hr := literal_simplifyFuel (8 * nodeCount a + 8 * nodeCount b + 14) b hb hb0
  rw [simplify_binary_fuel, simplifyFuel]
  simp only [reduceToBinary_pair, getLeftChild_pair, getRightChild_pair, kind_mk,
    literal_reduceToBinary a ha ha0, literal_reduceToBinary b hb hb0, hl, hr, ha, hb,
    isOperator_mk, deref, bind, Except.bind, ↓reduceIte, ne_eq, reduceCtorEq,
    not_false_eq_true, not_true_eq_false, and_true, true_and, and_false, false_and,
    Bool.true_eq_false, Bool.false_eq_true]
  split
  · rfl
  · split <;> rfl

theorem simplify_power_literals (a b : ASTNode) (ha : a.isNumber = true)
    (ha0 : a.children = []) (hb : b.isNumber = true) (hb0 : b.children = []) :
    simplify (ASTNode.mk .AST_POWER [a, b])
      = .ok (if a.getValue = 0 then integerNode 0
          else if a.getValue = 1 then integerNode 1
          else if b.getValue = 0 then integerNode 1
          else if b.getValue = 1 then a else ASTNode.mk .AST_POWER [a, b]) := by
  have hl := literal_simplifyFuel (8 * nodeCount a + 8 * nodeCount b + 14) a ha ha0
  have hr := literal_simplifyFuel (8 * nodeCount a + 8 * nodeCount b + 14) b hb hb0
  have hk := literal_kind a ha
  rw [simplify_binary_fuel, simplifyFuel]
  simp only [reduceToBinary_pair, getLeftChild_pair, getRightChild_pair, kind_mk,
    literal_reduceToBinary a ha ha0, literal_reduceToBinary b hb hb0, hl, hr, ha, hb,
    hk.2.2.1, hk.2.2.2, or_self,
    isOperator_mk, deref, bind, Except.bind, ↓reduceIte, ne_eq, reduceCtorEq,
    not_false_eq_true, not_true_eq_false, and_true, true_and, and_false, false_and,
    Bool.true_eq_false, Bool.false_eq_true]
  split
  · rfl
  · split
    · rfl
    · split
      · rfl
      · split <;> rfl

theorem simplify_divide_literals (a b : ASTNode) (ha : a.isNumber = true)
    (ha0 : a.children = []) (hb : b.isNumber = true) (hb0 : b.children = []) :
    simplify (ASTNode.mk .AST_DIVIDE [a, b])
      = (if a.getValue = 0 then .ok (integerNode 0)
          else if b.getValue ≤ a.getValue ∧ b.getValue ≠ 0
              ∧ modf a.getValue = 0 ∧ modf b.getValue = 0 then
            (if toInt a.getValue = -2 ^ 31 ∧ toInt b.getValue = -1 then .error .divideByZero
             else if Int.tmod (toInt a.getValue) (toInt b.getValue) = 0 then
               .ok (realNode (toDouble (a.getValue / b.getValue)))
             else if b.getValue = 1 then .ok a else .ok (ASTNode.mk .AST_DIVIDE [a, b]))
          else if b.getValue = 1 then .ok a else .ok (ASTNode.mk .AST_DIVIDE [a, b])) := by
  have hl := literal_simplifyFuel (8 * nodeCount a + 8 * nodeCount b + 14) a ha ha0
  have hr := literal_simplifyFuel (8 * nodeCount a + 8 * nodeCount b + 14) b hb hb0
  rw [simplify_binary_fuel, simplifyFuel]
  simp only [reduceToBinary_pair, getLeftChild_pair, getRightChild_pair, kind_mk,
    literal_reduceToBinary a ha ha0, literal_reduceToBinary b hb hb0, hl, hr, ha, hb,
    isOperator_mk, deref, bind, Except.bind, ↓reduceIte, ne_eq, reduceCtorEq,
    not_false_eq_true, not_true_eq_false, and_true, true_and, and_false, false_and,
    Bool.true_eq_false, Bool.false_eq_true]

theorem modf_eq_zero_iff (q : ℚ) : modf q = 0 ↔ ∃ m : Int, q = (m : ℚ) := by
  constructor
  · intro h
    unfold modf at h
    exact ⟨truncate q, by linarith⟩
  · rintro ⟨m, rfl⟩
    exact modf_intCast m

/-- Within the range of `int`, the guard of the division fold is divisibility. -/
theorem divide_gate_iff (p q : ℚ) (hp : intRange p) (hq : intRange q) :
    ((q ≤ p ∧ q ≠ 0 ∧ modf p = 0 ∧ modf q = 0)
        ∧ ¬ (toInt p = -2 ^ 31 ∧ toInt q = -1) ∧ Int.tmod (toInt p) (toInt q) = 0)
      ↔ ∃ m n : Int, p = (m : ℚ) ∧ q = (n : ℚ) ∧ n ≠ 0 ∧ n ≤ m ∧ n ∣ m := by
  constructor
  · rintro ⟨⟨hle, hne, hmp, hmq⟩, -, hmod⟩
    obtain ⟨m, rfl⟩ := (modf_eq_zero_iff p).mp hmp
    obtain ⟨n, rfl⟩ := (modf_eq_zero_iff q).mp hmq
    obtain ⟨m1, m2⟩ := hp m rfl
    obtain ⟨n1, n2⟩ := hq n rfl
    rw [toInt_intCast m m1.le m2, toInt_intCast n n1.le n2] at hmod
    exact ⟨m, n, rfl, rfl, by exact_mod_cast hne, by exact_mod_cast hle,
      Int.dvd_of_tmod_eq_zero hmod⟩
  · rintro ⟨m, n, rfl, rfl, hne, hle, hdvd⟩
    obtain ⟨m1, m2⟩ := hp m rfl
    obtain ⟨n1, n2⟩ := hq n rfl
    rw [toInt_intCast m m1.le m2, toInt_intCast n n1.le n2]
    refine ⟨⟨by exact_mod_cast hle, by exact_mod_cast hne, modf_intCast m, modf_intCast n⟩,
      ?_, Int.tmod_eq_zero_of_dvd hdvd⟩
    intro h
    omega

/-- An exact quotient of integers within the range of `int` is its own `double`. -/
theorem toDouble_exact_quotient (m n : Int) (hm : -2 ^ 31 < m ∧ m < 2 ^ 31) (hn : n ≠ 0)
    (hd : n ∣ m) : toDouble ((m : ℚ) / (n : ℚ)) = (m : ℚ) / (n : ℚ) := by
  obtain ⟨k, rfl⟩ := hd
  have hnq : (n : ℚ) ≠ 0 := by exact_mod_cast hn
  have e : ((n * k : Int) : ℚ) / (n : ℚ) = (k : ℚ) := by
    push_cast
    field_simp
  rw [e]
  apply toDouble_intCast
  have h1 : k.natAbs ≤ (n * k).natAbs := by
    rw [Int.natAbs_mul]
    exact Nat.le_mul_of_pos_left _ (Int.natAbs_pos.mpr hn)
  have h2 : (n * k).natAbs < 2 ^ 31 := by omega
  have h3 : (2 : Nat) ^ 31 ≤ 2 ^ 53 := by norm_num
  omega

theorem noZeroDenominator_leaf (k : Kind) :
    noZeroDenominator (ASTNode.mk k [])
      = (match k with
        | .AST_RATIONAL _ q => decide (q ≠ 0)
        | _ => true) := by
  cases k <;> simp [noZeroDenominator, noZeroDenominatorList]

theorem noZeroDenominator_pair (k : Kind) (a b : ASTNode) (hk : (ASTNode.mk k []).isNumber = false)
    (ha : noZeroDenominator a = true) (hb : noZeroDenominator b = true) :
    noZeroDenominator (ASTNode.mk k [a, b]) = true := by
  cases k <;> simp at hk <;> simp [noZeroDenominator, noZeroDenominatorList, ha, hb]

theorem getValue_realNode_toDouble (q : ℚ) :
    (realNode (toDouble q)).getValue = toDouble q := by
  simp only [realNode, getValue, ASTNode.kind, toDouble_idem]

theorem finiteDouble_intCast (z : Int) (h : z.natAbs ≤ 2 ^ 53) : finiteDouble (z : ℚ) := by
  unfold finiteDouble
  rw [toDouble_intCast z h]
  have h1 : |(z : ℚ)| = ((z.natAbs : Nat) : ℚ) := by
    rw [Nat.cast_natAbs]
    push_cast
    rfl
  rw [h1]
  have h2 : ((z.natAbs : Nat) : ℚ) ≤ ((2 ^ 53 : Nat) : ℚ) := by exact_mod_cast h
  have h3 : (((2 ^ 53 : Nat) : ℚ)) < 2 ^ 1024 := by norm_num
  linarith

theorem getValue_integerNode (z : Int) : (integerNode z).getValue = toDouble (z : ℚ) := rfl

theorem getValue_integerNode_small (z : Int) (h : z.natAbs ≤ 2 ^ 53) :
    (integerNode z).getValue = (z : ℚ) := by
  rw [getValue_integerNode, toDouble_intCast z h]

theorem finiteDouble_integerNode (z : Int) (h : z.natAbs ≤ 2 ^ 53) :
    finiteDouble (integerNode z).getValue := by
  rw [getValue_integerNode_small z h]
  exact finiteDouble_intCast z h

/-- The sum of the literals `2 ^ 53` and `1`, formed in `double`, is `2 ^ 53`. -/
theorem simplify_plus_two_pow_53 :
    simplify (ASTNode.mk .AST_PLUS [integerNode 9007199254740992, integerNode 1])
      = .ok (realNode 9007199254740992) := by
  rw [simplify_plus_literals (integerNode 9007199254740992) (integerNode 1) rfl rfl rfl rfl]
  have e1 : (integerNode 9007199254740992).getValue = 9007199254740992 := by simp
  have e2 : (integerNode 1).getValue = 1 := by simp
  have e3 : toDouble ((9007199254740992 : ℚ) + 1) = 9007199254740992 := by
    have := toDouble_9007199254740993
    norm_num at this ⊢
    exact this
  rw [e1, e2, if_neg (by norm_num), e3]

theorem intRange_integerNode (z : Int) (h : -2 ^ 31 < z ∧ z < 2 ^ 31) :
    intRange (integerNode z).getValue := by
  intro m hm
  rw [getValue_integerNode_small z (by omega)] at hm
  have : z = m := by exact_mod_cast hm
  omega

theorem isLong_five_halves : isLong (5 / 2 : ℚ) = false := by
  have hf : ⌊(5 / 2 : ℚ)⌋ = 2 := by
    rw [Int.floor_eq_iff]
    constructor <;> norm_num
  have h0 : toLong ((2 : Int) : ℚ) = 2 := toLong_intCast 2 (by decide) (by decide)
  have h1 : toDouble ((2 : Int) : ℚ) = ((2 : Int) : ℚ) := toDouble_intCast 2 (by decide)
  unfold isLong floor
  rw [hf, h0, h1]
  simp
  norm_num

theorem not_integer_five_halves : ¬ ∃ m : Int, (5 / 2 : ℚ) = (m : ℚ) := by
  rintro ⟨m, hm⟩
  have h2 : (5 : ℚ) = 2 * (m : ℚ) := by linarith
  have h3 : (5 : Int) = 2 * m := by exact_mod_cast h2
  omega

theorem getValue_real_five_halves : (realNode (5 / 2)).getValue = 5 / 2 := by
  simp only [realNode, getValue, ASTNode.kind]
  exact toDouble_five_halves

theorem simplify_divide_zero_by_real :
    simplify (ASTNode.mk .AST_DIVIDE [integerNode 0, realNode (5 / 2)])
      = .ok (integerNode 0) := by
  rw [simplify_divide_literals (integerNode 0) (realNode (5 / 2)) rfl rfl rfl rfl]
  simp

theorem simplify_divide_real_by_one :
    simplify (ASTNode.mk .AST_DIVIDE [realNode (5 / 2), integerNode 1])
      = .ok (realNode (5 / 2)) := by
  rw [simplify_divide_literals (realNode (5 / 2)) (integerNode 1) rfl rfl rfl rfl]
  have h : ¬ modf (realNode (5 / 2)).getValue = 0 := by
    rw [getValue_real_five_halves, modf_eq_zero_iff]
    exact not_integer_five_halves
  have h1 : (integerNode 1).getValue = 1 := by simp
  have h2 : ¬ (realNode (5 / 2)).getValue = 0 := by
    rw [getValue_real_five_halves]
    norm_num
  rw [if_neg h2, if_neg (fun hh => h hh.2.2.1), if_pos h1]

theorem simplify_divide_negative :
    simplify (ASTNode.mk .AST_DIVIDE [integerNode (-4), integerNode 2])
      = .ok (ASTNode.mk .AST_DIVIDE [integerNode (-4), integerNode 2]) := by
  rw [simplify_divide_literals (integerNode (-4)) (integerNode 2) rfl rfl rfl rfl]
  have h1 : (integerNode (-4)).getValue = -4 := by simp
  have h2 : (integerNode 2).getValue = 2 := by simp
  rw [h1, h2, if_neg (by norm_num), if_neg (fun hh => by norm_num at hh), if_neg (by norm_num)]

theorem toDouble_4294967297 : toDouble ((4294967297 : Int) : ℚ) = ((4294967297 : Int) : ℚ) :=
  toDouble_intCast _ (by decide)

theorem toDouble_2147483649 : toDouble ((2147483649 : Int) : ℚ) = ((2147483649 : Int) : ℚ) :=
  toDouble_intCast _ (by decide)

theorem toInt_large (z : Int) (h : 2 ^ 31 ≤ z) : toInt (z : ℚ) = -2 ^ 31 := by
  unfold toInt
  rw [truncate_intCast, if_neg (by omega)]

/-- Outside the range of `int` the fold of a division does not follow divisibility:
`4294967297 = 641 * 6700417` is not folded, and `2147483649 / 2` is. -/
theorem simplify_divide_beyond_int :
    simplify (ASTNode.mk .AST_DIVIDE [realNode 4294967297, integerNode 641])
        = .ok (ASTNode.mk .AST_DIVIDE [realNode 4294967297, integerNode 641])
      ∧ simplify (ASTNode.mk .AST_DIVIDE [integerNode 2147483649, integerNode 2])
        = .ok (realNode (2147483649 / 2)) := by
  have t641 : toInt ((641 : Int) : ℚ) = 641 := toInt_intCast 641 (by decide) (by decide)
  have t2 : toInt ((2 : Int) : ℚ) = 2 := toInt_intCast 2 (by decide) (by decide)
  have tA : toInt ((4294967297 : Int) : ℚ) = -2 ^ 31 := toInt_large _ (by decide)
  have tB : toInt ((2147483649 : Int) : ℚ) = -2 ^ 31 := toInt_large _ (by decide)
  constructor
  · rw [simplify_divide_literals (realNode 4294967297) (integerNode 641) rfl rfl rfl rfl]
    have h1 : (realNode 4294967297).getValue = ((4294967297 : Int) : ℚ) := by
      have := toDouble_4294967297
      simp only [realNode, getValue, ASTNode.kind]
      exact_mod_cast this
    have h2 : (integerNode 641).getValue = ((641 : Int) : ℚ) :=
      getValue_integerNode_small 641 (by decide)
    rw [h1, h2, tA, t641]
    rw [if_neg (by norm_num),
      if_pos ⟨by norm_num, by norm_num, modf_intCast _, modf_intCast _⟩,
      if_neg (by decide), if_neg (by decide), if_neg (by norm_num)]
  · rw [simplify_divide_literals (integerNode 2147483649) (integerNode 2) rfl rfl rfl rfl]
    have h1 : (integerNode 2147483649).getValue = ((2147483649 : Int) : ℚ) :=
      getValue_integerNode_small 2147483649 (by decide)
    have h2 : (integerNode 2).getValue = ((2 : Int) : ℚ) :=
      getValue_integerNode_small 2 (by decide)
    rw [h1, h2, tB, t2]
    rw [if_neg (by norm_num),
      if_pos ⟨by norm_num, by norm_num, modf_intCast _, modf_intCast _⟩,
      if_neg (by decide), if_pos (by decide)]
    have e : toDouble (((2147483649 : Int) : ℚ) / ((2 : Int) : ℚ)) = 2147483649 / 2 := by
      have := toDouble_dyadic 2147483649 (-1) (by decide) (by decide)
      norm_num at this ⊢
      exact this
    rw [e]

theorem simplify_plus_literal_left (c t s : ASTNode) (hc : c.isNumber = true)
    (hc0 : c.children = []) (h : simplify t = .ok s) :
    simplify (ASTNode.mk .AST_PLUS [c, t])
      = if c.getValue = 0 then .ok s
        else if s.isNumber = true then .ok (realNode (toDouble (c.getValue + s.getValue)))
        else if s.kind ≠ .AST_PLUS then .ok (ASTNode.mk .AST_PLUS [s, c])
        else simplify (ASTNode.mk .AST_PLUS [c, t]) := by
  have hl := literal_simplifyFuel (8 * nodeCount c + 8 * nodeCount t + 14) c hc hc0
  have hr := simplify_child t s (8 * nodeCount c + 8 * nodeCount t + 15) h (by omega)
  by_cases h1 : c.getValue = 0
  · rw [if_pos h1, simplify_binary_fuel, simplifyFuel]
    simp only [reduceToBinary_pair, getLeftChild_pair, getRightChild_pair, kind_mk,
      literal_reduceToBinary c hc hc0, hl, hr, hc, h1, isOperator_mk, deref, bind,
      Except.bind, ↓reduceIte, ne_eq, reduceCtorEq, not_false_eq_true, not_true_eq_false,
      and_true, true_and, and_false, false_and, Bool.true_eq_false, Bool.false_eq_true]
  · rw [if_neg h1]
    by_cases h2 : s.isNumber = true
    · rw [if_pos h2, simplify_binary_fuel, simplifyFuel]
      simp only [reduceToBinary_pair, getLeftChild_pair, getRightChild_pair, kind_mk,
        literal_reduceToBinary c hc hc0, hl, hr, hc, h1, h2, isOperator_mk, deref, bind,
        Except.bind, ↓reduceIte, ne_eq, reduceCtorEq, not_false_eq_true, not_true_eq_false,
        and_true, true_and, and_false, false_and, Bool.true_eq_false, Bool.false_eq_true]
    · rw [if_neg h2]
      by_cases h3 : s.kind ≠ .AST_PLUS
      · rw [if_pos h3, simplify_binary_fuel, simplifyFuel]
        simp only [reduceToBinary_pair, getLeftChild_pair, getRightChild_pair, kind_mk,
          literal_reduceToBinary c hc hc0, hl, hr, hc, h1, h2, h3, isOperator_mk, deref, bind,
          Except.bind, ↓reduceIte, ne_eq, reduceCtorEq, not_false_eq_true,
          not_true_eq_false, and_true, true_and, and_false, false_and, Bool.true_eq_false,
          Bool.false_eq_true]
      · rw [if_neg h3]

theorem simplify_plus_literal_right (c t s : ASTNode) (hc : c.isNumber = true)
    (hc0 : c.children = []) (h : simplify t = .ok s) :
    simplify (ASTNode.mk .AST_PLUS [t, c])
      = if s.isNumber = true then
          (if s.getValue = 0 then .ok c
           else .ok (realNode (toDouble (s.getValue + c.getValue))))
        else if c.getValue = 0 then .ok s
        else if s.kind ≠ .AST_PLUS then .ok (ASTNode.mk .AST_PLUS [s, c])
        else simplify (ASTNode.mk .AST_PLUS [t, c]) := by
  have hr := literal_simplifyFuel (8 * nodeCount t + 8 * nodeCount c + 14) c hc hc0
  have hl := simplify_child t s (8 * nodeCount t + 8 * nodeCount c + 15) h (by omega)
  have hk := literal_kind c hc
  by_cases h2 : s.isNumber = true
  · rw [if_pos h2, simplify_binary_fuel, simplifyFuel]
    simp only [reduceToBinary_pair, getLeftChild_pair, getRightChild_pair, kind_mk,
      literal_reduceToBinary c hc hc0, hl, hr, hc, h2, isOperator_mk, deref, bind,
      Except.bind, ↓reduceIte, ne_eq, reduceCtorEq, not_false_eq_true, not_true_eq_false,
      and_true, true_and, and_false, false_and, Bool.true_eq_false, Bool.false_eq_true]
  · rw [if_neg h2]
    by_cases h1 : c.getValue = 0
    · rw [if_pos h1, simplify_binary_fuel, simplifyFuel]
      simp only [reduceToBinary_pair, getLeftChild_pair, getRightChild_pair, kind_mk,
        literal_reduceToBinary c hc hc0, hl, hr, hc, h1, h2, isOperator_mk, deref, bind,
        Except.bind, ↓reduceIte, ne_eq, reduceCtorEq, not_false_eq_true, not_true_eq_false,
        and_true, true_and, and_false, false_and, Bool.true_eq_false, Bool.false_eq_true]
    · rw [if_neg h1]
      by_cases h3 : s.kind ≠ .AST_PLUS
      · have h3a : ¬ s.kind = .AST_PLUS := h3
        rw [if_pos h3, simplify_binary_fuel, simplifyFuel]
        simp only [reduceToBinary_pair, getLeftChild_pair, getRightChild_pair, kind_mk,
          literal_reduceToBinary c hc hc0, hl, hr, hc, h1, h2, h3a, hk.1, isOperator_mk, deref,
          bind, Except.bind, ↓reduceIte, ne_eq, reduceCtorEq, not_false_eq_true,
          not_true_eq_false, and_true, true_and, and_false, false_and, Bool.true_eq_false,
          Bool.false_eq_true]
      · rw [if_neg h3]

theorem simplify_times_literal_left (c t s : ASTNode) (hc : c.isNumber = true)
    (hc0 : c.children = []) (h : simplify t = .ok s) :
    simplify (ASTNode.mk .AST_TIMES [c, t])
      = if c.getValue = 0 then .ok (integerNode 0)
        else if c.getValue = 1 then .ok s
        else if s.isNumber = true then .ok (realNode (toDouble (c.getValue * s.getValue)))
        else if s.kind ≠ .AST_TIMES then .ok (ASTNode.mk .AST_TIMES [c, s])
        else simplify (ASTNode.mk .AST_TIMES [c, t]) := by
  have hl := literal_simplifyFuel (8 * nodeCount c + 8 * nodeCount t + 14) c hc hc0
  have hr := simplify_child t s (8 * nodeCount c + 8 * nodeCount t + 15) h (by omega)
  have hk := literal_kind c hc
  by_cases h1 : c.getValue = 0
  · rw [if_pos h1, simplify_binary_fuel, simplifyFuel]
    simp only [reduceToBinary_pair, getLeftChild_pair, getRightChild_pair, kind_mk,
      literal_reduceToBinary c hc hc0, hl, hr, hc, h1, isOperator_mk, deref, bind,
      Except.bind, ↓reduceIte, ne_eq, reduceCtorEq, not_false_eq_true, not_true_eq_false,
      and_true, true_and, and_false, false_and, Bool.true_eq_false, Bool.false_eq_true]
  · rw [if_neg h1]
    by_cases h4 : c.getValue = 1
    · rw [if_pos h4, simplify_binary_fuel, simplifyFuel]
      simp only [reduceToBinary_pair, getLeftChild_pair, getRightChild_pair, kind_mk,
        literal_reduceToBinary c hc hc0, hl, hr, hc, h4, isOperator_mk, deref, bind,
        Except.bind, ↓reduceIte, ne_eq, reduceCtorEq, not_false_eq_true, not_true_eq_false,
        and_true, true_and, and_false, false_and, Bool.true_eq_false, Bool.false_eq_true,
        one_ne_zero]
    · rw [if_neg h4]
      by_cases h2 : s.isNumber = true
      · rw [if_pos h2, simplify_binary_fuel, simplifyFuel]
        simp only [reduceToBinary_pair, getLeftChild_pair, getRightChild_pair, kind_mk,
          literal_reduceToBinary c hc hc0, hl, hr, hc, h1, h2, h4, isOperator_mk, deref, bind,
          Except.bind, ↓reduceIte, ne_eq, reduceCtorEq, not_false_eq_true,
          not_true_eq_false, and_true, true_and, and_false, false_and, Bool.true_eq_false,
          Bool.false_eq_true]
      · rw [if_neg h2]
        by_cases h3 : s.kind ≠ .AST_TIMES
        · have h3a : ¬ s.kind = .AST_TIMES := h3
          rw [if_pos h3, simplify_binary_fuel, simplifyFuel]
          simp only [reduceToBinary_pair, getLeftChild_pair, getRightChild_pair, kind_mk,
            literal_reduceToBinary c hc hc0, hl, hr, hc, h1, h2, h3a, h4, hk.2.1,
            isOperator_mk, deref, bind, Except.bind, ↓reduceIte, ne_eq, reduceCtorEq,
            not_false_eq_true, not_true_eq_false, and_true, true_and, and_false, false_and,
            Bool.true_eq_false, Bool.false_eq_true]
        · rw [if_neg h3]

theorem simplify_times_literal_right (c t s : ASTNode) (hc : c.isNumber = true)
    (hc0 : c.children = []) (h : simplify t = .ok s) :
    simplify (ASTNode.mk .AST_TIMES [t, c])
      = if s.isNumber = true then
          (if s.getValue = 0 then .ok (integerNode 0)
           else if s.getValue = 1 then .ok c
           else .ok (realNode (toDouble (s.getValue * c.getValue))))
        else if c.getValue = 0 then .ok (integerNode 0)
        else if c.getValue = 1 then .ok s
        else if s.kind ≠ .AST_TIMES then .ok (ASTNode.mk .AST_TIMES [c, s])
        else simplify (ASTNode.mk .AST_TIMES [t, c]) := by
  have hr := literal_simplifyFuel (8 * nodeCount t + 8 * nodeCount c + 14) c hc hc0
  have hl := simplify_child t s (8 * nodeCount t + 8 * nodeCount c + 15) h (by omega)
  by_cases h2 : s.isNumber = true
  · rw [if_pos h2, simplify_binary_fuel, simplifyFuel]
    simp only [reduceToBinary_pair, getLeftChild_pair, getRightChild_pair, kind_mk,
      literal_reduceToBinary c hc hc0, hl, hr, hc, h2, isOperator_mk, deref, bind,
      Except.bind, ↓reduceIte, ne_eq, reduceCtorEq, not_false_eq_true, not_true_eq_false,
      and_true, true_and, and_false, false_and, Bool.true_eq_false, Bool.false_eq_true]
  · rw [if_neg h2]
    by_cases h1 : c.getValue = 0
    · rw [if_pos h1, simplify_binary_fuel, simplifyFuel]
      simp only [reduceToBinary_pair, getLeftChild_pair, getRightChild_pair, kind_mk,
        literal_reduceToBinary c hc hc0, hl, hr, hc, h1, h2, isOperator_mk, deref, bind,
        Except.bind, ↓reduceIte, ne_eq, reduceCtorEq, not_false_eq_true, not_true_eq_false,
        and_true, true_and, and_false, false_and, Bool.true_eq_false, Bool.false_eq_true]
    · rw [if_neg h1]
      by_cases h4 : c.getValue = 1
      · rw [if_pos h4, simplify_binary_fuel, simplifyFuel]
        simp only [reduceToBinary_pair, getLeftChild_pair, getRightChild_pair, kind_mk,
          literal_reduceToBinary c hc hc0, hl, hr, hc, h2, h4, isOperator_mk, deref, bind,
          Except.bind, ↓reduceIte, ne_eq, reduceCtorEq, not_false_eq_true,
          not_true_eq_false, and_true, true_and, and_false, false_and, Bool.true_eq_false,
          Bool.false_eq_true, one_ne_zero]
      · rw [if_neg h4]
        by_cases h3 : s.kind ≠ .AST_TIMES
        · have h3a : ¬ s.kind = .AST_TIMES := h3
          rw [if_pos h3, simplify_binary_fuel, simplifyFuel]
          simp only [reduceToBinary_pair, getLeftChild_pair, getRightChild_pair, kind_mk,
            literal_reduceToBinary c hc hc0, hl, hr, hc, h1, h2, h3a, h4, isOperator_mk,
            deref, bind, Except.bind, ↓reduceIte, ne_eq, reduceCtorEq, not_false_eq_true,
            not_true_eq_false, and_true, true_and, and_false, false_and,
            Bool.true_eq_false, Bool.false_eq_true]
        · rw [if_neg h3]

theorem simplify_name_x : simplify (nameNode "x") = .ok (nameNode "x") := by
  simp [simplify, simplifyFuel, reduceToBinary, reduceToBinaryList]

/-- C29, as amended (canonical ordering): for a numeric literal `c` of value other than
zero and an operand `t` that simplifies to `s`, no numeric literal: when `s` is no Plus
node, `Plus(c, t)` and `Plus(t, c)` both become `Plus(s, c)`, the literal on the right;
when `c` is not one and `s` is no Times node, `Times(c, t)` and `Times(t, c)` both become
`Times(c, s)`, the literal on the left. -/
theorem simplify_literal_ordering (c t s : ASTNode) (hc : c.isNumber = true)
    (hc0 : c.children = []) (hv : c.getValue ≠ 0) (h : simplify t = .ok s)
    (hs : s.isNumber = false) :
    (s.kind ≠ .AST_PLUS →
        simplify (ASTNode.mk .AST_PLUS [c, t]) = .ok (ASTNode.mk .AST_PLUS [s, c])
          ∧ simplify (ASTNode.mk .AST_PLUS [t, c]) = .ok (ASTNode.mk .AST_PLUS [s, c]))
      ∧ (c.getValue ≠ 1 → s.kind ≠ .AST_TIMES →
        simplify (ASTNode.mk .AST_TIMES [c, t]) = .ok (ASTNode.mk .AST_TIMES [c, s])
          ∧ simplify (ASTNode.mk .AST_TIMES [t, c]) = .ok (ASTNode.mk .AST_TIMES [c, s])) := by
  have hs1 : ¬ s.isNumber = true := by rw [hs]; exact Bool.false_ne_true
  constructor
  · intro hk
    have p1 := simplify_plus_literal_left c t s hc hc0 h
    have p2 := simplify_plus_literal_right c t s hc hc0 h
    rw [if_neg hv, if_neg hs1, if_pos hk] at p1
    rw [if_neg hs1, if_neg hv, if_pos hk] at p2
    exact ⟨p1, p2⟩
  · intro hw hk
    have p1 := simplify_times_literal_left c t s hc hc0 h
    have p2 := simplify_times_literal_right c t s hc hc0 h
    rw [if_neg hv, if_neg hw, if_neg hs1, if_pos hk] at p1
    rw [if_neg hs1, if_neg hv, if_neg hw, if_pos hk] at p2
    exact ⟨p1, p2⟩

/-- C29 as amended, at `c = 3`, `t = x`. -/
theorem simplify_literal_ordering_witness :
    ((nameNode "x").kind ≠ .AST_PLUS →
        simplify (ASTNode.mk .AST_PLUS [integerNode 3, nameNode "x"])
            = .ok (ASTNode.mk .AST_PLUS [nameNode "x", integerNode 3])
          ∧ simplify (ASTNode.mk .AST_PLUS [nameNode "x", integerNode 3])
            = .ok (ASTNode.mk .AST_PLUS [nameNode "x", integerNode 3]))
      ∧ ((integerNode 3).getValue ≠ 1 → (nameNode "x").kind ≠ .AST_TIMES →
        simplify (ASTNode.mk .AST_TIMES [integerNode 3, nameNode "x"])
            = .ok (ASTNode.mk .AST_TIMES [integerNode 3, nameNode "x"])
          ∧ simplify (ASTNode.mk .AST_TIMES [nameNode "x", integerNode 3])
            = .ok (ASTNode.mk .AST_TIMES [integerNode 3, nameNode "x"])) :=
  simplify_literal_ordering (integerNode 3) (nameNode "x") (nameNode "x") rfl rfl
    (by simp) simplify_name_x rfl

/-- C29 as stated fails at `Plus(3, x)`: `simplify` returns `Plus(x, 3)`, whose left child
is the variable and whose right child is the literal. -/
theorem simplify_plus_literal_goes_right :
    simplify (ASTNode.mk .AST_PLUS [integerNode 3, nameNode "x"])
        = .ok (ASTNode.mk .AST_PLUS [nameNode "x", integerNode 3])
      ∧ simplify (ASTNode.mk .AST_PLUS [nameNode "x", integerNode 3])
        = .ok (ASTNode.mk .AST_PLUS [nameNode "x", integerNode 3])
      ∧ ASTNode.mk .AST_PLUS [nameNode "x", integerNode 3]
        ≠ ASTNode.mk .AST_PLUS [integerNode 3, nameNode "x"] := by
  have p1 := simplify_plus_literal_left (integerNode 3) (nameNode "x") (nameNode "x") rfl rfl
    simplify_name_x
  have p2 := simplify_plus_literal_right (integerNode 3) (nameNode "x") (nameNode "x") rfl rfl
    simplify_name_x
  refine ⟨?_, ?_, by simp⟩
  · rw [p1]; simp
  · rw [p2]; simp

theorem simplify_plus_plus_x_two :
    simplify (ASTNode.mk .AST_PLUS
        [ASTNode.mk .AST_PLUS [nameNode "x", integerNode 2], integerNode (-2)])
      = .ok (ASTNode.mk .AST_PLUS [nameNode "x", realNode 0]) := by
  simp [simplify, simplifyFuel, nodeCount, nodeCountList, reduceToBinary,
    reduceToBinaryList, chain, bind, Except.bind]

theorem simplify_plus_x_real_zero :
    simplify (ASTNode.mk .AST_PLUS [nameNode "x", realNode 0]) = .ok (nameNode "x") := by
  simp [simplify, simplifyFuel, nodeCount, nodeCountList, reduceToBinary,
    reduceToBinaryList, chain, bind, Except.bind]

/-- C31 (the legacy single pass is not a fixed point): at `t = Plus(Plus(x, 2), -2)` the
first pass of `simplify` returns `Plus(x, 0)`, the second pass returns `x`, and
`isEqualTree` tells the two apart. -/
theorem simplify_not_fixed_point :
    ∃ t s1 s2, simplify t = .ok s1 ∧ simplify s1 = .ok s2
      ∧ isEqualTree (some s2) (some s1) = .ok false
      ∧ t = ASTNode.mk .AST_PLUS
          [ASTNode.mk .AST_PLUS [nameNode "x", integerNode 2], integerNode (-2)]
      ∧ s1 = ASTNode.mk .AST_PLUS [nameNode "x", realNode 0]
      ∧ s2 = nameNode "x" :=
  ⟨_, _, _, simplify_plus_plus_x_two, simplify_plus_x_real_zero,
    by simp [isEqualTree, isEqualTreeFuel, isEqual], rfl, rfl, rfl⟩

/-- C32 fails at `p = piecewise(1, y > 0, x, y > 1, 2)`: the variable `x` is the child at
index 2 of `p`, and `containsTarget p x` is false. -/
theorem containsTarget_misses_middle_child :
    occurs "x" (ASTNode.mk .AST_FUNCTION_PIECEWISE
        [integerNode 1, ASTNode.mk .AST_RELATIONAL_GT [nameNode "y", integerNode 0],
         nameNode "x", ASTNode.mk .AST_RELATIONAL_GT [nameNode "y", integerNode 1],
         integerNode 2]) = true
      ∧ containsTarget (ASTNode.mk .AST_FUNCTION_PIECEWISE
        [integerNode 1, ASTNode.mk .AST_RELATIONAL_GT [nameNode "y", integerNode 0],
         nameNode "x", ASTNode.mk .AST_RELATIONAL_GT [nameNode "y", integerNode 1],
         integerNode 2]) "x" = false := by
  constructor
  · simp [occurs, occursList]
  · simp [containsTarget, containsTargetEnds, containsTargetLast]

theorem simplifyRuleTwo_sin_x :
    simplifyRuleTwo (ASTNode.mk .AST_FUNCTION_SIN [nameNode "x"]) = .error .outOfRange := by
  simp [simplifyRuleTwo, simplifyRuleTwoFuel, mapAll, nodeCount, nodeCountList, bind,
    Except.bind]

/-- C36 fails at `t = sin(x)`: Rule Two collects the one simplified child and then reads
`children[1]`, a position past the end of the vector; neither `simplifyRuleTwo` nor the
first pass of `simplifyNew` returns a tree.  The same read happens on `ln(x)` and on the
Real literal `5/2`, whose vector of children is empty. -/
theorem simplifyRuleTwo_reads_missing_child :
    simplifyRuleTwo (ASTNode.mk .AST_FUNCTION_SIN [nameNode "x"]) = .error .outOfRange
      ∧ (∀ passes, simplifyNewFuel (passes + 1) (ASTNode.mk .AST_FUNCTION_SIN [nameNode "x"])
          = .error .outOfRange)
      ∧ simplifyRuleTwo (ASTNode.mk .AST_FUNCTION_LN [nameNode "x"]) = .error .outOfRange
      ∧ simplifyRuleTwo (realNode (5 / 2)) = .error .outOfRange := by
  refine ⟨simplifyRuleTwo_sin_x, ?_, ?_, ?_⟩
  · intro passes
    have h1 : simplifyRuleOne (ASTNode.mk .AST_FUNCTION_SIN [nameNode "x"])
        = .ok (ASTNode.mk .AST_FUNCTION_SIN [nameNode "x"]) := by
      simp [simplifyRuleOne, simplifyRuleOneFuel]
    simp only [simplifyNewFuel, simplifyTwoPath, h1, simplifyRuleTwo_sin_x, bind, Except.bind]
  · simp [simplifyRuleTwo, simplifyRuleTwoFuel, mapAll, nodeCount, nodeCountList, bind,
      Except.bind]
  · have h : ¬ isLong (5 / 2 : ℚ) = true := by
      rw [isLong_five_halves]
      exact Bool.false_ne_true
    simp [simplifyRuleTwo, simplifyRuleTwoFuel, mapAll, nodeCount, nodeCountList, bind,
      Except.bind, h, toDouble_five_halves]

/-- C37 fails at `Plus(x, 0)` and `Times(x, 1)`: Rule Two drops the literal and returns
the one-child nodes `Plus(x)` and `Times(x)`. -/
theorem simplifyRuleTwo_one_child :
    simplifyRuleTwo (ASTNode.mk .AST_PLUS [nameNode "x", integerNode 0])
        = .ok (ASTNode.mk .AST_PLUS [nameNode "x"])
      ∧ simplifyRuleTwo (ASTNode.mk .AST_TIMES [nameNode "x", integerNode 1])
        = .ok (ASTNode.mk .AST_TIMES [nameNode "x"]) := by
  constructor
  · simp [simplifyRuleTwo, simplifyRuleTwoFuel, mapAll, plusScan, nonNumbers, nodeCount,
      nodeCountList, bind, Except.bind]
  · simp [simplifyRuleTwo, simplifyRuleTwoFuel, mapAll, timesScan, timesRebuild, nonNumbers,
      reduceFraction, isRationalForm, reduceByGcd, reduceToBinary, reduceToBinaryList, chain,
      nodeCount, nodeCountList, bind, Except.bind]

/-- C40 fails at `piecewise(1, y > 0, x, y > 1, 2)` against `piecewise(1, y > 0, y, y > 1,
2)`: `isEqualTree` compares the first and the last child only and answers true, while the
leaf `x` of the first tree is no leaf of the second. -/
theorem isEqualTree_ignores_middle_children :
    isEqualTree
        (some (ASTNode.mk .AST_FUNCTION_PIECEWISE
          [integerNode 1, ASTNode.mk .AST_RELATIONAL_GT [nameNode "y", integerNode 0],
           nameNode "x", ASTNode.mk .AST_RELATIONAL_GT [nameNode "y", integerNode 1],
           integerNode 2]))
        (some (ASTNode.mk .AST_FUNCTION_PIECEWISE
          [integerNode 1, ASTNode.mk .AST_RELATIONAL_GT [nameNode "y", integerNode 0],
           nameNode "y", ASTNode.mk .AST_RELATIONAL_GT [nameNode "y", integerNode 1],
           integerNode 2])) = .ok true
      ∧ ¬ (leaves (ASTNode.mk .AST_FUNCTION_PIECEWISE
          [integerNode 1, ASTNode.mk .AST_RELATIONAL_GT [nameNode "y", integerNode 0],
           nameNode "x", ASTNode.mk .AST_RELATIONAL_GT [nameNode "y", integerNode 1],
           integerNode 2])).Perm
        (leaves (ASTNode.mk .AST_FUNCTION_PIECEWISE
          [integerNode 1, ASTNode.mk .AST_RELATIONAL_GT [nameNode "y", integerNode 0],
           nameNode "y", ASTNode.mk .AST_RELATIONAL_GT [nameNode "y", integerNode 1],
           integerNode 2])) := by
  constructor
  · simp [isEqualTree, isEqualTreeFuel, isEqual, reduceToBinary, reduceToBinaryList, height,
      heightList, bind, Except.bind]
  · intro h
    have hx : Kind.AST_NAME "x" ∈ leaves (ASTNode.mk .AST_FUNCTION_PIECEWISE
          [integerNode 1, ASTNode.mk .AST_RELATIONAL_GT [nameNode "y", integerNode 0],
           nameNode "x", ASTNode.mk .AST_RELATIONAL_GT [nameNode "y", integerNode 1],
           integerNode 2]) := by
      simp [leaves, leavesList]
    have hy := (h.mem_iff).mp hx
    simp [leaves, leavesList] at hy

theorem reduceByGcd_result_fixed (n d : Int) (r : ASTNode) (h : reduceByGcd n d = .ok r) :
    reduceFraction r = .ok r := by
  unfold reduceByGcd at h
  by_cases hg : (Int.gcd n d : Int) = 0
  · simp [hg] at h
  · have hn : Int.tdiv n (Int.gcd n d : Int) = n / (Int.gcd n d : Int) :=
      Int.tdiv_eq_ediv_of_dvd (Int.gcd_dvd_left)
    have hd : Int.tdiv d (Int.gcd n d : Int) = d / (Int.gcd n d : Int) :=
      Int.tdiv_eq_ediv_of_dvd (Int.gcd_dvd_right)
    have hpos : 0 < Int.gcd n d := by
      rcases Nat.eq_zero_or_pos (Int.gcd n d) with e | e
      · exact absurd (by exact_mod_cast e) hg
      · exact e
    simp only [hg, if_false, hn, hd] at h
    split at h
    · injection h with h; subst h
      simp [reduceFraction, isRationalForm, bind, Except.bind]
    · rename_i hne
      injection h with h; subst h
      have hc : Int.gcd (n / (Int.gcd n d : Int)) (d / (Int.gcd n d : Int)) = 1 :=
        Int.gcd_div_gcd_div_gcd hpos
      simp [reduceFraction, isRationalForm, reduceByGcd, bind, Except.bind, hc, hne]

/-- C39 (reduceFraction is idempotent): whenever `reduceFraction t` returns a tree `r`,
`reduceFraction r` returns `r` again. -/
theorem reduceFraction_idempotent (t r : ASTNode) (h : reduceFraction t = .ok r) :
    reduceFraction r = .ok r := by
  cases hf : isRationalForm t with
  | error e => simp [reduceFraction, hf, bind, Except.bind] at h
  | ok b =>
    cases b with
    | false =>
      have ht : reduceFraction t = .ok t := by simp [reduceFraction, hf, bind, Except.bind]
      rw [ht] at h
      injection h with h
      subst h
      exact ht
    | true =>
      obtain ⟨n, d, n1, d1, -, hnd, -, -⟩ := reduceFraction_recognised t hf
      rw [hnd] at h
      exact reduceByGcd_result_fixed n1 d1 r h

/-- C39 at the literal `6/8`: the first run returns `3/4`, and so does the run on `3/4`. -/
theorem reduceFraction_idempotent_witness :
    reduceFraction (rationalNode 6 8) = .ok (rationalNode 3 4)
      ∧ reduceFraction (rationalNode 3 4) = .ok (rationalNode 3 4) :=
  ⟨reduceFraction_six_eighths,
    reduceFraction_idempotent (rationalNode 6 8) (rationalNode 3 4) reduceFraction_six_eighths⟩

theorem isLong_intCast (m : Int) (h1 : -2 ^ 63 ≤ m) (h2 : m < 2 ^ 63)
    (hd : toDouble (m : ℚ) = (m : ℚ)) : isLong (m : ℚ) = true := by
  unfold isLong floor
  rw [Int.floor_intCast, toLong_intCast m h1 h2, hd]
  simp

/-- On a numeric literal Rule Two does not recurse: every recursion depth gives the
outcome of depth one. -/
theorem simplifyRuleTwoFuel_literal (n : Nat) (b : ASTNode) (hb : b.isNumber = true)
    (hb0 : b.children = []) : simplifyRuleTwoFuel (n + 1) b = simplifyRuleTwoFuel 1 b := by
  obtain ⟨k, cs⟩ := b
  simp only [ASTNode.children] at hb0
  subst hb0
  cases k <;> simp at hb <;>
    simp [simplifyRuleTwoFuel, mapAll, bind, Except.bind]

theorem simplifyRuleTwo_literal (n : Nat) (b : ASTNode) (hb : b.isNumber = true)
    (hb0 : b.children = []) : simplifyRuleTwoFuel (n + 1) b = simplifyRuleTwo b := by
  rw [simplifyRuleTwo, simplifyRuleTwoFuel_literal n b hb hb0,
    simplifyRuleTwoFuel_literal (8 * nodeCount b + 7) b hb hb0]

theorem reduceByGcd_isNumber (n d : Int) (r : ASTNode) (h : reduceByGcd n d = .ok r) :
    r.isNumber = true := by
  unfold reduceByGcd at h
  simp only at h
  split at h
  · cases h
  · split at h <;> (injection h with h; subst h; rfl)

/-- What Rule Two returns on a numeric literal is a numeric literal. -/
theorem simplifyRuleTwo_literal_isNumber (b r : ASTNode) (hb : b.isNumber = true)
    (hb0 : b.children = []) (h : simplifyRuleTwo b = .ok r) : r.isNumber = true := by
  rw [← simplifyRuleTwo_literal 0 b hb hb0] at h
  obtain ⟨k, cs⟩ := b
  simp only [ASTNode.children] at hb0
  subst hb0
  cases k <;> simp at hb
  · simp [simplifyRuleTwoFuel] at h
    subst h
    rfl
  · simp only [simplifyRuleTwoFuel, mapAll, bind, Except.bind] at h
    simp at h
    split at h
    · injection h with h
      subst h
      rfl
    · cases h
  · simp [simplifyRuleTwoFuel] at h
    subst h
    rfl
  · rename_i p q
    have e : simplifyRuleTwoFuel (0 + 1) (ASTNode.mk (.AST_RATIONAL p q) [])
        = reduceByGcd p q := by
      simp [simplifyRuleTwoFuel, reduceFraction, isRationalForm, bind, Except.bind]
    rw [e] at h
    exact reduceByGcd_isNumber p q r h

/-- The power case of Rule Two on operands whose simplified forms are numeric literals. -/
theorem simplifyRuleTwoFuel_power_numbers (F : Nat) (b e b1 e1 : ASTNode)
    (hb : simplifyRuleTwoFuel F b = .ok b1) (he : simplifyRuleTwoFuel F e = .ok e1)
    (hbn : b1.isNumber = true) (hen : e1.isNumber = true) :
    simplifyRuleTwoFuel (F + 1) (ASTNode.mk .AST_POWER [b, e])
      = (if b1.getValue = 0 then .ok (integerNode 0)
          else if b1.getValue = 1 then .ok (integerNode 1)
          else if 0 < e1.getValue then
            (match pow b1.getValue e1.getValue with
              | .ok val => .ok (realNode val)
              | .error err => .error err)
          else if e1.getValue = -1 ∧ isLong b1.getValue = true then
            .ok (rationalNode 1 (toLong b1.getValue))
          else if e1.getValue = 0 then .ok (integerNode 1)
          else .ok (ASTNode.mk .AST_POWER [b1, e1])) := by
  have hk1 : ¬ b1.kind = .AST_POWER := by
    intro h
    obtain ⟨k, cs⟩ := b1
    simp only [kind_mk] at h
    subst h
    simp at hbn
  have hk2 : ¬ b1.kind = .AST_FUNCTION_POWER := by
    intro h
    obtain ⟨k, cs⟩ := b1
    simp only [kind_mk] at h
    subst h
    simp at hbn
  rw [simplifyRuleTwoFuel]
  simp only [kind_mk, isOperator_mk, isRealType, isRational, mapAll, hb, he, hbn, hen, hk1,
    hk2, vectorAt, bind,
    Except.bind, List.get?, ↓reduceIte, ne_eq, reduceCtorEq, not_false_eq_true,
    not_true_eq_false, and_true, true_and, and_false, false_and, or_self, or_false,
    Bool.true_eq_false, Bool.false_eq_true]
  by_cases h0 : b1.getValue = 0
  · rw [if_pos h0, if_pos h0]
  rw [if_neg h0, if_neg h0]
  by_cases h1 : b1.getValue = 1
  · rw [if_pos h1, if_pos h1]
  rw [if_neg h1, if_neg h1]
  by_cases hp : 0 < e1.getValue
  · rw [if_pos hp, if_pos hp]
    cases pow b1.getValue e1.getValue <;> rfl
  rw [if_neg hp, if_neg hp]
  have hne1 : ¬ e1.getValue = 1 := fun h => hp (by rw [h]; exact one_pos)
  by_cases hm : e1.getValue = -1 ∧ isLong b1.getValue = true
  · rw [if_pos hm, if_pos hm]
  rw [if_neg hm, if_neg hm]
  by_cases hz : e1.getValue = 0
  · rw [if_pos hz, if_pos hz]
  · rw [if_neg hz, if_neg hz, if_neg hne1]

/-- The root of order `2 ^ k` found by `exactRoot`. -/
theorem exactRoot_pow (k : Nat) : ∀ (fuel a : Nat), k < fuel →
    exactRoot fuel (2 ^ k) (a ^ 2 ^ k) = some a := by
  induction k with
  | zero =>
    intro fuel a hf
    obtain ⟨f, rfl⟩ : ∃ f, fuel = f + 1 := ⟨fuel - 1, by omega⟩
    simp [exactRoot]
  | succ k ih =>
    intro fuel a hf
    obtain ⟨f, rfl⟩ : ∃ f, fuel = f + 1 := ⟨fuel - 1, by omega⟩
    have hs : Nat.sqrt (a ^ 2 ^ (k + 1)) = a ^ 2 ^ k := by
      have e : a ^ 2 ^ (k + 1) = a ^ 2 ^ k * a ^ 2 ^ k := by
        rw [← pow_add, pow_succ]
        congr 1
        omega
      rw [e, Nat.sqrt_eq]
    have h1 : ¬ (2 ^ (k + 1) = 1) := by
      have : 2 ≤ 2 ^ (k + 1) := by
        calc 2 = 2 ^ 1 := rfl
          _ ≤ 2 ^ (k + 1) := Nat.pow_le_pow_right (by decide) (by omega)
      omega
    have h2 : 2 ^ (k + 1) % 2 = 0 := by
      rw [pow_succ]
      exact Nat.mul_mod_left _ _
    have h3 : 2 ^ (k + 1) / 2 = 2 ^ k := by
      rw [pow_succ]
      exact Nat.mul_div_cancel _ (by decide)
    have h4 : a ^ 2 ^ k * a ^ 2 ^ k = a ^ 2 ^ (k + 1) := by
      rw [← pow_add, pow_succ]
      congr 1
      omega
    rw [exactRoot, if_neg h1, hs, if_pos ⟨h2, h4⟩, h3]
    exact ih f a (by omega)

/-- The library power with a natural exponent, in the model. -/
theorem pow_natCast (x : ℚ) (n : Nat) : pow x (n : ℚ) = .ok (toDouble (x ^ n)) := by
  have hd : ((n : ℚ)).den = 1 := Rat.den_natCast n
  have hn : ((n : ℚ)).num = (n : Int) := Rat.num_natCast n
  have h0 : ¬ (x = 0 ∧ (n : ℚ) < 0) := fun h => absurd h.2 (not_lt.mpr (Nat.cast_nonneg n))
  unfold pow
  rw [if_pos hd, if_neg h0, hn, zpow_natCast]

/-- The library power with a fractional exponent, where the root is a rational number. -/
theorem pow_exact_root (r : ℚ) (k m : Nat) (hr : 0 < r) (hk : 0 < k) (hm : m % 2 = 1) :
    pow (r ^ 2 ^ k) ((m : ℚ) / 2 ^ k) = .ok (toDouble (r ^ m)) := by
  have hcop : Nat.Coprime ((m : Int)).natAbs ((2 ^ k : Int)).natAbs := by
    have e1 : ((m : Int)).natAbs = m := Int.natAbs_ofNat m
    have e2 : ((2 ^ k : Int)).natAbs = 2 ^ k := by
      rw [Int.natAbs_pow]
      rfl
    rw [e1, e2]
    apply Nat.Coprime.pow_right
    rw [Nat.coprime_comm, Nat.coprime_two_left]
    exact Nat.odd_iff.mpr hm
  have hy : ((m : ℚ) / 2 ^ k) = (((m : Int) : ℚ) / ((2 ^ k : Int) : ℚ)) := by push_cast; rfl
  have hden : ((m : ℚ) / 2 ^ k).den = 2 ^ k := by
    have := Rat.den_div_eq_of_coprime (a := (m : Int)) (b := (2 ^ k : Int)) (by positivity) hcop
    rw [hy]
    exact_mod_cast this
  have hnum : ((m : ℚ) / 2 ^ k).num = (m : Int) := by
    rw [hy]
    exact Rat.num_div_eq_of_coprime (by positivity) hcop
  have hk2 : 2 ≤ 2 ^ k := by
    calc 2 = 2 ^ 1 := rfl
      _ ≤ 2 ^ k := Nat.pow_le_pow_right (by decide) hk
  have hd1 : ¬ ((m : ℚ) / 2 ^ k).den = 1 := by
    rw [hden]
    omega
  have hx : 0 < r ^ 2 ^ k := by positivity
  have hx0 : ¬ (r ^ 2 ^ k = 0 ∧ 0 < (m : ℚ) / 2 ^ k) := fun h => absurd h.1 (ne_of_gt hx)
  have hrn : 0 < r.num := Rat.num_pos.mpr hr
  have hxn : (r ^ 2 ^ k).num.toNat = r.num.toNat ^ 2 ^ k := by
    rw [Rat.num_pow]
    have e : r.num = ((r.num.toNat : Nat) : Int) := (Int.toNat_of_nonneg hrn.le).symm
    conv_lhs => rw [e]
    rw [← Nat.cast_pow, Int.toNat_natCast]
  have hxd : (r ^ 2 ^ k).den = r.den ^ 2 ^ k := Rat.den_pow r _
  have hlt : k < 2 ^ k := Nat.lt_two_pow k
  have hq : ((r.num.toNat : Nat) : ℚ) / ((r.den : Nat) : ℚ) = r := by
    have e : ((r.num.toNat : Nat) : ℚ) = ((r.num : Int) : ℚ) := by
      have := Int.toNat_of_nonneg hrn.le
      exact_mod_cast congrArg (fun z : Int => (z : ℚ)) this
    rw [e]
    exact Rat.num_div_den r
  unfold pow
  rw [if_neg hd1, if_neg hx0, if_pos hx, hden, hxn, hxd,
    exactRoot_pow k _ _ hlt, exactRoot_pow k _ _ hlt]
  simp only [hnum, hq, zpow_natCast]

/-- The test `isLong` holds of the integers within the range of `long` only. -/
theorem isLong_range (q : ℚ) (h : isLong q = true) :
    ∃ m : Int, q = (m : ℚ) ∧ -2 ^ 63 ≤ m ∧ m < 2 ^ 63 := by
  unfold isLong at h
  have h1 : toDouble ((floor q : Int) : ℚ) = q := by simpa using h
  obtain ⟨w, hw⟩ := toDouble_intCast_isInt (floor q)
  have hq : q = (w : ℚ) := by rw [← h1, hw]
  have hfl : floor q = toLong ((w : Int) : ℚ) := by
    unfold floor
    rw [hq, Int.floor_intCast]
  by_cases hr : -2 ^ 63 ≤ w ∧ w < 2 ^ 63
  · exact ⟨w, hq, hr.1, hr.2⟩
  · have e : toLong ((w : Int) : ℚ) = -2 ^ 63 := by
      unfold toLong
      rw [truncate_intCast, if_neg hr]
    rw [hfl, e] at hw
    have e2 : toDouble (((-2 ^ 63 : Int)) : ℚ) = (((-2 ^ 63 : Int)) : ℚ) := by
      have := toDouble_dyadic (-1) 63 (by decide) (by decide)
      norm_num at this ⊢
      exact this
    rw [e2] at hw
    have : (-2 ^ 63 : Int) = w := by exact_mod_cast hw
    exact absurd ⟨by omega, by omega⟩ hr

theorem simplifyRuleTwo_integerNode (z : Int) :
    simplifyRuleTwo (integerNode z) = .ok (integerNode z) := by
  simp [simplifyRuleTwo, simplifyRuleTwoFuel]

theorem simplifyRuleTwo_one_half :
    simplifyRuleTwo (rationalNode 1 2) = .ok (rationalNode 1 2) := by
  rw [← simplifyRuleTwo_literal 0 (rationalNode 1 2) rfl rfl]
  have e : simplifyRuleTwoFuel (0 + 1) (rationalNode 1 2) = reduceByGcd 1 2 := by
    simp [simplifyRuleTwoFuel, reduceFraction, isRationalForm, bind, Except.bind]
  rw [e]
  simp [reduceByGcd]

theorem getValue_one_half : (rationalNode 1 2).getValue = 1 / 2 := by
  have e1 : toDouble ((1 : Int) : ℚ) = ((1 : Int) : ℚ) := toDouble_intCast 1 (by decide)
  have e2 : toDouble ((2 : Int) : ℚ) = ((2 : Int) : ℚ) := toDouble_intCast 2 (by decide)
  simp only [rationalNode, getValue, ASTNode.kind]
  rw [if_neg (by decide), e1, e2]
  have := toDouble_one_half
  norm_num at this ⊢
  exact this

/-- The `double` nearest to `3 ^ 40`. -/
theorem toDouble_three_pow_40 :
    toDouble ((3 : ℚ) ^ (40 : Nat)) = 12157665459056928768 := by
  rw [toDouble_binade _ 63 (by norm_num) (by norm_num) (by decide)]
  rw [roundHalfEven_eq _ 5936360087430141 (by norm_num) (by norm_num)]
  norm_num

theorem agreesWhenOk_mapAll {f g : ASTNode → Except Err ASTNode}
    (h : ∀ c, AgreesWhenOk (f c) (g c)) : ∀ l, AgreesWhenOk (mapAll f l) (mapAll g l)
  | [] => agreesWhenOk_refl _
  | c :: rest => by
    simp only [mapAll]
    exact agreesWhenOk_bind (h c)
      (fun _ => agreesWhenOk_bind (agreesWhenOk_mapAll h rest) (fun _ => agreesWhenOk_refl _))

set_option maxHeartbeats 4000000 in
theorem simplifyRuleOneFuel_agrees (n : Nat) :
    ∀ (m : Nat) (t : ASTNode), n ≤ m →
      AgreesWhenOk (simplifyRuleOneFuel n t) (simplifyRuleOneFuel m t) := by
  induction n with
  | zero =>
    intro m t _ r h
    simp [simplifyRuleOneFuel] at h
  | succ k ih =>
    intro m t hm
    obtain ⟨j, rfl⟩ : ∃ j, m = j + 1 := ⟨m - 1, by omega⟩
    have ih1 : ∀ c, AgreesWhenOk (simplifyRuleOneFuel k c) (simplifyRuleOneFuel j c) :=
      fun c => ih j c (by omega)
    unfold simplifyRuleOneFuel
    lift_lets
    intro type
    clear_value type
    apply agreesWhenOk_ite (agreesWhenOk_refl _)
    apply agreesWhenOk_ite
    · exact agreesWhenOk_bind (agreesWhenOk_mapEven ih1 _) (fun _ => agreesWhenOk_refl _)
    apply agreesWhenOk_bind (agreesWhenOk_mapAll ih1 _)
    intro children
    cases type <;> dsimp only <;>
      repeat (first
        | with_reducible exact agreesWhenOk_refl _
        | with_reducible exact ih1 _
        | apply agreesWhenOk_ite
        | apply agreesWhenOk_bind
        | intro _)

theorem simplifyRuleOne_child (t r : ASTNode) (n : Nat) (h : simplifyRuleOne t = .ok r)
    (hn : 8 * nodeCount t + 8 ≤ n) : simplifyRuleOneFuel n t = .ok r :=
  simplifyRuleOneFuel_agrees _ n t hn r h

theorem simplifyRuleOneFuel_leaf (n : Nat) (t : ASTNode) (h1 : t.isOperator = false)
    (h2 : t.kind ≠ .AST_FUNCTION_PIECEWISE) : simplifyRuleOneFuel (n + 1) t = .ok t := by
  rw [simplifyRuleOneFuel]
  simp only [h1, h2, ne_eq, not_false_eq_true, and_self, if_true]

theorem simplifyRuleOneFuel_minus (n : Nat) (a b a' b' : ASTNode)
    (ha : simplifyRuleOneFuel n a = .ok a') (hb : simplifyRuleOneFuel n b = .ok b') :
    simplifyRuleOneFuel (n + 1) (ASTNode.mk .AST_MINUS [a, b])
      = if b'.isNumber = true then
          simplifyRuleOneFuel n (ASTNode.mk .AST_PLUS [a', realNode (b'.getValue * (-1))])
        else
          simplifyRuleOneFuel n
            (ASTNode.mk .AST_PLUS [a, ASTNode.mk .AST_TIMES [integerNode (-1), b]]) := by
  rw [simplifyRuleOneFuel]
  simp only [kind_mk, isOperator_mk, ASTNode.children, mapAll, ha, hb, bind, Except.bind,
    vectorAt, List.get?, getLeftChild_pair, getRightChild_pair, deref, ne_eq, reduceCtorEq,
    not_false_eq_true, not_true_eq_false, and_true, and_false, Bool.true_eq_false, ↓reduceIte]

theorem simplifyRuleOneFuel_plus_pair (n : Nat) (a b a' b' : ASTNode)
    (ha : simplifyRuleOneFuel n a = .ok a') (hb : simplifyRuleOneFuel n b = .ok b') :
    simplifyRuleOneFuel (n + 1) (ASTNode.mk .AST_PLUS [a, b])
      = .ok (ASTNode.mk .AST_PLUS (flattenChildren .AST_PLUS [a', b'])) := by
  rw [simplifyRuleOneFuel]
  simp only [kind_mk, isOperator_mk, ASTNode.children, mapAll, ha, hb, bind, Except.bind,
    vectorAt, List.get?, ne_eq, reduceCtorEq,
    not_false_eq_true, not_true_eq_false, and_true, and_false, Bool.true_eq_false, ↓reduceIte]

theorem simplifyRuleOneFuel_times_pair (n : Nat) (a b a' b' : ASTNode)
    (ha : simplifyRuleOneFuel n a = .ok a') (hb : simplifyRuleOneFuel n b = .ok b') :
    simplifyRuleOneFuel (n + 1) (ASTNode.mk .AST_TIMES [a, b])
      = .ok (ASTNode.mk .AST_TIMES (flattenChildren .AST_TIMES [a', b'])) := by
  rw [simplifyRuleOneFuel]
  simp only [kind_mk, isOperator_mk, ASTNode.children, mapAll, ha, hb, bind, Except.bind,
    vectorAt, List.get?, ne_eq, reduceCtorEq,
    not_false_eq_true, not_true_eq_false, and_true, and_false, Bool.true_eq_false, ↓reduceIte]

theorem simplifyRuleOneFuel_divide (n : Nat) (a b a' b' : ASTNode)
    (ha : simplifyRuleOneFuel n a = .ok a') (hb : simplifyRuleOneFuel n b = .ok b') :
    simplifyRuleOneFuel (n + 1) (ASTNode.mk .AST_DIVIDE [a, b])
      = if b'.kind = .AST_POWER ∨ b'.kind = .AST_FUNCTION_POWER then do
          let degreeNode ← deref b'.getRightChild
          if degreeNode.isNumber then
            let base ← deref b'.getLeftChild
            .ok (ASTNode.mk .AST_TIMES
              [a', ASTNode.mk .AST_POWER [base, realNode (degreeNode.getValue * (-1))]])
          else .ok (ASTNode.mk .AST_TIMES [a', ASTNode.mk .AST_POWER []])
        else .ok (ASTNode.mk .AST_TIMES [a', ASTNode.mk .AST_POWER [b', integerNode (-1)]]) := by
  rw [simplifyRuleOneFuel]
  simp only [kind_mk, isOperator_mk, ASTNode.children, mapAll, ha, hb, bind, Except.bind,
    vectorAt, List.get?, ne_eq, reduceCtorEq,
    not_false_eq_true, not_true_eq_false, and_true, and_false, Bool.true_eq_false, ↓reduceIte]

theorem flatList_iff : ∀ cs : List ASTNode, flatList cs = true ↔ ∀ c ∈ cs, flat c = true
  | [] => by simp [flatList]
  | c :: cs => by simp [flatList, flatList_iff cs]

theorem flattenScopeList_iff :
    ∀ cs : List ASTNode, flattenScopeList cs = true ↔ ∀ c ∈ cs, flattenScope c = true
  | [] => by simp [flattenScopeList]
  | c :: cs => by simp [flattenScopeList, flattenScopeList_iff cs]

theorem noChildOfKind_iff (k : Kind) (cs : List ASTNode) :
    noChildOfKind k cs = true ↔ ∀ c ∈ cs, c.kind ≠ k := by
  simp [noChildOfKind, List.all_eq_true, -ASTNode.kind]

theorem mem_flattenChildren (k : Kind) (g : ASTNode) :
    ∀ cs : List ASTNode, g ∈ flattenChildren k cs →
      ∃ c ∈ cs, (c.kind = k ∧ g ∈ c.children) ∨ (c.kind ≠ k ∧ g = c)
  | [], h => by simp [flattenChildren] at h
  | c :: cs, h => by
    rw [flattenChildren] at h
    by_cases hk : c.kind = k
    · rw [if_pos hk, List.mem_append] at h
      rcases h with h | h
      · exact ⟨c, List.mem_cons_self _ _, Or.inl ⟨hk, h⟩⟩
      · obtain ⟨d, hd, hd2⟩ := mem_flattenChildren k g cs h
        exact ⟨d, List.mem_cons_of_mem _ hd, hd2⟩
    · rw [if_neg hk, List.mem_cons] at h
      rcases h with h | h
      · exact ⟨c, List.mem_cons_self _ _, Or.inr ⟨hk, h⟩⟩
      · obtain ⟨d, hd, hd2⟩ := mem_flattenChildren k g cs h
        exact ⟨d, List.mem_cons_of_mem _ hd, hd2⟩

theorem mapAll_mem {f : ASTNode → Except Err ASTNode} (P : ASTNode → Prop) :
    ∀ (cs cs1 : List ASTNode), mapAll f cs = .ok cs1 →
      (∀ c ∈ cs, ∀ r, f c = .ok r → P r) → ∀ c1 ∈ cs1, P c1
  | [], cs1, h, _ => by
    simp only [mapAll] at h
    injection h with h
    subst h
    simp
  | c :: cs, cs1, h, hp => by
    simp only [mapAll, bind, Except.bind] at h
    cases hc : f c with
    | error e => simp [hc] at h
    | ok c1 =>
      cases hr : mapAll f cs with
      | error e => simp [hc, hr] at h
      | ok rest =>
        simp only [hc, hr] at h
        injection h with h
        subst h
        intro d hd
        rcases List.mem_cons.mp hd with hd | hd
        · subst hd
          exact hp c (List.mem_cons_self _ _) _ hc
        · exact mapAll_mem P cs rest hr
            (fun c2 hc2 r hr2 => hp c2 (List.mem_cons_of_mem _ hc2) r hr2) d hd

theorem vectorAt_mem (l : List ASTNode) (i : Nat) (x : ASTNode) (h : vectorAt l i = .ok x) :
    x ∈ l := by
  unfold vectorAt at h
  split at h
  · rename_i y hy
    injection h with h
    subst h
    exact List.get?_mem hy
  · cases h

theorem flat_plus_children (cs : List ASTNode) (h : flat (ASTNode.mk .AST_PLUS cs) = true) :
    ∀ g ∈ cs, g.kind ≠ .AST_PLUS ∧ flat g = true := by
  simp only [flat, Bool.and_eq_true, noChildOfKind_iff, flatList_iff] at h
  exact fun g hg => ⟨h.1 g hg, h.2 g hg⟩

theorem flat_times_children (cs : List ASTNode) (h : flat (ASTNode.mk .AST_TIMES cs) = true) :
    ∀ g ∈ cs, g.kind ≠ .AST_TIMES ∧ flat g = true := by
  simp only [flat, Bool.and_eq_true, noChildOfKind_iff, flatList_iff] at h
  exact fun g hg => ⟨h.1 g hg, h.2 g hg⟩

theorem flattenChildren_plus_flat (cs : List ASTNode)
    (h : ∀ c ∈ cs, flat c = true ∧ flattenScope c = true) :
    flat (ASTNode.mk .AST_PLUS (flattenChildren .AST_PLUS cs)) = true
      ∧ flattenScope (ASTNode.mk .AST_PLUS (flattenChildren .AST_PLUS cs)) = true := by
  simp only [flat, flattenScope, Bool.and_eq_true, noChildOfKind_iff, flatList_iff,
    flattenScopeList_iff]
  refine ⟨⟨?_, ?_⟩, ?_⟩
  · intro g hg
    obtain ⟨c, hc, hcase⟩ := mem_flattenChildren _ g cs hg
    rcases hcase with ⟨hk, hgc⟩ | ⟨hk, rfl⟩
    · obtain ⟨k, ds⟩ := c
      simp only [kind_mk] at hk
      subst hk
      exact (flat_plus_children ds (h _ hc).1 g hgc).1
    · exact hk
  · intro g hg
    obtain ⟨c, hc, hcase⟩ := mem_flattenChildren _ g cs hg
    rcases hcase with ⟨hk, hgc⟩ | ⟨hk, rfl⟩
    · obtain ⟨k, ds⟩ := c
      simp only [kind_mk] at hk
      subst hk
      exact (flat_plus_children ds (h _ hc).1 g hgc).2
    · exact (h _ hc).1
  · intro g hg
    obtain ⟨c, hc, hcase⟩ := mem_flattenChildren _ g cs hg
    rcases hcase with ⟨hk, hgc⟩ | ⟨hk, rfl⟩
    · obtain ⟨k, ds⟩ := c
      simp only [kind_mk] at hk
      subst hk
      have h2 := (h _ hc).2
      simp only [flattenScope, flattenScopeList_iff] at h2
      exact h2 g hgc
    · exact (h _ hc).2

theorem flattenChildren_times_flat (cs : List ASTNode)
    (h : ∀ c ∈ cs, flat c = true ∧ flattenScope c = true) :
    flat (ASTNode.mk .AST_TIMES (flattenChildren .AST_TIMES cs)) = true
      ∧ flattenScope (ASTNode.mk .AST_TIMES (flattenChildren .AST_TIMES cs)) = true := by
  simp only [flat, flattenScope, Bool.and_eq_true, noChildOfKind_iff, flatList_iff,
    flattenScopeList_iff]
  refine ⟨⟨?_, ?_⟩, ?_⟩
  · intro g hg
    obtain ⟨c, hc, hcase⟩ := mem_flattenChildren _ g cs hg
    rcases hcase with ⟨hk, hgc⟩ | ⟨hk, rfl⟩
    · obtain ⟨k, ds⟩ := c
      simp only [kind_mk] at hk
      subst hk
      exact (flat_times_children ds (h _ hc).1 g hgc).1
    · exact hk
  · intro g hg
    obtain ⟨c, hc, hcase⟩ := mem_flattenChildren _ g cs hg
    rcases hcase with ⟨hk, hgc⟩ | ⟨hk, rfl⟩
    · obtain ⟨k, ds⟩ := c
      simp only [kind_mk] at hk
      subst hk
      exact (flat_times_children ds (h _ hc).1 g hgc).2
    · exact (h _ hc).1
  · intro g hg
    obtain ⟨c, hc, hcase⟩ := mem_flattenChildren _ g cs hg
    rcases hcase with ⟨hk, hgc⟩ | ⟨hk, rfl⟩
    · obtain ⟨k, ds⟩ := c
      simp only [kind_mk] at hk
      subst hk
      have h2 := (h _ hc).2
      simp only [flattenScope, flattenScopeList_iff] at h2
      exact h2 g hgc
    · exact (h _ hc).2

theorem flattenScope_leaf (k : Kind) (cs : List ASTNode)
    (h1 : (ASTNode.mk k cs).isOperator = false) (h2 : k ≠ .AST_FUNCTION_PIECEWISE)
    (h : flattenScope (ASTNode.mk k cs) = true) : flat (ASTNode.mk k cs) = true := by
  cases k <;> first
    | (simp only [isOperator_mk] at h1; done)
    | exact absurd rfl h2
    | (simp only [flattenScope] at h; simp only [flat]; exact h)
    | (simp at h1)

theorem flattenScope_children (k : Kind) (cs : List ASTNode)
    (h1 : (ASTNode.mk k cs).isOperator = true)
    (h : flattenScope (ASTNode.mk k cs) = true) : ∀ c ∈ cs, flattenScope c = true := by
  cases k <;> first
    | (simp only [flattenScope, flattenScopeList_iff] at h; exact h)
    | (simp only [flattenScope] at h; exact absurd h (by decide))
    | (simp at h1)

theorem simplifyRuleOneFuel_flat (n : Nat) :
    ∀ t r : ASTNode, flattenScope t = true → simplifyRuleOneFuel n t = .ok r →
      flat r = true ∧ flattenScope r = true := by
  induction n with
  | zero =>
    intro t r _ h
    simp [simplifyRuleOneFuel] at h
  | succ n ih =>
    intro t r hs h
    obtain ⟨k, cs⟩ := t
    rw [simplifyRuleOneFuel] at h
    simp only [kind_mk, ASTNode.children] at h
    by_cases hleaf : (ASTNode.mk k cs).isOperator = false ∧ k ≠ .AST_FUNCTION_PIECEWISE
    · rw [if_pos hleaf] at h
      injection h with h
      subst h
      exact ⟨flattenScope_leaf k cs hleaf.1 hleaf.2 hs, hs⟩
    · rw [if_neg hleaf] at h
      by_cases hpw : k = .AST_FUNCTION_PIECEWISE
      · subst hpw
        simp [flattenScope] at hs
      · rw [if_neg hpw] at h
        have hop : (ASTNode.mk k cs).isOperator = true := by
          by_contra hno
          exact hleaf ⟨by simpa using hno, hpw⟩
        have hcs := flattenScope_children k cs hop hs
        cases hmap : mapAll (simplifyRuleOneFuel n) cs with
        | error e => simp [hmap, bind, Except.bind] at h
        | ok children =>
          have hch : ∀ c ∈ children, flat c = true ∧ flattenScope c = true :=
            mapAll_mem (fun c => flat c = true ∧ flattenScope c = true) cs children hmap
              (fun c hc r hr => ih c r (hcs c hc) hr)
          simp only [hmap, bind, Except.bind] at h
          cases k <;> first
            | (simp at hop; done)
            | skip
          · -- Plus
            simp only at h
            injection h with h
            subst h
            exact flattenChildren_plus_flat children hch
          · -- Minus
            simp only at h
            cases h1 : vectorAt children 1 with
            | error e => simp [h1, -vectorAt] at h
            | ok right =>
              simp only [h1] at h
              by_cases hnum : right.isNumber = true
              · rw [if_pos hnum] at h
                cases h0 : vectorAt children 0 with
                | error e => simp [h0, -vectorAt] at h
                | ok left =>
                  simp only [h0] at h
                  have hl := hch left (vectorAt_mem _ _ _ h0)
                  refine ih _ r ?_ h
                  simp only [flattenScope, flattenScopeList, flatList, realNode, hl.2,
                    Bool.and_self]
              · rw [if_neg hnum] at h
                cases hR : (ASTNode.mk Kind.AST_MINUS cs).getRightChild with
                | none => simp [hR, -getRightChild] at h
                | some v =>
                  cases hL : (ASTNode.mk Kind.AST_MINUS cs).getLeftChild with
                  | none => simp [hR, hL, -getRightChild, -getLeftChild] at h
                  | some w =>
                    simp only [hR, hL, deref] at h
                    have hv := hcs v (getRightChild_mem _ _ hR)
                    have hw := hcs w (getLeftChild_mem _ _ hL)
                    refine ih _ r ?_ h
                    simp only [flattenScope, flattenScopeList, flatList, integerNode, hv, hw,
                      Bool.and_self]
          · -- Times
            simp only at h
            injection h with h
            subst h
            exact flattenChildren_times_flat children hch
          · -- Divide
            simp [flattenScope] at hs
          · -- Power
            simp only at h
            cases h0 : vectorAt children 0 with
            | error e => simp [h0, -vectorAt] at h
            | ok left =>
              cases h1 : vectorAt children 1 with
              | error e => simp [h0, h1, -vectorAt] at h
              | ok right =>
                simp only [h0, h1] at h
                have hl := hch left (vectorAt_mem _ _ _ h0)
                have hr := hch right (vectorAt_mem _ _ _ h1)
                injection h with h
                subst h
                simp only [flat, flattenScope, flatList, flattenScopeList, hl.1, hl.2, hr.1,
                  hr.2, Bool.and_self]
                exact ⟨trivial, trivial⟩

/-- C33, amended: on a tree built from Plus, Times, Minus and Power operator nodes over
flat subtrees that are neither operator nor piecewise nodes, every result of Rule One is
flat: no Plus node has a Plus node as a direct child and no Times node has a Times node as
a direct child, however deeply the operators were nested (also under Minus). -/
theorem simplifyRuleOne_flattens (t r : ASTNode) (hs : flattenScope t = true)
    (h : simplifyRuleOne t = .ok r) : flat r = true :=
  (simplifyRuleOneFuel_flat _ t r hs h).1

theorem simplifyRuleOne_nested_plus :
    simplifyRuleOne (ASTNode.mk .AST_PLUS
        [ASTNode.mk .AST_PLUS [ASTNode.mk .AST_PLUS [nameNode "x", nameNode "y"], nameNode "z"],
         nameNode "x"])
      = .ok (ASTNode.mk .AST_PLUS [nameNode "x", nameNode "y", nameNode "z", nameNode "x"]) := by
  simp [simplifyRuleOne, simplifyRuleOneFuel, mapAll, flattenChildren, nodeCount,
    nodeCountList, bind, Except.bind]

theorem simplifyRuleOne_minus_plus :
    simplifyRuleOne (ASTNode.mk .AST_MINUS
        [ASTNode.mk .AST_PLUS [nameNode "x", nameNode "y"], nameNode "z"])
      = .ok (ASTNode.mk .AST_PLUS
          [nameNode "x", nameNode "y",
           ASTNode.mk .AST_TIMES [integerNode (-1), nameNode "z"]]) := by
  simp [simplifyRuleOne, simplifyRuleOneFuel, mapAll, flattenChildren, nodeCount,
    nodeCountList, bind, Except.bind]

/-- C33 at `Plus(Plus(Plus(x, y), z), x)`, which becomes `Plus(x, y, z, x)`, and at
`Minus(Plus(x, y), z)`, which becomes `Plus(x, y, Times(-1, z))`. -/
theorem simplifyRuleOne_flattens_witness :
    (flattenScope (ASTNode.mk .AST_PLUS
        [ASTNode.mk .AST_PLUS [ASTNode.mk .AST_PLUS [nameNode "x", nameNode "y"], nameNode "z"],
         nameNode "x"]) = true
      ∧ simplifyRuleOne (ASTNode.mk .AST_PLUS
        [ASTNode.mk .AST_PLUS [ASTNode.mk .AST_PLUS [nameNode "x", nameNode "y"], nameNode "z"],
         nameNode "x"])
        = .ok (ASTNode.mk .AST_PLUS [nameNode "x", nameNode "y", nameNode "z", nameNode "x"])
      ∧ flat (ASTNode.mk .AST_PLUS [nameNode "x", nameNode "y", nameNode "z", nameNode "x"])
        = true)
      ∧ (flattenScope (ASTNode.mk .AST_MINUS
          [ASTNode.mk .AST_PLUS [nameNode "x", nameNode "y"], nameNode "z"]) = true
        ∧ simplifyRuleOne (ASTNode.mk .AST_MINUS
          [ASTNode.mk .AST_PLUS [nameNode "x", nameNode "y"], nameNode "z"])
          = .ok (ASTNode.mk .AST_PLUS
            [nameNode "x", nameNode "y",
             ASTNode.mk .AST_TIMES [integerNode (-1), nameNode "z"]])
        ∧ flat (ASTNode.mk .AST_PLUS
            [nameNode "x", nameNode "y",
             ASTNode.mk .AST_TIMES [integerNode (-1), nameNode "z"]]) = true) :=
  ⟨⟨rfl, simplifyRuleOne_nested_plus,
      simplifyRuleOne_flattens
        (ASTNode.mk .AST_PLUS
          [ASTNode.mk .AST_PLUS
            [ASTNode.mk .AST_PLUS [nameNode "x", nameNode "y"], nameNode "z"],
           nameNode "x"])
        _ rfl simplifyRuleOne_nested_plus⟩,
    ⟨rfl, simplifyRuleOne_minus_plus,
      simplifyRuleOne_flattens
        (ASTNode.mk .AST_MINUS
          [ASTNode.mk .AST_PLUS [nameNode "x", nameNode "y"], nameNode "z"])
        _ rfl simplifyRuleOne_minus_plus⟩⟩

/-- C33 fails at `sin((x + y) + z)`, which Rule One returns unchanged with its nested
Plus nodes, and at `Divide(Times(x, y), z)`, which becomes `Times(Times(x, y), Power(z,
-1))`, a Times node directly under a Times node. -/
theorem simplifyRuleOne_not_flat :
    simplifyRuleOne (ASTNode.mk .AST_FUNCTION_SIN
        [ASTNode.mk .AST_PLUS [ASTNode.mk .AST_PLUS [nameNode "x", nameNode "y"], nameNode "z"]])
        = .ok (ASTNode.mk .AST_FUNCTION_SIN
          [ASTNode.mk .AST_PLUS
            [ASTNode.mk .AST_PLUS [nameNode "x", nameNode "y"], nameNode "z"]])
      ∧ flat (ASTNode.mk .AST_FUNCTION_SIN
          [ASTNode.mk .AST_PLUS
            [ASTNode.mk .AST_PLUS [nameNode "x", nameNode "y"], nameNode "z"]]) = false
      ∧ simplifyRuleOne (ASTNode.mk .AST_DIVIDE
          [ASTNode.mk .AST_TIMES [nameNode "x", nameNode "y"], nameNode "z"])
        = .ok (ASTNode.mk .AST_TIMES
          [ASTNode.mk .AST_TIMES [nameNode "x", nameNode "y"],
           ASTNode.mk .AST_POWER [nameNode "z", integerNode (-1)]])
      ∧ flat (ASTNode.mk .AST_TIMES
          [ASTNode.mk .AST_TIMES [nameNode "x", nameNode "y"],
           ASTNode.mk .AST_POWER [nameNode "z", integerNode (-1)]]) = false := by
  refine ⟨?_, rfl, ?_, rfl⟩ <;>
    simp [simplifyRuleOne, simplifyRuleOneFuel, mapAll, flattenChildren, nodeCount,
      nodeCountList, bind, Except.bind]

theorem polyForm_of_polyTree {t : ASTNode} (h : PolyTree t) : PolyForm t := by
  induction h with
  | integer v => exact .integer v
  | var s => exact .var s
  | plus _ _ iha ihb => exact .plus iha ihb
  | minus _ _ iha ihb => exact .minus iha ihb
  | times _ _ iha ihb => exact .times iha ihb

theorem reduceToBinary_polyForm {t : ASTNode} (h : PolyForm t) : reduceToBinary t = t := by
  induction h with
  | integer v => simp [integerNode, reduceToBinary, reduceToBinaryList]
  | real v => simp [realNode, reduceToBinary, reduceToBinaryList]
  | var s => simp [nameNode, reduceToBinary, reduceToBinaryList]
  | plus _ _ iha ihb => simp [reduceToBinary, reduceToBinaryList, chain, iha, ihb]
  | minus _ _ iha ihb => simp [reduceToBinary, reduceToBinaryList, iha, ihb]
  | times _ _ iha ihb => simp [reduceToBinary, reduceToBinaryList, chain, iha, ihb]

theorem magnitude_integerNode (v : Int) : magnitude (integerNode v) = max v.natAbs 1 := by
  simp [magnitude]

theorem magnitude_realNode (v : Int) : magnitude (realNode (v : ℚ)) = max v.natAbs 1 := by
  have e : ⌈|(v : ℚ)|⌉ = |v| := by
    rw [← Int.cast_abs, Int.ceil_intCast]
  simp only [realNode, magnitude, e, Int.natAbs_abs]

theorem magnitude_plus_pair (c d : ASTNode) :
    magnitude (ASTNode.mk .AST_PLUS [c, d]) = magnitude c + magnitude d := by
  simp [magnitude, magnitudeSum]

theorem magnitude_minus_pair (c d : ASTNode) :
    magnitude (ASTNode.mk .AST_MINUS [c, d]) = magnitude c + magnitude d := by
  simp [magnitude, magnitudeSum]

theorem magnitude_times_pair (c d : ASTNode) :
    magnitude (ASTNode.mk .AST_TIMES [c, d]) = magnitude c * magnitude d := by
  simp [magnitude, magnitudeProduct]

theorem magnitude_pos {s : ASTNode} (h : PolyForm s) : 1 ≤ magnitude s := by
  induction h with
  | integer v => rw [magnitude_integerNode]; exact le_max_right _ _
  | real v => rw [magnitude_realNode]; exact le_max_right _ _
  | var s => simp [magnitude]
  | plus _ _ iha _ => rw [magnitude_plus_pair]; omega
  | minus _ _ iha _ => rw [magnitude_minus_pair]; omega
  | times _ _ iha ihb => rw [magnitude_times_pair]; exact Nat.mul_pos iha ihb

theorem evalAST_plus_pair (σ : String → ℚ) (c d : ASTNode) :
    evalAST σ (ASTNode.mk .AST_PLUS [c, d]) = evalAST σ c + evalAST σ d := by
  simp [evalAST, evalSum]

theorem evalAST_times_pair (σ : String → ℚ) (c d : ASTNode) :
    evalAST σ (ASTNode.mk .AST_TIMES [c, d]) = evalAST σ c * evalAST σ d := by
  simp [evalAST, evalProduct]

theorem evalAST_minus_pair (σ : String → ℚ) (c d : ASTNode) :
    evalAST σ (ASTNode.mk .AST_MINUS [c, d]) = evalAST σ c - evalAST σ d := by
  simp [evalAST, evalDifference]

theorem evalAST_realNode (σ : String → ℚ) (v : ℚ) : evalAST σ (realNode v) = v := by
  simp [evalAST]

theorem evalAST_integerNode (σ : String → ℚ) (v : Int) :
    evalAST σ (integerNode v) = (v : ℚ) := by
  simp [evalAST]

/-- A numeric literal of the form is a leaf holding an integer. -/
theorem polyForm_number {s : ASTNode} (h : PolyForm s) (hn : s.isNumber = true) :
    s.children = [] ∧ ∃ z : Int, s.getValue = toDouble (z : ℚ)
      ∧ magnitude s = max z.natAbs 1 ∧ ∀ σ : String → ℚ, evalAST σ s = (z : ℚ) := by
  cases h with
  | integer v =>
    exact ⟨rfl, v, rfl, magnitude_integerNode v, fun σ => evalAST_integerNode σ v⟩
  | real v =>
    exact ⟨rfl, v, rfl, magnitude_realNode v, fun σ => evalAST_realNode σ _⟩
  | var s => simp at hn
  | plus _ _ => simp at hn
  | minus _ _ => simp at hn
  | times _ _ => simp at hn

/-- A numeric literal of the form whose magnitude a `double` holds: its value as a
`double` is the integer it stands for. -/
theorem polyForm_value {s : ASTNode} (h : PolyForm s) (hn : s.isNumber = true)
    (hB : magnitude s ≤ 2 ^ 53) :
    ∃ z : Int, s.getValue = (z : ℚ) ∧ magnitude s = max z.natAbs 1
      ∧ ∀ σ : String → ℚ, evalAST σ s = (z : ℚ) := by
  obtain ⟨-, z, hv, hm, he⟩ := polyForm_number h hn
  refine ⟨z, ?_, hm, he⟩
  rw [hv]
  exact toDouble_intCast z (by omega)

theorem polyForm_eval {s : ASTNode} (h : PolyForm s) (hn : s.isNumber = true)
    (hB : magnitude s ≤ 2 ^ 53) : ∀ σ : String → ℚ, evalAST σ s = s.getValue := by
  obtain ⟨z, hv, -, he⟩ := polyForm_value h hn hB
  intro σ
  rw [he, hv]

theorem fold_plus {s1 s2 : ASTNode} (p1 : PolyForm s1) (h1 : s1.isNumber = true)
    (p2 : PolyForm s2) (h2 : s2.isNumber = true)
    (hB : magnitude s1 + magnitude s2 ≤ 2 ^ 53) :
    PolyForm (realNode (toDouble (s1.getValue + s2.getValue)))
      ∧ magnitude (realNode (toDouble (s1.getValue + s2.getValue)))
        ≤ magnitude s1 + magnitude s2
      ∧ ∀ σ : String → ℚ, evalAST σ (realNode (toDouble (s1.getValue + s2.getValue)))
        = evalAST σ s1 + evalAST σ s2 := by
  obtain ⟨z1, v1, m1, e1⟩ := polyForm_value p1 h1 (by omega)
  obtain ⟨z2, v2, m2, e2⟩ := polyForm_value p2 h2 (by omega)
  have hz : toDouble (s1.getValue + s2.getValue) = ((z1 + z2 : Int) : ℚ) := by
    rw [v1, v2, ← Int.cast_add]
    exact toDouble_intCast _ (by omega)
  rw [hz]
  refine ⟨.real _, ?_, fun σ => ?_⟩
  · rw [magnitude_realNode]
    omega
  · rw [evalAST_realNode, e1, e2]
    push_cast
    ring

theorem fold_minus {s1 s2 : ASTNode} (p1 : PolyForm s1) (h1 : s1.isNumber = true)
    (p2 : PolyForm s2) (h2 : s2.isNumber = true)
    (hB : magnitude s1 + magnitude s2 ≤ 2 ^ 53) :
    PolyForm (realNode (toDouble (s1.getValue - s2.getValue)))
      ∧ magnitude (realNode (toDouble (s1.getValue - s2.getValue)))
        ≤ magnitude s1 + magnitude s2
      ∧ ∀ σ : String → ℚ, evalAST σ (realNode (toDouble (s1.getValue - s2.getValue)))
        = evalAST σ s1 - evalAST σ s2 := by
  obtain ⟨z1, v1, m1, e1⟩ := polyForm_value p1 h1 (by omega)
  obtain ⟨z2, v2, m2, e2⟩ := polyForm_value p2 h2 (by omega)
  have hz : toDouble (s1.getValue - s2.getValue) = ((z1 - z2 : Int) : ℚ) := by
    rw [v1, v2, ← Int.cast_sub]
    exact toDouble_intCast _ (by omega)
  rw [hz]
  refine ⟨.real _, ?_, fun σ => ?_⟩
  · rw [magnitude_realNode]
    omega
  · rw [evalAST_realNode, e1, e2]
    push_cast
    ring

theorem natAbs_mul_le_max (z1 z2 : Int) :
    max (z1 * z2).natAbs 1 ≤ max z1.natAbs 1 * max z2.natAbs 1 := by
  rw [Int.natAbs_mul]
  have a1 : z1.natAbs ≤ max z1.natAbs 1 := le_max_left _ _
  have a2 : z2.natAbs ≤ max z2.natAbs 1 := le_max_left _ _
  have b1 : 1 ≤ max z1.natAbs 1 := le_max_right _ _
  have b2 : 1 ≤ max z2.natAbs 1 := le_max_right _ _
  apply max_le
  · exact Nat.mul_le_mul a1 a2
  · exact Nat.mul_pos b1 b2

theorem fold_times {s1 s2 : ASTNode} (p1 : PolyForm s1) (h1 : s1.isNumber = true)
    (p2 : PolyForm s2) (h2 : s2.isNumber = true)
    (hB : magnitude s1 * magnitude s2 ≤ 2 ^ 53) :
    PolyForm (realNode (toDouble (s1.getValue * s2.getValue)))
      ∧ magnitude (realNode (toDouble (s1.getValue * s2.getValue)))
        ≤ magnitude s1 * magnitude s2
      ∧ ∀ σ : String → ℚ, evalAST σ (realNode (toDouble (s1.getValue * s2.getValue)))
        = evalAST σ s1 * evalAST σ s2 := by
  have q1 := magnitude_pos p1
  have q2 := magnitude_pos p2
  have b1 : magnitude s1 ≤ 2 ^ 53 := le_trans (Nat.le_mul_of_pos_right _ q2) hB
  have b2 : magnitude s2 ≤ 2 ^ 53 := le_trans (Nat.le_mul_of_pos_left _ q1) hB
  obtain ⟨z1, v1, m1, e1⟩ := polyForm_value p1 h1 b1
  obtain ⟨z2, v2, m2, e2⟩ := polyForm_value p2 h2 b2
  have hle := natAbs_mul_le_max z1 z2
  rw [← m1, ← m2] at hle
  have hz : toDouble (s1.getValue * s2.getValue) = ((z1 * z2 : Int) : ℚ) := by
    rw [v1, v2, ← Int.cast_mul]
    exact toDouble_intCast _ (le_trans (le_trans (le_max_left _ 1) hle) hB)
  rw [hz]
  refine ⟨.real _, ?_, fun σ => ?_⟩
  · rw [magnitude_realNode]
    exact hle
  · rw [evalAST_realNode, e1, e2]
    push_cast
    ring

theorem polyForm_plus {s : ASTNode} (h : PolyForm s) (hk : s.kind = .AST_PLUS) :
    ∃ c d, s = ASTNode.mk .AST_PLUS [c, d] ∧ PolyForm c ∧ PolyForm d := by
  cases h with
  | integer v => simp at hk
  | real v => simp at hk
  | var s => simp at hk
  | plus hc hd => exact ⟨_, _, rfl, hc, hd⟩
  | minus _ _ => simp at hk
  | times _ _ => simp at hk

theorem polyForm_times {s : ASTNode} (h : PolyForm s) (hk : s.kind = .AST_TIMES) :
    ∃ c d, s = ASTNode.mk .AST_TIMES [c, d] ∧ PolyForm c ∧ PolyForm d := by
  cases h with
  | integer v => simp at hk
  | real v => simp at hk
  | var s => simp at hk
  | plus _ _ => simp at hk
  | minus _ _ => simp at hk
  | times hc hd => exact ⟨_, _, rfl, hc, hd⟩

theorem isNumber_mk (k : Kind) (cs : List ASTNode) :
    (ASTNode.mk k cs).isNumber
      = (match k with
        | .AST_INTEGER _ => true
        | .AST_REAL _ => true
        | .AST_REAL_E _ _ => true
        | .AST_RATIONAL _ _ => true
        | _ => false) := rfl

theorem simplifyFuel_plus_literals (n : Nat) (a b : ASTNode) (ha : a.isNumber = true)
    (ha0 : a.children = []) (hb : b.isNumber = true) (hb0 : b.children = []) :
    simplifyFuel (n + 2) (ASTNode.mk .AST_PLUS [a, b])
      = .ok (if a.getValue = 0 then b else realNode (toDouble (a.getValue + b.getValue))) := by
  have hl := literal_simplifyFuel n a ha ha0
  have hr := literal_simplifyFuel n b hb hb0
  rw [simplifyFuel]
  simp only [reduceToBinary_pair, getLeftChild_pair, getRightChild_pair, kind_mk,
    literal_reduceToBinary a ha ha0, literal_reduceToBinary b hb hb0, hl, hr, ha, hb,
    isOperator_mk, deref, bind, Except.bind, ↓reduceIte, ne_eq, reduceCtorEq,
    not_false_eq_true, not_true_eq_false, and_true, true_and, and_false, false_and,
    Bool.true_eq_false, Bool.false_eq_true]
  split <;> rfl

theorem simplifyFuel_times_literals (n : Nat) (a b : ASTNode) (ha : a.isNumber = true)
    (ha0 : a.children = []) (hb : b.isNumber = true) (hb0 : b.children = []) :
    simplifyFuel (n + 2) (ASTNode.mk .AST_TIMES [a, b])
      = .ok (if a.getValue = 0 then integerNode 0
          else if a.getValue = 1 then b
          else realNode (toDouble (a.getValue * b.getValue))) := by
  have hl := literal_simplifyFuel n a ha ha0
  have hr := literal_simplifyFuel n b hb hb0
  rw [simplifyFuel]
  simp only [reduceToBinary_pair, getLeftChild_pair, getRightChild_pair, kind_mk,
    literal_reduceToBinary a ha ha0, literal_reduceToBinary b hb hb0, hl, hr, ha, hb,
    isOperator_mk, deref, bind, Except.bind, ↓reduceIte, ne_eq, reduceCtorEq,
    not_false_eq_true, not_true_eq_false, and_true, true_and, and_false, false_and,
    Bool.true_eq_false, Bool.false_eq_true]
  split
  · rfl
  · split <;> rfl

theorem timesMerge_polyForm (a b : ASTNode) (pa : PolyForm a) (ha : a.isNumber = true)
    (pb : PolyForm b) (hb : b.isNumber = true) (hB : magnitude a * magnitude b ≤ 2 ^ 53) :
    PolyForm (if a.getValue = 0 then integerNode 0
        else if a.getValue = 1 then b else realNode (toDouble (a.getValue * b.getValue)))
      ∧ magnitude (if a.getValue = 0 then integerNode 0
          else if a.getValue = 1 then b else realNode (toDouble (a.getValue * b.getValue)))
        ≤ magnitude a * magnitude b
      ∧ ∀ σ : String → ℚ,
        evalAST σ (if a.getValue = 0 then integerNode 0
            else if a.getValue = 1 then b else realNode (toDouble (a.getValue * b.getValue)))
          = evalAST σ a * evalAST σ b := by
  have q1 := magnitude_pos pa
  have q2 := magnitude_pos pb
  have b1 : magnitude a ≤ 2 ^ 53 := le_trans (Nat.le_mul_of_pos_right _ q2) hB
  have ea := polyForm_eval pa ha b1
  split
  · rename_i h
    refine ⟨.integer 0, ?_, fun σ => ?_⟩
    · rw [magnitude_integerNode]
      exact Nat.mul_pos q1 q2
    · rw [evalAST_integerNode, ea, h, zero_mul]
      simp
  · split
    · rename_i h
      exact ⟨pb, Nat.le_mul_of_pos_left _ q1, fun σ => by rw [ea, h, one_mul]⟩
    · exact fold_times pa ha pb hb hB

theorem simplifyFuel_minus_step (n : Nat) (a b sa sb : ASTNode)
    (hra : reduceToBinary a = a) (hrb : reduceToBinary b = b)
    (hA : simplifyFuel (n + 2) a = .ok sa) (hB : simplifyFuel (n + 2) b = .ok sb)
    (pa : PolyForm sa) (pb : PolyForm sb) (hM : magnitude sa + magnitude sb ≤ 2 ^ 53) :
    ∃ s, simplifyFuel (n + 3) (ASTNode.mk .AST_MINUS [a, b]) = .ok s ∧ PolyForm s
      ∧ magnitude s ≤ magnitude sa + magnitude sb
      ∧ ∀ σ : String → ℚ, evalAST σ s = evalAST σ sa - evalAST σ sb := by
  by_cases hnb : sb.isNumber = true
  · have evb := polyForm_eval pb hnb (by omega)
    by_cases hv : sb.getValue = 0
    · refine ⟨sa, ?_, pa, by omega, fun σ => by rw [evb, hv, sub_zero]⟩
      rw [simplifyFuel]
      simp only [reduceToBinary_pair, getLeftChild_pair, getRightChild_pair, kind_mk,
        isOperator_mk, isNumber_mk, deref, bind, Except.bind, ↓reduceIte, ne_eq, reduceCtorEq,
        not_false_eq_true, not_true_eq_false, and_true, true_and, and_false, false_and, and_self,
        Bool.true_eq_false, Bool.false_eq_true, hra, hrb, hA, hB, hnb, hv]
    · by_cases hna : sa.isNumber = true
      · obtain ⟨pf, mf, ef⟩ := fold_minus pa hna pb hnb hM
        refine ⟨realNode (toDouble (sa.getValue - sb.getValue)), ?_, pf, mf, ef⟩
        rw [simplifyFuel]
        simp only [reduceToBinary_pair, getLeftChild_pair, getRightChild_pair, kind_mk,
          isOperator_mk, isNumber_mk, deref, bind, Except.bind, ↓reduceIte, ne_eq, reduceCtorEq,
          not_false_eq_true, not_true_eq_false, and_true, true_and, and_false, false_and,
          and_self, Bool.true_eq_false, Bool.false_eq_true, hra, hrb, hA, hB, hnb, hv, hna]
      · refine ⟨ASTNode.mk .AST_MINUS [sa, sb], ?_, .minus pa pb,
          le_of_eq (magnitude_minus_pair sa sb), fun σ => evalAST_minus_pair σ sa sb⟩
        rw [simplifyFuel]
        simp only [reduceToBinary_pair, getLeftChild_pair, getRightChild_pair, kind_mk,
          isOperator_mk, isNumber_mk, deref, bind, Except.bind, ↓reduceIte, ne_eq, reduceCtorEq,
          not_false_eq_true, not_true_eq_false, and_true, true_and, and_false, false_and,
          and_self, Bool.true_eq_false, Bool.false_eq_true, hra, hrb, hA, hB, hnb, hv, hna]
  · refine ⟨ASTNode.mk .AST_MINUS [sa, sb], ?_, .minus pa pb,
      le_of_eq (magnitude_minus_pair sa sb), fun σ => evalAST_minus_pair σ sa sb⟩
    rw [simplifyFuel]
    simp only [reduceToBinary_pair, getLeftChild_pair, getRightChild_pair, kind_mk,
      isOperator_mk, isNumber_mk, deref, bind, Except.bind, ↓reduceIte, ne_eq, reduceCtorEq,
      not_false_eq_true, not_true_eq_false, and_true, true_and, and_false, false_and, and_self,
      Bool.true_eq_false, Bool.false_eq_true, hra, hrb, hA, hB, hnb]

theorem simplifyFuel_plus_step (n : Nat) (a b sa sb : ASTNode)
    (hra : reduceToBinary a = a) (hrb : reduceToBinary b = b)
    (hA : simplifyFuel (n + 2) a = .ok sa) (hB : simplifyFuel (n + 2) b = .ok sb)
    (pa : PolyForm sa) (pb : PolyForm sb) (hM : magnitude sa + magnitude sb ≤ 2 ^ 53) :
    ∃ s, simplifyFuel (n + 3) (ASTNode.mk .AST_PLUS [a, b]) = .ok s ∧ PolyForm s
      ∧ magnitude s ≤ magnitude sa + magnitude sb
      ∧ ∀ σ : String → ℚ, evalAST σ s = evalAST σ sa + evalAST σ sb := by
  by_cases hna : sa.isNumber = true
  · obtain ⟨ha0, -⟩ := polyForm_number pa hna
    have eva := polyForm_eval pa hna (by omega)
    have hka := (literal_kind sa hna).1
    by_cases hv : sa.getValue = 0
    · refine ⟨sb, ?_, pb, by omega, fun σ => by rw [eva, hv, zero_add]⟩
      rw [simplifyFuel]
      simp only [reduceToBinary_pair, getLeftChild_pair, getRightChild_pair, kind_mk,
        isOperator_mk, isNumber_mk, deref, bind, Except.bind, ↓reduceIte, ne_eq, reduceCtorEq,
        not_false_eq_true, not_true_eq_false, and_true, true_and, and_false, false_and, and_self,
        Bool.true_eq_false, Bool.false_eq_true, hra, hrb, hA, hB, hna, hv]
    · by_cases hnb : sb.isNumber = true
      · obtain ⟨pf, mf, ef⟩ := fold_plus pa hna pb hnb hM
        refine ⟨realNode (toDouble (sa.getValue + sb.getValue)), ?_, pf, mf, ef⟩
        rw [simplifyFuel]
        simp only [reduceToBinary_pair, getLeftChild_pair, getRightChild_pair, kind_mk,
          isOperator_mk, isNumber_mk, deref, bind, Except.bind, ↓reduceIte, ne_eq, reduceCtorEq,
          not_false_eq_true, not_true_eq_false, and_true, true_and, and_false, false_and,
          and_self, Bool.true_eq_false, Bool.false_eq_true, hra, hrb, hA, hB, hna, hv, hnb]
      · by_cases hkb : sb.kind = .AST_PLUS
        · obtain ⟨c, d, rfl, pc, pd⟩ := polyForm_plus pb hkb
          rw [magnitude_plus_pair] at hM
          by_cases hnd : d.isNumber = true
          · obtain ⟨hd0, -⟩ := polyForm_number pd hnd
            have hm := simplifyFuel_plus_literals n sa d hna ha0 hnd hd0
            rw [if_neg hv] at hm
            obtain ⟨pf, mf, ef⟩ := fold_plus pa hna pd hnd (by omega)
            refine ⟨ASTNode.mk .AST_PLUS [c, realNode (toDouble (sa.getValue + d.getValue))],
              ?_, .plus pc pf, ?_, fun σ => ?_⟩
            · rw [simplifyFuel]
              simp only [reduceToBinary_pair, getLeftChild_pair, getRightChild_pair, kind_mk,
                isOperator_mk, isNumber_mk, deref, bind, Except.bind, ↓reduceIte, ne_eq,
                reduceCtorEq, not_false_eq_true, not_true_eq_false, and_true, true_and,
                and_false, false_and, and_self, Bool.true_eq_false, Bool.false_eq_true, hra, hrb,
                hA, hB, hna, hv, hka, hnd, hm]
            · rw [magnitude_plus_pair, magnitude_plus_pair]
              omega
            · rw [evalAST_plus_pair, evalAST_plus_pair, ef]
              ring
          · refine ⟨ASTNode.mk .AST_PLUS [sa, ASTNode.mk .AST_PLUS [c, d]], ?_, .plus pa pb,
              le_of_eq (magnitude_plus_pair _ _), fun σ => evalAST_plus_pair σ _ _⟩
            rw [simplifyFuel]
            simp only [reduceToBinary_pair, getLeftChild_pair, getRightChild_pair, kind_mk,
              isOperator_mk, isNumber_mk, deref, bind, Except.bind, ↓reduceIte, ne_eq,
              reduceCtorEq, not_false_eq_true, not_true_eq_false, and_true, true_and, and_false,
              false_and, and_self, Bool.true_eq_false, Bool.false_eq_true, hra, hrb, hA, hB, hna,
              hv, hka, hnd]
        · refine ⟨ASTNode.mk .AST_PLUS [sb, sa], ?_, .plus pb pa, ?_, fun σ => ?_⟩
          · rw [simplifyFuel]
            simp only [reduceToBinary_pair, getLeftChild_pair, getRightChild_pair, kind_mk,
              isOperator_mk, isNumber_mk, deref, bind, Except.bind, ↓reduceIte, ne_eq,
              reduceCtorEq, not_false_eq_true, not_true_eq_false, and_true, true_and, and_false,
              false_and, and_self, Bool.true_eq_false, Bool.false_eq_true, hra, hrb, hA, hB, hna,
              hv, hnb, hkb]
          · rw [magnitude_plus_pair]
            omega
          · rw [evalAST_plus_pair, add_comm]
  · by_cases hz : sb.isNumber = true ∧ sb.getValue = 0
    · have evb := polyForm_eval pb hz.1 (by omega)
      refine ⟨sa, ?_, pa, by omega, fun σ => by rw [evb, hz.2, add_zero]⟩
      rw [simplifyFuel]
      simp only [reduceToBinary_pair, getLeftChild_pair, getRightChild_pair, kind_mk,
        isOperator_mk, isNumber_mk, deref, bind, Except.bind, ↓reduceIte, ne_eq, reduceCtorEq,
        not_false_eq_true, not_true_eq_false, and_true, true_and, and_false, false_and, and_self,
        Bool.true_eq_false, Bool.false_eq_true, hra, hrb, hA, hB, hna, hz.1, hz.2]
    · by_cases hka : sa.kind = .AST_PLUS
      · obtain ⟨c, d, rfl, pc, pd⟩ := polyForm_plus pa hka
        have hM1 := hM
        rw [magnitude_plus_pair] at hM1
        by_cases hm : d.isNumber = true ∧ sb.isNumber = true
        · obtain ⟨hd0, -⟩ := polyForm_number pd hm.1
          obtain ⟨hb0, -⟩ := polyForm_number pb hm.2
          have hv : ¬ sb.getValue = 0 := fun h => hz ⟨hm.2, h⟩
          have hmg := simplifyFuel_plus_literals n sb d hm.2 hb0 hm.1 hd0
          rw [if_neg hv] at hmg
          obtain ⟨pf, mf, ef⟩ := fold_plus pb hm.2 pd hm.1 (by omega)
          refine ⟨ASTNode.mk .AST_PLUS [c, realNode (toDouble (sb.getValue + d.getValue))],
            ?_, .plus pc pf, ?_, fun σ => ?_⟩
          · rw [simplifyFuel]
            simp only [reduceToBinary_pair, getLeftChild_pair, getRightChild_pair, kind_mk,
              isOperator_mk, isNumber_mk, deref, bind, Except.bind, ↓reduceIte, ne_eq,
              reduceCtorEq, not_false_eq_true, not_true_eq_false, and_true, true_and, and_false,
              false_and, and_self, Bool.true_eq_false, Bool.false_eq_true, hra, hrb, hA, hB, hv,
              hm.1, hm.2, hmg]
          · rw [magnitude_plus_pair, magnitude_plus_pair]
            omega
          · rw [evalAST_plus_pair, evalAST_plus_pair, ef]
            ring
        · by_cases hkb : sb.kind = .AST_PLUS
          · obtain ⟨c1, d1, rfl, pc1, pd1⟩ := polyForm_plus pb hkb
            refine ⟨ASTNode.mk .AST_PLUS
                [ASTNode.mk .AST_PLUS [c, d], ASTNode.mk .AST_PLUS [c1, d1]], ?_,
              .plus pa pb, le_of_eq (magnitude_plus_pair _ _),
              fun σ => evalAST_plus_pair σ _ _⟩
            rw [simplifyFuel]
            simp only [reduceToBinary_pair, getLeftChild_pair, getRightChild_pair, kind_mk,
              isOperator_mk, isNumber_mk, deref, bind, Except.bind, ↓reduceIte, ne_eq,
              reduceCtorEq, not_false_eq_true, not_true_eq_false, and_true, true_and, and_false,
              false_and, and_self, Bool.true_eq_false, Bool.false_eq_true, hra, hrb, hA, hB, hm]
          · refine ⟨ASTNode.mk .AST_PLUS [ASTNode.mk .AST_PLUS [c, d], sb], ?_,
              .plus pa pb, le_of_eq (magnitude_plus_pair _ _),
              fun σ => evalAST_plus_pair σ _ _⟩
            rw [simplifyFuel]
            simp only [reduceToBinary_pair, getLeftChild_pair, getRightChild_pair, kind_mk,
              isOperator_mk, isNumber_mk, deref, bind, Except.bind, ↓reduceIte, ne_eq,
              reduceCtorEq, not_false_eq_true, not_true_eq_false, and_true, true_and, and_false,
              false_and, and_self, Bool.true_eq_false, Bool.false_eq_true, hra, hrb, hA, hB, hz,
              hm, hkb]
      · by_cases hkb : sb.kind = .AST_PLUS
        · obtain ⟨c1, d1, rfl, pc1, pd1⟩ := polyForm_plus pb hkb
          refine ⟨ASTNode.mk .AST_PLUS [sa, ASTNode.mk .AST_PLUS [c1, d1]], ?_,
            .plus pa pb, le_of_eq (magnitude_plus_pair _ _),
            fun σ => evalAST_plus_pair σ _ _⟩
          rw [simplifyFuel]
          simp only [reduceToBinary_pair, getLeftChild_pair, getRightChild_pair, kind_mk,
            isOperator_mk, isNumber_mk, deref, bind, Except.bind, ↓reduceIte, ne_eq,
            reduceCtorEq, not_false_eq_true, not_true_eq_false, and_true, true_and, and_false,
            false_and, and_self, Bool.true_eq_false, Bool.false_eq_true, hra, hrb, hA, hB, hna,
            hka]
        · refine ⟨ASTNode.mk .AST_PLUS [sa, sb], ?_,
            .plus pa pb, le_of_eq (magnitude_plus_pair _ _),
            fun σ => evalAST_plus_pair σ _ _⟩
          rw [simplifyFuel]
          simp only [reduceToBinary_pair, getLeftChild_pair, getRightChild_pair, kind_mk,
            isOperator_mk, isNumber_mk, deref, bind, Except.bind, ↓reduceIte, ne_eq,
            reduceCtorEq, not_false_eq_true, not_true_eq_false, and_true, true_and, and_false,
            false_and, and_self, Bool.true_eq_false, Bool.false_eq_true, hra, hrb, hA, hB, hna,
            hz, hka, hkb]

theorem simplifyFuel_times_step (n : Nat) (a b sa sb : ASTNode)
    (hra : reduceToBinary a = a) (hrb : reduceToBinary b = b)
    (hA : simplifyFuel (n + 2) a = .ok sa) (hB : simplifyFuel (n + 2) b = .ok sb)
    (pa : PolyForm sa) (pb : PolyForm sb) (hM : magnitude sa * magnitude sb ≤ 2 ^ 53) :
    ∃ s, simplifyFuel (n + 3) (ASTNode.mk .AST_TIMES [a, b]) = .ok s ∧ PolyForm s
      ∧ magnitude s ≤ magnitude sa * magnitude sb
      ∧ ∀ σ : String → ℚ, evalAST σ s = evalAST σ sa * evalAST σ sb := by
  have qa := magnitude_pos pa
  have qb := magnitude_pos pb
  have ba : magnitude sa ≤ 2 ^ 53 := le_trans (Nat.le_mul_of_pos_right _ qb) hM
  have bb : magnitude sb ≤ 2 ^ 53 := le_trans (Nat.le_mul_of_pos_left _ qa) hM
  have hone : magnitude (integerNode 0) ≤ magnitude sa * magnitude sb := by
    rw [magnitude_integerNode]
    exact Nat.mul_pos qa qb
  by_cases hna : sa.isNumber = true
  · obtain ⟨ha0, -⟩ := polyForm_number pa hna
    have eva := polyForm_eval pa hna ba
    have hka := (literal_kind sa hna).2.1
    by_cases hv0 : sa.getValue = 0
    · refine ⟨integerNode 0, ?_, .integer 0, hone, fun σ => ?_⟩
      · rw [simplifyFuel]
        simp only [reduceToBinary_pair, getLeftChild_pair, getRightChild_pair, kind_mk,
          isOperator_mk, isNumber_mk, deref, bind, Except.bind, ↓reduceIte, ne_eq, reduceCtorEq,
          not_false_eq_true, not_true_eq_false, and_true, true_and, and_false, false_and,
          and_self, Bool.true_eq_false, Bool.false_eq_true, hra, hrb, hA, hB, hna, hv0]
      · rw [evalAST_integerNode, eva, hv0, zero_mul]
        simp
    · by_cases hv1 : sa.getValue = 1
      · refine ⟨sb, ?_, pb, Nat.le_mul_of_pos_left _ qa, fun σ => by rw [eva, hv1, one_mul]⟩
        rw [simplifyFuel]
        simp only [reduceToBinary_pair, getLeftChild_pair, getRightChild_pair, kind_mk,
          isOperator_mk, isNumber_mk, deref, bind, Except.bind, ↓reduceIte, ne_eq, reduceCtorEq,
          not_false_eq_true, not_true_eq_false, and_true, true_and, and_false, false_and,
          and_self, Bool.true_eq_false, Bool.false_eq_true, hra, hrb, hA, hB, hna, hv1,
          one_ne_zero]
      · by_cases hnb : sb.isNumber = true
        · obtain ⟨pf, mf, ef⟩ := fold_times pa hna pb hnb hM
          refine ⟨realNode (toDouble (sa.getValue * sb.getValue)), ?_, pf, mf, ef⟩
          rw [simplifyFuel]
          simp only [reduceToBinary_pair, getLeftChild_pair, getRightChild_pair, kind_mk,
            isOperator_mk, isNumber_mk, deref, bind, Except.bind, ↓reduceIte, ne_eq,
            reduceCtorEq, not_false_eq_true, not_true_eq_false, and_true, true_and, and_false,
            false_and, and_self, Bool.true_eq_false, Bool.false_eq_true, hra, hrb, hA, hB, hna,
            hv0, hv1, hnb]
        · by_cases hkb : sb.kind = .AST_TIMES
          · obtain ⟨c, d, rfl, pc, pd⟩ := polyForm_times pb hkb
            have qc := magnitude_pos pc
            have qd := magnitude_pos pd
            have hM1 := hM
            rw [magnitude_times_pair] at hM1
            by_cases hnc : c.isNumber = true
            · obtain ⟨hc0, -⟩ := polyForm_number pc hnc
              have hm := simplifyFuel_times_literals n c sa hnc hc0 hna ha0
              have hcs : magnitude c * magnitude sa ≤ 2 ^ 53 := by
                have h1 : magnitude c * magnitude sa
                    ≤ magnitude c * magnitude sa * magnitude d :=
                  Nat.le_mul_of_pos_right _ qd
                have h2 : magnitude c * magnitude sa * magnitude d
                    = magnitude sa * (magnitude c * magnitude d) := by ring
                omega
              obtain ⟨pm, mm, evm⟩ := timesMerge_polyForm c sa pc hnc pa hna hcs
              refine ⟨ASTNode.mk .AST_TIMES
                  [if c.getValue = 0 then integerNode 0
                    else if c.getValue = 1 then sa
                    else realNode (toDouble (c.getValue * sa.getValue)), d],
                ?_, .times pm pd, ?_, fun σ => ?_⟩
              · rw [simplifyFuel]
                simp only [reduceToBinary_pair, getLeftChild_pair, getRightChild_pair, kind_mk,
                  isOperator_mk, isNumber_mk, deref, bind, Except.bind, ↓reduceIte, ne_eq,
                  reduceCtorEq, not_false_eq_true, not_true_eq_false, and_true, true_and,
                  and_false, false_and, and_self, Bool.true_eq_false, Bool.false_eq_true, hra,
                  hrb, hA, hB, hna, hv0, hv1, hka, hnc, hm]
              · rw [magnitude_times_pair, magnitude_times_pair]
                have h1 := Nat.mul_le_mul_right (magnitude d) mm
                have h2 : magnitude c * magnitude sa * magnitude d
                    = magnitude sa * (magnitude c * magnitude d) := by ring
                omega
              · rw [evalAST_times_pair, evalAST_times_pair, evm]
                ring
            · refine ⟨ASTNode.mk .AST_TIMES [sa, ASTNode.mk .AST_TIMES [c, d]], ?_,
                .times pa pb, le_of_eq (magnitude_times_pair _ _),
                fun σ => evalAST_times_pair σ _ _⟩
              rw [simplifyFuel]
              simp only [reduceToBinary_pair, getLeftChild_pair, getRightChild_pair, kind_mk,
                isOperator_mk, isNumber_mk, deref, bind, Except.bind, ↓reduceIte, ne_eq,
                reduceCtorEq, not_false_eq_true, not_true_eq_false, and_true, true_and,
                and_false, false_and, and_self, Bool.true_eq_false, Bool.false_eq_true, hra, hrb,
                hA, hB, hna, hv0, hv1, hka, hnc]
          · refine ⟨ASTNode.mk .AST_TIMES [sa, sb], ?_, .times pa pb,
              le_of_eq (magnitude_times_pair _ _), fun σ => evalAST_times_pair σ _ _⟩
            rw [simplifyFuel]
            simp only [reduceToBinary_pair, getLeftChild_pair, getRightChild_pair, kind_mk,
              isOperator_mk, isNumber_mk, deref, bind, Except.bind, ↓reduceIte, ne_eq,
              reduceCtorEq, not_false_eq_true, not_true_eq_false, and_true, true_and, and_false,
              false_and, and_self, Bool.true_eq_false, Bool.false_eq_true, hra, hrb, hA, hB, hna,
              hv0, hv1, hnb, hka, hkb]
  · by_cases hnb : sb.isNumber = true
    · obtain ⟨hb0, -⟩ := polyForm_number pb hnb
      have evb := polyForm_eval pb hnb bb
      have hkb := (literal_kind sb hnb).2.1
      by_cases hv0 : sb.getValue = 0
      · refine ⟨integerNode 0, ?_, .integer 0, hone, fun σ => ?_⟩
        · rw [simplifyFuel]
          simp only [reduceToBinary_pair, getLeftChild_pair, getRightChild_pair, kind_mk,
            isOperator_mk, isNumber_mk, deref, bind, Except.bind, ↓reduceIte, ne_eq,
            reduceCtorEq, not_false_eq_true, not_true_eq_false, and_true, true_and, and_false,
            false_and, and_self, Bool.true_eq_false, Bool.false_eq_true, hra, hrb, hA, hB, hna,
            hnb, hv0]
        · rw [evalAST_integerNode, evb, hv0, mul_zero]
          simp
      · by_cases hv1 : sb.getValue = 1
        · refine ⟨sa, ?_, pa, Nat.le_mul_of_pos_right _ qb,
            fun σ => by rw [evb, hv1, mul_one]⟩
          rw [simplifyFuel]
          simp only [reduceToBinary_pair, getLeftChild_pair, getRightChild_pair, kind_mk,
            isOperator_mk, isNumber_mk, deref, bind, Except.bind, ↓reduceIte, ne_eq,
            reduceCtorEq, not_false_eq_true, not_true_eq_false, and_true, true_and, and_false,
            false_and, and_self, Bool.true_eq_false, Bool.false_eq_true, hra, hrb, hA, hB, hna,
            hnb, hv1, one_ne_zero]
        · by_cases hka : sa.kind = .AST_TIMES
          · obtain ⟨c, d, rfl, pc, pd⟩ := polyForm_times pa hka
            have qc := magnitude_pos pc
            have qd := magnitude_pos pd
            have hM1 := hM
            rw [magnitude_times_pair] at hM1
            by_cases hnc : c.isNumber = true
            · obtain ⟨hc0, -⟩ := polyForm_number pc hnc
              have hm := simplifyFuel_times_literals n c sb hnc hc0 hnb hb0
              have hcs : magnitude c * magnitude sb ≤ 2 ^ 53 := by
                have h1 : magnitude c * magnitude sb
                    ≤ magnitude c * magnitude sb * magnitude d :=
                  Nat.le_mul_of_pos_right _ qd
                have h2 : magnitude c * magnitude sb * magnitude d
                    = magnitude c * magnitude d * magnitude sb := by ring
                omega
              obtain ⟨pm, mm, evm⟩ := timesMerge_polyForm c sb pc hnc pb hnb hcs
              refine ⟨ASTNode.mk .AST_TIMES
                  [if c.getValue = 0 then integerNode 0
                    else if c.getValue = 1 then sb
                    else realNode (toDouble (c.getValue * sb.getValue)), d],
                ?_, .times pm pd, ?_, fun σ => ?_⟩
              · rw [simplifyFuel]
                simp only [reduceToBinary_pair, getLeftChild_pair, getRightChild_pair, kind_mk,
                  isOperator_mk, isNumber_mk, deref, bind, Except.bind, ↓reduceIte, ne_eq,
                  reduceCtorEq, not_false_eq_true, not_true_eq_false, and_true, true_and,
                  and_false, false_and, and_self, Bool.true_eq_false, Bool.false_eq_true, hra,
                  hrb, hA, hB, hnb, hv0, hv1, hnc, hm]
              · rw [magnitude_times_pair, magnitude_times_pair]
                have h1 := Nat.mul_le_mul_right (magnitude d) mm
                have h2 : magnitude c * magnitude sb * magnitude d
                    = magnitude c * magnitude d * magnitude sb := by ring
                omega
              · rw [evalAST_times_pair, evalAST_times_pair, evm]
                ring
            · refine ⟨ASTNode.mk .AST_TIMES [ASTNode.mk .AST_TIMES [c, d], sb], ?_,
                .times pa pb, le_of_eq (magnitude_times_pair _ _),
                fun σ => evalAST_times_pair σ _ _⟩
              rw [simplifyFuel]
              simp only [reduceToBinary_pair, getLeftChild_pair, getRightChild_pair, kind_mk,
                isOperator_mk, isNumber_mk, deref, bind, Except.bind, ↓reduceIte, ne_eq,
                reduceCtorEq, not_false_eq_true, not_true_eq_false, and_true, true_and,
                and_false, false_and, and_self, Bool.true_eq_false, Bool.false_eq_true, hra, hrb,
                hA, hB, hnb, hv0, hv1, hnc, hkb]
          · refine ⟨ASTNode.mk .AST_TIMES [sb, sa], ?_, .times pb pa, ?_, fun σ => ?_⟩
            · rw [simplifyFuel]
              simp only [reduceToBinary_pair, getLeftChild_pair, getRightChild_pair, kind_mk,
                isOperator_mk, isNumber_mk, deref, bind, Except.bind, ↓reduceIte, ne_eq,
                reduceCtorEq, not_false_eq_true, not_true_eq_false, and_true, true_and,
                and_false, false_and, and_self, Bool.true_eq_false, Bool.false_eq_true, hra, hrb,
                hA, hB, hna, hnb, hv0, hv1, hka]
            · rw [magnitude_times_pair, Nat.mul_comm]
            · rw [evalAST_times_pair, mul_comm]
    · by_cases hka : sa.kind = .AST_TIMES
      · obtain ⟨c, d, rfl, pc, pd⟩ := polyForm_times pa hka
        by_cases hkb : sb.kind = .AST_TIMES
        · obtain ⟨c1, d1, rfl, pc1, pd1⟩ := polyForm_times pb hkb
          refine ⟨ASTNode.mk .AST_TIMES
              [ASTNode.mk .AST_TIMES [c, d], ASTNode.mk .AST_TIMES [c1, d1]], ?_,
            .times pa pb, le_of_eq (magnitude_times_pair _ _),
            fun σ => evalAST_times_pair σ _ _⟩
          rw [simplifyFuel]
          simp only [reduceToBinary_pair, getLeftChild_pair, getRightChild_pair, kind_mk,
            isOperator_mk, isNumber_mk, deref, bind, Except.bind, ↓reduceIte, ne_eq,
            reduceCtorEq, not_false_eq_true, not_true_eq_false, and_true, true_and, and_false,
            false_and, and_self, Bool.true_eq_false, Bool.false_eq_true, hra, hrb, hA, hB]
        · refine ⟨ASTNode.mk .AST_TIMES [ASTNode.mk .AST_TIMES [c, d], sb], ?_,
            .times pa pb, le_of_eq (magnitude_times_pair _ _),
            fun σ => evalAST_times_pair σ _ _⟩
          rw [simplifyFuel]
          simp only [reduceToBinary_pair, getLeftChild_pair, getRightChild_pair, kind_mk,
            isOperator_mk, isNumber_mk, deref, bind, Except.bind, ↓reduceIte, ne_eq,
            reduceCtorEq, not_false_eq_true, not_true_eq_false, and_true, true_and, and_false,
            false_and, and_self, Bool.true_eq_false, Bool.false_eq_true, hra, hrb, hA, hB, hnb,
            hkb]
      · by_cases hkb : sb.kind = .AST_TIMES
        · obtain ⟨c1, d1, rfl, pc1, pd1⟩ := polyForm_times pb hkb
          refine ⟨ASTNode.mk .AST_TIMES [sa, ASTNode.mk .AST_TIMES [c1, d1]], ?_,
            .times pa pb, le_of_eq (magnitude_times_pair _ _),
            fun σ => evalAST_times_pair σ _ _⟩
          rw [simplifyFuel]
          simp only [reduceToBinary_pair, getLeftChild_pair, getRightChild_pair, kind_mk,
            isOperator_mk, isNumber_mk, deref, bind, Except.bind, ↓reduceIte, ne_eq,
            reduceCtorEq, not_false_eq_true, not_true_eq_false, and_true, true_and, and_false,
            false_and, and_self, Bool.true_eq_false, Bool.false_eq_true, hra, hrb, hA, hB, hna,
            hka]
        · refine ⟨ASTNode.mk .AST_TIMES [sa, sb], ?_,
            .times pa pb, le_of_eq (magnitude_times_pair _ _),
            fun σ => evalAST_times_pair σ _ _⟩
          rw [simplifyFuel]
          simp only [reduceToBinary_pair, getLeftChild_pair, getRightChild_pair, kind_mk,
            isOperator_mk, isNumber_mk, deref, bind, Except.bind, ↓reduceIte, ne_eq,
            reduceCtorEq, not_false_eq_true, not_true_eq_false, and_true, true_and, and_false,
            false_and, and_self, Bool.true_eq_false, Bool.false_eq_true, hra, hrb, hA, hB, hna,
            hnb, hka, hkb]

theorem height_pair (k : Kind) (a b : ASTNode) :
    height (ASTNode.mk k [a, b]) = 1 + max (height a) (height b) := by
  simp [height, heightList]

theorem simplifyFuel_polyForm {t : ASTNode} (h : PolyForm t) :
    magnitude t ≤ 2 ^ 53 → ∀ n, height t + 1 ≤ n →
      ∃ s, simplifyFuel n t = .ok s ∧ PolyForm s ∧ magnitude s ≤ magnitude t
        ∧ ∀ σ : String → ℚ, evalAST σ s = evalAST σ t := by
  induction h with
  | integer v =>
    intro _ n hn
    obtain ⟨m, rfl⟩ : ∃ m, n = m + 1 := ⟨n - 1, by omega⟩
    exact ⟨integerNode v, literal_simplifyFuel m _ rfl rfl, .integer v, le_refl _,
      fun _ => rfl⟩
  | real v =>
    intro _ n hn
    obtain ⟨m, rfl⟩ : ∃ m, n = m + 1 := ⟨n - 1, by omega⟩
    exact ⟨realNode v, literal_simplifyFuel m _ rfl rfl, .real v, le_refl _, fun _ => rfl⟩
  | var s =>
    intro _ n hn
    obtain ⟨m, rfl⟩ : ∃ m, n = m + 1 := ⟨n - 1, by omega⟩
    exact ⟨nameNode s, by simp [simplifyFuel, reduceToBinary, reduceToBinaryList], .var s,
      le_refl _, fun _ => rfl⟩
  | @plus a b pa pb iha ihb =>
    intro hM n hn
    rw [height_pair] at hn
    rw [magnitude_plus_pair] at hM ⊢
    have h1 := height_pos a
    obtain ⟨m, rfl⟩ : ∃ m, n = m + 3 := ⟨n - 3, by omega⟩
    obtain ⟨sa, hA, psa, msa, eva⟩ := iha (by omega) (m + 2) (by omega)
    obtain ⟨sb, hB, psb, msb, evb⟩ := ihb (by omega) (m + 2) (by omega)
    obtain ⟨s, hs, ps, ms, evs⟩ := simplifyFuel_plus_step m a b sa sb
      (reduceToBinary_polyForm pa) (reduceToBinary_polyForm pb) hA hB psa psb (by omega)
    exact ⟨s, hs, ps, by omega, fun σ => by rw [evs, eva, evb, evalAST_plus_pair]⟩
  | @minus a b pa pb iha ihb =>
    intro hM n hn
    rw [height_pair] at hn
    rw [magnitude_minus_pair] at hM ⊢
    have h1 := height_pos a
    obtain ⟨m, rfl⟩ : ∃ m, n = m + 3 := ⟨n - 3, by omega⟩
    obtain ⟨sa, hA, psa, msa, eva⟩ := iha (by omega) (m + 2) (by omega)
    obtain ⟨sb, hB, psb, msb, evb⟩ := ihb (by omega) (m + 2) (by omega)
    obtain ⟨s, hs, ps, ms, evs⟩ := simplifyFuel_minus_step m a b sa sb
      (reduceToBinary_polyForm pa) (reduceToBinary_polyForm pb) hA hB psa psb (by omega)
    exact ⟨s, hs, ps, by omega, fun σ => by rw [evs, eva, evb, evalAST_minus_pair]⟩
  | @times a b pa pb iha ihb =>
    intro hM n hn
    rw [height_pair] at hn
    rw [magnitude_times_pair] at hM ⊢
    have h1 := height_pos a
    have qa := magnitude_pos pa
    have qb := magnitude_pos pb
    have ba : magnitude a ≤ 2 ^ 53 := le_trans (Nat.le_mul_of_pos_right _ qb) hM
    have bb : magnitude b ≤ 2 ^ 53 := le_trans (Nat.le_mul_of_pos_left _ qa) hM
    obtain ⟨m, rfl⟩ : ∃ m, n = m + 3 := ⟨n - 3, by omega⟩
    obtain ⟨sa, hA, psa, msa, eva⟩ := iha ba (m + 2) (by omega)
    obtain ⟨sb, hB, psb, msb, evb⟩ := ihb bb (m + 2) (by omega)
    have hle : magnitude sa * magnitude sb ≤ magnitude a * magnitude b :=
      Nat.mul_le_mul msa msb
    obtain ⟨s, hs, ps, ms, evs⟩ := simplifyFuel_times_step m a b sa sb
      (reduceToBinary_polyForm pa) (reduceToBinary_polyForm pb) hA hB psa psb
      (le_trans hle hM)
    exact ⟨s, hs, ps, le_trans ms hle,
      fun σ => by rw [evs, eva, evb, evalAST_times_pair]⟩

/-- C38, as amended (the legacy simplifier preserves value on polynomial trees of bounded
magnitude): for every tree `t` built only from integer literals, variables and binary
Plus, Minus and Times nodes whose magnitude is at most `2 ^ 53`, so that a `double` holds
every number the folding of literals forms, `simplify t` returns a tree `s`, and under
every assignment of integers to the variables the value of `s` in exact arithmetic is the
value of `t`. -/
theorem simplify_preserves_value (t : ASTNode) (h : PolyTree t) (hM : magnitude t ≤ 2 ^ 53) :
    ∃ s, simplify t = .ok s
      ∧ ∀ σ : String → Int,
        evalAST (fun v => ((σ v : Int) : ℚ)) s = evalAST (fun v => ((σ v : Int) : ℚ)) t := by
  have hh := height_le_nodeCount t
  obtain ⟨s, hs, -, -, ev⟩ := simplifyFuel_polyForm (polyForm_of_polyTree h) hM
    (8 * nodeCount t + 8) (by omega)
  exact ⟨s, hs, fun σ => ev _⟩

/-- C38 as amended, at `t = (x + 2) + (-2)`, of magnitude `5`: `simplify` returns a tree of
the same value. -/
theorem simplify_preserves_value_witness :
    PolyTree (ASTNode.mk .AST_PLUS
        [ASTNode.mk .AST_PLUS [nameNode "x", integerNode 2], integerNode (-2)])
      ∧ magnitude (ASTNode.mk .AST_PLUS
        [ASTNode.mk .AST_PLUS [nameNode "x", integerNode 2], integerNode (-2)]) = 5
      ∧ ∃ s, simplify (ASTNode.mk .AST_PLUS
          [ASTNode.mk .AST_PLUS [nameNode "x", integerNode 2], integerNode (-2)]) = .ok s
        ∧ ∀ σ : String → Int,
          evalAST (fun v => ((σ v : Int) : ℚ)) s
            = evalAST (fun v => ((σ v : Int) : ℚ)) (ASTNode.mk .AST_PLUS
                [ASTNode.mk .AST_PLUS [nameNode "x", integerNode 2], integerNode (-2)]) :=
  ⟨.plus (.plus (.var "x") (.integer 2)) (.integer (-2)),
    by simp [magnitude, magnitudeSum],
    simplify_preserves_value _ (.plus (.plus (.var "x") (.integer 2)) (.integer (-2)))
      (by simp [magnitude, magnitudeSum])⟩

/-- C38 as stated fails at `t = Plus(Integer (2 ^ 53), Integer 1)`, of magnitude
`2 ^ 53 + 1`: the sum is formed in `double`, so `simplify t` is the Real literal `2 ^ 53`,
whose value is not the value `2 ^ 53 + 1` of `t`. -/
theorem simplify_rounds_large_sum :
    PolyTree (ASTNode.mk .AST_PLUS [integerNode 9007199254740992, integerNode 1])
      ∧ simplify (ASTNode.mk .AST_PLUS [integerNode 9007199254740992, integerNode 1])
        = .ok (realNode 9007199254740992)
      ∧ evalAST (fun _ => (0 : ℚ)) (realNode 9007199254740992)
        ≠ evalAST (fun _ => (0 : ℚ))
            (ASTNode.mk .AST_PLUS [integerNode 9007199254740992, integerNode 1])
      ∧ magnitude (ASTNode.mk .AST_PLUS [integerNode 9007199254740992, integerNode 1])
        = 2 ^ 53 + 1 := by
  refine ⟨.plus (.integer _) (.integer _), simplify_plus_two_pow_53, ?_, ?_⟩
  · rw [evalAST_realNode, evalAST_plus_pair, evalAST_integerNode, evalAST_integerNode]
    norm_num
  · simp [magnitude, magnitudeSum]

end MathUtil
